import Mathlib

/-!
# Cell grid and particle migration of the domain decomposition

A shallow embedding of `cells.c` and `ghosts.c`.

* C `int` is modelled as `Int` (signed overflow is undefined in C and is not modelled).
* C `double` is modelled as `ℚ`, i.e. in exact arithmetic.  A division by zero, which
  yields an infinity in C, yields `0` here; the places where this matters are marked.
  Where the rounding of the machine decides, the function is given a second time with
  every operation on doubles rounded (`round_double`, `calc_cell_grid_double`).
* The ghost communication is modelled for one process, with the data received from
  other processes as a parameter (`GhostComm`), and for a system of processes, where a
  process receives what its neighbor sends (`run_system`).
* `errexit()` is modelled by the result `none`.
* The compile-time switches `PARTIAL_PERIODIC` and `ADDITIONAL_CHECKS` are fields of
  `Config`.
-/

namespace Espresso

/-! ## Basic data -/

/-- A C array of length three (`int[3]`, `double[3]`). -/
structure Vec3 (α : Type) where
  x0 : α
  x1 : α
  x2 : α
deriving DecidableEq, Repr

/-- Array read `v[i]` for `i = 0, 1, 2` (any other index reads the last entry). -/
def Vec3.get {α : Type} (v : Vec3 α) (i : Nat) : α :=
  if i = 0 then v.x0 else if i = 1 then v.x1 else v.x2

/-- Array write `v[i] = a` for `i = 0, 1, 2`. -/
def Vec3.set {α : Type} (v : Vec3 α) (i : Nat) (a : α) : Vec3 α :=
  if i = 0 then { v with x0 := a } else if i = 1 then { v with x1 := a } else { v with x2 := a }

/-- The C cast `(int)x` of a double: truncation towards zero. -/
def toInt (q : ℚ) : Int := if 0 ≤ q then ⌊q⌋ else -⌊-q⌋

/-- Modelled from the spec: `dmin` of `utils.h`, which is not part of the sources at
hand: the smaller of two doubles. -/
def dmin (a b : ℚ) : ℚ := if a < b then a else b

/-- Modelled from the spec: `dmax` of `utils.h`, which is not part of the sources at
hand: the larger of two doubles. -/
def dmax (a b : ℚ) : ℚ := if a > b then a else b

/-- Modelled from the spec: `get_linear_index` of `utils.h`, which is not part of the
sources at hand.  The linear index of the cell with grid coordinates `(a, b, c)` in a
grid of dimensions `adim` is `a + adim[0]*(b + adim[1]*c)`. -/
def get_linear_index (a b c : Int) (adim : Vec3 Int) : Int :=
  a + adim.x0 * (b + adim.x1 * c)

/-- Modelled from the spec: `get_grid_pos` of `utils.h`, the inverse of
`get_linear_index`, with the C operators `%` and `/` on `int`. -/
def get_grid_pos (i : Int) (adim : Vec3 Int) : Vec3 Int :=
  { x0 := Int.tmod i adim.x0
    x1 := Int.tmod (Int.tdiv i adim.x0) adim.x1
    x2 := Int.tdiv (Int.tdiv i adim.x0) adim.x1 }

/-- `CELLS_MAX_NEIGHBORS` of `cells.c`. -/
def CELLS_MAX_NEIGHBORS : Nat := 14

/-- `CELLS_MAX_NUM_CELLS` of `config.h`. -/
def CELLS_MAX_NUM_CELLS : Int := 32768

/-- Compile-time switches. -/
structure Config where
  PARTIAL_PERIODIC : Bool
  ADDITIONAL_CHECKS : Bool
deriving DecidableEq, Repr

/-- The file-scope variables of `cells.c` that describe the cell grid, together with
the domain geometry of `grid.h` that the cell functions read. -/
structure Grid where
  cell_grid : Vec3 Int
  ghost_cell_grid : Vec3 Int
  n_cells : Int
  cell_size : Vec3 ℚ
  inv_cell_size : Vec3 ℚ
  max_skin : ℚ
deriving DecidableEq

/-- Domain geometry (`grid.h`): the lower and upper corner of the local box, the
periodicity flags, the global box length and the process grid. -/
structure Domain where
  my_left : Vec3 ℚ
  my_right : Vec3 ℚ
  periodic : Vec3 Int
  box_l : Vec3 ℚ
  node_grid : Vec3 Int
deriving DecidableEq

/-! ## `cells.c` -/

/-- `is_inner_cell(i, gcg)`. -/
def is_inner_cell (i : Int) (gcg : Vec3 Int) : Bool :=
  let pos := get_grid_pos i gcg
  decide (pos.x0 > 0) && decide (pos.x0 < gcg.x0 - 1) &&
  decide (pos.x1 > 0) && decide (pos.x1 < gcg.x1 - 1) &&
  decide (pos.x2 > 0) && decide (pos.x2 < gcg.x2 - 1)

/-- The value `(int)((pos[i]-my_left[i])*inv_cell_size[i])+1` that both lookups of
`cells.c` start from. -/
def raw_cpos (pos my_left inv_cell_size : ℚ) : Int :=
  toInt ((pos - my_left) * inv_cell_size) + 1

/-- One turn of the axis loop of `pos_to_cell_grid_ind`: the cell coordinate on one
axis, or `none` where `ADDITIONAL_CHECKS` calls `errexit`. -/
def cpos_axis (cfg : Config) (periodic : Int) (cell_grid : Int)
    (pos my_left inv_cell_size : ℚ) : Option Int :=
  let c0 := raw_cpos pos my_left inv_cell_size
  let c1 :=
    if cfg.PARTIAL_PERIODIC && decide (periodic = 0) then
      (if c0 < 1 then 1 else if c0 > cell_grid then cell_grid else c0)
    else c0
  if cfg.ADDITIONAL_CHECKS && (decide (c1 < 1) || decide (c1 > cell_grid)) then none
  else some c1

/-- `pos_to_cell_grid_ind(pos)`. -/
def pos_to_cell_grid_ind (cfg : Config) (dom : Domain) (g : Grid) (pos : Vec3 ℚ) :
    Option Int :=
  match cpos_axis cfg dom.periodic.x0 g.cell_grid.x0 pos.x0 dom.my_left.x0 g.inv_cell_size.x0 with
  | none => none
  | some c0 =>
    match cpos_axis cfg dom.periodic.x1 g.cell_grid.x1 pos.x1 dom.my_left.x1 g.inv_cell_size.x1 with
    | none => none
    | some c1 =>
      match cpos_axis cfg dom.periodic.x2 g.cell_grid.x2 pos.x2 dom.my_left.x2
          g.inv_cell_size.x2 with
      | none => none
      | some c2 => some (get_linear_index c0 c1 c2 g.ghost_cell_grid)

/-- One turn of the axis loop of `pos_to_capped_cell_grid_ind`. -/
def capped_cpos_axis (cell_grid : Int) (pos my_left inv_cell_size : ℚ) : Int :=
  let c0 := raw_cpos pos my_left inv_cell_size
  if c0 < 1 then 1 else if c0 > cell_grid then cell_grid else c0

/-- `pos_to_capped_cell_grid_ind(pos)`. -/
def pos_to_capped_cell_grid_ind (dom : Domain) (g : Grid) (pos : Vec3 ℚ) : Int :=
  get_linear_index
    (capped_cpos_axis g.cell_grid.x0 pos.x0 dom.my_left.x0 g.inv_cell_size.x0)
    (capped_cpos_axis g.cell_grid.x1 pos.x1 dom.my_left.x1 g.inv_cell_size.x1)
    (capped_cpos_axis g.cell_grid.x2 pos.x2 dom.my_left.x2 g.inv_cell_size.x2)
    g.ghost_cell_grid

/-- The ghost grid of the normal case of `calc_cell_grid`:
`ghost_cell_grid[i] = (int)(local_box_l[i]/max_range) + 2`, with the quotient taken in
exact arithmetic.  The program rounds the quotient to a double before the cast, which
can make it one larger; `normal_grid_fl` has the rounding. -/
def normal_grid (local_box_l : Vec3 ℚ) (max_range : ℚ) : Vec3 Int :=
  { x0 := toInt (local_box_l.x0 / max_range) + 2
    x1 := toInt (local_box_l.x1 / max_range) + 2
    x2 := toInt (local_box_l.x2 / max_range) + 2 }

/-- One axis of the body of the enlargement loop of `calc_cell_grid`:
`(int)(local_box_l[i]/cell_range) + 2`, raised to 3 when it is at most 2, with the
quotient taken in exact arithmetic; `trial_axis_fl` has the rounding of the program. -/
def trial_axis (l cell_range : ℚ) : Int :=
  let gc := toInt (l / cell_range) + 2
  if gc ≤ 2 then 3 else gc

/-- The ghost grid that the body of the enlargement loop computes for `cell_range`. -/
def trial_grid (local_box_l : Vec3 ℚ) (cell_range : ℚ) : Vec3 Int :=
  { x0 := trial_axis local_box_l.x0 cell_range
    x1 := trial_axis local_box_l.x1 cell_range
    x2 := trial_axis local_box_l.x2 cell_range }

/-- The product `n_cells` accumulated over the three axes. -/
def grid_cells (gcg : Vec3 Int) : Int := 1 * gcg.x0 * gcg.x1 * gcg.x2

/-- The local variables of the enlargement loop of `calc_cell_grid`. -/
structure LoopState where
  count : Int
  cell_range : ℚ
  ghost_cell_grid : Vec3 Int
  n_cells : Int
deriving DecidableEq

/-- The loop `while(n_cells > max_num_cells && --count > 0) { ... }` of
`calc_cell_grid`.  The first argument is the value of `count` on entry; it decreases
with every turn, which makes the loop terminate.  The sum `cell_range += step` is exact
here; `enlarge_loop_fl` rounds it in every turn as the program does. -/
def enlarge_loop (local_box_l : Vec3 ℚ) (step : ℚ) (max_num_cells : Int) :
    Nat → LoopState → LoopState
  | 0, s => if s.n_cells > max_num_cells then { s with count := -1 } else s
  | c + 1, s =>
    if s.n_cells > max_num_cells then
      if c > 0 then
        let cell_range := s.cell_range + step
        let gcg := trial_grid local_box_l cell_range
        enlarge_loop local_box_l step max_num_cells c
          { count := c, cell_range := cell_range, ghost_cell_grid := gcg,
            n_cells := grid_cells gcg }
      else { s with count := c }
    else s

/-- The final assignments of `calc_cell_grid` ("now set all dependent variables"),
with `max_skin` computed from the cell sizes of the previous grid, as the source does.
Where `cell_grid[i] = 0` the C code divides by zero. -/
def finish_grid (local_box_l : Vec3 ℚ) (max_cut : ℚ) (old_cell_size : Vec3 ℚ)
    (gcg : Vec3 Int) (n_cells : Int) : Grid :=
  let cg : Vec3 Int := { x0 := gcg.x0 - 2, x1 := gcg.x1 - 2, x2 := gcg.x2 - 2 }
  let cs : Vec3 ℚ :=
    { x0 := local_box_l.x0 / (cg.x0 : ℚ)
      x1 := local_box_l.x1 / (cg.x1 : ℚ)
      x2 := local_box_l.x2 / (cg.x2 : ℚ) }
  { cell_grid := cg
    ghost_cell_grid := gcg
    n_cells := n_cells
    cell_size := cs
    inv_cell_size := { x0 := 1 / cs.x0, x1 := 1 / cs.x1, x2 := 1 / cs.x2 }
    max_skin := dmin (dmin old_cell_size.x0 old_cell_size.x1) old_cell_size.x2 - max_cut }

/-- `calc_cell_grid()`, read in exact arithmetic.  The inputs are the globals it reads
(`local_box_l`, `max_range`, `max_cut`, `max_num_cells` and the previous `cell_size`);
the result is the new grid, or `none` where the source calls `errexit`.
`calc_cell_grid_double` is the same function in the arithmetic of the C type
`double`. -/
def calc_cell_grid (local_box_l : Vec3 ℚ) (max_range max_cut : ℚ) (max_num_cells : Int)
    (old_cell_size : Vec3 ℚ) : Option Grid :=
  let gcg0 := normal_grid local_box_l max_range
  let n0 := grid_cells gcg0
  if n0 > max_num_cells then
    let max_box_l := dmax (dmax local_box_l.x0 local_box_l.x1) local_box_l.x2
    let step := ((max_box_l / 2) - max_range) / 100
    if step < 0 then none
    else
      let s := enlarge_loop local_box_l step max_num_cells 100
        { count := 100, cell_range := max_range, ghost_cell_grid := gcg0, n_cells := n0 }
      if s.count = 0 then none
      else some (finish_grid local_box_l max_cut old_cell_size s.ghost_cell_grid s.n_cells)
  else some (finish_grid local_box_l max_cut old_cell_size gcg0 n0)

/-- The body of the innermost loop of `init_cell_neighbors` for the offsets `(o, n, m)`:
the neighbor index `j`, kept when `j >= i`. -/
def neighbor_entry (i : Int) (p1 : Vec3 Int) (gcg : Vec3 Int) (m n o : Int) : List Int :=
  let j := get_linear_index (p1.x0 + o) (p1.x1 + n) (p1.x2 + m) gcg
  if j ≥ i then [j] else []

/-- The three nested loops `m, n, o = -1, 0, 1` of `init_cell_neighbors`, `m` outermost:
the `cell_ind` entries written to `nList`, in the order written. -/
def neighbor_loop (i : Int) (p1 : Vec3 Int) (gcg : Vec3 Int) : List Int :=
  ([-1, 0, 1] : List Int).flatMap fun m =>
    ([-1, 0, 1] : List Int).flatMap fun n =>
      ([-1, 0, 1] : List Int).flatMap fun o => neighbor_entry i p1 gcg m n o

/-- `init_cell_neighbors(i)`: the `cell_ind` entries of `cells[i].nList`; its length is
`cells[i].n_neighbors`.  A cell that is not inner gets `n_neighbors = 0`. -/
def init_cell_neighbors (i : Int) (gcg : Vec3 Int) : List Int :=
  if is_inner_cell i gcg then neighbor_loop i (get_grid_pos i gcg) gcg else []

/-- The field `n_neighbors` that `init_cell_neighbors(i)` sets. -/
def n_neighbors (i : Int) (gcg : Vec3 Int) : Nat := (init_cell_neighbors i gcg).length


/-! ## Notions used to state the properties -/

/-- Two cells are equal or geometrically adjacent: their grid coordinates differ by at
most one on every axis. -/
def adjacent_or_equal (a b : Int) (gcg : Vec3 Int) : Bool :=
  let pa := get_grid_pos a gcg
  let pb := get_grid_pos b gcg
  decide (pb.x0 - pa.x0 ≤ 1) && decide (pa.x0 - pb.x0 ≤ 1) &&
  decide (pb.x1 - pa.x1 ≤ 1) && decide (pa.x1 - pb.x1 ≤ 1) &&
  decide (pb.x2 - pa.x2 ≤ 1) && decide (pa.x2 - pb.x2 ≤ 1)

/-- How often the unordered pair `{a, b}` occurs in the neighbor lists: as entry `b` of
the list of `a` or, for `a ≠ b`, as entry `a` of the list of `b`. -/
def pair_count (a b : Int) (gcg : Vec3 Int) : Nat :=
  List.count b (init_cell_neighbors a gcg) +
    (if a = b then 0 else List.count a (init_cell_neighbors b gcg))

/-- The upper half of the 27 offsets: `(m, n, o)` is lexicographically at least
`(0, 0, 0)`. -/
def upper_half (m n o : Int) : Bool :=
  decide (m = 1) || (decide (m = 0) && (decide (n = 1) || (decide (n = 0) && decide (0 ≤ o))))

/-- The difference of linear indices that belongs to the offsets `(o, n, m)`. -/
def offset (gcg : Vec3 Int) (m n o : Int) : Int := o + gcg.x0 * (n + gcg.x1 * m)

/-- The grid variables are consistent with a local box the way `calc_cell_grid` leaves
them: at least one inner cell per axis, two halo layers, `cell_size = local_box_l /
cell_grid` and `inv_cell_size = 1 / cell_size`. -/
def grid_for_box (local_box_l : Vec3 ℚ) (g : Grid) : Prop :=
  (1 ≤ g.cell_grid.x0 ∧ 1 ≤ g.cell_grid.x1 ∧ 1 ≤ g.cell_grid.x2) ∧
  (g.ghost_cell_grid.x0 = g.cell_grid.x0 + 2 ∧ g.ghost_cell_grid.x1 = g.cell_grid.x1 + 2 ∧
    g.ghost_cell_grid.x2 = g.cell_grid.x2 + 2) ∧
  (g.cell_size.x0 = local_box_l.x0 / (g.cell_grid.x0 : ℚ) ∧
    g.cell_size.x1 = local_box_l.x1 / (g.cell_grid.x1 : ℚ) ∧
    g.cell_size.x2 = local_box_l.x2 / (g.cell_grid.x2 : ℚ)) ∧
  (g.inv_cell_size.x0 = 1 / g.cell_size.x0 ∧ g.inv_cell_size.x1 = 1 / g.cell_size.x1 ∧
    g.inv_cell_size.x2 = 1 / g.cell_size.x2)

instance (local_box_l : Vec3 ℚ) (g : Grid) : Decidable (grid_for_box local_box_l g) := by
  unfold grid_for_box
  infer_instance

/-- A position lies in the local box `[my_left, my_left + local_box_l)` on all axes. -/
def in_local_box (dom : Domain) (local_box_l pos : Vec3 ℚ) : Prop :=
  (dom.my_left.x0 ≤ pos.x0 ∧ pos.x0 < dom.my_left.x0 + local_box_l.x0) ∧
  (dom.my_left.x1 ≤ pos.x1 ∧ pos.x1 < dom.my_left.x1 + local_box_l.x1) ∧
  (dom.my_left.x2 ≤ pos.x2 ∧ pos.x2 < dom.my_left.x2 + local_box_l.x2)

instance (dom : Domain) (local_box_l pos : Vec3 ℚ) :
    Decidable (in_local_box dom local_box_l pos) := by
  unfold in_local_box
  infer_instance

/-- The sizing property of one axis: at least one inner cell, and the inner cells, each
of length `max_range`, fit into the box. -/
def axis_fits (l max_range : ℚ) (gc : Int) : Prop :=
  3 ≤ gc ∧ ((gc - 2 : Int) : ℚ) * max_range ≤ l

instance (l max_range : ℚ) (gc : Int) : Decidable (axis_fits l max_range gc) := by
  unfold axis_fits
  infer_instance

/-- All three axes of a ghost grid satisfy `axis_fits`. -/
def grid_fits (local_box_l : Vec3 ℚ) (max_range : ℚ) (gcg : Vec3 Int) : Prop :=
  axis_fits local_box_l.x0 max_range gcg.x0 ∧ axis_fits local_box_l.x1 max_range gcg.x1 ∧
    axis_fits local_box_l.x2 max_range gcg.x2

instance (local_box_l : Vec3 ℚ) (max_range : ℚ) (gcg : Vec3 Int) :
    Decidable (grid_fits local_box_l max_range gcg) := by
  unfold grid_fits
  infer_instance

/-- The cell count of the `k`-th enlarged range `max_range + k * step`. -/
def trial_cells (local_box_l : Vec3 ℚ) (max_range step : ℚ) (k : Nat) : Int :=
  grid_cells (trial_grid local_box_l (max_range + (k : ℚ) * step))


/-! ## `ghosts.c`: particle migration

The particle arrays are modelled as memory: `part` holds the slots that have been
written so far and `n` counts the leading slots that are in use.  A slot beyond `n`
keeps the bytes last written to it, as a C array does.  A pointer to a particle is the
pair of its cell index and its slot.  Reading a slot that was never written, and
removing from a list with `n = 0`, are undefined in C and give `none` here.  The model
assumes that `realloc` never moves a particle array while a cell is being scanned. -/

/-- The struct `Particle`, reduced to the fields the migration and the ghost exchange
touch: identity `r.identity`, position `r.p`, image box `i`, the bond list `bl`, the
type `r.type` and the force `f`. -/
structure Particle where
  identity : Int
  p : Vec3 ℚ
  i : Vec3 Int
  bl : List Int
  type : Int := 0
  f : Vec3 ℚ := ⟨0, 0, 0⟩
deriving DecidableEq

/-- The struct `ParticleList`: the slots `part[0 ..]` and the count `n`. -/
structure ParticleList where
  part : List Particle
  n : Nat
deriving DecidableEq

/-- A pointer `&cells[cell].pList.part[slot]`. -/
structure Ptr where
  cell : Int
  slot : Nat
deriving DecidableEq

/-- The per-process variables of `ghosts.c` and `cells.c` that the migration reads and
writes.  The send and receive buffers are shown by their contents `part[0 .. n-1]` and
`e[0 .. n-1]`; `outbox` records, per direction, what `send_particles` has sent. -/
structure Node where
  cells : List ParticleList
  p_send_buf : List Particle
  b_send_buf : List Int
  p_recv_buf : List Particle
  b_recv_buf : List Int
  local_particles : Int → Option Ptr
  outbox : List (Nat × List Particle × List Int)

/-- What a process knows about its place in the process grid (`grid.h`), and what the
neighbor in the receive direction of pass `s_dir` sends to it. -/
structure Comm where
  this_node : Int
  node_neighbors : Nat → Int
  node_pos : Vec3 Int
  max_seen_particle : Int
  incoming : Nat → List Particle × List Int

/-- Read `cells[c].pList`. -/
def read_cell (cells : List ParticleList) (c : Int) : Option ParticleList :=
  if 0 ≤ c then cells[c.toNat]? else none

/-- Write `cells[c].pList`. -/
def write_cell (cells : List ParticleList) (c : Int) (pl : ParticleList) :
    List ParticleList :=
  cells.set c.toNat pl

/-- Write slot `k` of a particle array, growing the array by one slot when `k` is the
first slot behind it. -/
def write_slot (mem : List Particle) (k : Nat) (x : Particle) : List Particle :=
  if k < mem.length then mem.set k x else mem ++ [x]

/-- Modelled from the spec: `INNER_CELLS_LOOP` and `CELL_IND` of `cells.h`, which are
not part of the sources at hand: the linear indices of the inner cells
`1 .. cell_grid[i]` on every axis, in the order of the loop nest `m`, `n`, `o`. -/
def inner_cells (g : Grid) : List Int :=
  (List.range g.cell_grid.x0.toNat).flatMap fun m =>
    (List.range g.cell_grid.x1.toNat).flatMap fun n =>
      (List.range g.cell_grid.x2.toNat).map fun o =>
        get_linear_index ((m : Int) + 1) ((n : Int) + 1) ((o : Int) + 1) g.ghost_cell_grid

/-- Modelled from the spec: `fold_coordinate` of `grid.h`, which is not part of the
sources at hand: the coordinate on axis `dir` is folded back into `[0, box_l[dir])`
and the image count takes up the number of box lengths removed; with
`PARTIAL_PERIODIC` only on a periodic axis. -/
def fold_coordinate (cfg : Config) (dom : Domain) (x : Particle) (dir : Nat) : Particle :=
  if cfg.PARTIAL_PERIODIC && decide (dom.periodic.get dir = 0) then x
  else
    let tmp : Int := ⌊x.p.get dir / dom.box_l.get dir⌋
    { x with
      i := x.i.set dir (x.i.get dir + tmp)
      p := x.p.set dir (x.p.get dir - (tmp : ℚ) * dom.box_l.get dir) }

/-- The migration test of `exchange_and_sort_part` for pass `dir = 2*d + lr`:
`(lr == 1 && p[d] >= my_right[d]) || (lr == 0 && p[d] < my_left[d])`. -/
def leaves_domain (dom : Domain) (d lr : Nat) (pos : Vec3 ℚ) : Bool :=
  (decide (lr = 1) && decide (pos.get d ≥ dom.my_right.get d)) ||
  (decide (lr = 0) && decide (pos.get d < dom.my_left.get d))

/-- Set `local_particles[id]`. -/
def set_local (lp : Int → Option Ptr) (id : Int) (v : Option Ptr) : Int → Option Ptr :=
  fun k => if k = id then v else lp k

/-- Modelled from the spec: the removal that `move_unindexed_particle` and
`move_indexed_particle` of `particle_data.h` (not part of the sources at hand) perform
on the source list: the last particle in use is copied into the vacated slot `i`
(unless `i` is that last slot), and the count drops by one.  The result also carries
the particle taken out. -/
def remove_slot (sl : ParticleList) (i : Nat) : Option (Particle × ParticleList) :=
  match sl.part[i]?, (if 0 < sl.n then sl.part[sl.n - 1]? else none) with
  | some src, some last =>
    some (src, { part := if i = sl.n - 1 then sl.part else sl.part.set i last, n := sl.n - 1 })
  | _, _ => none

/-- Modelled from the spec: `append_unindexed_particle` of `particle_data.h`: the
particle is written behind the particles in use and the count grows by one. -/
def append_unindexed_particle (pl : ParticleList) (x : Particle) : ParticleList :=
  { part := write_slot pl.part pl.n x, n := pl.n + 1 }

/-- `move_to_p_buf(pl, ind)` for `pl = &cells[c].pList`: the bond count and the bonds go
to `b_send_buf`, the bond storage of the particle is released, its entry in
`local_particles` is cleared, and `move_unindexed_particle` moves it to `p_send_buf`.
The second component is the returned index. -/
def move_to_p_buf (st : Node) (c : Int) (ind : Nat) : Option (Node × Int) :=
  match read_cell st.cells c with
  | none => none
  | some pl =>
    match pl.part[ind]? with
    | none => none
    | some x =>
      let b_send_buf := st.b_send_buf ++ [(x.bl.length : Int)] ++ x.bl
      let pl1 : ParticleList := { pl with part := pl.part.set ind { x with bl := [] } }
      match remove_slot pl1 ind with
      | none => none
      | some (src, pl2) =>
        some ({ st with
                cells := write_cell st.cells c pl2
                b_send_buf := b_send_buf
                p_send_buf := st.p_send_buf ++ [src]
                local_particles := set_local st.local_particles x.identity none },
              if (ind : Int) < pl2.n then (ind : Int) - 1 else ind)

/-- Modelled from the spec: `move_indexed_particle(&cells[dst].pList, &cells[c].pList,
i)` of `particle_data.h`: the particle moves to the end of the destination cell, the
source cell is compacted, and `local_particles` follows both particles that changed
their slot. -/
def move_indexed_particle (st : Node) (dst c : Int) (i : Nat) : Option Node :=
  match read_cell st.cells dst, read_cell st.cells c with
  | some dl, some sl =>
    match remove_slot sl i with
    | none => none
    | some (src, sl2) =>
      let dl2 := append_unindexed_particle dl src
      let lp1 := set_local st.local_particles src.identity (some { cell := dst, slot := dl.n })
      let lp2 :=
        match (if i = sl.n - 1 then none else sl2.part[i]?) with
        | some moved => set_local lp1 moved.identity (some { cell := c, slot := i })
        | none => lp1
      some { st with
             cells := write_cell (write_cell st.cells c sl2) dst dl2
             local_particles := lp2 }
  | _, _ => none

/-- The loop `for(i=0; i<np; i++)` over the particles of cell `c` in the pass
`dir = 2*d + lr` of a direction with more than one process.  `np` is the count
`pl->n` read before the loop; the loop index can step back, so the loop is run for at
most a given number of turns and `none` also stands for running out of them. -/
def scan_cell_send (cfg : Config) (dom : Domain) (g : Grid) (d lr : Nat) (c : Int)
    (np : Nat) : Nat → Int → Node → Option Node
  | 0, _, _ => none
  | fuel + 1, i, st =>
    if i < (np : Int) then
      match read_cell st.cells c with
      | none => none
      | some pl =>
        match pl.part[i.toNat]? with
        | none => none
        | some x =>
          if leaves_domain dom d lr x.p then
            match move_to_p_buf st c i.toNat with
            | none => none
            | some (st1, i1) => scan_cell_send cfg dom g d lr c np fuel (i1 + 1) st1
          else if 2 * d + lr = 5 then
            match pos_to_cell_grid_ind cfg dom g x.p with
            | none => none
            | some ind =>
              if ind ≠ c then
                match move_indexed_particle st ind c i.toNat with
                | none => none
                | some st1 => scan_cell_send cfg dom g d lr c np fuel (i - 1 + 1) st1
              else scan_cell_send cfg dom g d lr c np fuel (i + 1) st
          else scan_cell_send cfg dom g d lr c np fuel (i + 1) st
    else some st

/-- The loop `for(i=0; i<np; i++)` over the particles of cell `c` in a direction `d`
with a single process: every particle is folded; the sorting step sits behind the test
`d == 3`. -/
def scan_cell_fold (cfg : Config) (dom : Domain) (g : Grid) (d : Nat) (c : Int)
    (np : Nat) : Nat → Int → Node → Option Node
  | 0, _, _ => none
  | fuel + 1, i, st =>
    if i < (np : Int) then
      match read_cell st.cells c with
      | none => none
      | some pl =>
        match pl.part[i.toNat]? with
        | none => none
        | some x =>
          let y := fold_coordinate cfg dom x d
          let st1 : Node :=
            { st with cells := write_cell st.cells c { pl with part := pl.part.set i.toNat y } }
          if d = 3 then
            match pos_to_cell_grid_ind cfg dom g y.p with
            | none => none
            | some ind =>
              if ind ≠ c then
                match move_indexed_particle st1 ind c i.toNat with
                | none => none
                | some st2 => scan_cell_fold cfg dom g d c np fuel (i - 1 + 1) st2
              else scan_cell_fold cfg dom g d c np fuel (i + 1) st1
          else scan_cell_fold cfg dom g d c np fuel (i + 1) st1
    else some st

/-- The loop `INNER_CELLS_LOOP` around a cell scan: each inner cell is scanned with the
count it has when its turn comes. -/
def scan_inner_cells (scan : Int → Nat → Node → Option Node) :
    List Int → Node → Option Node
  | [], st => some st
  | c :: cs, st =>
    match read_cell st.cells c with
    | none => none
    | some pl =>
      match scan c pl.n st with
      | none => none
      | some st1 => scan_inner_cells scan cs st1

/-- One phase `evenodd` of the two-step communication of `send_particles(s_dir)`: a
process whose position on the axis plus `evenodd` is even sends its send buffers, any
other process receives into its receive buffers. -/
def send_particles_phase (comm : Comm) (s_dir : Nat) (evenodd : Int) (st : Node) : Node :=
  if Int.tmod (comm.node_pos.get (s_dir / 2) + evenodd) 2 = 0 then
    { st with outbox := st.outbox ++ [(s_dir, st.p_send_buf, st.b_send_buf)] }
  else
    { st with
      p_recv_buf := (comm.incoming s_dir).1
      b_recv_buf := (comm.incoming s_dir).2 }

/-- `send_particles(s_dir)`: towards another process the two phases `evenodd = 0, 1`
are run; towards the process itself the source calls `errexit`. -/
def send_particles (comm : Comm) (s_dir : Nat) (st : Node) : Option Node :=
  if comm.node_neighbors s_dir ≠ comm.this_node then
    some (send_particles_phase comm s_dir 1 (send_particles_phase comm s_dir 0 st))
  else none

/-- The loop of `append_particles(dir)`, started at particle `i` of the receive buffer
with bond read offset `b_ind`. -/
def append_loop (cfg : Config) (dom : Domain) (g : Grid) (dir : Nat) (b_recv_buf : List Int) :
    List Particle → Nat → List ParticleList → Option (List ParticleList)
  | [], _, cells => some cells
  | x :: rest, b_ind, cells =>
    let y := fold_coordinate cfg dom x dir
    let c_ind := pos_to_capped_cell_grid_ind dom g y.p
    match read_cell cells c_ind, b_recv_buf[b_ind]? with
    | some pl, some bn =>
      let bonds := (b_recv_buf.drop (b_ind + 1)).take bn.toNat
      if bonds.length = bn.toNat then
        append_loop cfg dom g dir b_recv_buf rest (b_ind + 1 + bn.toNat)
          (write_cell cells c_ind (append_unindexed_particle pl { y with bl := bonds }))
      else none
    | _, _ => none

/-- `append_particles(dir)`. -/
def append_particles (cfg : Config) (dom : Domain) (g : Grid) (dir : Nat) (st : Node) :
    Option Node :=
  match append_loop cfg dom g dir st.b_recv_buf st.p_recv_buf 0 st.cells with
  | none => none
  | some cells => some { st with cells := cells }

/-- One pass `dir = 2*d + lr` of a direction with more than one process: the buffers
are emptied, the inner cells are scanned, the buffers are exchanged and the received
particles are appended. -/
def send_pass (cfg : Config) (dom : Domain) (g : Grid) (comm : Comm) (fuel : Nat)
    (d lr : Nat) (st : Node) : Option Node :=
  let st0 : Node :=
    { st with p_send_buf := [], p_recv_buf := [], b_send_buf := [], b_recv_buf := [] }
  match scan_inner_cells (fun c np => scan_cell_send cfg dom g d lr c np fuel 0)
      (inner_cells g) st0 with
  | none => none
  | some st1 =>
    match send_particles comm (2 * d + lr) st1 with
    | none => none
    | some st2 => append_particles cfg dom g d st2

/-- One turn of the direction loop `for(d=0; d<3; d++)` of `exchange_and_sort_part`. -/
def direction_step (cfg : Config) (dom : Domain) (g : Grid) (comm : Comm) (fuel : Nat)
    (d : Nat) (st : Node) : Option Node :=
  if dom.node_grid.get d > 1 then
    match send_pass cfg dom g comm fuel d 0 st with
    | none => none
    | some st1 => send_pass cfg dom g comm fuel d 1 st1
  else
    scan_inner_cells (fun c np => scan_cell_fold cfg dom g d c np fuel 0) (inner_cells g) st

/-- Modelled from the spec: `update_local_particles(pl)` of `particle_data.h` for
`pl = &cells[c].pList`: every particle in use gets its entry in `local_particles`. -/
def update_local_particles (c : Int) (pl : ParticleList) (lp : Int → Option Ptr) :
    Int → Option Ptr :=
  (List.range pl.n).foldl
    (fun acc k =>
      match pl.part[k]? with
      | some x => set_local acc x.identity (some { cell := c, slot := k })
      | none => acc)
    lp

/-- The final loop of `exchange_and_sort_part` that calls `update_local_particles` for
every inner cell. -/
def update_inner_cells (g : Grid) (st : Node) : Node :=
  { st with
    local_particles :=
      (inner_cells g).foldl
        (fun acc c =>
          match read_cell st.cells c with
          | some pl => update_local_particles c pl acc
          | none => acc)
        st.local_particles }

/-- The particle a pointer points to. -/
def deref (cells : List ParticleList) (q : Ptr) : Option Particle :=
  match read_cell cells q.cell with
  | some pl => pl.part[q.slot]?
  | none => none

/-- The per-particle tests of the `ADDITIONAL_CHECKS` block for slot `k` of the inner
cell `c`: the identity is in range, the position lies in the box on periodic axes and
`local_particles` points at the slot. -/
def check_particle (dom : Domain) (comm : Comm) (st : Node) (c : Int) (k : Nat)
    (x : Particle) : Bool :=
  !(decide (x.identity < 0) || decide (x.identity > comm.max_seen_particle)) &&
  !(decide (dom.periodic.x0 ≠ 0) && (decide (x.p.x0 < 0) || decide (x.p.x0 > dom.box_l.x0))) &&
  !(decide (dom.periodic.x1 ≠ 0) && (decide (x.p.x1 < 0) || decide (x.p.x1 > dom.box_l.x1))) &&
  !(decide (dom.periodic.x2 ≠ 0) && (decide (x.p.x2 < 0) || decide (x.p.x2 > dom.box_l.x2))) &&
  decide (st.local_particles x.identity = some { cell := c, slot := k })

/-- The `ADDITIONAL_CHECKS` block at the end of `exchange_and_sort_part`: `true` when
none of its tests calls `errexit`. -/
def additional_checks (dom : Domain) (g : Grid) (comm : Comm) (st : Node) : Bool :=
  let all_cells : List Nat := List.range g.n_cells.toNat
  let inner : List Nat := all_cells.filter fun (c : Nat) => is_inner_cell (c : Int) g.ghost_cell_grid
  let halo : List Nat := all_cells.filter fun (c : Nat) => !is_inner_cell (c : Int) g.ghost_cell_grid
  let count := fun (c : Nat) =>
    match st.cells[c]? with
    | some pl => pl.n
    | none => 0
  let cell_part_cnt := (inner.map count).sum
  let ghost_part_cnt := (halo.map count).sum
  let particles_ok := inner.all fun (c : Nat) =>
    match st.cells[c]? with
    | some pl => (List.range pl.n).all fun k =>
        match pl.part[k]? with
        | some x => check_particle dom comm st (c : Int) k x
        | none => false
    | none => false
  let ids := (List.range (comm.max_seen_particle + 1).toNat).map fun k => (k : Int)
  let present := ids.filter fun k => (st.local_particles k).isSome
  let ids_ok := present.all fun k =>
    match st.local_particles k with
    | some q =>
      match deref st.cells q with
      | some x => decide (x.identity = k)
      | none => false
    | none => true
  particles_ok && ids_ok &&
    !(decide (present.length ≠ cell_part_cnt) && decide (ghost_part_cnt = 0)) &&
    !decide (ghost_part_cnt > 0)

/-- `exchange_and_sort_part()`.  `fuel` bounds the number of turns of every cell scan;
the result is `none` where the source calls `errexit`, where it runs into undefined
behaviour, or where a scan needs more turns than `fuel`. -/
def exchange_and_sort_part (cfg : Config) (dom : Domain) (g : Grid) (comm : Comm)
    (fuel : Nat) (st : Node) : Option Node :=
  match direction_step cfg dom g comm fuel 0 st with
  | none => none
  | some st0 =>
    match direction_step cfg dom g comm fuel 1 st0 with
    | none => none
    | some st1 =>
      match direction_step cfg dom g comm fuel 2 st1 with
      | none => none
      | some st2 =>
        let st3 := update_inner_cells g st2
        if cfg.ADDITIONAL_CHECKS && !additional_checks dom g comm st3 then none
        else some st3

/-- The particles in use in cell `c`. -/
def cell_particles (st : Node) (c : Int) : List Particle :=
  match read_cell st.cells c with
  | some pl => pl.part.take pl.n
  | none => []


/-! ## Concrete configurations used in the examples -/

/-- A build without `PARTIAL_PERIODIC` and without `ADDITIONAL_CHECKS`. -/
def plain_build : Config := { PARTIAL_PERIODIC := false, ADDITIONAL_CHECKS := false }

/-- A build with `ADDITIONAL_CHECKS`. -/
def checked_build : Config := { PARTIAL_PERIODIC := false, ADDITIONAL_CHECKS := true }

/-- `n` cells as `init_cell` leaves them. -/
def empty_cells (n : Nat) : List ParticleList := List.replicate n { part := [], n := 0 }

/-- A single process that owns the whole periodic box of side 10. -/
def single_domain : Domain :=
  { my_left := ⟨0, 0, 0⟩, my_right := ⟨10, 10, 10⟩, periodic := ⟨1, 1, 1⟩,
    box_l := ⟨10, 10, 10⟩, node_grid := ⟨1, 1, 1⟩ }

/-- The grid of 2 x 2 x 2 inner cells of size 5 for the box of side 10. -/
def single_grid : Grid := finish_grid ⟨10, 10, 10⟩ 4 ⟨10, 10, 10⟩ ⟨4, 4, 4⟩ 64

/-- The process is its own neighbor in all six directions; nothing is received. -/
def single_comm : Comm :=
  { this_node := 0, node_neighbors := fun _ => 0, node_pos := ⟨0, 0, 0⟩,
    max_seen_particle := 0,
    incoming := fun _ => ([], []) }

/-- A particle at `(7, 1, 1)`, which lies in the inner cell `(2, 1, 1)`, index 22. -/
def moved_particle : Particle :=
  { identity := 0, p := ⟨7, 1, 1⟩, i := ⟨0, 0, 0⟩, bl := [] }

/-- The particle `moved_particle` is stored in the inner cell `(1, 1, 1)`, index 21,
which it has left since the last sort. -/
def single_state : Node :=
  { cells := (empty_cells 64).set 21 { part := [moved_particle], n := 1 }
    p_send_buf := [], b_send_buf := [], p_recv_buf := [], b_recv_buf := []
    local_particles := fun k => if k = 0 then some ⟨21, 0⟩ else none
    outbox := [] }

/-- Process 0 of two processes that split the periodic box of side 10 along x: it owns
`[0, 5)` on that axis. -/
def left_domain : Domain :=
  { my_left := ⟨0, 0, 0⟩, my_right := ⟨5, 10, 10⟩, periodic := ⟨1, 1, 1⟩,
    box_l := ⟨10, 10, 10⟩, node_grid := ⟨2, 1, 1⟩ }

/-- Process 1 of the same pair: it owns `[5, 10)` on the x axis. -/
def right_domain : Domain :=
  { my_left := ⟨5, 0, 0⟩, my_right := ⟨10, 10, 10⟩, periodic := ⟨1, 1, 1⟩,
    box_l := ⟨10, 10, 10⟩, node_grid := ⟨2, 1, 1⟩ }

/-- The grid of one inner cell (index 13 of 3 x 3 x 3) for the local box
`(5, 10, 10)`. -/
def left_grid : Grid := finish_grid ⟨5, 10, 10⟩ 4 ⟨10, 10, 10⟩ ⟨3, 3, 3⟩ 27

/-- Process 0 has process 1 as its neighbor in both x directions and itself in the
others; nothing is received. -/
def left_comm : Comm :=
  { this_node := 0, node_neighbors := fun k => if k < 2 then 1 else 0,
    node_pos := ⟨0, 0, 0⟩, max_seen_particle := 2, incoming := fun _ => ([], []) }

/-- A particle without bonds at `(x, 1, 1)`. -/
def particle_at (id : Int) (x : ℚ) : Particle :=
  { identity := id, p := ⟨x, 1, 1⟩, i := ⟨0, 0, 0⟩, bl := [] }

/-- The inner cell of process 0 holds three particles: 0 at x = 6 and 2 at x = 7 have
crossed the right boundary x = 5, particle 1 at x = 2 has not. -/
def left_state : Node :=
  { cells := (empty_cells 27).set 13
      { part := [particle_at 0 6, particle_at 1 2, particle_at 2 7], n := 3 }
    p_send_buf := [], b_send_buf := [], p_recv_buf := [], b_recv_buf := []
    local_particles := fun k =>
      if k = 0 then some ⟨13, 0⟩ else if k = 1 then some ⟨13, 1⟩
      else if k = 2 then some ⟨13, 2⟩ else none
    outbox := [] }

/-- Process 1 has process 0 as its neighbor in both x directions and itself in the
others; in pass 1 it receives what process 0 sends to the right when it starts from
`left_state`. -/
def right_comm : Comm :=
  { this_node := 1, node_neighbors := fun k => if k < 2 then 0 else 1,
    node_pos := ⟨1, 0, 0⟩, max_seen_particle := 2,
    incoming := fun k =>
      if k = 1 then ([particle_at 0 6, particle_at 2 7, particle_at 2 7], [0, 0, 0])
      else ([], []) }

/-- Process 1 holds no particles. -/
def right_state : Node :=
  { cells := empty_cells 27
    p_send_buf := [], b_send_buf := [], p_recv_buf := [], b_recv_buf := []
    local_particles := fun _ => none
    outbox := [] }


/-! ## `ghosts.c`: ghost exchange

The buffers are shown by their contents; their capacities are not modelled, since the
source grows a buffer before it writes behind its end.  A read behind the contents of a
buffer or of an index list gives `none`, like the other undefined reads. -/

/-- The struct `ReducedParticle` (the member `r` of a particle): identity, type and
position. -/
structure ReducedParticle where
  identity : Int
  type : Int
  p : Vec3 ℚ
deriving DecidableEq

/-- The member `r` of a particle. -/
def Particle.r (x : Particle) : ReducedParticle :=
  { identity := x.identity, type := x.type, p := x.p }

/-- The assignment `memcpy(&x.r, &r, sizeof(ReducedParticle))`. -/
def Particle.set_r (x : Particle) (r : ReducedParticle) : Particle :=
  { x with identity := r.identity, type := r.type, p := r.p }

/-- The contents of a particle slot that `realloc_particles` has added and nothing has
written yet; they are unspecified in C and shown as zeros. -/
def fresh_particle : Particle :=
  { identity := 0, p := ⟨0, 0, 0⟩, i := ⟨0, 0, 0⟩, bl := [] }

/-- The particles in use of a list, `part[0 .. n-1]`; `none` if a slot among them was
never written. -/
def ParticleList.used (pl : ParticleList) : Option (List Particle) :=
  if pl.n ≤ pl.part.length then some (pl.part.take pl.n) else none

/-- The variables of `ghosts.c` for the ghost exchange: per direction the cells to send
and to receive (`send_cells[d].e[0 .. n-1]`, `recv_cells[d].e[0 .. n-1]`) and the
arrays of ghost counts, the ghost buffers, the sizes sent and received per direction,
and the buffers for positions and forces. -/
structure Ghosts where
  send_cells : Nat → List Int
  recv_cells : Nat → List Int
  n_send_ghosts : Nat → List Int
  n_recv_ghosts : Nat → List Int
  g_send_buf : List ReducedParticle
  g_recv_buf : List ReducedParticle
  ghost_send_size : Nat → Int
  ghost_recv_size : Nat → Int
  send_buf : List ℚ
  recv_buf : List ℚ

/-- The state of a process during the ghost exchange.  `ghost_log` is a history
variable: the identity and the slot of every ghost record copied to a cell, in the
order of copying. -/
structure GhostNode where
  cells : List ParticleList
  local_particles : Int → Option Ptr
  gh : Ghosts
  ghost_log : List (Int × Ptr)

/-- What the ghost exchange reads from `grid.h` and, towards other processes, from the
network: in pass `s_dir` the neighbor in the receive direction sends the count array
`in_counts s_dir` and the records `in_ghosts s_dir` (`exchange_ghost`), the positions
`in_pos s_dir` (`update_ghost_pos`) and the forces `in_force s_dir`
(`collect_ghost_forces`). -/
structure GhostComm where
  this_node : Int
  node_neighbors : Nat → Int
  node_pos : Vec3 Int
  boundary : Nat → Int
  box_l : Vec3 ℚ
  in_counts : Nat → List Int
  in_ghosts : Nat → List ReducedParticle
  in_pos : Nat → List ℚ
  in_force : Nat → List ℚ

/-- The receive direction of a send direction: `s_dir+1` if `s_dir` is even, else
`s_dir-1`. -/
def opposite (s_dir : Nat) : Nat := if s_dir % 2 = 0 then s_dir + 1 else s_dir - 1

/-- Overwrite the first entries of an array by `new`, leaving the rest. -/
def overwrite {α : Type} (old new : List α) : List α := new ++ old.drop new.length

/-- Set entry `k` of an array indexed by the direction. -/
def set_dir {α : Type} (a : Nat → α) (k : Nat) (v : α) : Nat → α :=
  fun j => if j = k then v else a j

/-- The `switch(boundary[s_dir])` of `exchange_ghost`: the coordinate on the axis
`s_dir/2` moves by `+box_l` or `-box_l`. -/
def fold_ghost (env : GhostComm) (s_dir : Nat) (r : ReducedParticle) : ReducedParticle :=
  if env.boundary s_dir = 1 then
    { r with p := r.p.set (s_dir / 2) (r.p.get (s_dir / 2) + env.box_l.get (s_dir / 2)) }
  else if env.boundary s_dir = -1 then
    { r with p := r.p.set (s_dir / 2) (r.p.get (s_dir / 2) - env.box_l.get (s_dir / 2)) }
  else r

/-- The two loops of `exchange_ghost` over the send cells of a direction: the ghost
count of every send cell, and the folded records of their particles in order. -/
def pack_ghosts (env : GhostComm) (s_dir : Nat) (cells : List ParticleList) :
    List Int → Option (List Int × List ReducedParticle)
  | [] => some ([], [])
  | c :: cs =>
    match read_cell cells c with
    | none => none
    | some pl =>
      match pl.used, pack_ghosts env s_dir cells cs with
      | some xs, some (cnts, recs) =>
        some ((pl.n : Int) :: cnts, xs.map (fun x => fold_ghost env s_dir x.r) ++ recs)
      | _, _ => none

/-- The first part of a turn of the direction loop of `exchange_ghost`: the counts and
their total go to `n_send_ghosts[s_dir]` and the records to `g_send_buf`. -/
def fill_ghost_buffers (env : GhostComm) (s_dir : Nat) (st : GhostNode) : Option GhostNode :=
  match pack_ghosts env s_dir st.cells (st.gh.send_cells s_dir) with
  | none => none
  | some (cnts, recs) =>
    if (st.gh.send_cells s_dir).length + 1 ≤ (st.gh.n_send_ghosts s_dir).length then
      some { st with
             gh := { st.gh with
                     n_send_ghosts := set_dir st.gh.n_send_ghosts s_dir
                       (overwrite (st.gh.n_send_ghosts s_dir) (cnts ++ [cnts.sum]))
                     g_send_buf := overwrite st.gh.g_send_buf recs } }
    else none

/-- The sending phase of `send_ghosts(s_dir)` towards another process; the messages
themselves leave the process, `ghost_send_size[s_dir]` is set. -/
def send_ghosts_send (s_dir : Nat) (st : GhostNode) : Option GhostNode :=
  match (st.gh.n_send_ghosts s_dir)[(st.gh.send_cells s_dir).length]? with
  | none => none
  | some total =>
    some { st with gh := { st.gh with
                           ghost_send_size := set_dir st.gh.ghost_send_size s_dir total } }

/-- The receiving phase of `send_ghosts(s_dir)` from another process: the count array
and then `ghost_recv_size[r_dir]` records are received. -/
def send_ghosts_recv (env : GhostComm) (s_dir : Nat) (st : GhostNode) : Option GhostNode :=
  let r_dir := opposite s_dir
  if (env.in_counts s_dir).length ≤ (st.gh.n_recv_ghosts r_dir).length then
    let counts := overwrite (st.gh.n_recv_ghosts r_dir) (env.in_counts s_dir)
    match counts[(st.gh.recv_cells r_dir).length]? with
    | none => none
    | some total =>
      if ((env.in_ghosts s_dir).length : Int) ≤ total then
        some { st with
               gh := { st.gh with
                       n_recv_ghosts := set_dir st.gh.n_recv_ghosts r_dir counts
                       ghost_recv_size := set_dir st.gh.ghost_recv_size r_dir total
                       g_recv_buf := overwrite st.gh.g_recv_buf (env.in_ghosts s_dir) } }
      else none
  else none

/-- One phase `evenodd` of the two-step communication of `send_ghosts(s_dir)`. -/
def send_ghosts_phase (env : GhostComm) (s_dir : Nat) (evenodd : Int) (st : GhostNode) :
    Option GhostNode :=
  if Int.tmod (env.node_pos.get (s_dir / 2) + evenodd) 2 = 0 then send_ghosts_send s_dir st
  else send_ghosts_recv env s_dir st

/-- The branch of `send_ghosts(s_dir)` for communication to the same process: the count
arrays and the ghost buffers of the send and the receive side change places. -/
def send_ghosts_same (s_dir : Nat) (st : GhostNode) : Option GhostNode :=
  let r_dir := opposite s_dir
  match (st.gh.n_send_ghosts s_dir)[(st.gh.send_cells s_dir).length]? with
  | none => none
  | some sent =>
    let n_send := st.gh.n_send_ghosts s_dir
    let n_recv := st.gh.n_recv_ghosts r_dir
    match n_send[(st.gh.recv_cells r_dir).length]? with
    | none => none
    | some total =>
      some { st with
             gh := { st.gh with
                     ghost_send_size := set_dir st.gh.ghost_send_size s_dir sent
                     n_send_ghosts := set_dir st.gh.n_send_ghosts s_dir n_recv
                     n_recv_ghosts := set_dir st.gh.n_recv_ghosts r_dir n_send
                     ghost_recv_size := set_dir st.gh.ghost_recv_size r_dir total
                     g_send_buf := st.gh.g_recv_buf
                     g_recv_buf := st.gh.g_send_buf } }

/-- `send_ghosts(s_dir)`. -/
def send_ghosts (env : GhostComm) (s_dir : Nat) (st : GhostNode) : Option GhostNode :=
  if env.node_neighbors s_dir ≠ env.this_node then
    match send_ghosts_phase env s_dir 0 st with
    | none => none
    | some st1 => send_ghosts_phase env s_dir 1 st1
  else send_ghosts_same s_dir st

/-- The records `recs` are copied to the members `r` of the slots `0, 1, ...` of a
particle array; a slot that did not exist is added. -/
def write_records : List Particle → List ReducedParticle → List Particle
  | mem, [] => mem
  | [], r :: rs => fresh_particle.set_r r :: write_records [] rs
  | x :: mem, r :: rs => x.set_r r :: write_records mem rs

/-- The test "Real Paricle Priority" of `exchange_ghost`: `local_particles[id]` is set
to the ghost only if it is `NULL`. -/
def accept_ghost (lp : Int → Option Ptr) (id : Int) (q : Ptr) : Int → Option Ptr :=
  if lp id = none then set_local lp id (some q) else lp

/-- The inner loop of the receiving part of `exchange_ghost` for the cell `c_ind`, from
slot `k` on: `local_particles` and the history take up the records in order. -/
def accept_ghosts (c_ind : Int) :
    List ReducedParticle → Nat → (Int → Option Ptr) × List (Int × Ptr) →
      (Int → Option Ptr) × List (Int × Ptr)
  | [], _, acc => acc
  | r :: rs, k, (lp, log) =>
    accept_ghosts c_ind rs (k + 1)
      (accept_ghost lp r.identity { cell := c_ind, slot := k },
        log ++ [(r.identity, { cell := c_ind, slot := k })])

/-- The receiving loop of `exchange_ghost` over the receive cells of `r_dir`, started at
cell number `c` with read offset `cnt` in `g_recv_buf`: every receive cell gets the
count `n_recv_ghosts[r_dir].e[c]` and that many records. -/
def recv_ghosts_loop (r_dir : Nat) : List Int → Nat → Nat → GhostNode → Option GhostNode
  | [], _, _, st => some st
  | c_ind :: rest, c, cnt, st =>
    match read_cell st.cells c_ind, (st.gh.n_recv_ghosts r_dir)[c]? with
    | some pl, some count =>
      let recs := (st.gh.g_recv_buf.drop cnt).take count.toNat
      if recs.length = count.toNat then
        let acc := accept_ghosts c_ind recs 0 (st.local_particles, st.ghost_log)
        recv_ghosts_loop r_dir rest (c + 1) (cnt + count.toNat)
          { st with
            cells := write_cell st.cells c_ind
              { part := write_records pl.part recs, n := count.toNat }
            local_particles := acc.1
            ghost_log := acc.2 }
      else none
    | _, _ => none

/-- One turn of the direction loop of `exchange_ghost`. -/
def exchange_ghost_dir (env : GhostComm) (s_dir : Nat) (st : GhostNode) : Option GhostNode :=
  match fill_ghost_buffers env s_dir st with
  | none => none
  | some st1 =>
    match send_ghosts env s_dir st1 with
    | none => none
    | some st2 => recv_ghosts_loop (opposite s_dir) (st2.gh.recv_cells (opposite s_dir)) 0 0 st2

/-- The direction loop of `exchange_ghost` for the directions in `dirs`. -/
def exchange_ghost_dirs (env : GhostComm) : List Nat → GhostNode → Option GhostNode
  | [], st => some st
  | s_dir :: rest, st =>
    match exchange_ghost_dir env s_dir st with
    | none => none
    | some st1 => exchange_ghost_dirs env rest st1

/-- `exchange_ghost()`: the directions 0 to 5 in order.  The final sizing of `send_buf`
and `recv_buf` changes capacities only. -/
def exchange_ghost (env : GhostComm) (st : GhostNode) : Option GhostNode :=
  exchange_ghost_dirs env [0, 1, 2, 3, 4, 5] st


/-- The `switch(boundary[s_dir])` of `update_ghost_pos`: the shift of the coordinate on
the axis `s_dir/2`; any value but 0, 1 and -1 ends in `errexit`. -/
def modifier (env : GhostComm) (s_dir : Nat) : Option ℚ :=
  if env.boundary s_dir = 0 then some 0
  else if env.boundary s_dir = 1 then some (env.box_l.get (s_dir / 2))
  else if env.boundary s_dir = -1 then some (-env.box_l.get (s_dir / 2))
  else none

/-- The three doubles that `update_ghost_pos` writes to `send_buf` for one particle. -/
def pos_entries (mod_ind : Nat) (shift : ℚ) (x : Particle) : List ℚ :=
  let q := x.p.set mod_ind (x.p.get mod_ind + shift)
  [q.x0, q.x1, q.x2]

/-- The three doubles that `collect_ghost_forces` writes to `send_buf` for one
particle. -/
def force_entries (x : Particle) : List ℚ := [x.f.x0, x.f.x1, x.f.x2]

/-- A loop over the cells of a list and the particles in use of each cell that writes
three doubles per particle to a buffer, in order. -/
def pack_cells (entries : Particle → List ℚ) (cells : List ParticleList) :
    List Int → Option (List ℚ)
  | [] => some []
  | c :: cs =>
    match read_cell cells c with
    | none => none
    | some pl =>
      match pl.used, pack_cells entries cells cs with
      | some xs, some rest => some (xs.flatMap entries ++ rest)
      | _, _ => none

/-- The inner loop of an unpacking loop: the slots `k, k+1, ...` below the count `n`
of a cell each take three doubles from the buffer, read from offset `g` on. -/
def unpack_slots (apply : Particle → ℚ → ℚ → ℚ → Particle) (buf : List ℚ) :
    Nat → Nat → Nat → List Particle → Option (List Particle × Nat)
  | 0, _, g, mem => some (mem, g)
  | todo + 1, k, g, mem =>
    match mem[k]?, buf[g]?, buf[g + 1]?, buf[g + 2]? with
    | some x, some a, some b, some c =>
      unpack_slots apply buf todo (k + 1) (g + 3) (mem.set k (apply x a b c))
    | _, _, _, _ => none

/-- A loop over the cells of a list and the particles in use of each cell that reads
three doubles per particle from a buffer, in order, from offset `g` on. -/
def unpack_cells (apply : Particle → ℚ → ℚ → ℚ → Particle) (buf : List ℚ) :
    List Int → Nat → List ParticleList → Option (List ParticleList)
  | [], _, cells => some cells
  | c :: cs, g, cells =>
    match read_cell cells c with
    | none => none
    | some pl =>
      match unpack_slots apply buf pl.n 0 g pl.part with
      | none => none
      | some (mem, g1) => unpack_cells apply buf cs g1 (write_cell cells c { pl with part := mem })

/-- The assignment `pl->part[n].r.p[i] = recv_buf.e[g+i]` of `update_ghost_pos`. -/
def set_pos (x : Particle) (a b c : ℚ) : Particle := { x with p := ⟨a, b, c⟩ }

/-- The assignment `pl->part[n].f[i] += recv_buf.e[g+i]` of `collect_ghost_forces`. -/
def add_force (x : Particle) (a b c : ℚ) : Particle :=
  { x with f := ⟨x.f.x0 + a, x.f.x1 + b, x.f.x2 + c⟩ }

/-- One phase `evenodd` of `send_posforce(s_dir, send_size, recv_size)` towards another
process: the sender's buffer leaves the process, the receiver gets at most
`3*recv_size` doubles into `recv_buf`. -/
def send_posforce_phase (env : GhostComm) (incoming : List ℚ) (s_dir : Nat) (recv_size : Int)
    (evenodd : Int) (st : GhostNode) : Option GhostNode :=
  if Int.tmod (env.node_pos.get (s_dir / 2) + evenodd) 2 = 0 then some st
  else if (incoming.length : Int) ≤ 3 * recv_size then
    some { st with gh := { st.gh with recv_buf := overwrite st.gh.recv_buf incoming } }
  else none

/-- `send_posforce(s_dir, send_size, recv_size)`; towards the same process `send_buf`
and `recv_buf` change places. -/
def send_posforce (env : GhostComm) (incoming : List ℚ) (s_dir : Nat) (recv_size : Int)
    (st : GhostNode) : Option GhostNode :=
  if env.node_neighbors s_dir ≠ env.this_node then
    match send_posforce_phase env incoming s_dir recv_size 0 st with
    | none => none
    | some st1 => send_posforce_phase env incoming s_dir recv_size 1 st1
  else
    some { st with gh := { st.gh with send_buf := st.gh.recv_buf, recv_buf := st.gh.send_buf } }

/-- One turn of the direction loop of `update_ghost_pos`. -/
def update_ghost_pos_dir (env : GhostComm) (s_dir : Nat) (st : GhostNode) : Option GhostNode :=
  match modifier env s_dir with
  | none => none
  | some shift =>
    match pack_cells (pos_entries (s_dir / 2) shift) st.cells (st.gh.send_cells s_dir) with
    | none => none
    | some buf =>
      let st1 : GhostNode := { st with gh := { st.gh with send_buf := overwrite st.gh.send_buf buf } }
      match send_posforce env (env.in_pos s_dir) s_dir (st1.gh.ghost_recv_size (opposite s_dir))
          st1 with
      | none => none
      | some st2 =>
        match unpack_cells set_pos st2.gh.recv_buf (st2.gh.recv_cells (opposite s_dir)) 0
            st2.cells with
        | none => none
        | some cells => some { st2 with cells := cells }

/-- A direction loop: the turns for the directions in `dirs`, in order. -/
def run_dirs (turn : Nat → GhostNode → Option GhostNode) : List Nat → GhostNode → Option GhostNode
  | [], st => some st
  | s_dir :: rest, st =>
    match turn s_dir st with
    | none => none
    | some st1 => run_dirs turn rest st1

/-- `update_ghost_pos()`: the directions 0 to 5 in order. -/
def update_ghost_pos (env : GhostComm) (st : GhostNode) : Option GhostNode :=
  run_dirs (update_ghost_pos_dir env) [0, 1, 2, 3, 4, 5] st

/-- One turn of the direction loop of `collect_ghost_forces`: the forces of the cells
that received in direction `s_dir` travel back and are added to the forces of the cells
that sent. -/
def collect_ghost_forces_dir (env : GhostComm) (s_dir : Nat) (st : GhostNode) :
    Option GhostNode :=
  let r_dir := opposite s_dir
  match pack_cells force_entries st.cells (st.gh.recv_cells r_dir) with
  | none => none
  | some buf =>
    let st1 : GhostNode := { st with gh := { st.gh with send_buf := overwrite st.gh.send_buf buf } }
    match send_posforce env (env.in_force s_dir) r_dir (st1.gh.ghost_send_size s_dir) st1 with
    | none => none
    | some st2 =>
      match unpack_cells add_force st2.gh.recv_buf (st2.gh.send_cells s_dir) 0 st2.cells with
      | none => none
      | some cells => some { st2 with cells := cells }

/-- `collect_ghost_forces()`: the directions 5 down to 0. -/
def collect_ghost_forces (env : GhostComm) (st : GhostNode) : Option GhostNode :=
  run_dirs (collect_ghost_forces_dir env) [5, 4, 3, 2, 1, 0] st

/-- Modelled from the spec: `CELLS_LOOP` and `CELL_PTR` of `cells.h`, which are not part
of the sources at hand: the grid coordinates `(m, n, o)` of all cells, inner and halo,
in the order of the loop nest `m`, `n`, `o`. -/
def all_cell_coords (gcg : Vec3 Int) : List (Int × Int × Int) :=
  (List.range gcg.x0.toNat).flatMap fun (m : Nat) =>
    (List.range gcg.x1.toNat).flatMap fun (n : Nat) =>
      (List.range gcg.x2.toNat).map fun (o : Nat) => ((m : Int), (n : Int), (o : Int))

/-- The "ghost cell selection" of `invalidate_ghosts` and `init_forces`. -/
def ghost_cell_selection (gcg : Vec3 Int) (m n o : Int) : Bool :=
  decide (m = 0) || decide (m = gcg.x0 - 1) || decide (n = 0) || decide (n = gcg.x1 - 1) ||
  decide (o = 0) || decide (o = gcg.x2 - 1)

/-- The loop of `invalidate_ghosts` over the particles `part[i]`, `i = k, k+1, ...` of
the halo cell `c`: `local_particles[part[i].r.identity]` is cleared if it points at
`part[i]`. -/
def clear_ghost_pointers (c : Int) : List Particle → Nat → (Int → Option Ptr) → (Int → Option Ptr)
  | [], _, lp => lp
  | x :: xs, k, lp =>
    clear_ghost_pointers c xs (k + 1)
      (if lp x.identity = some { cell := c, slot := k } then set_local lp x.identity none
       else lp)

/-- The body of the loop of `invalidate_ghosts` for the cell `(m, n, o)`. -/
def invalidate_cell (gcg : Vec3 Int) (coords : Int × Int × Int)
    (st : List ParticleList × (Int → Option Ptr)) :
    Option (List ParticleList × (Int → Option Ptr)) :=
  if ghost_cell_selection gcg coords.1 coords.2.1 coords.2.2 then
    let c := get_linear_index coords.1 coords.2.1 coords.2.2 gcg
    match read_cell st.1 c with
    | none => none
    | some pl =>
      match pl.used with
      | none => none
      | some xs =>
        some (write_cell st.1 c { pl with n := 0 }, clear_ghost_pointers c xs 0 st.2)
  else some st

/-- The loop `CELLS_LOOP` of `invalidate_ghosts` over the cells in `coords`. -/
def invalidate_loop (gcg : Vec3 Int) :
    List (Int × Int × Int) → List ParticleList × (Int → Option Ptr) →
      Option (List ParticleList × (Int → Option Ptr))
  | [], st => some st
  | co :: rest, st =>
    match invalidate_cell gcg co st with
    | none => none
    | some st1 => invalidate_loop gcg rest st1

/-- `invalidate_ghosts()`, on the cells and `local_particles`. -/
def invalidate_ghosts (gcg : Vec3 Int) (cells : List ParticleList)
    (lp : Int → Option Ptr) : Option (List ParticleList × (Int → Option Ptr)) :=
  invalidate_loop gcg (all_cell_coords gcg) (cells, lp)

/-! ## `forces.c` -/

/-- A call of a bonded force routine by `force_calc`, with the partners it was given. -/
inductive BondCall where
  | fene_pair (type_num : Int) (p2 : Ptr)
  | angle_pair (type_num : Int) (p2 p3 : Ptr)
deriving DecidableEq

/-- How the loop over a bond list ends: with the calls it made, in `errexit`, or in a
read behind the end of the bond list. -/
inductive BondResult where
  | calls (l : List BondCall)
  | errexit
  | undefined
deriving DecidableEq

/-- Put a call in front of the calls of the rest of the loop. -/
def BondResult.cons (c : BondCall) : BondResult → BondResult
  | BondResult.calls l => BondResult.calls (c :: l)
  | BondResult.errexit => BondResult.errexit
  | BondResult.undefined => BondResult.undefined

/-- The buffers and the record of sent messages of two states are the same. -/
def same_buffers (a b : Node) : Prop :=
  a.p_send_buf = b.p_send_buf ∧ a.b_send_buf = b.b_send_buf ∧
  a.p_recv_buf = b.p_recv_buf ∧ a.b_recv_buf = b.b_recv_buf ∧ a.outbox = b.outbox

/-- The linear index of the cell with the grid coordinates `co`. -/
def coord_index (gcg : Vec3 Int) (co : Int × Int × Int) : Int :=
  get_linear_index co.1 co.2.1 co.2.2 gcg

/-- The cell with the grid coordinates `co` is selected as a ghost cell. -/
def coord_selected (gcg : Vec3 Int) (co : Int × Int × Int) : Bool :=
  ghost_cell_selection gcg co.1 co.2.1 co.2.2

/-- A particle list with its count set to zero and its slots as they are. -/
def ParticleList.emptied (pl : ParticleList) : ParticleList := { pl with n := 0 }

/-- The folded records that `exchange_ghost` sends for the particles `xs` of a send cell
in the direction `s_dir`. -/
def ghost_records (env : GhostComm) (s_dir : Nat) (xs : List Particle) : List ReducedParticle :=
  xs.map fun x => fold_ghost env s_dir x.r

/-- The record groups that `exchange_ghost` sends in the direction `s_dir`: for every
send cell in `cs` the folded records of its particles; `none` on an undefined read. -/
def ghost_groups (env : GhostComm) (s_dir : Nat) (cells : List ParticleList) :
    List Int → Option (List (List ReducedParticle))
  | [] => some []
  | c :: cs =>
    match read_cell cells c with
    | none => none
    | some pl =>
      match pl.used, ghost_groups env s_dir cells cs with
      | some xs, some rest => some (ghost_records env s_dir xs :: rest)
      | _, _ => none

/-- Every cell holds its particles in written slots. -/
def cells_ok (cells : List ParticleList) : Prop := ∀ pl ∈ cells, pl.n ≤ pl.part.length

/-- Every index of a cell list is the index of a cell. -/
def indices_ok (cells : List ParticleList) (cs : List Int) : Prop :=
  ∀ c ∈ cs, 0 ≤ c ∧ c.toNat < cells.length

/-- The cell lists and count arrays of the ghost exchange fit each other and the cell
array: a send list and the receive list of the opposite direction have the same
length, a count array has an entry for every cell of its list and one for the total, a
cell is received at most once, and all indices are indices of cells. -/
structure ghost_lists_ok (gh : Ghosts) (cells : List ParticleList) : Prop where
  pairs : ∀ s, s < 6 → (gh.recv_cells (opposite s)).length = (gh.send_cells s).length
  send_counts : ∀ s, s < 6 → (gh.send_cells s).length + 1 ≤ (gh.n_send_ghosts s).length
  recv_counts : ∀ s, s < 6 → (gh.recv_cells s).length + 1 ≤ (gh.n_recv_ghosts s).length
  recv_nodup : ∀ s, s < 6 → (gh.recv_cells s).Nodup
  recv_disjoint : ∀ s t, s < 6 → t < 6 → s ≠ t →
    ∀ c, c ∈ gh.recv_cells s → c ∉ gh.recv_cells t
  send_ok : ∀ s, s < 6 → indices_ok cells (gh.send_cells s)
  recv_ok : ∀ s, s < 6 → indices_ok cells (gh.recv_cells s)

/-- The record `r` with the coordinate `s_dir/2` increased by
`boundary[s_dir] * box_l[s_dir/2]` and all other fields equal. -/
def shift_record (env : GhostComm) (s_dir : Nat) (r : ReducedParticle) : ReducedParticle :=
  { r with
    p := r.p.set (s_dir / 2)
      (r.p.get (s_dir / 2) + (env.boundary s_dir : ℚ) * env.box_l.get (s_dir / 2)) }

/-- A particle with its position set to zero: what `update_ghost_pos` leaves alone. -/
def erase_pos (x : Particle) : Particle := { x with p := ⟨0, 0, 0⟩ }

/-- Two particle arrays are the same except for the positions in the slots `k` to
`n-1`. -/
def slots_sim (k n : Nat) (mem mem1 : List Particle) : Prop :=
  mem.length = mem1.length ∧
  ∀ i, ((i < k ∨ n ≤ i) → mem[i]? = mem1[i]?) ∧
    (k ≤ i → i < n → (mem[i]?).map erase_pos = (mem1[i]?).map erase_pos)

/-- Two particle lists have the same count and are the same except for the positions
of their particles. -/
def cell_sim (pl pl1 : ParticleList) : Prop :=
  pl.n = pl1.n ∧ slots_sim 0 pl.n pl.part pl1.part

/-- Two cell arrays are the same except for the positions of the particles. -/
def cells_sim (cells cells1 : List ParticleList) : Prop :=
  cells.length = cells1.length ∧
  ∀ (c : Int) (pl pl1 : ParticleList), read_cell cells c = some pl →
    read_cell cells1 c = some pl1 → cell_sim pl pl1

/-- The number of particles in the cells of a list of cell indices. -/
def ghost_total (cells : List ParticleList) (cs : List Int) : Nat :=
  (cs.map fun c => match read_cell cells c with
    | some pl => pl.n
    | none => 0).sum

/-- Two states have the same cell lists and the same ghost sizes per direction. -/
def same_lists (a b : GhostNode) : Prop :=
  a.gh.send_cells = b.gh.send_cells ∧ a.gh.recv_cells = b.gh.recv_cells ∧
  a.gh.ghost_send_size = b.gh.ghost_send_size ∧ a.gh.ghost_recv_size = b.gh.ghost_recv_size

/-- The number of particles of the cell with index `c`; 0 if there is no such cell. -/
def cell_count (cells : List ParticleList) (c : Int) : Nat :=
  match read_cell cells c with
  | some pl => pl.n
  | none => 0

/-- The component `i` of the force of the particle in slot `j` of the cell with index
`c`; 0 if there is no such slot. -/
def force_at (cells : List ParticleList) (c : Int) (j i : Nat) : ℚ :=
  match read_cell cells c with
  | some pl =>
    match pl.part[j]? with
    | some x => x.f.get i
    | none => 0
  | none => 0

/-- The component `i` of the sum of the forces of the particles of the cell `c`. -/
def cell_force (cells : List ParticleList) (c : Int) (i : Nat) : ℚ :=
  ((List.range (cell_count cells c)).map fun j => force_at cells c j i).sum

/-- The indices of the cells of an array of `n` cells. -/
def all_cells (n : Nat) : List Int := List.map (fun (k : Nat) => (k : Int)) (List.range n)

/-- The send cells of a direction paired with the receive cells of the opposite
direction: the cell `send_cells[s].e[k]` with the cell `recv_cells[opposite(s)].e[k]`
that takes up its ghosts. -/
def ghost_pairs (gh : Ghosts) (s : Nat) : List (Int × Int) :=
  (gh.send_cells s).zip (gh.recv_cells (opposite s))

/-- The cells that hold ghost replicas of the particles of the cell `c` after the
directions `dirs` of `exchange_ghost`, given in the order of the exchange: for the
first direction `s` of `dirs` the cell that receives `c` in direction `s` and the
replicas of that cell made by the later directions, and the replicas of `c` itself made
by the later directions. -/
def replica_cells (gh : Ghosts) : List Nat → Int → List Int
  | [], _ => []
  | s :: later, c =>
    replica_cells gh later c ++
      (ghost_pairs gh s).flatMap fun p =>
        if p.1 = c then p.2 :: replica_cells gh later p.2 else []

/-- Two states have the same cell lists and the same number of particles in every
cell. -/
def same_layout (a b : GhostNode) : Prop :=
  a.gh.send_cells = b.gh.send_cells ∧ a.gh.recv_cells = b.gh.recv_cells ∧
  a.cells.length = b.cells.length ∧ ∀ c, cell_count a.cells c = cell_count b.cells c

/-- A particle with its force set to zero. -/
def erase_force (x : Particle) : Particle := { x with f := ⟨0, 0, 0⟩ }

/-- The state `b` is the state `a` with other forces on its particles, real and ghost:
the cell lists are the same, and every cell has the same count and the same particle
array but for the forces. -/
def forces_assigned (a b : GhostNode) : Prop :=
  a.gh.send_cells = b.gh.send_cells ∧ a.gh.recv_cells = b.gh.recv_cells ∧
  a.cells.length = b.cells.length ∧
  ∀ (c : Int) (pl pl1 : ParticleList), read_cell a.cells c = some pl →
    read_cell b.cells c = some pl1 →
    pl.n = pl1.n ∧ pl.part.map erase_force = pl1.part.map erase_force

/-- The identity of the particle in slot `j` of the cell with index `c`. -/
def identity_at (cells : List ParticleList) (c : Int) (j : Nat) : Option Int :=
  match read_cell cells c with
  | some pl => (pl.part[j]?).map fun x => x.identity
  | none => none


/-! ## `ghosts.c`: the cell lists of `ghost_init` -/

/-- The integers `lo, lo+1, ..., hi` of a loop `for(p=lo; p<=hi; p++)`. -/
def int_range (lo hi : Int) : List Int :=
  (List.range (hi + 1 - lo).toNat).map fun (k : Nat) => lo + (k : Int)

/-- The linear indices that the three nested loops of `sub_grid_indices` write, in
order: axis 0 outermost, axis 2 innermost. -/
def sub_grid_entries (lc hc gs : Vec3 Int) : List Int :=
  (int_range lc.x0 hc.x0).flatMap fun p0 =>
    (int_range lc.x1 hc.x1).flatMap fun p1 =>
      (int_range lc.x2 hc.x2).map fun p2 => get_linear_index p0 p1 p2 gs

/-- The sanity check of `sub_grid_indices` for one axis. -/
def sub_grid_axis_ok (lc hc gs : Int) : Bool :=
  !(decide (lc < 0) || decide (lc ≥ gs)) && !(decide (hc < 0) || decide (hc ≥ gs)) &&
  !decide (lc > hc)

/-- `sub_grid_indices(list, start, max, lc, hc, gs)`: the return value and the array
`list` afterwards. -/
def sub_grid_indices (list : List Int) (start max : Int) (lc hc gs : Vec3 Int) :
    Int × List Int :=
  if sub_grid_axis_ok lc.x0 hc.x0 gs.x0 && sub_grid_axis_ok lc.x1 hc.x1 gs.x1 &&
      sub_grid_axis_ok lc.x2 hc.x2 gs.x2 then
    let size := (hc.x0 + 1 - lc.x0) * (hc.x1 + 1 - lc.x1) * (hc.x2 + 1 - lc.x2)
    if size + start > max then (-1, list)
    else
      (size, list.take start.toNat ++ sub_grid_entries lc hc gs ++
        list.drop (start.toNat + (sub_grid_entries lc hc gs).length))
  else (0, list)

/-- An index list of `ghost_init` after `realloc_intlist` to `anz` entries and the call
of `sub_grid_indices` that sets its length: the entries `e[0 .. n-1]`. -/
def cell_list (anz : Int) (lc hc gs : Vec3 Int) : List Int :=
  let r := sub_grid_indices (List.replicate anz.toNat 0) 0 anz lc hc gs
  r.2.take r.1.toNat

/-- The lower corner `lc` or upper corner `hc` of the send and receive frames of
`ghost_init` in the turn `i` of its direction loop: `v` on the axis `i`, and on an
other axis `a` the value `inner a` before its turn and `outer a` after it. -/
def frame_corner (i : Nat) (v : Int) (inner outer : Vec3 Int) : Vec3 Int :=
  { x0 := if i = 0 then v else if 0 < i then outer.x0 else inner.x0
    x1 := if i = 1 then v else if 1 < i then outer.x1 else inner.x1
    x2 := if i = 2 then v else inner.x2 }

/-- The cell lists that `ghost_init` builds for the grid `g`: for the direction
`2*i` the cells `1` to send and `0` to receive on the axis `i`, for `2*i+1` the cells
`cell_grid[i]` to send and `cell_grid[i]+1` to receive; the count arrays get
`anz[i]+1` entries and the buffers are empty. -/
def ghost_init (g : Grid) : Ghosts :=
  let cg := g.cell_grid
  let gcg := g.ghost_cell_grid
  let anz : Nat → Int := fun i =>
    if i = 0 then cg.x1 * cg.x2 else if i = 1 then cg.x2 * gcg.x0 else gcg.x0 * gcg.x1
  let lo : Vec3 Int := ⟨1, 1, 1⟩
  let lo_done : Vec3 Int := ⟨0, 0, 0⟩
  let hi : Vec3 Int := cg
  let hi_done : Vec3 Int := ⟨cg.x0 + 1, cg.x1 + 1, cg.x2 + 1⟩
  let frame : Nat → Int → List Int := fun i v =>
    cell_list (anz i) (frame_corner i v lo lo_done) (frame_corner i v hi hi_done) gcg
  { send_cells := fun d => frame (d / 2) (if d % 2 = 0 then 1 else cg.get (d / 2))
    recv_cells := fun d => frame (d / 2) (if d % 2 = 0 then 0 else cg.get (d / 2) + 1)
    n_send_ghosts := fun d => List.replicate ((anz (d / 2)).toNat + 1) 0
    n_recv_ghosts := fun d => List.replicate ((anz (d / 2)).toNat + 1) 0
    g_send_buf := []
    g_recv_buf := []
    ghost_send_size := fun _ => 0
    ghost_recv_size := fun _ => 0
    send_buf := []
    recv_buf := [] }


/-! ## Concrete configurations of the ghost exchange -/

/-- The grid of one inner cell (index 13 of 3 x 3 x 3) for the box of side 10. -/
def cube_grid : Grid := finish_grid ⟨10, 10, 10⟩ 4 ⟨10, 10, 10⟩ ⟨3, 3, 3⟩ 27

/-- A single process that is its own neighbor in all six directions of the periodic box
of side 10: a ghost sent downwards is shifted by `+box_l`, one sent upwards by
`-box_l`. -/
def cube_env : GhostComm :=
  { this_node := 0, node_neighbors := fun _ => 0, node_pos := ⟨0, 0, 0⟩
    boundary := fun d => if d % 2 = 0 then 1 else -1
    box_l := ⟨10, 10, 10⟩
    in_counts := fun _ => [], in_ghosts := fun _ => [], in_pos := fun _ => []
    in_force := fun _ => [] }

/-- A particle with identity, type, position and force. -/
def ghost_test_particle (id type : Int) (p f : Vec3 ℚ) : Particle :=
  { identity := id, p := p, i := ⟨0, 0, 0⟩, bl := [], type := type, f := f }

/-- The inner cell 13 holds the particles 0 and 1, all halo cells are empty, and the
cell lists are those of `ghost_init`. -/
def cube_node : GhostNode :=
  { cells := (empty_cells 27).set 13
      { part := [ghost_test_particle 0 1 ⟨1, 2, 3⟩ ⟨1, 0, 0⟩,
                 ghost_test_particle 1 2 ⟨9, 8, 7⟩ ⟨0, 1, 0⟩], n := 2 }
    local_particles := fun k =>
      if k = 0 then some ⟨13, 0⟩ else if k = 1 then some ⟨13, 1⟩ else none
    gh := ghost_init cube_grid
    ghost_log := [] }


/-! ## Notions for the communication schedule, the buffers and the cell lists -/

/-- One turn of a cell scan of `exchange_and_sort_part`: the slot index `i` that is
examined, the count `pl->n` of the cell at that moment, and the particle that the turn
hands to `move_to_p_buf`, if it does. -/
structure ScanTurn where
  i : Int
  n : Nat
  sent : Option Particle
deriving DecidableEq

/-- The loop of `scan_cell_send` once more, with a record of its turns beside the
state. -/
def scan_cell_send_log (cfg : Config) (dom : Domain) (g : Grid) (d lr : Nat) (c : Int)
    (np : Nat) : Nat → Int → Node → Option (Node × List ScanTurn)
  | 0, _, _ => none
  | fuel + 1, i, st =>
    if i < (np : Int) then
      match read_cell st.cells c with
      | none => none
      | some pl =>
        match pl.part[i.toNat]? with
        | none => none
        | some x =>
          if leaves_domain dom d lr x.p then
            match move_to_p_buf st c i.toNat with
            | none => none
            | some (st1, i1) =>
              (scan_cell_send_log cfg dom g d lr c np fuel (i1 + 1) st1).map fun r =>
                (r.1, { i := i, n := pl.n, sent := some x } :: r.2)
          else if 2 * d + lr = 5 then
            match pos_to_cell_grid_ind cfg dom g x.p with
            | none => none
            | some ind =>
              if ind ≠ c then
                match move_indexed_particle st ind c i.toNat with
                | none => none
                | some st1 =>
                  (scan_cell_send_log cfg dom g d lr c np fuel (i - 1 + 1) st1).map fun r =>
                    (r.1, { i := i, n := pl.n, sent := none } :: r.2)
              else
                (scan_cell_send_log cfg dom g d lr c np fuel (i + 1) st).map fun r =>
                  (r.1, { i := i, n := pl.n, sent := none } :: r.2)
          else
            (scan_cell_send_log cfg dom g d lr c np fuel (i + 1) st).map fun r =>
              (r.1, { i := i, n := pl.n, sent := none } :: r.2)
    else some (st, [])

/-- The loop of `scan_inner_cells` for a scan that records its turns. -/
def scan_inner_cells_log (scan : Int → Nat → Node → Option (Node × List ScanTurn)) :
    List Int → Node → Option (Node × List ScanTurn)
  | [], st => some (st, [])
  | c :: cs, st =>
    match read_cell st.cells c with
    | none => none
    | some pl =>
      match scan c pl.n st with
      | none => none
      | some (st1, log) =>
        (scan_inner_cells_log scan cs st1).map fun r => (r.1, log ++ r.2)

/-- The particles handed to `move_to_p_buf` in the turns of a record, in order. -/
def sent_particles (log : List ScanTurn) : List Particle := log.filterMap fun t => t.sent

/-- A particle as it lies in `p_send_buf`: its bond storage has been released. -/
def strip_bonds (x : Particle) : Particle := { x with bl := [] }

/-- The bond lists of a sequence of particles, each as its length followed by its
entries. -/
def bond_stream (xs : List Particle) : List Int :=
  xs.flatMap fun x => (x.bl.length : Int) :: x.bl

/-- The loop of `append_loop` once more, with the final bond read offset `b_ind` beside
the cells. -/
def append_loop_ind (cfg : Config) (dom : Domain) (g : Grid) (dir : Nat)
    (b_recv_buf : List Int) :
    List Particle → Nat → List ParticleList → Option (List ParticleList × Nat)
  | [], b_ind, cells => some (cells, b_ind)
  | x :: rest, b_ind, cells =>
    let y := fold_coordinate cfg dom x dir
    let c_ind := pos_to_capped_cell_grid_ind dom g y.p
    match read_cell cells c_ind, b_recv_buf[b_ind]? with
    | some pl, some bn =>
      let bonds := (b_recv_buf.drop (b_ind + 1)).take bn.toNat
      if bonds.length = bn.toNat then
        append_loop_ind cfg dom g dir b_recv_buf rest (b_ind + 1 + bn.toNat)
          (write_cell cells c_ind (append_unindexed_particle pl { y with bl := bonds }))
      else none
    | _, _ => none

/-- The particles `ys`, in order, each appended to the cell that the clamped lookup
gives for its position. -/
def insert_particles (dom : Domain) (g : Grid) :
    List Particle → List ParticleList → Option (List ParticleList)
  | [], cells => some cells
  | y :: rest, cells =>
    match read_cell cells (pos_to_capped_cell_grid_ind dom g y.p) with
    | none => none
    | some pl =>
      insert_particles dom g rest
        (write_cell cells (pos_to_capped_cell_grid_ind dom g y.p)
          (append_unindexed_particle pl y))

/-! ## `cells.c`: `cells_re_init` -/

/-- The loop `for(j=0; j<pl->n; j++)` of step 3 of `cells_re_init` over the particles
of one old cell: each is appended to the new cell that `pos_to_cell_grid_ind` gives
for its position. -/
def transfer_particles (cfg : Config) (dom : Domain) (g : Grid) :
    List Particle → List ParticleList → Option (List ParticleList)
  | [], cells => some cells
  | x :: rest, cells =>
    match pos_to_cell_grid_ind cfg dom g x.p with
    | none => none
    | some ind =>
      match read_cell cells ind with
      | none => none
      | some pl =>
        transfer_particles cfg dom g rest
          (write_cell cells ind (append_unindexed_particle pl x))

/-- Step 3 of `cells_re_init`, the loop `for(i=0;i<old_n_cells;i++)` over the old cells
`i` in the list: the particles of the inner cells of the old grid are transferred. -/
def transfer_cells (cfg : Config) (dom : Domain) (g : Grid) (old_ghost_cell_grid : Vec3 Int)
    (old_cells : List ParticleList) :
    List Nat → List ParticleList → Option (List ParticleList)
  | [], cells => some cells
  | i :: rest, cells =>
    match old_cells[i]? with
    | none => none
    | some pl =>
      if is_inner_cell (i : Int) old_ghost_cell_grid then
        match pl.used with
        | none => none
        | some xs =>
          match transfer_particles cfg dom g xs cells with
          | none => none
          | some cells1 => transfer_cells cfg dom g old_ghost_cell_grid old_cells rest cells1
      else transfer_cells cfg dom g old_ghost_cell_grid old_cells rest cells

/-- The loop of `cells_re_init` that calls `update_local_particles` for every cell `i`
of the new grid with `is_inner_cell(i, ghost_cell_grid)`. -/
def update_new_cells (g : Grid) (cells : List ParticleList) (lp : Int → Option Ptr) :
    Int → Option Ptr :=
  (List.range g.n_cells.toNat).foldl
    (fun acc (i : Nat) =>
      if is_inner_cell (i : Int) g.ghost_cell_grid then
        match cells[i]? with
        | some pl => update_local_particles (i : Int) pl acc
        | none => acc
      else acc)
    lp

/-- `cells_re_init()`: the ghosts are invalidated and the particles migrate, the new
grid is computed from `local_box_l`, `max_range`, `max_cut` and `max_num_cells`, new
cells are allocated and initialised, the particles of the old inner cells are
transferred, and `local_particles` is updated.  The result is the new grid and the
new state, or `none` where the source calls `errexit` or runs into undefined
behaviour. -/
def cells_re_init (cfg : Config) (dom : Domain) (comm : Comm) (fuel : Nat)
    (local_box_l : Vec3 ℚ) (max_range max_cut : ℚ) (max_num_cells : Int)
    (g : Grid) (st : Node) : Option (Grid × Node) :=
  match invalidate_ghosts g.ghost_cell_grid st.cells st.local_particles with
  | none => none
  | some (cells0, lp0) =>
    match exchange_and_sort_part cfg dom g comm fuel
        { st with cells := cells0, local_particles := lp0 } with
    | none => none
    | some st1 =>
      match calc_cell_grid local_box_l max_range max_cut max_num_cells g.cell_size with
      | none => none
      | some g1 =>
        match transfer_cells cfg dom g1 g.ghost_cell_grid st1.cells
            (List.range g.n_cells.toNat) (empty_cells g1.n_cells.toNat) with
        | none => none
        | some cells1 =>
          some (g1, { st1 with
                      cells := cells1
                      local_particles := update_new_cells g1 cells1 st1.local_particles })

/-- The number of particles in the cells `i` of a grid with `is_inner_cell(i, gcg)`, as
the `ADDITIONAL_CHECKS` block of `cells_re_init` counts them. -/
def inner_count (gcg : Vec3 Int) (n_cells : Int) (cells : List ParticleList) : Nat :=
  (((List.range n_cells.toNat).filter fun (i : Nat) => is_inner_cell (i : Int) gcg).map
    fun (i : Nat) =>
      match cells[i]? with
      | some pl => pl.n
      | none => 0).sum

/-- The grid variables as `cells_pre_init` leaves them: one inner cell in a grid of
3 x 3 x 3 cells; the cell sizes are not set yet. -/
def pre_init_grid : Grid :=
  { cell_grid := ⟨1, 1, 1⟩, ghost_cell_grid := ⟨3, 3, 3⟩, n_cells := 27
    cell_size := ⟨0, 0, 0⟩, inv_cell_size := ⟨0, 0, 0⟩, max_skin := 0 }

/-- A single process that owns the whole periodic box `(1, 10, 10)`. -/
def narrow_domain : Domain :=
  { my_left := ⟨0, 0, 0⟩, my_right := ⟨1, 10, 10⟩, periodic := ⟨1, 1, 1⟩,
    box_l := ⟨1, 10, 10⟩, node_grid := ⟨1, 1, 1⟩ }

/-- The particle 0 at `(1/2, 1, 1)` lies in the single inner cell of the grid of
`cells_pre_init`; it has no ghosts. -/
def narrow_state : Node :=
  { cells := (empty_cells 27).set 13 { part := [particle_at 0 (1 / 2)], n := 1 }
    p_send_buf := [], b_send_buf := [], p_recv_buf := [], b_recv_buf := []
    local_particles := fun k => if k = 0 then some ⟨13, 0⟩ else none
    outbox := [] }

/-- A particle at `(x, 1, 1)` with the bond list `bl`. -/
def bonded_particle (id : Int) (x : ℚ) (bl : List Int) : Particle :=
  { identity := id, p := ⟨x, 1, 1⟩, i := ⟨0, 0, 0⟩, bl := bl }

/-- The inner cell of process 0 holds three particles with bond lists: 0 at x = 6 and 1
at x = 7 have crossed the right boundary x = 5, particle 2 at x = 2 has not. -/
def bonded_state : Node :=
  { cells := (empty_cells 27).set 13
      { part := [bonded_particle 0 6 [0, 1], bonded_particle 1 7 [],
                 bonded_particle 2 2 [1, 0, 1]], n := 3 }
    p_send_buf := [], b_send_buf := [], p_recv_buf := [], b_recv_buf := []
    local_particles := fun k =>
      if k = 0 then some ⟨13, 0⟩ else if k = 1 then some ⟨13, 1⟩
      else if k = 2 then some ⟨13, 2⟩ else none
    outbox := [] }

/-- The box from the corner `lc` to the corner `hc` lies in the grid `gs`: on every axis
both corners are in `[0, gs)` and `lc <= hc`. -/
def box_in_grid (lc hc gs : Vec3 Int) : Prop :=
  ((0 ≤ lc.x0 ∧ lc.x0 < gs.x0) ∧ (0 ≤ hc.x0 ∧ hc.x0 < gs.x0) ∧ lc.x0 ≤ hc.x0) ∧
  ((0 ≤ lc.x1 ∧ lc.x1 < gs.x1) ∧ (0 ≤ hc.x1 ∧ hc.x1 < gs.x1) ∧ lc.x1 ≤ hc.x1) ∧
  ((0 ≤ lc.x2 ∧ lc.x2 < gs.x2) ∧ (0 ≤ hc.x2 ∧ hc.x2 < gs.x2) ∧ lc.x2 ≤ hc.x2)

instance (lc hc gs : Vec3 Int) : Decidable (box_in_grid lc hc gs) := by
  unfold box_in_grid
  infer_instance

/-- The number of cells of the box from `lc` to `hc`. -/
def box_size (lc hc : Vec3 Int) : Int :=
  (hc.x0 + 1 - lc.x0) * (hc.x1 + 1 - lc.x1) * (hc.x2 + 1 - lc.x2)

/-- The direction of a ghost exchange in which the cell with the grid coordinates
`(p0, p1, p2)` is filled: 4 or 5 for a cell of the lowest or highest layer on axis 2,
otherwise 2 or 3 for such a layer on axis 1, otherwise 0 or 1 for such a layer on axis
0; 6 stands for an inner cell. -/
def fill_direction (cg : Vec3 Int) (p0 p1 p2 : Int) : Nat :=
  if p2 = 0 then 4 else if p2 = cg.x2 + 1 then 5
  else if p1 = 0 then 2 else if p1 = cg.x1 + 1 then 3
  else if p0 = 0 then 0 else if p0 = cg.x0 + 1 then 1 else 6

/-- The cells of the new grid `g` while `cells_re_init` transfers the particles: there
are as many cells as the grid has, no particle is in a cell that is not inner, and
every particle is in the cell that `pos_to_cell_grid_ind` gives for its position. -/
def transfer_inv (cfg : Config) (dom : Domain) (g : Grid) (cells : List ParticleList) : Prop :=
  (cells.length : Int) = grid_cells g.ghost_cell_grid ∧
  ∀ (c : Int) (pl : ParticleList), read_cell cells c = some pl →
    pl.n ≤ pl.part.length ∧ (is_inner_cell c g.ghost_cell_grid = false → pl.n = 0) ∧
    ∀ x ∈ pl.part.take pl.n, pos_to_cell_grid_ind cfg dom g x.p = some c

/-- The number of particles in all cells. -/
def particle_total (cells : List ParticleList) : Nat := (cells.map fun pl => pl.n).sum

/-- The count `pList.n` of cell `i`, or 0 behind the end of the cell array. -/
def count_at (cells : List ParticleList) (i : Nat) : Nat :=
  match cells[i]? with
  | some pl => pl.n
  | none => 0

/-! ## `calc_cell_grid` in the arithmetic of the C type `double` -/

/-- The power `2^e` of two as a rational, for an exponent of either sign. -/
def pow2 (e : Int) : ℚ :=
  if 0 ≤ e then ((2 ^ e.toNat : Nat) : ℚ) else 1 / ((2 ^ (-e).toNat : Nat) : ℚ)

/-- The number of binary digits of `n`, counted with at most `fuel` divisions by two. -/
def bit_length_fuel : Nat → Nat → Nat
  | 0, _ => 0
  | fuel + 1, n => if n = 0 then 0 else bit_length_fuel fuel (n / 2) + 1

/-- The number of binary digits of `n`. -/
def bit_length (n : Nat) : Nat := bit_length_fuel n n

/-- The binary exponent of a positive rational `q`: the `e` with `2^e ≤ q < 2^(e+1)`.
The numbers of digits of the numerator and the denominator fix it up to one. -/
def binary_exponent (q : ℚ) : Int :=
  let e0 : Int := (bit_length q.num.natAbs : Int) - (bit_length q.den : Int)
  if pow2 e0 ≤ q then e0 else e0 - 1

/-- The integer nearest to `x`; a tie goes to the even one. -/
def round_even (x : ℚ) : Int :=
  let f := ⌊x⌋
  let r := x - (f : ℚ)
  if r < 1 / 2 then f else if 1 / 2 < r then f + 1 else if f % 2 = 0 then f else f + 1

/-- The `double` that a real result `q` is rounded to: IEEE 754 binary64 with 53
significant bits, round to nearest, ties to even.  Overflow and subnormal numbers are
left out; the values are meant to lie in the normal range. -/
def round_double (q : ℚ) : ℚ :=
  if q = 0 then 0
  else
    let a := |q|
    let e := binary_exponent a
    let m := round_even (a / pow2 (e - 52))
    (if q < 0 then -1 else 1) * (m : ℚ) * pow2 (e - 52)

/-- The ghost grid of the normal case of `calc_cell_grid`, where `fl` rounds the result
of an operation on doubles: the quotient `local_box_l[i]/max_range` is rounded before
the cast. -/
def normal_grid_fl (fl : ℚ → ℚ) (local_box_l : Vec3 ℚ) (max_range : ℚ) : Vec3 Int :=
  { x0 := toInt (fl (local_box_l.x0 / max_range)) + 2
    x1 := toInt (fl (local_box_l.x1 / max_range)) + 2
    x2 := toInt (fl (local_box_l.x2 / max_range)) + 2 }

/-- One axis of the body of the enlargement loop of `calc_cell_grid`, with the quotient
rounded by `fl` before the cast. -/
def trial_axis_fl (fl : ℚ → ℚ) (l cell_range : ℚ) : Int :=
  let gc := toInt (fl (l / cell_range)) + 2
  if gc ≤ 2 then 3 else gc

/-- The ghost grid that the body of the enlargement loop computes for `cell_range`,
with rounding `fl`. -/
def trial_grid_fl (fl : ℚ → ℚ) (local_box_l : Vec3 ℚ) (cell_range : ℚ) : Vec3 Int :=
  { x0 := trial_axis_fl fl local_box_l.x0 cell_range
    x1 := trial_axis_fl fl local_box_l.x1 cell_range
    x2 := trial_axis_fl fl local_box_l.x2 cell_range }

/-- The loop `while(n_cells > max_num_cells && --count > 0) { ... }` of
`calc_cell_grid` with rounding `fl`: the sum of `cell_range += step` is rounded in every
turn. -/
def enlarge_loop_fl (fl : ℚ → ℚ) (local_box_l : Vec3 ℚ) (step : ℚ) (max_num_cells : Int) :
    Nat → LoopState → LoopState
  | 0, s => if s.n_cells > max_num_cells then { s with count := -1 } else s
  | c + 1, s =>
    if s.n_cells > max_num_cells then
      if c > 0 then
        let cell_range := fl (s.cell_range + step)
        let gcg := trial_grid_fl fl local_box_l cell_range
        enlarge_loop_fl fl local_box_l step max_num_cells c
          { count := c, cell_range := cell_range, ghost_cell_grid := gcg,
            n_cells := grid_cells gcg }
      else { s with count := c }
    else s

/-- The final assignments of `calc_cell_grid` with rounding `fl`.  The conversion
`(double)cell_grid[i]` is exact. -/
def finish_grid_fl (fl : ℚ → ℚ) (local_box_l : Vec3 ℚ) (max_cut : ℚ)
    (old_cell_size : Vec3 ℚ) (gcg : Vec3 Int) (n_cells : Int) : Grid :=
  let cg : Vec3 Int := { x0 := gcg.x0 - 2, x1 := gcg.x1 - 2, x2 := gcg.x2 - 2 }
  let cs : Vec3 ℚ :=
    { x0 := fl (local_box_l.x0 / (cg.x0 : ℚ))
      x1 := fl (local_box_l.x1 / (cg.x1 : ℚ))
      x2 := fl (local_box_l.x2 / (cg.x2 : ℚ)) }
  { cell_grid := cg
    ghost_cell_grid := gcg
    n_cells := n_cells
    cell_size := cs
    inv_cell_size := { x0 := fl (1 / cs.x0), x1 := fl (1 / cs.x1), x2 := fl (1 / cs.x2) }
    max_skin :=
      fl (dmin (dmin old_cell_size.x0 old_cell_size.x1) old_cell_size.x2 - max_cut) }

/-- `calc_cell_grid()` with the result of every operation on doubles rounded by `fl`;
the control flow is that of `calc_cell_grid`.  With `fl` the identity this is the
reading in exact arithmetic. -/
def calc_cell_grid_fl (fl : ℚ → ℚ) (local_box_l : Vec3 ℚ) (max_range max_cut : ℚ)
    (max_num_cells : Int) (old_cell_size : Vec3 ℚ) : Option Grid :=
  let gcg0 := normal_grid_fl fl local_box_l max_range
  let n0 := grid_cells gcg0
  if n0 > max_num_cells then
    let max_box_l := dmax (dmax local_box_l.x0 local_box_l.x1) local_box_l.x2
    let step := fl (fl (fl (max_box_l / 2) - max_range) / 100)
    if step < 0 then none
    else
      let s := enlarge_loop_fl fl local_box_l step max_num_cells 100
        { count := 100, cell_range := max_range, ghost_cell_grid := gcg0, n_cells := n0 }
      if s.count = 0 then none
      else
        some (finish_grid_fl fl local_box_l max_cut old_cell_size s.ghost_cell_grid s.n_cells)
  else some (finish_grid_fl fl local_box_l max_cut old_cell_size gcg0 n0)

/-- `calc_cell_grid()` in the arithmetic of the C type `double`. -/
def calc_cell_grid_double (local_box_l : Vec3 ℚ) (max_range max_cut : ℚ)
    (max_num_cells : Int) (old_cell_size : Vec3 ℚ) : Option Grid :=
  calc_cell_grid_fl round_double local_box_l max_range max_cut max_num_cells old_cell_size

/-- The double nearest to 11.7. -/
def box_side_11_7 : ℚ := round_double (117 / 10)

/-- The double nearest to 1.3. -/
def range_1_3 : ℚ := round_double (13 / 10)

/-! ## The ghost communication between several processes -/

/-- What a process in the state `st` sends in the turn `s_dir` of the direction loop of
`exchange_ghost` (`send_ghosts`): the array `n_send_ghosts[s_dir]` and the first
`ghost_send_size[s_dir]` records of `g_send_buf`, both as the packing loops of the turn
leave them. -/
def ghost_message (env : GhostComm) (s_dir : Nat) (st : GhostNode) :
    List Int × List ReducedParticle :=
  match fill_ghost_buffers env s_dir st with
  | none => ([], [])
  | some st1 =>
    match (st1.gh.n_send_ghosts s_dir)[(st1.gh.send_cells s_dir).length]? with
    | none => ([], [])
    | some total => (st1.gh.n_send_ghosts s_dir, st1.gh.g_send_buf.take total.toNat)

/-- What a process in the state `st` sends in the turn `s_dir` of the direction loop of
`collect_ghost_forces` (`send_posforce(r_dir, ghost_recv_size[r_dir], ...)`): the first
`3*ghost_recv_size[r_dir]` doubles of `send_buf`, after the forces of the receive cells
of `r_dir` have been written to it. -/
def force_message (s_dir : Nat) (st : GhostNode) : List ℚ :=
  match pack_cells force_entries st.cells (st.gh.recv_cells (opposite s_dir)) with
  | none => []
  | some buf =>
    (overwrite st.gh.send_buf buf).take (3 * st.gh.ghost_recv_size (opposite s_dir)).toNat

/-- The environment of the process `p` in the turn `s_dir` of `exchange_ghost` when the
processes `envs` are in the states `sys`: `send_ghosts(s_dir)` receives from
`node_neighbors[r_dir]` what that process sends in this turn. -/
def exchange_env (envs : Int → GhostComm) (sys : Int → GhostNode) (s_dir : Nat) (p : Int) :
    GhostComm :=
  let q := (envs p).node_neighbors (opposite s_dir)
  { envs p with
    in_counts := fun _ => (ghost_message (envs q) s_dir (sys q)).1
    in_ghosts := fun _ => (ghost_message (envs q) s_dir (sys q)).2 }

/-- The environment of the process `p` in the turn `s_dir` of `collect_ghost_forces`:
`send_posforce(r_dir, ...)` sends to `node_neighbors[r_dir]` and receives from
`node_neighbors[s_dir]` what that process sends in this turn. -/
def collect_env (envs : Int → GhostComm) (sys : Int → GhostNode) (s_dir : Nat) (p : Int) :
    GhostComm :=
  { envs p with
    in_force := fun _ => force_message s_dir (sys ((envs p).node_neighbors s_dir)) }

/-- One turn of a direction loop run by all processes of `procs`: every process takes
its turn on the states that the processes have at the start of the turn; the turn fails
when it fails in one process. -/
def system_turn (turn : (Int → GhostNode) → Int → Option GhostNode) (procs : List Int)
    (sys : Int → GhostNode) : Option (Int → GhostNode) :=
  if procs.all (fun p => (turn sys p).isSome) then
    some fun p => (turn sys p).getD (sys p)
  else none

/-- A direction loop run by all processes of `procs`, turn by turn. -/
def run_system (turn : Nat → (Int → GhostNode) → Int → Option GhostNode) (procs : List Int) :
    List Nat → (Int → GhostNode) → Option (Int → GhostNode)
  | [], sys => some sys
  | s_dir :: rest, sys =>
    match system_turn (turn s_dir) procs sys with
    | none => none
    | some sys1 => run_system turn procs rest sys1

/-- The turn `s_dir` of `exchange_ghost` in the process `p` of a system of processes. -/
def exchange_ghost_turn (envs : Int → GhostComm) (s_dir : Nat) (sys : Int → GhostNode)
    (p : Int) : Option GhostNode :=
  exchange_ghost_dir (exchange_env envs sys s_dir p) s_dir (sys p)

/-- The turn `s_dir` of `collect_ghost_forces` in the process `p` of a system of
processes. -/
def collect_ghost_forces_turn (envs : Int → GhostComm) (s_dir : Nat) (sys : Int → GhostNode)
    (p : Int) : Option GhostNode :=
  collect_ghost_forces_dir (collect_env envs sys s_dir p) s_dir (sys p)

/-- `exchange_ghost()` called by all processes of `procs`. -/
def exchange_ghost_system (envs : Int → GhostComm) (procs : List Int) (sys : Int → GhostNode) :
    Option (Int → GhostNode) :=
  run_system (exchange_ghost_turn envs) procs [0, 1, 2, 3, 4, 5] sys

/-- `collect_ghost_forces()` called by all processes of `procs`. -/
def collect_ghost_forces_system (envs : Int → GhostComm) (procs : List Int)
    (sys : Int → GhostNode) : Option (Int → GhostNode) :=
  run_system (collect_ghost_forces_turn envs) procs [5, 4, 3, 2, 1, 0] sys

/-- The processes of `procs` form a closed arrangement: every process knows its own
number, its neighbors are processes of `procs`, and it is the neighbor of its neighbor
in the opposite direction. -/
def neighbors_ok (envs : Int → GhostComm) (procs : List Int) : Prop :=
  ∀ p ∈ procs, (envs p).this_node = p ∧
    ∀ s, s < 6 → (envs p).node_neighbors s ∈ procs ∧
      (envs ((envs p).node_neighbors s)).node_neighbors (opposite s) = p

/-- The send cells of the process `p` in the direction `s`, each paired with the cell
of the neighbor in that direction that takes up its ghosts: the cell
`send_cells[s].e[k]` of `p` with the cell `recv_cells[opposite(s)].e[k]` of
`node_neighbors[s]`. -/
def system_pairs (envs : Int → GhostComm) (sys : Int → GhostNode) (s : Nat) (p : Int) :
    List (Int × (Int × Int)) :=
  let q := (envs p).node_neighbors s
  (((sys p).gh.send_cells s).zip ((sys q).gh.recv_cells (opposite s))).map
    fun x => (x.1, (q, x.2))

/-- The cells, each with its process, that hold ghost replicas of the particles of the
cell `c` of the process `p` after the directions `dirs` of `exchange_ghost`, given in
the order of the exchange: for the first direction `s` of `dirs` the cell of the
neighbor that receives `c` in direction `s` and the replicas of that cell made by the
later directions, and the replicas of `c` itself made by the later directions. -/
def system_replicas (envs : Int → GhostComm) (sys : Int → GhostNode) :
    List Nat → Int × Int → List (Int × Int)
  | [], _ => []
  | s :: later, pc =>
    system_replicas envs sys later pc ++
      (system_pairs envs sys s pc.1).flatMap fun x =>
        if x.1 = pc.2 then x.2 :: system_replicas envs sys later x.2 else []

/-- The states `sysf` are the states `sys` with other forces on the particles, real and
ghost, of every process; the sizes of the ghost exchange are as they were. -/
def forces_assigned_all (procs : List Int) (sys sysf : Int → GhostNode) : Prop :=
  ∀ p ∈ procs, forces_assigned (sys p) (sysf p) ∧
    (sysf p).gh.ghost_send_size = (sys p).gh.ghost_send_size ∧
    (sysf p).gh.ghost_recv_size = (sys p).gh.ghost_recv_size

/-- The ghost layer of a system of processes fits in the direction `s`: the send list
of every process is as long as the receive list of its neighbor, the lists hold indices
of cells, every send cell holds as many particles as the cell of the neighbor paired
with it, and `ghost_send_size[s]` and `ghost_recv_size[opposite(s)]` are the numbers of
particles in the send cells and in the receive cells. -/
structure ghost_layer_ok (envs : Int → GhostComm) (procs : List Int) (sys : Int → GhostNode)
    (s : Nat) : Prop where
  lists : ∀ p ∈ procs,
    ((sys ((envs p).node_neighbors s)).gh.recv_cells (opposite s)).length =
      ((sys p).gh.send_cells s).length
  send_ok : ∀ p ∈ procs, indices_ok (sys p).cells ((sys p).gh.send_cells s)
  recv_ok : ∀ p ∈ procs, indices_ok (sys p).cells ((sys p).gh.recv_cells (opposite s))
  counts : ∀ p ∈ procs,
    ∀ x ∈ ((sys p).gh.send_cells s).zip
        ((sys ((envs p).node_neighbors s)).gh.recv_cells (opposite s)),
      cell_count (sys p).cells x.1 = cell_count (sys ((envs p).node_neighbors s)).cells x.2
  send_size : ∀ p ∈ procs,
    (sys p).gh.ghost_send_size s = (ghost_total (sys p).cells ((sys p).gh.send_cells s) : Int)
  recv_size : ∀ p ∈ procs,
    (sys p).gh.ghost_recv_size (opposite s) =
      (ghost_total (sys p).cells ((sys p).gh.recv_cells (opposite s)) : Int)

/-! ## Two processes side by side -/

/-- Two processes 0 and 1 side by side on the x axis of the periodic box of side 10:
each is the neighbor of the other in both x directions and its own neighbor in the y
and z directions.  A ghost that crosses the boundary of the box is shifted by the box
length: in x this is the ghost that process 0 sends downwards or process 1 upwards. -/
def pair_env (p : Int) : GhostComm :=
  { this_node := p
    node_neighbors := fun s => if s < 2 then 1 - p else p
    node_pos := ⟨p, 0, 0⟩
    boundary := fun d =>
      if d = 0 then (if p = 0 then 1 else 0)
      else if d = 1 then (if p = 1 then -1 else 0)
      else if d % 2 = 0 then 1 else -1
    box_l := ⟨10, 10, 10⟩
    in_counts := fun _ => [], in_ghosts := fun _ => [], in_pos := fun _ => []
    in_force := fun _ => [] }

/-- The states of the two processes before `exchange_ghost`: each has the grid of one
inner cell, index 13 of 3 x 3 x 3, and the cell lists of `ghost_init`; the inner cell
of process 0 holds the particles 0 and 1, that of process 1 the particle 2, and all
halo cells are empty. -/
def pair_node (p : Int) : GhostNode :=
  { cells := (empty_cells 27).set 13
      (if p = 0 then
        { part := [ghost_test_particle 0 1 ⟨1, 2, 3⟩ ⟨1, 0, 0⟩,
                   ghost_test_particle 1 2 ⟨4, 8, 7⟩ ⟨0, 1, 0⟩], n := 2 }
      else { part := [ghost_test_particle 2 1 ⟨6, 5, 5⟩ ⟨0, 0, 1⟩], n := 1 })
    local_particles := fun k =>
      if p = 0 then (if k = 0 then some ⟨13, 0⟩ else if k = 1 then some ⟨13, 1⟩ else none)
      else if k = 2 then some ⟨13, 0⟩ else none
    gh := ghost_init left_grid
    ghost_log := [] }

/-- The state `st` with the force `f x` on every particle `x`, real or ghost. -/
def assign_forces (f : Particle → Vec3 ℚ) (st : GhostNode) : GhostNode :=
  { st with
    cells := st.cells.map fun pl => { pl with part := pl.part.map fun x => { x with f := f x } } }

/-- A force that differs from particle to particle and is not zero. -/
def test_force (x : Particle) : Vec3 ℚ := ⟨(x.identity : ℚ) + 1, 2, -3⟩

/-! ## Auxiliary facts -/

theorem toInt_of_nonneg {q : ℚ} (h : 0 ≤ q) : toInt q = ⌊q⌋ := by
  simp [toInt, h]

theorem raw_cpos_range {pos my_left l : ℚ} {cg : Int} (hcg : 1 ≤ cg)
    (hlo : my_left ≤ pos) (hhi : pos < my_left + l) :
    1 ≤ raw_cpos pos my_left (1 / (l / (cg : ℚ))) ∧
      raw_cpos pos my_left (1 / (l / (cg : ℚ))) ≤ cg := by
  have hcgq : (0 : ℚ) < (cg : ℚ) := by exact_mod_cast (by omega : (0 : Int) < cg)
  have hl : 0 < l := by linarith
  have hd : 0 ≤ pos - my_left := by linarith
  have hinv : 1 / (l / (cg : ℚ)) = (cg : ℚ) / l := by
    field_simp
  have hq0 : 0 ≤ (pos - my_left) * ((cg : ℚ) / l) := by positivity
  have hq1 : (pos - my_left) * ((cg : ℚ) / l) < (cg : ℚ) := by
    have : (pos - my_left) * ((cg : ℚ) / l) = (cg : ℚ) * ((pos - my_left) / l) := by ring
    rw [this]
    have h1 : (pos - my_left) / l < 1 := by
      rw [div_lt_one hl]; linarith
    nlinarith
  unfold raw_cpos
  rw [hinv, toInt_of_nonneg hq0]
  constructor
  · have := Int.floor_nonneg.mpr hq0
    omega
  · have : ⌊(pos - my_left) * ((cg : ℚ) / l)⌋ < cg := by
      rw [Int.floor_lt]; exact hq1
    omega

theorem get_grid_pos_linear {a b c : Int} {gcg : Vec3 Int}
    (ha : 0 ≤ a) (ha1 : a < gcg.x0) (hb : 0 ≤ b) (hb1 : b < gcg.x1) (hc : 0 ≤ c) :
    get_grid_pos (get_linear_index a b c gcg) gcg = { x0 := a, x1 := b, x2 := c } := by
  have hg0 : 0 < gcg.x0 := by omega
  have hg1 : 0 < gcg.x1 := by omega
  have hbc : 0 ≤ b + gcg.x1 * c := by positivity
  have hi : 0 ≤ a + gcg.x0 * (b + gcg.x1 * c) := by positivity
  have e1 : (a + gcg.x0 * (b + gcg.x1 * c)) / gcg.x0 = b + gcg.x1 * c := by
    rw [Int.add_mul_ediv_left _ _ (by omega), Int.ediv_eq_zero_of_lt ha ha1]; simp
  have e2 : (a + gcg.x0 * (b + gcg.x1 * c)) % gcg.x0 = a := by
    rw [Int.add_mul_emod_self_left, Int.emod_eq_of_lt ha ha1]
  have e3 : (b + gcg.x1 * c) / gcg.x1 = c := by
    rw [Int.add_mul_ediv_left _ _ (by omega), Int.ediv_eq_zero_of_lt hb hb1]; simp
  have e4 : (b + gcg.x1 * c) % gcg.x1 = b := by
    rw [Int.add_mul_emod_self_left, Int.emod_eq_of_lt hb hb1]
  unfold get_grid_pos get_linear_index
  rw [Int.tmod_eq_emod hi hg0.le, Int.tdiv_eq_ediv hi hg0.le, e1, e2,
    Int.tmod_eq_emod hbc hg1.le, Int.tdiv_eq_ediv hbc hg1.le, e3, e4]

/-- A cell whose three grid coordinates lie in `1 .. gcg[i]-2` is an inner cell. -/
theorem is_inner_cell_linear {a b c : Int} {gcg : Vec3 Int}
    (ha : 1 ≤ a ∧ a ≤ gcg.x0 - 2) (hb : 1 ≤ b ∧ b ≤ gcg.x1 - 2)
    (hc : 1 ≤ c ∧ c ≤ gcg.x2 - 2) :
    is_inner_cell (get_linear_index a b c gcg) gcg = true := by
  unfold is_inner_cell
  rw [get_grid_pos_linear (by omega) (by omega) (by omega) (by omega) (by omega)]
  simp
  omega

/-- In range, neither the clamp of `PARTIAL_PERIODIC` nor the check of
`ADDITIONAL_CHECKS` changes the coordinate. -/
theorem cpos_axis_in_range (cfg : Config) (periodic cg : Int) (pos my_left inv : ℚ)
    (h : 1 ≤ raw_cpos pos my_left inv ∧ raw_cpos pos my_left inv ≤ cg) :
    cpos_axis cfg periodic cg pos my_left inv = some (raw_cpos pos my_left inv) := by
  obtain ⟨h1, h2⟩ := h
  have n1 : ¬ raw_cpos pos my_left inv < 1 := by omega
  have n2 : ¬ raw_cpos pos my_left inv > cg := by omega
  unfold cpos_axis
  simp only [n1, n2, if_false, ite_self, decide_False, Bool.or_self, Bool.and_false]
  simp

/-- C3 (cell coverage): for a grid with at least one inner cell per axis and
`cell_size = local_box_l / cell_grid`, and a position inside the local box,
`pos_to_cell_grid_ind` returns (without error, whatever the compile-time switches) the
linear index of a cell whose three coordinates lie in `1 .. cell_grid[i]`, and
`is_inner_cell` holds for that index. -/
theorem pos_to_cell_grid_ind_inner (cfg : Config) (dom : Domain) (g : Grid)
    (local_box_l pos : Vec3 ℚ) (hg : grid_for_box local_box_l g)
    (hp : in_local_box dom local_box_l pos) :
    ∃ c0 c1 c2 : Int,
      pos_to_cell_grid_ind cfg dom g pos = some (get_linear_index c0 c1 c2 g.ghost_cell_grid) ∧
      (1 ≤ c0 ∧ c0 ≤ g.cell_grid.x0) ∧ (1 ≤ c1 ∧ c1 ≤ g.cell_grid.x1) ∧
      (1 ≤ c2 ∧ c2 ≤ g.cell_grid.x2) ∧
      is_inner_cell (get_linear_index c0 c1 c2 g.ghost_cell_grid) g.ghost_cell_grid = true := by
  obtain ⟨⟨hc0, hc1, hc2⟩, ⟨hg0, hg1, hg2⟩, ⟨hs0, hs1, hs2⟩, ⟨hi0, hi1, hi2⟩⟩ := hg
  obtain ⟨⟨hl0, hr0⟩, ⟨hl1, hr1⟩, ⟨hl2, hr2⟩⟩ := hp
  have r0 := raw_cpos_range hc0 hl0 hr0
  have r1 := raw_cpos_range hc1 hl1 hr1
  have r2 := raw_cpos_range hc2 hl2 hr2
  rw [← hs0, ← hi0] at r0
  rw [← hs1, ← hi1] at r1
  rw [← hs2, ← hi2] at r2
  refine ⟨_, _, _, ?_, r0, r1, r2, ?_⟩
  · unfold pos_to_cell_grid_ind
    rw [cpos_axis_in_range cfg _ _ _ _ _ r0, cpos_axis_in_range cfg _ _ _ _ _ r1,
      cpos_axis_in_range cfg _ _ _ _ _ r2]
  · exact is_inner_cell_linear (by omega) (by omega) (by omega)


/-! ## `calc_cell_grid` -/

/-- The loop keeps `n_cells` equal to the product of the ghost grid, and when entered
with `count >= 1` it ends either with `count = 0` or with a cell count within the
budget. -/
theorem enlarge_loop_budget (local_box_l : Vec3 ℚ) (step : ℚ) (max_num_cells : Int) :
    ∀ (c : Nat) (s : LoopState), s.n_cells = grid_cells s.ghost_cell_grid →
      (enlarge_loop local_box_l step max_num_cells c s).n_cells =
          grid_cells (enlarge_loop local_box_l step max_num_cells c s).ghost_cell_grid ∧
        (1 ≤ c → (enlarge_loop local_box_l step max_num_cells c s).count = 0 ∨
          (enlarge_loop local_box_l step max_num_cells c s).n_cells ≤ max_num_cells) := by
  intro c
  induction c with
  | zero =>
    intro s hs
    unfold enlarge_loop
    split <;> simp [hs]
  | succ c ih =>
    intro s hs
    unfold enlarge_loop
    by_cases h : s.n_cells > max_num_cells
    · by_cases hc : c > 0
      · simp only [h, hc, if_true]
        have := ih { count := (c : Int), cell_range := s.cell_range + step,
                     ghost_cell_grid := trial_grid local_box_l (s.cell_range + step),
                     n_cells := grid_cells (trial_grid local_box_l (s.cell_range + step)) } rfl
        exact ⟨this.1, fun _ => this.2 hc⟩
      · simp only [h, hc, if_true, if_false]
        exact ⟨hs, fun _ => Or.inl (by simpa using hc)⟩
    · simp only [h, if_false]
      exact ⟨hs, fun _ => Or.inr (by omega)⟩

theorem finish_grid_fields (local_box_l : Vec3 ℚ) (max_cut : ℚ) (old : Vec3 ℚ)
    (gcg : Vec3 Int) (n : Int) :
    (finish_grid local_box_l max_cut old gcg n).ghost_cell_grid = gcg ∧
    (finish_grid local_box_l max_cut old gcg n).n_cells = n ∧
    (finish_grid local_box_l max_cut old gcg n).cell_grid =
      { x0 := gcg.x0 - 2, x1 := gcg.x1 - 2, x2 := gcg.x2 - 2 } ∧
    (finish_grid local_box_l max_cut old gcg n).cell_size =
      { x0 := local_box_l.x0 / ((gcg.x0 - 2 : Int) : ℚ)
        x1 := local_box_l.x1 / ((gcg.x1 - 2 : Int) : ℚ)
        x2 := local_box_l.x2 / ((gcg.x2 - 2 : Int) : ℚ) } := by
  simp [finish_grid]

/-- Every successful return of `calc_cell_grid` is `finish_grid` applied to a ghost
grid whose cell count is its product and fits the budget. -/
theorem calc_cell_grid_some {local_box_l : Vec3 ℚ} {max_range max_cut : ℚ}
    {max_num_cells : Int} {old : Vec3 ℚ} {g : Grid}
    (h : calc_cell_grid local_box_l max_range max_cut max_num_cells old = some g) :
    ∃ gcg : Vec3 Int, g = finish_grid local_box_l max_cut old gcg (grid_cells gcg) ∧
      grid_cells gcg ≤ max_num_cells := by
  unfold calc_cell_grid at h
  simp only at h
  split at h
  · split at h
    · exact absurd h (by simp)
    · split at h
      · exact absurd h (by simp)
      · rename_i hcount
        have hb := enlarge_loop_budget local_box_l
          ((dmax (dmax local_box_l.x0 local_box_l.x1) local_box_l.x2 / 2 - max_range) / 100)
          max_num_cells 100
          { count := 100, cell_range := max_range,
            ghost_cell_grid := normal_grid local_box_l max_range,
            n_cells := grid_cells (normal_grid local_box_l max_range) } rfl
        obtain ⟨h1, h2⟩ := hb
        rcases h2 (by norm_num) with h0 | hle
        · exact absurd h0 hcount
        · generalize enlarge_loop local_box_l
            ((dmax (dmax local_box_l.x0 local_box_l.x1) local_box_l.x2 / 2 - max_range) / 100)
            max_num_cells 100
            { count := 100, cell_range := max_range,
              ghost_cell_grid := normal_grid local_box_l max_range,
              n_cells := grid_cells (normal_grid local_box_l max_range) } = r at h h1 hle
          refine ⟨r.ghost_cell_grid, ?_, ?_⟩
          · rw [← h1]; exact (Option.some.inj h).symm
          · rw [← h1]; exact hle
  · rename_i hn
    exact ⟨_, (Option.some.inj h).symm, by omega⟩

/-- C5 (cell-count budget): whenever `calc_cell_grid` returns a grid, `n_cells` is the
product of the three ghost-grid dimensions, `cell_grid[i] = ghost_cell_grid[i] - 2` on
every axis, and `n_cells <= max_num_cells`. -/
theorem calc_cell_grid_budget (local_box_l : Vec3 ℚ) (max_range max_cut : ℚ)
    (max_num_cells : Int) (old : Vec3 ℚ) (g : Grid)
    (h : calc_cell_grid local_box_l max_range max_cut max_num_cells old = some g) :
    g.n_cells = g.ghost_cell_grid.x0 * g.ghost_cell_grid.x1 * g.ghost_cell_grid.x2 ∧
    (g.cell_grid.x0 = g.ghost_cell_grid.x0 - 2 ∧ g.cell_grid.x1 = g.ghost_cell_grid.x1 - 2 ∧
      g.cell_grid.x2 = g.ghost_cell_grid.x2 - 2) ∧
    g.n_cells ≤ max_num_cells := by
  obtain ⟨gcg, rfl, hle⟩ := calc_cell_grid_some h
  obtain ⟨e1, e2, e3, -⟩ := finish_grid_fields local_box_l max_cut old gcg (grid_cells gcg)
  rw [e1, e2, e3]
  refine ⟨by simp [grid_cells], ⟨rfl, rfl, rfl⟩, hle⟩


theorem axis_fits_cell_size {l max_range : ℚ} {gc : Int} (h : axis_fits l max_range gc) :
    max_range ≤ l / ((gc - 2 : Int) : ℚ) := by
  obtain ⟨h3, hle⟩ := h
  have hpos : (0 : ℚ) < ((gc - 2 : Int) : ℚ) := by exact_mod_cast (by omega : (0 : Int) < gc - 2)
  rw [le_div_iff₀ hpos]
  linarith

theorem normal_axis_fits {l max_range : ℚ} (hr : 0 < max_range) (hl : max_range ≤ l) :
    axis_fits l max_range (toInt (l / max_range) + 2) := by
  have hq : 0 ≤ l / max_range := div_nonneg (by linarith) hr.le
  have h1 : (1 : ℚ) ≤ l / max_range := by rw [le_div_iff₀ hr]; linarith
  have hf : 1 ≤ ⌊l / max_range⌋ := by rw [Int.le_floor]; exact_mod_cast h1
  rw [toInt_of_nonneg hq]
  refine ⟨by omega, ?_⟩
  have e : ((⌊l / max_range⌋ + 2 - 2 : Int) : ℚ) = ((⌊l / max_range⌋ : Int) : ℚ) := by
    congr 1; omega
  rw [e]
  have := Int.floor_le (l / max_range)
  calc ((⌊l / max_range⌋ : Int) : ℚ) * max_range ≤ l / max_range * max_range := by
        exact mul_le_mul_of_nonneg_right this hr.le
    _ = l := by field_simp

theorem trial_axis_fits {l max_range cell_range : ℚ} (hr : 0 < max_range)
    (hl : max_range ≤ l) (hc : max_range ≤ cell_range) :
    axis_fits l max_range (trial_axis l cell_range) := by
  have hcr : 0 < cell_range := by linarith
  have hq : 0 ≤ l / cell_range := div_nonneg (by linarith) hcr.le
  unfold trial_axis
  simp only
  rw [toInt_of_nonneg hq]
  split
  · refine ⟨by omega, ?_⟩
    norm_num
    exact hl
  · rename_i hgt
    refine ⟨by omega, ?_⟩
    have e : ((⌊l / cell_range⌋ + 2 - 2 : Int) : ℚ) = ((⌊l / cell_range⌋ : Int) : ℚ) := by
      congr 1; omega
    rw [e]
    have hfl := Int.floor_le (l / cell_range)
    have hfpos : (0 : ℚ) ≤ ((⌊l / cell_range⌋ : Int) : ℚ) := by
      exact_mod_cast (by omega : (0 : Int) ≤ ⌊l / cell_range⌋)
    calc ((⌊l / cell_range⌋ : Int) : ℚ) * max_range
        ≤ ((⌊l / cell_range⌋ : Int) : ℚ) * cell_range := by
          exact mul_le_mul_of_nonneg_left hc hfpos
      _ ≤ l / cell_range * cell_range := by
          exact mul_le_mul_of_nonneg_right hfl hcr.le
      _ = l := by field_simp

/-- With a non-negative step the range used by the loop never drops below `max_range`,
so every grid it computes satisfies `grid_fits`. -/
theorem enlarge_loop_fits (local_box_l : Vec3 ℚ) (max_range step : ℚ) (max_num_cells : Int)
    (hr : 0 < max_range)
    (hbox : max_range ≤ local_box_l.x0 ∧ max_range ≤ local_box_l.x1 ∧
      max_range ≤ local_box_l.x2)
    (hstep : 0 ≤ step) :
    ∀ (c : Nat) (s : LoopState), max_range ≤ s.cell_range →
      grid_fits local_box_l max_range s.ghost_cell_grid →
      grid_fits local_box_l max_range
        (enlarge_loop local_box_l step max_num_cells c s).ghost_cell_grid := by
  intro c
  induction c with
  | zero =>
    intro s _ hs
    unfold enlarge_loop
    split <;> exact hs
  | succ c ih =>
    intro s hcr hs
    unfold enlarge_loop
    by_cases h : s.n_cells > max_num_cells
    · by_cases hc : c > 0
      · simp only [h, hc, if_true]
        have hcr2 : max_range ≤ s.cell_range + step := by linarith
        exact ih _ hcr2 ⟨trial_axis_fits hr hbox.1 hcr2, trial_axis_fits hr hbox.2.1 hcr2,
          trial_axis_fits hr hbox.2.2 hcr2⟩
      · simp only [h, hc, if_true, if_false]
        exact hs
    · simp only [h, if_false]
      exact hs

/-- C7, as amended: in exact arithmetic, for a local box with
`local_box_l[i] >= max_range > 0` on all axes, whenever `calc_cell_grid` returns a grid,
`cell_size[i] = local_box_l[i]/cell_grid[i]` and `cell_size[i] >= max_range` on every
axis, in the normal case as well as after the range has been enlarged. -/
theorem calc_cell_grid_cell_size (local_box_l : Vec3 ℚ) (max_range max_cut : ℚ)
    (max_num_cells : Int) (old : Vec3 ℚ) (g : Grid)
    (hr : 0 < max_range)
    (hbox : max_range ≤ local_box_l.x0 ∧ max_range ≤ local_box_l.x1 ∧
      max_range ≤ local_box_l.x2)
    (h : calc_cell_grid local_box_l max_range max_cut max_num_cells old = some g) :
    (g.cell_size.x0 = local_box_l.x0 / (g.cell_grid.x0 : ℚ) ∧
      g.cell_size.x1 = local_box_l.x1 / (g.cell_grid.x1 : ℚ) ∧
      g.cell_size.x2 = local_box_l.x2 / (g.cell_grid.x2 : ℚ)) ∧
    (max_range ≤ g.cell_size.x0 ∧ max_range ≤ g.cell_size.x1 ∧ max_range ≤ g.cell_size.x2) := by
  have hn : grid_fits local_box_l max_range (normal_grid local_box_l max_range) :=
    ⟨normal_axis_fits hr hbox.1, normal_axis_fits hr hbox.2.1, normal_axis_fits hr hbox.2.2⟩
  have key : ∃ gcg n, g = finish_grid local_box_l max_cut old gcg n ∧
      grid_fits local_box_l max_range gcg := by
    unfold calc_cell_grid at h
    simp only at h
    split at h
    · split at h
      · exact absurd h (by simp)
      · rename_i hstep
        split at h
        · exact absurd h (by simp)
        · exact ⟨_, _, (Option.some.inj h).symm,
            enlarge_loop_fits local_box_l max_range _ max_num_cells hr hbox (by linarith) 100
              _ le_rfl hn⟩
    · exact ⟨_, _, (Option.some.inj h).symm, hn⟩
  obtain ⟨gcg, n, rfl, f0, f1, f2⟩ := key
  refine ⟨⟨rfl, rfl, rfl⟩, ?_, ?_, ?_⟩
  · exact axis_fits_cell_size f0
  · exact axis_fits_cell_size f1
  · exact axis_fits_cell_size f2


/-! ## The trials of the enlargement loop -/

/-- Entered with `count = c + 1` after `j` enlargements and a cell count over the
budget, the loop tries the ranges `j + 1, ..., j + c` in order, and it ends with
`count = 0` exactly when none of these `c` ranges fits. -/
theorem enlarge_loop_fails_iff (local_box_l : Vec3 ℚ) (max_range step : ℚ)
    (max_num_cells : Int) :
    ∀ (c j : Nat) (s : LoopState), s.cell_range = max_range + (j : ℚ) * step →
      s.n_cells > max_num_cells →
      ((enlarge_loop local_box_l step max_num_cells (c + 1) s).count = 0 ↔
        ∀ k : Nat, 1 ≤ k → k ≤ c →
          trial_cells local_box_l max_range step (j + k) > max_num_cells) := by
  intro c
  induction c with
  | zero =>
    intro j s _ hn
    unfold enlarge_loop
    simp only [hn, if_true, lt_irrefl, if_false, Nat.cast_zero]
    constructor
    · intro _ k h1 h2; omega
    · intro _; trivial
  | succ c ih =>
    intro j s hr hn
    have hr2 : s.cell_range + step = max_range + ((j + 1 : Nat) : ℚ) * step := by
      rw [hr]; push_cast; ring
    unfold enlarge_loop
    simp only [hn, if_true, Nat.succ_pos, gt_iff_lt]
    by_cases hfit : grid_cells (trial_grid local_box_l (s.cell_range + step)) > max_num_cells
    · have h := ih (j + 1)
        { count := ((c + 1 : Nat) : Int), cell_range := s.cell_range + step,
          ghost_cell_grid := trial_grid local_box_l (s.cell_range + step),
          n_cells := grid_cells (trial_grid local_box_l (s.cell_range + step)) } hr2 hfit
      rw [h]
      constructor
      · intro hall k h1 h2
        rcases Nat.eq_or_lt_of_le h1 with h1e | h1l
        · subst h1e
          unfold trial_cells
          rw [← hr2]
          exact hfit
        · have := hall (k - 1) (by omega) (by omega)
          have e : j + 1 + (k - 1) = j + k := by omega
          rw [e] at this
          exact this
      · intro hall k h1 h2
        have := hall (k + 1) (by omega) (by omega)
        have e : j + (k + 1) = j + 1 + k := by omega
        rw [e] at this
        exact this
    · have hstop : enlarge_loop local_box_l step max_num_cells (c + 1)
          { count := ((c + 1 : Nat) : Int), cell_range := s.cell_range + step,
            ghost_cell_grid := trial_grid local_box_l (s.cell_range + step),
            n_cells := grid_cells (trial_grid local_box_l (s.cell_range + step)) } =
          { count := ((c + 1 : Nat) : Int), cell_range := s.cell_range + step,
            ghost_cell_grid := trial_grid local_box_l (s.cell_range + step),
            n_cells := grid_cells (trial_grid local_box_l (s.cell_range + step)) } := by
        unfold enlarge_loop
        simp only [hfit, if_false]
      rw [hstop]
      constructor
      · intro h0
        simp only at h0
        omega
      · intro hall
        have := hall 1 (by omega) (by omega)
        unfold trial_cells at this
        rw [← hr2] at this
        exact absurd this hfit

/-- `calc_cell_grid` fails exactly when the cell count of the normal case exceeds the
budget and either the step is negative or none of the 99 enlarged ranges
`max_range + k * step`, `k = 1, ..., 99`, fits. -/
theorem calc_cell_grid_fatal_iff (local_box_l : Vec3 ℚ) (max_range max_cut : ℚ)
    (max_num_cells : Int) (old : Vec3 ℚ) :
    calc_cell_grid local_box_l max_range max_cut max_num_cells old = none ↔
      grid_cells (normal_grid local_box_l max_range) > max_num_cells ∧
      ((dmax (dmax local_box_l.x0 local_box_l.x1) local_box_l.x2 / 2 - max_range) / 100 < 0 ∨
        ∀ k : Nat, 1 ≤ k → k ≤ 99 →
          trial_cells local_box_l max_range
            ((dmax (dmax local_box_l.x0 local_box_l.x1) local_box_l.x2 / 2 - max_range) / 100)
            k > max_num_cells) := by
  unfold calc_cell_grid
  simp only
  by_cases hn : grid_cells (normal_grid local_box_l max_range) > max_num_cells
  · simp only [hn, if_true, true_and]
    by_cases hs : (dmax (dmax local_box_l.x0 local_box_l.x1) local_box_l.x2 / 2 - max_range) /
        100 < 0
    · simp [hs]
    · simp only [hs, if_false, false_or]
      have h := enlarge_loop_fails_iff local_box_l max_range
        ((dmax (dmax local_box_l.x0 local_box_l.x1) local_box_l.x2 / 2 - max_range) / 100)
        max_num_cells 99 0
        { count := 100, cell_range := max_range,
          ghost_cell_grid := normal_grid local_box_l max_range,
          n_cells := grid_cells (normal_grid local_box_l max_range) } (by simp) hn
      simp only [Nat.zero_add] at h
      rw [← h]
      split <;> simp_all
  · simp [hn]


/-! ## `init_cell_neighbors` -/

/-- The linear index of the grid position of `i` is `i` again. -/
theorem linear_grid_pos (i : Int) (gcg : Vec3 Int) :
    get_linear_index (get_grid_pos i gcg).x0 (get_grid_pos i gcg).x1 (get_grid_pos i gcg).x2
      gcg = i := by
  unfold get_linear_index get_grid_pos
  simp only
  rw [Int.tmod_add_tdiv, Int.tmod_add_tdiv]

theorem offset_nonneg_iff {gcg : Vec3 Int} (h0 : 3 ≤ gcg.x0) (h1 : 3 ≤ gcg.x1)
    {m n o : Int} (hm : m = -1 ∨ m = 0 ∨ m = 1) (hn : n = -1 ∨ n = 0 ∨ n = 1)
    (ho : o = -1 ∨ o = 0 ∨ o = 1) :
    0 ≤ offset gcg m n o ↔ upper_half m n o = true := by
  have hP : 3 * gcg.x0 ≤ gcg.x0 * gcg.x1 := by nlinarith
  unfold offset upper_half
  rcases hm with rfl | rfl | rfl <;> rcases hn with rfl | rfl | rfl <;>
    rcases ho with rfl | rfl | rfl <;> simp <;> nlinarith

theorem neighbor_entry_eq {gcg : Vec3 Int} (h0 : 3 ≤ gcg.x0) (h1 : 3 ≤ gcg.x1) (i : Int)
    {m n o : Int} (hm : m = -1 ∨ m = 0 ∨ m = 1) (hn : n = -1 ∨ n = 0 ∨ n = 1)
    (ho : o = -1 ∨ o = 0 ∨ o = 1) :
    neighbor_entry i (get_grid_pos i gcg) gcg m n o =
      if upper_half m n o then [i + offset gcg m n o] else [] := by
  have hj : get_linear_index ((get_grid_pos i gcg).x0 + o) ((get_grid_pos i gcg).x1 + n)
      ((get_grid_pos i gcg).x2 + m) gcg = i + offset gcg m n o := by
    have := linear_grid_pos i gcg
    unfold get_linear_index at this ⊢
    unfold offset
    linear_combination this
  unfold neighbor_entry
  simp only [hj]
  have := offset_nonneg_iff h0 h1 hm hn ho
  by_cases hu : upper_half m n o = true
  · have : 0 ≤ offset gcg m n o := this.mpr hu
    simp [hu, this]
  · have : ¬ 0 ≤ offset gcg m n o := fun h => hu (this.mp h)
    simp [hu, this]

/-- The neighbor list of an inner cell, entry by entry in the order written. -/
theorem neighbor_loop_eq {gcg : Vec3 Int} (h0 : 3 ≤ gcg.x0) (h1 : 3 ≤ gcg.x1) (i : Int) :
    neighbor_loop i (get_grid_pos i gcg) gcg =
      [i + offset gcg 0 0 0, i + offset gcg 0 0 1,
       i + offset gcg 0 1 (-1), i + offset gcg 0 1 0, i + offset gcg 0 1 1,
       i + offset gcg 1 (-1) (-1), i + offset gcg 1 (-1) 0, i + offset gcg 1 (-1) 1,
       i + offset gcg 1 0 (-1), i + offset gcg 1 0 0, i + offset gcg 1 0 1,
       i + offset gcg 1 1 (-1), i + offset gcg 1 1 0, i + offset gcg 1 1 1] := by
  unfold neighbor_loop
  simp only [List.flatMap_cons, List.flatMap_nil, List.append_nil]
  simp (disch := decide) only [neighbor_entry_eq h0 h1 i]
  simp [upper_half]


theorem offset_inj {gcg : Vec3 Int} (h0 : 3 ≤ gcg.x0) (h1 : 3 ≤ gcg.x1)
    {m n o m' n' o' : Int} (hm : m = -1 ∨ m = 0 ∨ m = 1) (hn : n = -1 ∨ n = 0 ∨ n = 1)
    (ho : o = -1 ∨ o = 0 ∨ o = 1) (hm' : m' = -1 ∨ m' = 0 ∨ m' = 1)
    (hn' : n' = -1 ∨ n' = 0 ∨ n' = 1) (ho' : o' = -1 ∨ o' = 0 ∨ o' = 1) (i : Int) :
    i + offset gcg m' n' o' = i + offset gcg m n o ↔ (m' = m ∧ n' = n ∧ o' = o) := by
  constructor
  · intro h
    unfold offset at h
    have bm : -1 ≤ m ∧ m ≤ 1 := by omega
    have bn : -1 ≤ n ∧ n ≤ 1 := by omega
    have bo : -1 ≤ o ∧ o ≤ 1 := by omega
    have bm' : -1 ≤ m' ∧ m' ≤ 1 := by omega
    have bn' : -1 ≤ n' ∧ n' ≤ 1 := by omega
    have bo' : -1 ≤ o' ∧ o' ≤ 1 := by omega
    have e : (o' - o) + gcg.x0 * ((n' - n) + gcg.x1 * (m' - m)) = 0 := by linarith
    have hk : (n' - n) + gcg.x1 * (m' - m) = 0 := by
      by_contra hne
      rcases lt_or_gt_of_ne hne with hlt | hgt
      · have : gcg.x0 * ((n' - n) + gcg.x1 * (m' - m)) ≤ gcg.x0 * (-1) :=
          mul_le_mul_of_nonneg_left (by omega) (by omega)
        omega
      · have : gcg.x0 * 1 ≤ gcg.x0 * ((n' - n) + gcg.x1 * (m' - m)) :=
          mul_le_mul_of_nonneg_left (by omega) (by omega)
        omega
    have ho2 : o' = o := by
      rw [hk] at e
      omega
    have hm2 : m' - m = 0 := by
      by_contra hne
      rcases lt_or_gt_of_ne hne with hlt | hgt
      · have : gcg.x1 * (m' - m) ≤ gcg.x1 * (-1) :=
          mul_le_mul_of_nonneg_left (by omega) (by omega)
        omega
      · have : gcg.x1 * 1 ≤ gcg.x1 * (m' - m) :=
          mul_le_mul_of_nonneg_left (by omega) (by omega)
        omega
    rw [hm2] at hk
    exact ⟨by omega, by omega, ho2⟩
  · rintro ⟨rfl, rfl, rfl⟩
    rfl

/-- An inner cell lists the neighbor at offsets `(o, n, m)` once if the offsets lie in
the upper half and not at all otherwise. -/
theorem count_neighbor {gcg : Vec3 Int} {i : Int} (hi : is_inner_cell i gcg = true)
    {m n o : Int} (hm : m = -1 ∨ m = 0 ∨ m = 1) (hn : n = -1 ∨ n = 0 ∨ n = 1)
    (ho : o = -1 ∨ o = 0 ∨ o = 1) :
    List.count (i + offset gcg m n o) (init_cell_neighbors i gcg) =
      if upper_half m n o then 1 else 0 := by
  have hi2 := hi
  unfold is_inner_cell at hi2
  simp only [Bool.and_eq_true, decide_eq_true_eq] at hi2
  have hpos0 : (get_grid_pos i gcg).x0 > 0 := hi2.1.1.1.1.1
  have h0 : 3 ≤ gcg.x0 := by omega
  have h1 : 3 ≤ gcg.x1 := by omega
  unfold init_cell_neighbors
  rw [if_pos hi, neighbor_loop_eq h0 h1]
  simp (disch := first | assumption | decide) only [List.count_cons, List.count_nil,
    beq_iff_eq, offset_inj h0 h1 hm hn ho]
  rcases hm with rfl | rfl | rfl <;> rcases hn with rfl | rfl | rfl <;>
    rcases ho with rfl | rfl | rfl <;> simp [upper_half]


/-- C9: `init_cell_neighbors` gives every inner cell a neighbor list of exactly 14
entries, namely the cell itself and the 13 adjacent cells at the offsets of the upper
half, in increasing order of linear index, so `n_neighbors` never exceeds
`CELLS_MAX_NEIGHBORS`; every cell that is not inner gets `n_neighbors = 0`. -/
theorem init_cell_neighbors_count (i : Int) (gcg : Vec3 Int) :
    (is_inner_cell i gcg = true →
      init_cell_neighbors i gcg =
        [i, i + offset gcg 0 0 1,
         i + offset gcg 0 1 (-1), i + offset gcg 0 1 0, i + offset gcg 0 1 1,
         i + offset gcg 1 (-1) (-1), i + offset gcg 1 (-1) 0, i + offset gcg 1 (-1) 1,
         i + offset gcg 1 0 (-1), i + offset gcg 1 0 0, i + offset gcg 1 0 1,
         i + offset gcg 1 1 (-1), i + offset gcg 1 1 0, i + offset gcg 1 1 1] ∧
      (init_cell_neighbors i gcg).Pairwise (fun x y => x < y) ∧
      n_neighbors i gcg = 14) ∧
    (is_inner_cell i gcg = false → n_neighbors i gcg = 0) ∧
    n_neighbors i gcg ≤ CELLS_MAX_NEIGHBORS := by
  by_cases hi : is_inner_cell i gcg = true
  · have hi2 := hi
    unfold is_inner_cell at hi2
    simp only [Bool.and_eq_true, decide_eq_true_eq] at hi2
    have hpos0 : (get_grid_pos i gcg).x0 > 0 := hi2.1.1.1.1.1
    have h0 : 3 ≤ gcg.x0 := by omega
    have h1 : 3 ≤ gcg.x1 := by omega
    have hP : 3 * gcg.x0 ≤ gcg.x0 * gcg.x1 := by nlinarith
    have hl : init_cell_neighbors i gcg =
        [i, i + offset gcg 0 0 1,
         i + offset gcg 0 1 (-1), i + offset gcg 0 1 0, i + offset gcg 0 1 1,
         i + offset gcg 1 (-1) (-1), i + offset gcg 1 (-1) 0, i + offset gcg 1 (-1) 1,
         i + offset gcg 1 0 (-1), i + offset gcg 1 0 0, i + offset gcg 1 0 1,
         i + offset gcg 1 1 (-1), i + offset gcg 1 1 0, i + offset gcg 1 1 1] := by
      unfold init_cell_neighbors
      rw [if_pos hi, neighbor_loop_eq h0 h1]
      simp [offset]
    refine ⟨fun _ => ⟨hl, ?_, ?_⟩, fun h => absurd hi (by simp [h]), ?_⟩
    · rw [hl]
      obtain ⟨P, hPdef⟩ : ∃ P : Int, P = gcg.x0 * gcg.x1 := ⟨_, rfl⟩
      have hoff : ∀ m n o : Int, offset gcg m n o = o + gcg.x0 * n + P * m := by
        intro m n o
        unfold offset
        rw [hPdef]
        ring
      rw [← hPdef] at hP
      simp only [hoff, List.pairwise_cons, List.mem_cons, List.mem_singleton,
        List.not_mem_nil, forall_eq_or_imp, forall_eq, List.Pairwise.nil]
      simp only [false_imp_iff, implies_true, and_true]
      omega
    · unfold n_neighbors; rw [hl]; rfl
    · unfold n_neighbors CELLS_MAX_NEIGHBORS; rw [hl]; exact le_refl 14
  · have hf : is_inner_cell i gcg = false := by simpa using hi
    have : n_neighbors i gcg = 0 := by
      unfold n_neighbors init_cell_neighbors
      simp [hf]
    exact ⟨fun h => absurd h hi, fun _ => this, by rw [this]; decide⟩


/-- The linear indices of two adjacent cells differ by the offset of their grid
coordinates. -/
theorem adjacent_offset {a b : Int} {gcg : Vec3 Int}
    (h : adjacent_or_equal a b gcg = true) :
    ∃ m n o : Int, (m = -1 ∨ m = 0 ∨ m = 1) ∧ (n = -1 ∨ n = 0 ∨ n = 1) ∧
      (o = -1 ∨ o = 0 ∨ o = 1) ∧ b = a + offset gcg m n o ∧
      a = b + offset gcg (-m) (-n) (-o) := by
  unfold adjacent_or_equal at h
  simp only [Bool.and_eq_true, decide_eq_true_eq] at h
  obtain ⟨⟨⟨⟨⟨h1, h2⟩, h3⟩, h4⟩, h5⟩, h6⟩ := h
  have ea := linear_grid_pos a gcg
  have eb := linear_grid_pos b gcg
  unfold get_linear_index at ea eb
  refine ⟨(get_grid_pos b gcg).x2 - (get_grid_pos a gcg).x2,
    (get_grid_pos b gcg).x1 - (get_grid_pos a gcg).x1,
    (get_grid_pos b gcg).x0 - (get_grid_pos a gcg).x0, by omega, by omega, by omega, ?_, ?_⟩
  · unfold offset; linear_combination ea - eb
  · unfold offset; linear_combination eb - ea

/-- C10, as amended: for an inner cell `a` and a cell `b` equal or adjacent to it, the
pair occurs exactly once in the neighbor lists when `b` is an inner cell too; when `b`
is a halo cell it occurs once if the linear index of `b` is greater than that of `a`
and not at all if it is smaller. -/
theorem pair_count_upper_half (a b : Int) (gcg : Vec3 Int)
    (ha : is_inner_cell a gcg = true) (hadj : adjacent_or_equal a b gcg = true) :
    pair_count a b gcg = if is_inner_cell b gcg || decide (a < b) then 1 else 0 := by
  obtain ⟨m, n, o, hm, hn, ho, hb, hab⟩ := adjacent_offset hadj
  have ha2 := ha
  unfold is_inner_cell at ha2
  simp only [Bool.and_eq_true, decide_eq_true_eq] at ha2
  have hpos0 : (get_grid_pos a gcg).x0 > 0 := ha2.1.1.1.1.1
  have h0 : 3 ≤ gcg.x0 := by omega
  have h1 : 3 ≤ gcg.x1 := by omega
  have hm' : -m = -1 ∨ -m = 0 ∨ -m = 1 := by omega
  have hn' : -n = -1 ∨ -n = 0 ∨ -n = 1 := by omega
  have ho' : -o = -1 ∨ -o = 0 ∨ -o = 1 := by omega
  have c1 : List.count b (init_cell_neighbors a gcg) = if upper_half m n o then 1 else 0 := by
    rw [hb]; exact count_neighbor ha hm hn ho
  have hlt : a < b ↔ (upper_half m n o = true ∧ ¬ (m = 0 ∧ n = 0 ∧ o = 0)) := by
    have hz : a + offset gcg m n o = a + offset gcg 0 0 0 ↔ (m = 0 ∧ n = 0 ∧ o = 0) :=
      offset_inj h0 h1 (by decide) (by decide) (by decide) hm hn ho a
    have hnn := offset_nonneg_iff h0 h1 hm hn ho
    have hz0 : offset gcg 0 0 0 = 0 := by simp [offset]
    rw [hz0] at hz
    constructor
    · intro h
      refine ⟨hnn.mp (by omega), fun hc => ?_⟩
      have := hz.mpr hc
      omega
    · rintro ⟨hu, hne⟩
      have h1 := hnn.mpr hu
      have : ¬ (a + offset gcg m n o = a + 0) := fun hc => hne (hz.mp hc)
      omega
  have heq : a = b ↔ (m = 0 ∧ n = 0 ∧ o = 0) := by
    have hz : a + offset gcg m n o = a + offset gcg 0 0 0 ↔ (m = 0 ∧ n = 0 ∧ o = 0) :=
      offset_inj h0 h1 (by decide) (by decide) (by decide) hm hn ho a
    have hz0 : offset gcg 0 0 0 = 0 := by simp [offset]
    rw [hz0] at hz
    rw [← hz]
    omega
  unfold pair_count
  rw [c1]
  by_cases hbi : is_inner_cell b gcg = true
  · have c2 : List.count a (init_cell_neighbors b gcg) =
        if upper_half (-m) (-n) (-o) then 1 else 0 := by
      rw [hab]
      have := count_neighbor hbi hm' hn' ho'
      rw [← hab]
      rw [← hab] at this
      exact this
    rw [c2]
    simp only [hbi, Bool.true_or, if_true]
    simp only [heq]
    rcases hm with rfl | rfl | rfl <;> rcases hn with rfl | rfl | rfl <;>
      rcases ho with rfl | rfl | rfl <;> simp [upper_half]
  · have hbf : is_inner_cell b gcg = false := by simpa using hbi
    have hne : a ≠ b := by
      intro hc
      rw [hc] at ha
      exact hbi ha
    have c2 : List.count a (init_cell_neighbors b gcg) = 0 := by
      unfold init_cell_neighbors
      simp [hbf]
    have hmno : ¬ (m = 0 ∧ n = 0 ∧ o = 0) := fun hc => hne (heq.mpr hc)
    rw [c2, if_neg hne]
    simp only [hbf, Bool.false_or, Nat.add_zero]
    by_cases hu : upper_half m n o = true
    · have : a < b := hlt.mpr ⟨hu, hmno⟩
      simp [hu, this]
    · have : ¬ a < b := fun hc => hu (hlt.mp hc).1
      simp [hu, this]


/-! ## Migration -/

/-- C4 (boundary tie-break): let the domains `A` and `B` meet on axis `d` at
`b = A.my_right[d] = B.my_left[d]`, `B` having positive extent.  A particle whose
coordinate on `d` is exactly `b` passes the send test of `A` in the pass `lr = 1`,
fails both send tests of `B`, and the lookup of `B` gives it the cell coordinate 1 on
that axis. -/
theorem boundary_tie_break (cfg : Config) (A B : Domain) (d : Nat) (b : ℚ) (pos : Vec3 ℚ)
    (periodic cg : Int) (inv : ℚ)
    (hA : A.my_right.get d = b) (hB : B.my_left.get d = b) (hBr : b < B.my_right.get d)
    (hpos : pos.get d = b) (hcg : 1 ≤ cg) :
    leaves_domain A d 1 pos = true ∧
    leaves_domain B d 0 pos = false ∧ leaves_domain B d 1 pos = false ∧
    cpos_axis cfg periodic cg (pos.get d) (B.my_left.get d) inv = some 1 := by
  have hr : raw_cpos (pos.get d) (B.my_left.get d) inv = 1 := by
    unfold raw_cpos
    rw [hpos, hB]
    simp [toInt]
  refine ⟨?_, ?_, ?_, ?_⟩
  · simp [leaves_domain, hA, hpos]
  · simp [leaves_domain, hB, hpos]
  · simp [leaves_domain, hpos, hBr]
  · rw [cpos_axis_in_range cfg periodic cg _ _ _ (by rw [hr]; omega), hr]

/-- C4 at the two processes that split the box of side 10 at x = 5. -/
theorem boundary_tie_break_witness :
    leaves_domain left_domain 0 1 ⟨5, 1, 1⟩ = true ∧
    leaves_domain right_domain 0 0 ⟨5, 1, 1⟩ = false ∧
    leaves_domain right_domain 0 1 ⟨5, 1, 1⟩ = false ∧
    cpos_axis plain_build 1 1 (Vec3.get (⟨5, 1, 1⟩ : Vec3 ℚ) 0) (right_domain.my_left.get 0)
      (1 / 5) = some 1 :=
  boundary_tie_break plain_build left_domain right_domain 0 5 ⟨5, 1, 1⟩ 1 1 (1 / 5)
    (by with_unfolding_all decide) (by with_unfolding_all decide)
    (by with_unfolding_all decide) (by with_unfolding_all decide) (by decide)

/-- C1, single process: the particle at `(7, 1, 1)` belongs to cell 22 but is stored in
cell 21; `exchange_and_sort_part` returns, with and without `ADDITIONAL_CHECKS`, and
the particle is still in cell 21 while cell 22 is empty. -/
theorem exchange_and_sort_part_single_unsorted :
    pos_to_cell_grid_ind plain_build single_domain single_grid moved_particle.p = some 22 ∧
    (exchange_and_sort_part plain_build single_domain single_grid single_comm 10
        single_state).map (fun st => (cell_particles st 21, cell_particles st 22)) =
      some ([moved_particle], []) ∧
    (exchange_and_sort_part checked_build single_domain single_grid single_comm 10
        single_state).map (fun st => (cell_particles st 21, cell_particles st 22)) =
      some ([moved_particle], []) := by
  refine ⟨?_, ?_, ?_⟩ <;> with_unfolding_all decide

/-- C2, two processes that split the box along x: of the three particles 0, 1, 2 in the
inner cell of process 0, particles 0 and 2 have crossed the right boundary.  After
`exchange_and_sort_part` the inner cell of process 0 is empty and its message to the
right in pass 1 holds the particles 0, 2, 2; process 1, which receives that message,
ends with the particles 0, 2, 2 in its inner cell.  Particle 2 has been sent twice and
is real twice, and particle 1, which had not left, is gone. -/
theorem exchange_and_sort_part_duplicates :
    (cell_particles left_state 13).map (fun x => x.identity) = [0, 1, 2] ∧
    (exchange_and_sort_part plain_build left_domain left_grid left_comm 10 left_state).map
        (fun st => (cell_particles st 13, st.outbox)) =
      some ([], [(0, [], []), (1, right_comm.incoming 1)]) ∧
    (exchange_and_sort_part plain_build right_domain left_grid right_comm 10
        right_state).map (fun st => (cell_particles st 13).map (fun x => x.identity)) =
      some [0, 2, 2] := by
  refine ⟨?_, ?_, ?_⟩ <;> with_unfolding_all decide

/-- C6, normal case: for the local box `(1, 10, 10)` and `max_range = 2` the cell count
98 fits the budget, and `calc_cell_grid` returns with `ghost_cell_grid[0] = 2`, that
is without an inner cell on the first axis. -/
theorem calc_cell_grid_no_inner_cell :
    (calc_cell_grid ⟨1, 10, 10⟩ 2 2 CELLS_MAX_NUM_CELLS ⟨1, 10, 10⟩).map
        (fun g => (g.ghost_cell_grid, g.cell_grid, g.n_cells)) =
      some (⟨2, 7, 7⟩, ⟨0, 5, 5⟩, 98) := by
  with_unfolding_all decide

/-- C8: for the local box `(100, 99.5, 1)`, `max_range = 1` and `max_num_cells = 40`
the step `0.49` is not negative and the range `max_range + 100 * step = 50` gives
`4 * 3 * 3 = 36` cells, within the budget; `calc_cell_grid` fails all the same, since
its loop ends after the 99th enlarged range (48 cells). -/
theorem calc_cell_grid_misses_last_trial :
    calc_cell_grid ⟨100, 199 / 2, 1⟩ 1 1 40 ⟨100, 199 / 2, 1⟩ = none ∧
    ¬ ((((100 : ℚ) / 2) - 1) / 100 < 0) ∧
    grid_cells (trial_grid ⟨100, 199 / 2, 1⟩ (1 + 99 * ((((100 : ℚ) / 2) - 1) / 100))) = 48 ∧
    grid_cells (trial_grid ⟨100, 199 / 2, 1⟩ (1 + 100 * ((((100 : ℚ) / 2) - 1) / 100))) = 36 := by
  refine ⟨?_, ?_, ?_, ?_⟩ <;> with_unfolding_all decide


/-! ## Instances -/

/-- C3 at the grid of 2 x 2 x 2 inner cells and the position `(7, 1, 1)`. -/
theorem pos_to_cell_grid_ind_inner_witness :
    ∃ c0 c1 c2 : Int,
      pos_to_cell_grid_ind checked_build single_domain single_grid ⟨7, 1, 1⟩ =
        some (get_linear_index c0 c1 c2 single_grid.ghost_cell_grid) ∧
      (1 ≤ c0 ∧ c0 ≤ single_grid.cell_grid.x0) ∧ (1 ≤ c1 ∧ c1 ≤ single_grid.cell_grid.x1) ∧
      (1 ≤ c2 ∧ c2 ≤ single_grid.cell_grid.x2) ∧
      is_inner_cell (get_linear_index c0 c1 c2 single_grid.ghost_cell_grid)
        single_grid.ghost_cell_grid = true :=
  pos_to_cell_grid_ind_inner checked_build single_domain single_grid ⟨10, 10, 10⟩ ⟨7, 1, 1⟩
    (by with_unfolding_all decide) (by with_unfolding_all decide)

/-- C5 at a box of side 10 with `max_range = 3.3` and a budget of 64 cells: the normal
case gives 125 cells, the second enlarged range gives the grid 4 x 4 x 4. -/
theorem calc_cell_grid_budget_witness :
    calc_cell_grid ⟨10, 10, 10⟩ (33 / 10) 2 64 ⟨10, 10, 10⟩ =
        some (finish_grid ⟨10, 10, 10⟩ 2 ⟨10, 10, 10⟩ ⟨4, 4, 4⟩ 64) ∧
      (finish_grid ⟨10, 10, 10⟩ 2 ⟨10, 10, 10⟩ ⟨4, 4, 4⟩ 64).n_cells ≤ 64 :=
  ⟨by with_unfolding_all decide,
    (calc_cell_grid_budget ⟨10, 10, 10⟩ (33 / 10) 2 64 ⟨10, 10, 10⟩ _
      (by with_unfolding_all decide)).2.2⟩

/-- C7 at the same input: every cell has size 5 >= 3.3. -/
theorem calc_cell_grid_cell_size_witness :
    (33 / 10 : ℚ) ≤ (finish_grid ⟨10, 10, 10⟩ 2 ⟨10, 10, 10⟩ ⟨4, 4, 4⟩ 64).cell_size.x0 ∧
    (33 / 10 : ℚ) ≤ (finish_grid ⟨10, 10, 10⟩ 2 ⟨10, 10, 10⟩ ⟨4, 4, 4⟩ 64).cell_size.x1 ∧
    (33 / 10 : ℚ) ≤ (finish_grid ⟨10, 10, 10⟩ 2 ⟨10, 10, 10⟩ ⟨4, 4, 4⟩ 64).cell_size.x2 :=
  (calc_cell_grid_cell_size ⟨10, 10, 10⟩ (33 / 10) 2 64 ⟨10, 10, 10⟩ _
    (by with_unfolding_all decide) (by with_unfolding_all decide)
    (by with_unfolding_all decide)).2

/-- C9 at the grid 3 x 3 x 3: the inner cell 13 has 14 neighbors, the halo cell 0 has
none. -/
theorem init_cell_neighbors_count_witness :
    n_neighbors 13 ⟨3, 3, 3⟩ = 14 ∧ n_neighbors 0 ⟨3, 3, 3⟩ = 0 :=
  ⟨((init_cell_neighbors_count 13 ⟨3, 3, 3⟩).1 (by decide)).2.2,
    (init_cell_neighbors_count 0 ⟨3, 3, 3⟩).2.1 (by decide)⟩

/-- C10 as stated fails: in the grid 3 x 3 x 3, which `calc_cell_grid` builds for the
local box `(1, 1, 1)` and `max_range = 1`, the inner cell 13 and the adjacent halo cell
0 form a pair that occurs in no neighbor list. -/
theorem pair_count_halo_below :
    (calc_cell_grid ⟨1, 1, 1⟩ 1 1 CELLS_MAX_NUM_CELLS ⟨1, 1, 1⟩).map
        (fun g => g.ghost_cell_grid) = some ⟨3, 3, 3⟩ ∧
    is_inner_cell 13 ⟨3, 3, 3⟩ = true ∧ adjacent_or_equal 13 0 ⟨3, 3, 3⟩ = true ∧
    pair_count 13 0 ⟨3, 3, 3⟩ = 0 := by
  refine ⟨?_, ?_, ?_, ?_⟩ <;> with_unfolding_all decide

/-- C10 as amended, at the grid 5 x 5 x 5: the inner cells 31 and 32 form a pair that
occurs once. -/
theorem pair_count_upper_half_witness :
    pair_count 31 32 ⟨5, 5, 5⟩ =
      if is_inner_cell 32 ⟨5, 5, 5⟩ || decide ((31 : Int) < 32) then 1 else 0 :=
  pair_count_upper_half 31 32 ⟨5, 5, 5⟩ (by decide) (by decide)


/-! ## The scenario of the cube of side 10, the cast to `int`, and `max_skin` -/

/-- C11, as amended: for the local box `(10, 10, 10)`, `max_range = 2.3` and the default
budget, `calc_cell_grid` returns the grid of 4 x 4 x 4 inner cells (ghost grid
6 x 6 x 6, 216 cells) with cell size `10/4 = 2.5` on every axis, whatever `max_cut`
and the previous cell sizes are. -/
theorem calc_cell_grid_cube (max_cut : ℚ) (old : Vec3 ℚ) :
    ∃ g : Grid,
      calc_cell_grid ⟨10, 10, 10⟩ (23 / 10) max_cut CELLS_MAX_NUM_CELLS old = some g ∧
      g.cell_grid = ⟨4, 4, 4⟩ ∧ g.ghost_cell_grid = ⟨6, 6, 6⟩ ∧ g.n_cells = 216 ∧
      g.cell_size = ⟨5 / 2, 5 / 2, 5 / 2⟩ := by
  have hn : normal_grid ⟨10, 10, 10⟩ (23 / 10) = ⟨6, 6, 6⟩ := by with_unfolding_all decide
  refine ⟨finish_grid ⟨10, 10, 10⟩ max_cut old ⟨6, 6, 6⟩ 216, ?_, ?_, ?_, ?_, ?_⟩
  · unfold calc_cell_grid
    simp only [hn]
    have h1 : grid_cells ⟨6, 6, 6⟩ = 216 := by decide
    have h2 : ¬ ((216 : Int) > CELLS_MAX_NUM_CELLS) := by decide
    simp only [h1, h2, if_false]
  · simp [finish_grid]
  · simp [finish_grid]
  · simp [finish_grid]
  · simp only [finish_grid]
    norm_num

/-- C11 as stated fails: for the local box `(10, 10, 10)` and `max_range = 2.3` the grid
that `calc_cell_grid` returns is not the one of 3 x 3 x 3 inner cells. -/
theorem calc_cell_grid_cube_not_three :
    (calc_cell_grid ⟨10, 10, 10⟩ (23 / 10) 2 CELLS_MAX_NUM_CELLS ⟨10, 10, 10⟩).map
        (fun g => (g.cell_grid, g.ghost_cell_grid, g.n_cells, g.cell_size)) ≠
      some (⟨3, 3, 3⟩, ⟨5, 5, 5⟩, 125, ⟨10 / 3, 10 / 3, 10 / 3⟩) := by
  with_unfolding_all decide

/-- The cast `(int)` of a negative number is its ceiling. -/
theorem toInt_of_neg {q : ℚ} (h : q < 0) : toInt q = ⌈q⌉ := by
  have : ¬ (0 ≤ q) := not_le.mpr h
  simp only [toInt, this, if_false]
  rw [Int.floor_neg, neg_neg]

/-- C12, as amended: the cell coordinate computed before any clamping is the product
`(pos - my_left) * inv_cell_size` truncated towards zero, plus 1.  That is
`floor(...) + 1` when the product is not negative, and `ceil(...) + 1` when it is
negative, as for a coordinate below `my_left`. -/
theorem raw_cpos_truncates (pos my_left inv_cell_size : ℚ) :
    (0 ≤ (pos - my_left) * inv_cell_size →
      raw_cpos pos my_left inv_cell_size = ⌊(pos - my_left) * inv_cell_size⌋ + 1) ∧
    ((pos - my_left) * inv_cell_size < 0 →
      raw_cpos pos my_left inv_cell_size = ⌈(pos - my_left) * inv_cell_size⌉ + 1) := by
  constructor
  · intro h
    unfold raw_cpos
    rw [toInt_of_nonneg h]
  · intro h
    unfold raw_cpos
    rw [toInt_of_neg h]

/-- C12 as amended, at a coordinate in the domain and at one below `my_left`. -/
theorem raw_cpos_truncates_witness :
    raw_cpos 7 0 (1 / 5) = ⌊((7 : ℚ) - 0) * (1 / 5)⌋ + 1 ∧
    raw_cpos (-1) 0 (1 / 5) = ⌈((-1 : ℚ) - 0) * (1 / 5)⌉ + 1 :=
  ⟨(raw_cpos_truncates 7 0 (1 / 5)).1 (by norm_num),
    (raw_cpos_truncates (-1) 0 (1 / 5)).2 (by norm_num)⟩

/-- C12 as stated fails: for `pos = -1`, `my_left = 0` and `inv_cell_size = 1/5` the
coordinate computed is 1, while `floor((pos - my_left) * inv_cell_size) + 1` is 0. -/
theorem raw_cpos_not_floor :
    raw_cpos (-1) 0 (1 / 5) = 1 ∧ ⌊((-1 : ℚ) - 0) * (1 / 5)⌋ + 1 = 0 := by
  constructor <;> with_unfolding_all decide

/-- C13: for the local box `(10, 10, 10)`, `max_range = 2.3`, `max_cut = 2` and the cell
sizes `(10, 10, 10)` that `cells_changed_topology` sets before the call,
`calc_cell_grid` returns with cell size 2.5 on every axis and with `max_skin = 8`,
which is the smallest previous cell size minus `max_cut`, not `2.5 - 2`. -/
theorem calc_cell_grid_stale_max_skin :
    (calc_cell_grid ⟨10, 10, 10⟩ (23 / 10) 2 CELLS_MAX_NUM_CELLS ⟨10, 10, 10⟩).map
        (fun g => (g.cell_size, g.max_skin,
          dmin (dmin g.cell_size.x0 g.cell_size.x1) g.cell_size.x2 - 2)) =
      some (⟨5 / 2, 5 / 2, 5 / 2⟩, 8, 1 / 2) := by
  with_unfolding_all decide


/-! ## `forces.c`: bond partners -/

theorem scan_cell_fold_buffers (cfg : Config) (dom : Domain) (g : Grid) (d : Nat) (c : Int)
    (np : Nat) (hd : d ≠ 3) :
    ∀ (fuel : Nat) (i : Int) (st st1 : Node),
      scan_cell_fold cfg dom g d c np fuel i st = some st1 → same_buffers st1 st := by
  intro fuel
  induction fuel with
  | zero =>
    intro i st st1 h
    simp [scan_cell_fold] at h
  | succ fuel ih =>
    intro i st st1 h
    unfold scan_cell_fold at h
    split at h
    · split at h
      · simp at h
      · split at h
        · simp at h
        · simp only [hd, if_false] at h
          have := ih _ _ _ h
          exact this
    · simp only [Option.some.injEq] at h
      subst h
      exact ⟨rfl, rfl, rfl, rfl, rfl⟩

theorem scan_inner_cells_buffers (scan : Int → Nat → Node → Option Node)
    (hscan : ∀ c np st st1, scan c np st = some st1 → same_buffers st1 st) :
    ∀ (cs : List Int) (st st1 : Node),
      scan_inner_cells scan cs st = some st1 → same_buffers st1 st := by
  intro cs
  induction cs with
  | nil =>
    intro st st1 h
    simp only [scan_inner_cells, Option.some.injEq] at h
    subst h
    exact ⟨rfl, rfl, rfl, rfl, rfl⟩
  | cons c cs ih =>
    intro st st1 h
    unfold scan_inner_cells at h
    split at h
    · simp at h
    · split at h
      · simp at h
      · rename_i st2 hs
        have h1 := hscan _ _ _ _ hs
        have h2 := ih _ _ h
        obtain ⟨a1, a2, a3, a4, a5⟩ := h1
        obtain ⟨b1, b2, b3, b4, b5⟩ := h2
        exact ⟨b1.trans a1, b2.trans a2, b3.trans a3, b4.trans a4, b5.trans a5⟩

/-- On an axis with a single process `exchange_and_sort_part` does not call
`send_particles` (the guard `node_grid[d] > 1`): it folds the particles in place, which
leaves the send and receive buffers as they were and sends nothing; a call of
`send_particles` towards the process itself would end in `errexit`. -/
theorem direction_step_single_axis (cfg : Config) (dom : Domain) (g : Grid) (comm : Comm)
    (fuel s_dir d : Nat) (st st1 : Node)
    (hself : comm.node_neighbors s_dir = comm.this_node)
    (hd : d < 3) (hgrid : dom.node_grid.get d ≤ 1)
    (hstep : direction_step cfg dom g comm fuel d st = some st1) :
    send_particles comm s_dir st = none ∧ same_buffers st1 st := by
  constructor
  · unfold send_particles
    simp [hself]
  · unfold direction_step at hstep
    have hng : ¬ dom.node_grid.get d > 1 := by omega
    simp only [hng, if_false] at hstep
    exact scan_inner_cells_buffers _
      (fun c np st st1 h => scan_cell_fold_buffers cfg dom g d c np (by omega) fuel 0 st st1 h)
      _ _ _ hstep

/-- The step of `exchange_and_sort_part` for the x axis of the single process that owns
the whole box returns, with the buffers as they were. -/
theorem direction_step_single_axis_example :
    ∃ st1, direction_step plain_build single_domain single_grid single_comm 10 0 single_state =
        some st1 ∧
      send_particles single_comm 0 single_state = none ∧ same_buffers st1 single_state := by
  have hs : (direction_step plain_build single_domain single_grid single_comm 10 0
      single_state).isSome = true := by with_unfolding_all decide
  obtain ⟨st1, h1⟩ := Option.isSome_iff_exists.mp hs
  exact ⟨st1, h1, direction_step_single_axis plain_build single_domain single_grid single_comm
    10 0 0 single_state st1 (by decide) (by decide) (by decide) h1⟩

/-- C20: the code departs from the claim. The single process that owns the whole box is
its own neighbor in all six directions; there `send_particles(s_dir)` ends in `errexit`
for every direction and every state, so it does not complete and the receive buffers
never take up what the send buffers hold (here one particle and its bond entry in
direction 0), whereas the sibling `send_ghosts` returns for a process that is its own
neighbor. -/
theorem send_particles_same_node_errexit :
    (∀ s_dir, single_comm.node_neighbors s_dir = single_comm.this_node) ∧
    (∀ s_dir st, send_particles single_comm s_dir st = none) ∧
    send_particles single_comm 0
      { single_state with p_send_buf := [moved_particle], b_send_buf := [0] } = none ∧
    (send_ghosts cube_env 0 cube_node).isSome = true := by
  refine ⟨fun _ => rfl, fun s_dir st => ?_, ?_, ?_⟩
  · unfold send_particles
    simp [single_comm]
  · unfold send_particles
    simp [single_comm]
  · with_unfolding_all decide

/-! ## `exchange_ghost`: real particle priority -/

theorem fill_ghost_buffers_frame {env : GhostComm} {s_dir : Nat} {st st1 : GhostNode}
    (h : fill_ghost_buffers env s_dir st = some st1) :
    st1.cells = st.cells ∧ st1.local_particles = st.local_particles ∧
      st1.ghost_log = st.ghost_log := by
  unfold fill_ghost_buffers at h
  split at h
  · simp at h
  · split at h
    · simp only [Option.some.injEq] at h
      subst h
      exact ⟨rfl, rfl, rfl⟩
    · simp at h

theorem send_ghosts_frame {env : GhostComm} {s_dir : Nat} {st st1 : GhostNode}
    (h : send_ghosts env s_dir st = some st1) :
    st1.cells = st.cells ∧ st1.local_particles = st.local_particles ∧
      st1.ghost_log = st.ghost_log := by
  have hsend : ∀ a b : GhostNode, send_ghosts_send s_dir a = some b →
      b.cells = a.cells ∧ b.local_particles = a.local_particles ∧ b.ghost_log = a.ghost_log := by
    intro a b hab
    unfold send_ghosts_send at hab
    split at hab
    · simp at hab
    · simp only [Option.some.injEq] at hab
      subst hab
      exact ⟨rfl, rfl, rfl⟩
  have hrecv : ∀ a b : GhostNode, send_ghosts_recv env s_dir a = some b →
      b.cells = a.cells ∧ b.local_particles = a.local_particles ∧ b.ghost_log = a.ghost_log := by
    intro a b hab
    unfold send_ghosts_recv at hab
    simp only at hab
    split at hab
    · split at hab
      · simp at hab
      · split at hab
        · simp only [Option.some.injEq] at hab
          subst hab
          exact ⟨rfl, rfl, rfl⟩
        · simp at hab
    · simp at hab
  have hphase : ∀ (e : Int) (a b : GhostNode), send_ghosts_phase env s_dir e a = some b →
      b.cells = a.cells ∧ b.local_particles = a.local_particles ∧ b.ghost_log = a.ghost_log := by
    intro e a b hab
    unfold send_ghosts_phase at hab
    split at hab
    · exact hsend a b hab
    · exact hrecv a b hab
  unfold send_ghosts at h
  split at h
  · split at h
    · simp at h
    · rename_i st2 h0
      obtain ⟨a1, a2, a3⟩ := hphase 0 _ _ h0
      obtain ⟨b1, b2, b3⟩ := hphase 1 _ _ h
      exact ⟨b1.trans a1, b2.trans a2, b3.trans a3⟩
  · unfold send_ghosts_same at h
    simp only at h
    split at h
    · simp at h
    · split at h
      · simp at h
      · simp only [Option.some.injEq] at h
        subst h
        exact ⟨rfl, rfl, rfl⟩

theorem read_cell_nonneg {cells : List ParticleList} {c : Int} {pl : ParticleList}
    (h : read_cell cells c = some pl) : 0 ≤ c := by
  unfold read_cell at h
  by_contra hc
  simp [hc] at h

theorem read_cell_lt {cells : List ParticleList} {c : Int} {pl : ParticleList}
    (h : read_cell cells c = some pl) : c.toNat < cells.length := by
  unfold read_cell at h
  split at h
  · exact (List.getElem?_eq_some.mp h).1
  · simp at h

theorem read_cell_mem {cells : List ParticleList} {c : Int} {pl : ParticleList}
    (h : read_cell cells c = some pl) : pl ∈ cells := by
  unfold read_cell at h
  by_cases hc : 0 ≤ c
  · rw [if_pos hc] at h
    exact List.getElem?_mem h
  · rw [if_neg hc] at h
    cases h

theorem read_cell_of_lt {cells : List ParticleList} {c : Int} (h0 : 0 ≤ c)
    (h1 : c.toNat < cells.length) : ∃ pl, read_cell cells c = some pl := by
  unfold read_cell
  simp only [h0, if_true]
  exact ⟨cells[c.toNat], List.getElem?_eq_getElem h1⟩

theorem read_write_same {cells : List ParticleList} {c : Int} {pl pl1 : ParticleList}
    (h : read_cell cells c = some pl) : read_cell (write_cell cells c pl1) c = some pl1 := by
  have h0 := read_cell_nonneg h
  have h1 := read_cell_lt h
  unfold read_cell write_cell
  simp only [h0, if_true]
  exact List.getElem?_set_self h1

theorem read_write_other {cells : List ParticleList} {c c1 : Int} {pl1 : ParticleList}
    (h0 : 0 ≤ c) (hne : c ≠ c1) : read_cell (write_cell cells c pl1) c1 = read_cell cells c1 := by
  unfold read_cell write_cell
  by_cases h1 : 0 ≤ c1
  · simp only [h1, if_true]
    have : c.toNat ≠ c1.toNat := by omega
    exact List.getElem?_set_ne this
  · simp [h1]

theorem write_cell_self {cells : List ParticleList} {c : Int} {pl : ParticleList}
    (h : read_cell cells c = some pl) : write_cell cells c pl = cells := by
  have h1 := read_cell_lt h
  unfold read_cell at h
  split at h
  · unfold write_cell
    apply List.ext_getElem?
    intro k
    by_cases hk : c.toNat = k
    · subst hk
      rw [List.getElem?_set_self h1, h]
    · rw [List.getElem?_set_ne hk]
  · simp at h

theorem write_cell_length (cells : List ParticleList) (c : Int) (pl : ParticleList) :
    (write_cell cells c pl).length = cells.length := by
  simp [write_cell]

/-! ## `invalidate_ghosts` -/

theorem mem_all_cell_coords {gcg : Vec3 Int} {m n o : Int} :
    (m, n, o) ∈ all_cell_coords gcg ↔
      (0 ≤ m ∧ m < gcg.x0) ∧ (0 ≤ n ∧ n < gcg.x1) ∧ (0 ≤ o ∧ o < gcg.x2) := by
  unfold all_cell_coords
  simp only [List.mem_flatMap, List.mem_range, List.mem_map]
  constructor
  · rintro ⟨a, ha, b, hb, c, hc, heq⟩
    simp only [Prod.mk.injEq] at heq
    obtain ⟨rfl, rfl, rfl⟩ := heq
    omega
  · rintro ⟨⟨h1, h2⟩, ⟨h3, h4⟩, ⟨h5, h6⟩⟩
    refine ⟨m.toNat, by omega, n.toNat, by omega, o.toNat, by omega, ?_⟩
    simp only [Prod.mk.injEq]
    omega

theorem linear_index_range {gcg : Vec3 Int} {m n o : Int}
    (hm : 0 ≤ m ∧ m < gcg.x0) (hn : 0 ≤ n ∧ n < gcg.x1) (ho : 0 ≤ o ∧ o < gcg.x2) :
    0 ≤ get_linear_index m n o gcg ∧ get_linear_index m n o gcg < grid_cells gcg := by
  unfold get_linear_index grid_cells
  obtain ⟨hm0, hm1⟩ := hm
  obtain ⟨hn0, hn1⟩ := hn
  obtain ⟨ho0, ho1⟩ := ho
  have h1 : 0 ≤ gcg.x1 * o := mul_nonneg (by omega) ho0
  have h2 : 0 ≤ gcg.x0 * (n + gcg.x1 * o) := mul_nonneg (by omega) (by omega)
  refine ⟨by omega, ?_⟩
  have h3 : n + gcg.x1 * o ≤ gcg.x1 * gcg.x2 - 1 := by nlinarith
  have h4 : gcg.x0 * (n + gcg.x1 * o) ≤ gcg.x0 * (gcg.x1 * gcg.x2 - 1) :=
    mul_le_mul_of_nonneg_left h3 (by omega)
  nlinarith

theorem inner_iff_not_selected {gcg : Vec3 Int} {m n o : Int}
    (hm : 0 ≤ m ∧ m < gcg.x0) (hn : 0 ≤ n ∧ n < gcg.x1) (ho : 0 ≤ o ∧ o < gcg.x2) :
    is_inner_cell (get_linear_index m n o gcg) gcg = !ghost_cell_selection gcg m n o := by
  unfold is_inner_cell
  rw [get_grid_pos_linear hm.1 hm.2 hn.1 hn.2 ho.1]
  unfold ghost_cell_selection
  simp only
  rw [Bool.eq_iff_iff]
  simp only [Bool.and_eq_true, decide_eq_true_eq, Bool.not_eq_true', Bool.or_eq_false_iff,
    decide_eq_false_iff_not]
  omega

theorem grid_pos_range {gcg : Vec3 Int} {c : Int} (h0 : 0 < gcg.x0) (h1 : 0 < gcg.x1)
    (hc0 : 0 ≤ c) (hc1 : c < grid_cells gcg) :
    (0 ≤ (get_grid_pos c gcg).x0 ∧ (get_grid_pos c gcg).x0 < gcg.x0) ∧
    (0 ≤ (get_grid_pos c gcg).x1 ∧ (get_grid_pos c gcg).x1 < gcg.x1) ∧
    (0 ≤ (get_grid_pos c gcg).x2 ∧ (get_grid_pos c gcg).x2 < gcg.x2) := by
  unfold grid_cells at hc1
  have hd : 0 ≤ c / gcg.x0 := Int.ediv_nonneg hc0 h0.le
  unfold get_grid_pos
  simp only
  rw [Int.tmod_eq_emod hc0 h0.le, Int.tdiv_eq_ediv hc0 h0.le, Int.tmod_eq_emod hd h1.le,
    Int.tdiv_eq_ediv hd h1.le]
  refine ⟨⟨Int.emod_nonneg _ (by omega), Int.emod_lt_of_pos _ h0⟩,
    ⟨Int.emod_nonneg _ (by omega), Int.emod_lt_of_pos _ h1⟩,
    ⟨Int.ediv_nonneg hd h1.le, ?_⟩⟩
  apply Int.ediv_lt_of_lt_mul h1
  apply Int.ediv_lt_of_lt_mul h0
  calc c < 1 * gcg.x0 * gcg.x1 * gcg.x2 := hc1
    _ = gcg.x2 * gcg.x1 * gcg.x0 := by ring

theorem clear_ghost_pointers_spec (c : Int) :
    ∀ (xs : List Particle) (k : Nat) (lp : Int → Option Ptr),
      (∀ id, clear_ghost_pointers c xs k lp id = lp id ∨
        (clear_ghost_pointers c xs k lp id = none ∧
          ∃ j, j < xs.length ∧ lp id = some { cell := c, slot := k + j })) ∧
      (∀ j x, xs[j]? = some x →
        clear_ghost_pointers c xs k lp x.identity ≠ some { cell := c, slot := k + j }) := by
  intro xs
  induction xs with
  | nil =>
    intro k lp
    simp [clear_ghost_pointers]
  | cons x xs ih =>
    intro k lp
    unfold clear_ghost_pointers
    obtain ⟨ih1, ih2⟩ := ih (k + 1)
      (if lp x.identity = some { cell := c, slot := k } then set_local lp x.identity none else lp)
    have hstep : ∀ id,
        (if lp x.identity = some { cell := c, slot := k } then set_local lp x.identity none
          else lp) id = lp id ∨
        ((if lp x.identity = some { cell := c, slot := k } then set_local lp x.identity none
          else lp) id = none ∧ lp id = some { cell := c, slot := k }) := by
      intro id
      by_cases hx : lp x.identity = some { cell := c, slot := k }
      · simp only [hx, if_true, set_local]
        by_cases hid : id = x.identity
        · subst hid
          right
          simp [hx]
        · left
          simp [hid]
      · left
        simp [hx]
    constructor
    · intro id
      rcases ih1 id with h | ⟨h, j, hj, hlp⟩
      · rcases hstep id with h2 | ⟨h2, h3⟩
        · left; rw [h, h2]
        · right
          refine ⟨by rw [h, h2], 0, by simp, by simpa using h3⟩
      · rcases hstep id with h2 | ⟨h2, h3⟩
        · right
          have hj1 : j + 1 < (x :: xs).length := by
            rw [List.length_cons]
            omega
          refine ⟨h, j + 1, hj1, ?_⟩
          rw [← h2, hlp]
          congr 2
          omega
        · right
          exact ⟨h, 0, by simp, by simpa using h3⟩
    · intro j y hy
      cases j with
      | zero =>
        simp only [List.getElem?_cons_zero, Option.some.injEq] at hy
        subst hy
        intro hcon
        rcases ih1 x.identity with h | ⟨h, -⟩
        · rw [h] at hcon
          by_cases hx : lp x.identity = some { cell := c, slot := k }
          · simp [hx, set_local] at hcon
          · simp only [hx, if_false] at hcon
            exact hx (by simpa using hcon)
        · rw [h] at hcon
          simp at hcon
      | succ j =>
        simp only [List.getElem?_cons_succ] at hy
        have := ih2 j y hy
        have e : k + 1 + j = k + (j + 1) := by omega
        rw [e] at this
        exact this


theorem used_of_le {pl : ParticleList} (h : pl.n ≤ pl.part.length) :
    pl.used = some (pl.part.take pl.n) := by
  simp [ParticleList.used, h]

theorem invalidate_cell_selected {gcg : Vec3 Int} {co : Int × Int × Int}
    {st : List ParticleList × (Int → Option Ptr)} {pl : ParticleList}
    (hs : coord_selected gcg co = true) (hr : read_cell st.1 (coord_index gcg co) = some pl)
    (hn : pl.n ≤ pl.part.length) :
    invalidate_cell gcg co st =
      some (write_cell st.1 (coord_index gcg co) pl.emptied,
        clear_ghost_pointers (coord_index gcg co) (pl.part.take pl.n) 0 st.2) := by
  unfold invalidate_cell
  unfold coord_selected at hs
  unfold coord_index at hr
  simp only [hs, if_true, hr, used_of_le hn]
  rfl

theorem invalidate_cell_not_selected {gcg : Vec3 Int} {co : Int × Int × Int}
    {st : List ParticleList × (Int → Option Ptr)} (hs : ¬ coord_selected gcg co = true) :
    invalidate_cell gcg co st = some st := by
  unfold invalidate_cell
  unfold coord_selected at hs
  simp [hs]

/-- What the loop of `invalidate_ghosts` over the cells `coords` does: it returns, every
cell is as before or emptied, the cells not selected are as before, every selected cell
is emptied and no entry of `local_particles` points at one of its particles any more,
and every entry of `local_particles` is as before or cleared. -/
theorem invalidate_loop_spec (gcg : Vec3 Int) :
    ∀ (coords : List (Int × Int × Int)) (st : List ParticleList × (Int → Option Ptr)),
      (∀ co ∈ coords, coord_selected gcg co = true →
        ∃ pl, read_cell st.1 (coord_index gcg co) = some pl ∧ pl.n ≤ pl.part.length) →
      ∃ st1, invalidate_loop gcg coords st = some st1 ∧
        (∀ c pl, read_cell st.1 c = some pl →
          read_cell st1.1 c = some pl ∨ read_cell st1.1 c = some pl.emptied) ∧
        (∀ c, (∀ co ∈ coords, coord_selected gcg co = true → coord_index gcg co ≠ c) →
          read_cell st1.1 c = read_cell st.1 c) ∧
        (∀ co ∈ coords, coord_selected gcg co = true →
          ∃ pl, read_cell st.1 (coord_index gcg co) = some pl ∧
            read_cell st1.1 (coord_index gcg co) = some pl.emptied ∧
            ∀ k x, k < pl.n → pl.part[k]? = some x →
              st1.2 x.identity ≠ some { cell := coord_index gcg co, slot := k }) ∧
        (∀ id, st1.2 id = st.2 id ∨
          (st1.2 id = none ∧ ∃ co ∈ coords, coord_selected gcg co = true ∧
            ∃ k, st.2 id = some { cell := coord_index gcg co, slot := k })) := by
  intro coords
  induction coords with
  | nil =>
    intro st _
    refine ⟨st, rfl, fun c pl h => Or.inl h, fun c _ => rfl, ?_, fun id => Or.inl rfl⟩
    intro co hco
    simp at hco
  | cons co rest ih =>
    intro st hread
    by_cases hs : coord_selected gcg co = true
    · obtain ⟨pl, hr, hn⟩ := hread co (List.mem_cons_self _ _) hs
      have hc0 : 0 ≤ coord_index gcg co := read_cell_nonneg hr
      have hcell := invalidate_cell_selected hs hr hn
      obtain ⟨cl1, cl2⟩ := clear_ghost_pointers_spec (coord_index gcg co) (pl.part.take pl.n) 0 st.2
      -- the state after the head cell
      have hread1 : ∀ co1 ∈ rest, coord_selected gcg co1 = true →
          ∃ pl1, read_cell (write_cell st.1 (coord_index gcg co) pl.emptied)
            (coord_index gcg co1) = some pl1 ∧ pl1.n ≤ pl1.part.length := by
        intro co1 hco1 hs1
        by_cases he : coord_index gcg co = coord_index gcg co1
        · rw [← he, read_write_same hr]
          exact ⟨_, rfl, by simp [ParticleList.emptied]⟩
        · rw [read_write_other hc0 he]
          exact hread co1 (List.mem_cons_of_mem _ hco1) hs1
      obtain ⟨st1, hloop, f1, u1, v1, l1⟩ := ih
        (write_cell st.1 (coord_index gcg co) pl.emptied,
          clear_ghost_pointers (coord_index gcg co) (pl.part.take pl.n) 0 st.2) hread1
      -- the head cell stays emptied and cleared
      have hhead_read : read_cell st1.1 (coord_index gcg co) = some pl.emptied := by
        rcases f1 (coord_index gcg co) pl.emptied (read_write_same hr) with h | h
        · exact h
        · exact h
      have hmono : ∀ id q, clear_ghost_pointers (coord_index gcg co) (pl.part.take pl.n) 0 st.2 id
          ≠ some q → st1.2 id ≠ some q := by
        intro id q hne
        rcases l1 id with h | ⟨h, -⟩
        · rw [h]; exact hne
        · rw [h]; simp
      have hhead_clear : ∀ k x, k < pl.n → pl.part[k]? = some x →
          st1.2 x.identity ≠ some { cell := coord_index gcg co, slot := k } := by
        intro k x hk hx
        apply hmono
        have := cl2 k x (by rw [List.getElem?_take_of_lt hk]; exact hx)
        simpa using this
      refine ⟨st1, ?_, ?_, ?_, ?_, ?_⟩
      · unfold invalidate_loop
        rw [hcell]
        exact hloop
      · intro c pl0 h0
        by_cases he : coord_index gcg co = c
        · subst he
          rw [hr] at h0
          simp only [Option.some.injEq] at h0
          subst h0
          exact Or.inr hhead_read
        · have : read_cell (write_cell st.1 (coord_index gcg co) pl.emptied) c = some pl0 := by
            rw [read_write_other hc0 he]; exact h0
          exact f1 c pl0 this
      · intro c hc
        have hne : coord_index gcg co ≠ c := hc co (List.mem_cons_self _ _) hs
        rw [u1 c (fun co1 hco1 hs1 => hc co1 (List.mem_cons_of_mem _ hco1) hs1)]
        exact read_write_other hc0 hne
      · intro co1 hco1 hs1
        rcases List.mem_cons.mp hco1 with rfl | hrest
        · exact ⟨pl, hr, hhead_read, hhead_clear⟩
        · by_cases he : coord_index gcg co = coord_index gcg co1
          · rw [← he]
            exact ⟨pl, hr, hhead_read, hhead_clear⟩
          · obtain ⟨pl1, hr1, hr2, hc2⟩ := v1 co1 hrest hs1
            rw [read_write_other hc0 he] at hr1
            exact ⟨pl1, hr1, hr2, hc2⟩
      · intro id
        rcases l1 id with h | ⟨h, co1, hco1, hs1, k, hk⟩
        · rcases cl1 id with h2 | ⟨h2, j, -, hj⟩
          · exact Or.inl (h.trans h2)
          · right
            exact ⟨h.trans h2, co, List.mem_cons_self _ _, hs, 0 + j, hj⟩
        · right
          refine ⟨h, co1, List.mem_cons_of_mem _ hco1, hs1, k, ?_⟩
          rcases cl1 id with h2 | ⟨h2, -⟩
          · exact h2.symm.trans hk
          · exact absurd (h2.symm.trans hk) (by simp)
    · have hcell : invalidate_cell gcg co st = some st := invalidate_cell_not_selected hs
      obtain ⟨st1, hloop, f1, u1, v1, l1⟩ := ih st
        (fun co1 hco1 hs1 => hread co1 (List.mem_cons_of_mem _ hco1) hs1)
      refine ⟨st1, ?_, f1, ?_, ?_, ?_⟩
      · unfold invalidate_loop
        rw [hcell]
        exact hloop
      · intro c hc
        exact u1 c (fun co1 hco1 hs1 => hc co1 (List.mem_cons_of_mem _ hco1) hs1)
      · intro co1 hco1 hs1
        rcases List.mem_cons.mp hco1 with rfl | hrest
        · exact absurd hs1 hs
        · exact v1 co1 hrest hs1
      · intro id
        rcases l1 id with h | ⟨h, co1, hco1, hs1, k, hk⟩
        · exact Or.inl h
        · exact Or.inr ⟨h, co1, List.mem_cons_of_mem _ hco1, hs1, k, hk⟩

/-- On cells whose selected cells are all empty the loop of `invalidate_ghosts` changes
nothing. -/
theorem invalidate_loop_idle (gcg : Vec3 Int) :
    ∀ (coords : List (Int × Int × Int)) (st : List ParticleList × (Int → Option Ptr)),
      (∀ co ∈ coords, coord_selected gcg co = true →
        ∃ pl, read_cell st.1 (coord_index gcg co) = some pl ∧ pl.n = 0) →
      invalidate_loop gcg coords st = some st := by
  intro coords
  induction coords with
  | nil =>
    intro st _
    rfl
  | cons co rest ih =>
    intro st h
    have hcell : invalidate_cell gcg co st = some st := by
      by_cases hs : coord_selected gcg co = true
      · obtain ⟨pl, hr, hn⟩ := h co (List.mem_cons_self _ _) hs
        rw [invalidate_cell_selected hs hr (by omega)]
        have he : pl.emptied = pl := by
          cases pl
          simp only [ParticleList.emptied] at hn ⊢
          subst hn
          rfl
        rw [he, write_cell_self hr, hn]
        simp [clear_ghost_pointers]
      · exact invalidate_cell_not_selected hs
    unfold invalidate_loop
    rw [hcell]
    exact ih st (fun co1 hco1 hs1 => h co1 (List.mem_cons_of_mem _ hco1) hs1)

/-- C18: on a grid with at least one cell per axis whose cells all exist and hold their
particles in written slots, `invalidate_ghosts` returns; afterwards every halo cell has
the count 0, every inner cell is unchanged, every entry of `local_particles` that
pointed at a particle of a halo cell carrying its identity is `NULL`, every entry that
pointed into an inner cell is unchanged, and a second call changes nothing. -/
theorem invalidate_ghosts_spec (gcg : Vec3 Int) (cells : List ParticleList)
    (lp : Int → Option Ptr)
    (hg : 0 < gcg.x0 ∧ 0 < gcg.x1 ∧ 0 < gcg.x2)
    (hlen : (cells.length : Int) = grid_cells gcg)
    (hwf : ∀ pl ∈ cells, pl.n ≤ pl.part.length) :
    ∃ cells1 lp1, invalidate_ghosts gcg cells lp = some (cells1, lp1) ∧
      (∀ c, 0 ≤ c → c < grid_cells gcg → is_inner_cell c gcg = false →
        ∃ pl, read_cell cells c = some pl ∧ read_cell cells1 c = some pl.emptied) ∧
      (∀ c, is_inner_cell c gcg = true → read_cell cells1 c = read_cell cells c) ∧
      (∀ id c k pl x, lp id = some { cell := c, slot := k } → 0 ≤ c → c < grid_cells gcg →
        is_inner_cell c gcg = false → read_cell cells c = some pl → k < pl.n →
        pl.part[k]? = some x → x.identity = id → lp1 id = none) ∧
      (∀ id q, lp id = some q → is_inner_cell q.cell gcg = true → lp1 id = lp id) ∧
      invalidate_ghosts gcg cells1 lp1 = some (cells1, lp1) := by
  obtain ⟨hg0, hg1, hg2⟩ := hg
  -- facts about the coordinates of the loop
  have hrange : ∀ co ∈ all_cell_coords gcg,
      (0 ≤ co.1 ∧ co.1 < gcg.x0) ∧ (0 ≤ co.2.1 ∧ co.2.1 < gcg.x1) ∧
        (0 ≤ co.2.2 ∧ co.2.2 < gcg.x2) := by
    intro co hco
    obtain ⟨m, n, o⟩ := co
    exact mem_all_cell_coords.mp hco
  have hinner : ∀ co ∈ all_cell_coords gcg,
      is_inner_cell (coord_index gcg co) gcg = !coord_selected gcg co := by
    intro co hco
    obtain ⟨h1, h2, h3⟩ := hrange co hco
    exact inner_iff_not_selected h1 h2 h3
  have hcoord : ∀ c, 0 ≤ c → c < grid_cells gcg →
      ∃ co ∈ all_cell_coords gcg, coord_index gcg co = c := by
    intro c hc0 hc1
    obtain ⟨h1, h2, h3⟩ := grid_pos_range hg0 hg1 hc0 hc1
    refine ⟨((get_grid_pos c gcg).x0, (get_grid_pos c gcg).x1, (get_grid_pos c gcg).x2),
      mem_all_cell_coords.mpr ⟨h1, h2, h3⟩, ?_⟩
    exact linear_grid_pos c gcg
  have hread : ∀ co ∈ all_cell_coords gcg, coord_selected gcg co = true →
      ∃ pl, read_cell cells (coord_index gcg co) = some pl ∧ pl.n ≤ pl.part.length := by
    intro co hco _
    obtain ⟨h1, h2, h3⟩ := hrange co hco
    obtain ⟨r0, r1⟩ := linear_index_range h1 h2 h3
    have hlt : (coord_index gcg co).toNat < cells.length := by
      unfold coord_index
      omega
    obtain ⟨pl, hpl⟩ := read_cell_of_lt r0 hlt
    exact ⟨pl, hpl, hwf pl (read_cell_mem hpl)⟩
  obtain ⟨st1, hloop, f1, u1, v1, l1⟩ := invalidate_loop_spec gcg (all_cell_coords gcg)
    (cells, lp) hread
  obtain ⟨cells1, lp1⟩ := st1
  simp only at f1 u1 v1 l1
  refine ⟨cells1, lp1, hloop, ?_, ?_, ?_, ?_, ?_⟩
  · intro c hc0 hc1 hin
    obtain ⟨co, hco, rfl⟩ := hcoord c hc0 hc1
    have hs : coord_selected gcg co = true := by
      have := hinner co hco
      rw [hin] at this
      simpa using this.symm
    obtain ⟨pl, hr, hr1, -⟩ := v1 co hco hs
    exact ⟨pl, hr, hr1⟩
  · intro c hin
    apply u1
    intro co hco hs hce
    have := hinner co hco
    rw [hce, hin, hs] at this
    simp at this
  · intro id c k pl x hlp hc0 hc1 hin hr hk hx hid
    obtain ⟨co, hco, rfl⟩ := hcoord c hc0 hc1
    have hs : coord_selected gcg co = true := by
      have := hinner co hco
      rw [hin] at this
      simpa using this.symm
    obtain ⟨pl1, hr1, -, hclear⟩ := v1 co hco hs
    rw [hr] at hr1
    simp only [Option.some.injEq] at hr1
    subst hr1
    have hne := hclear k x hk hx
    rw [hid] at hne
    rcases l1 id with h | ⟨h, -⟩
    · rw [h, hlp] at hne
      exact absurd rfl hne
    · exact h
  · intro id q hlp hin
    rcases l1 id with h | ⟨-, co, hco, hs, k, hk⟩
    · exact h
    · rw [hlp] at hk
      simp only [Option.some.injEq] at hk
      have := hinner co hco
      rw [hk] at hin
      simp only at hin
      rw [hin, hs] at this
      simp at this
  · apply invalidate_loop_idle
    intro co hco hs
    obtain ⟨pl, -, hr1, -⟩ := v1 co hco hs
    exact ⟨pl.emptied, hr1, rfl⟩


/-! ## `exchange_ghost` on a single process -/

theorem used_length {pl : ParticleList} {xs : List Particle} (h : pl.used = some xs) :
    xs.length = pl.n := by
  unfold ParticleList.used at h
  split at h
  · simp only [Option.some.injEq] at h
    subst h
    simp only [List.length_take]
    omega
  · cases h

theorem used_le {pl : ParticleList} {xs : List Particle} (h : pl.used = some xs) :
    pl.n ≤ pl.part.length := by
  unfold ParticleList.used at h
  split at h
  · assumption
  · cases h

theorem ghost_groups_some (env : GhostComm) (s_dir : Nat) (cells : List ParticleList)
    (hok : cells_ok cells) :
    ∀ cs : List Int, indices_ok cells cs → ∃ groups, ghost_groups env s_dir cells cs = some groups := by
  intro cs
  induction cs with
  | nil => intro _; exact ⟨[], rfl⟩
  | cons c cs ih =>
    intro hind
    obtain ⟨h0, h1⟩ := hind c (List.mem_cons_self _ _)
    obtain ⟨pl, hpl⟩ := read_cell_of_lt h0 h1
    obtain ⟨groups, hg⟩ := ih (fun c1 hc1 => hind c1 (List.mem_cons_of_mem _ hc1))
    refine ⟨ghost_records env s_dir (pl.part.take pl.n) :: groups, ?_⟩
    simp only [ghost_groups, hpl, used_of_le (hok pl (read_cell_mem hpl)), hg]

theorem ghost_groups_length (env : GhostComm) (s_dir : Nat) (cells : List ParticleList) :
    ∀ (cs : List Int) (groups : List (List ReducedParticle)),
      ghost_groups env s_dir cells cs = some groups → groups.length = cs.length := by
  intro cs
  induction cs with
  | nil =>
    intro groups h
    simp only [ghost_groups, Option.some.injEq] at h
    subst h
    rfl
  | cons c cs ih =>
    intro groups h
    unfold ghost_groups at h
    split at h
    · cases h
    · split at h
      · rename_i xs rest hx hrest
        simp only [Option.some.injEq] at h
        subst h
        simp [ih rest hrest]
      · cases h

/-- The group of the `j`-th send cell is made of the folded records of its
particles. -/
theorem ghost_groups_get (env : GhostComm) (s_dir : Nat) (cells : List ParticleList) :
    ∀ (cs : List Int) (groups : List (List ReducedParticle)),
      ghost_groups env s_dir cells cs = some groups →
      ∀ (j : Nat) (c : Int), cs[j]? = some c →
        ∃ (pl : ParticleList) (xs : List Particle),
          read_cell cells c = some pl ∧ pl.used = some xs ∧
          groups[j]? = some (ghost_records env s_dir xs) := by
  intro cs
  induction cs with
  | nil =>
    intro groups _ j c hj
    simp at hj
  | cons c0 cs ih =>
    intro groups h j c hj
    unfold ghost_groups at h
    split at h
    · cases h
    · rename_i pl hpl
      split at h
      · rename_i xs rest hx hrest
        simp only [Option.some.injEq] at h
        subst h
        cases j with
        | zero =>
          simp only [List.getElem?_cons_zero, Option.some.injEq] at hj
          subst hj
          exact ⟨pl, xs, hpl, hx, by simp⟩
        | succ j =>
          simp only [List.getElem?_cons_succ] at hj
          obtain ⟨pl1, xs1, h1, h2, h3⟩ := ih rest hrest j c hj
          exact ⟨pl1, xs1, h1, h2, by simpa using h3⟩
      · cases h

/-- The two loops of `exchange_ghost` over the send cells give the lengths of the record
groups as counts and the groups one after the other as records. -/
theorem pack_ghosts_eq (env : GhostComm) (s_dir : Nat) (cells : List ParticleList) :
    ∀ (cs : List Int) (groups : List (List ReducedParticle)),
      ghost_groups env s_dir cells cs = some groups →
      pack_ghosts env s_dir cells cs =
        some (groups.map (fun grp => (grp.length : Int)), groups.flatten) := by
  intro cs
  induction cs with
  | nil =>
    intro groups h
    simp only [ghost_groups, Option.some.injEq] at h
    subst h
    rfl
  | cons c cs ih =>
    intro groups h
    cases hr : read_cell cells c with
    | none => simp [ghost_groups, hr] at h
    | some pl =>
      cases hu : pl.used with
      | none => simp [ghost_groups, hr, hu] at h
      | some xs =>
        cases hg : ghost_groups env s_dir cells cs with
        | none => simp [ghost_groups, hr, hu, hg] at h
        | some rest =>
          simp only [ghost_groups, hr, hu, hg, Option.some.injEq] at h
          subst h
          simp only [pack_ghosts, hr, hu, ih rest hg, List.map_cons, List.flatten_cons,
            ghost_records, List.length_map, used_length hu]

theorem write_records_length (mem : List Particle) (recs : List ReducedParticle) :
    recs.length ≤ (write_records mem recs).length := by
  induction recs generalizing mem with
  | nil => cases mem <;> simp [write_records]
  | cons r rs ih =>
    cases mem with
    | nil =>
      simp only [write_records, List.length_cons]
      have := ih []
      omega
    | cons x mem =>
      simp only [write_records, List.length_cons]
      have := ih mem
      omega

/-- After the records have been copied, the members `r` of the first slots are the
records. -/
theorem write_records_r (mem : List Particle) (recs : List ReducedParticle) :
    ((write_records mem recs).take recs.length).map Particle.r = recs := by
  induction recs generalizing mem with
  | nil => simp
  | cons r rs ih =>
    cases mem with
    | nil =>
      simp only [write_records, List.length_cons, List.take_succ_cons, List.map_cons, ih]
      rfl
    | cons x mem =>
      simp only [write_records, List.length_cons, List.take_succ_cons, List.map_cons, ih]
      rfl


/-- C18 at the grid of 3 x 3 x 3 cells whose inner cell holds two particles. -/
theorem invalidate_ghosts_spec_witness :
    (0 < (3 : Int) ∧ 0 < (3 : Int) ∧ 0 < (3 : Int)) ∧
    ∃ cells1 lp1,
      invalidate_ghosts ⟨3, 3, 3⟩ cube_node.cells cube_node.local_particles =
        some (cells1, lp1) ∧
      (∀ c, 0 ≤ c → c < grid_cells ⟨3, 3, 3⟩ → is_inner_cell c ⟨3, 3, 3⟩ = false →
        ∃ pl, read_cell cube_node.cells c = some pl ∧ read_cell cells1 c = some pl.emptied) ∧
      (∀ c, is_inner_cell c ⟨3, 3, 3⟩ = true →
        read_cell cells1 c = read_cell cube_node.cells c) ∧
      (∀ id c k pl x, cube_node.local_particles id = some { cell := c, slot := k } → 0 ≤ c →
        c < grid_cells ⟨3, 3, 3⟩ →
        is_inner_cell c ⟨3, 3, 3⟩ = false → read_cell cube_node.cells c = some pl → k < pl.n →
        pl.part[k]? = some x → x.identity = id → lp1 id = none) ∧
      (∀ id q, cube_node.local_particles id = some q → is_inner_cell q.cell ⟨3, 3, 3⟩ = true →
        lp1 id = cube_node.local_particles id) ∧
      invalidate_ghosts ⟨3, 3, 3⟩ cells1 lp1 = some (cells1, lp1) :=
  ⟨by decide, invalidate_ghosts_spec ⟨3, 3, 3⟩ cube_node.cells cube_node.local_particles
    (by decide) (by with_unfolding_all decide) (by
      intro pl hpl
      have hall : ∀ pl ∈ cube_node.cells, pl.n ≤ pl.part.length := by
        with_unfolding_all decide
      exact hall pl hpl)⟩

theorem recv_ghosts_loop_spec (r_dir : Nat) :
    ∀ (R : List Int) (groups : List (List ReducedParticle)) (c cnt : Nat) (st : GhostNode)
      (junk : List ReducedParticle),
      R.length = groups.length → R.Nodup →
      (∀ c_r ∈ R, ∃ pl, read_cell st.cells c_r = some pl) →
      (∀ (j : Nat) (grp : List ReducedParticle), groups[j]? = some grp →
          (st.gh.n_recv_ghosts r_dir)[c + j]? = some (grp.length : Int)) →
      st.gh.g_recv_buf.drop cnt = groups.flatten ++ junk →
      ∃ st1, recv_ghosts_loop r_dir R c cnt st = some st1 ∧ st1.gh = st.gh ∧
        st1.cells.length = st.cells.length ∧
        (∀ c0, c0 ∉ R → read_cell st1.cells c0 = read_cell st.cells c0) ∧
        (∀ (j : Nat) (c_r : Int) (grp : List ReducedParticle) (pl : ParticleList),
           R[j]? = some c_r → groups[j]? = some grp → read_cell st.cells c_r = some pl →
           read_cell st1.cells c_r =
             some { part := write_records pl.part grp, n := grp.length }) := by
  intro R
  induction R with
  | nil =>
    intro groups c cnt st junk _ _ _ _ _
    refine ⟨st, rfl, rfl, rfl, fun _ _ => rfl, ?_⟩
    intro j c_r grp pl hj
    simp at hj
  | cons c_ind rest ih =>
    intro groups c cnt st junk hlen hnd hread hcnt hbuf
    cases groups with
    | nil => simp at hlen
    | cons grp gs =>
      obtain ⟨pl0, hpl0⟩ := hread c_ind (List.mem_cons_self _ _)
      have h0 : 0 ≤ c_ind := read_cell_nonneg hpl0
      have hc0 : (st.gh.n_recv_ghosts r_dir)[c]? = some (grp.length : Int) := by
        have := hcnt 0 grp (by simp)
        simpa using this
      have hrecs : (st.gh.g_recv_buf.drop cnt).take grp.length = grp := by
        rw [hbuf]
        simp [List.flatten_cons, List.append_assoc]
      obtain ⟨hni, hndr⟩ := List.nodup_cons.mp hnd
      have hlen1 : rest.length = gs.length := by simpa using hlen
      -- the state after the head cell
      let acc := accept_ghosts c_ind grp 0 (st.local_particles, st.ghost_log)
      let st2 : GhostNode :=
        { st with
          cells := write_cell st.cells c_ind { part := write_records pl0.part grp, n := grp.length }
          local_particles := acc.1
          ghost_log := acc.2 }
      have hstep : recv_ghosts_loop r_dir (c_ind :: rest) c cnt st =
          recv_ghosts_loop r_dir rest (c + 1) (cnt + grp.length) st2 := by
        simp only [recv_ghosts_loop, hpl0, hc0, Int.toNat_ofNat, hrecs, if_true]
      have hread2 : ∀ c_r ∈ rest, ∃ pl, read_cell st2.cells c_r = some pl := by
        intro c_r hc
        have hne : c_ind ≠ c_r := fun h => hni (h ▸ hc)
        obtain ⟨pl, hpl⟩ := hread c_r (List.mem_cons_of_mem _ hc)
        exact ⟨pl, (read_write_other h0 hne).trans hpl⟩
      have hcnt2 : ∀ (j : Nat) (g : List ReducedParticle), gs[j]? = some g →
          (st2.gh.n_recv_ghosts r_dir)[c + 1 + j]? = some (g.length : Int) := by
        intro j g hj
        have := hcnt (j + 1) g (by simpa using hj)
        rw [show c + 1 + j = c + (j + 1) by omega]
        exact this
      have hbuf2 : st2.gh.g_recv_buf.drop (cnt + grp.length) = gs.flatten ++ junk := by
        show st.gh.g_recv_buf.drop (cnt + grp.length) = gs.flatten ++ junk
        rw [← List.drop_drop, hbuf]
        simp [List.flatten_cons, List.append_assoc]
      obtain ⟨st1, hrun, hgh, hl, hother, hcont⟩ :=
        ih gs (c + 1) (cnt + grp.length) st2 junk hlen1 hndr hread2 hcnt2 hbuf2
      refine ⟨st1, hstep.trans hrun, hgh, ?_, ?_, ?_⟩
      · rw [hl]
        exact write_cell_length _ _ _
      · intro c0 hc0n
        have hne : c_ind ≠ c0 := fun h => hc0n (h ▸ List.mem_cons_self _ _)
        have hnr : c0 ∉ rest := fun h => hc0n (List.mem_cons_of_mem _ h)
        rw [hother c0 hnr]
        exact read_write_other h0 hne
      · intro j c_r g pl hj hg hpl
        cases j with
        | zero =>
          simp only [List.getElem?_cons_zero, Option.some.injEq] at hj hg
          subst hj
          subst hg
          rw [hother c_ind hni]
          have : pl = pl0 := by
            rw [hpl0] at hpl
            exact (Option.some.inj hpl).symm
          subst this
          exact read_write_same hpl0
        | succ j =>
          simp only [List.getElem?_cons_succ] at hj hg
          have hmem : c_r ∈ rest := List.getElem?_mem hj
          have hne : c_ind ≠ c_r := fun h => hni (h ▸ hmem)
          exact hcont j c_r g pl hj hg ((read_write_other h0 hne).trans hpl)


theorem opposite_lt {s : Nat} (h : s < 6) : opposite s < 6 := by
  unfold opposite
  split <;> omega

theorem opposite_opposite {s : Nat} : opposite (opposite s) = s := by
  unfold opposite
  split <;> split <;> omega

theorem opposite_ne {s : Nat} : opposite s ≠ s := by
  unfold opposite
  split <;> omega

theorem opposite_inj {s t : Nat} (h : opposite s = opposite t) : s = t := by
  rw [← opposite_opposite (s := s), ← opposite_opposite (s := t), h]

theorem overwrite_get_lt {α : Type} (old new : List α) {j : Nat} (h : j < new.length) :
    (overwrite old new)[j]? = new[j]? := by
  unfold overwrite
  exact List.getElem?_append_left h

theorem overwrite_length {α : Type} (old new : List α) :
    old.length ≤ (overwrite old new).length := by
  unfold overwrite
  simp only [List.length_append, List.length_drop]
  omega

theorem set_dir_same {α : Type} (a : Nat → α) (k : Nat) (v : α) : set_dir a k v k = v := by
  simp [set_dir]

theorem set_dir_other {α : Type} (a : Nat → α) {k j : Nat} (v : α) (h : j ≠ k) :
    set_dir a k v j = a j := by
  simp [set_dir, h]

/-- The sending part of a turn of the direction loop of `exchange_ghost` towards the
process itself: the counts and records of the send cells arrive in the count array and
the buffer of the receive side. -/
theorem send_stage_same (env : GhostComm) (s : Nat) (st : GhostNode)
    (groups : List (List ReducedParticle))
    (hself : env.node_neighbors s = env.this_node)
    (hpair : (st.gh.recv_cells (opposite s)).length = (st.gh.send_cells s).length)
    (hcount : (st.gh.send_cells s).length + 1 ≤ (st.gh.n_send_ghosts s).length)
    (hg : ghost_groups env s st.cells (st.gh.send_cells s) = some groups) :
    ∃ st1 st2, fill_ghost_buffers env s st = some st1 ∧ send_ghosts env s st1 = some st2 ∧
      st2.cells = st.cells ∧ st2.gh.send_cells = st.gh.send_cells ∧
      st2.gh.recv_cells = st.gh.recv_cells ∧
      st2.gh.n_send_ghosts =
        set_dir st.gh.n_send_ghosts s (st.gh.n_recv_ghosts (opposite s)) ∧
      st2.gh.n_recv_ghosts =
        set_dir st.gh.n_recv_ghosts (opposite s)
          (overwrite (st.gh.n_send_ghosts s)
            (groups.map (fun grp => (grp.length : Int)) ++
              [(groups.map (fun grp => (grp.length : Int))).sum])) ∧
      st2.gh.g_recv_buf = overwrite st.gh.g_send_buf groups.flatten := by
  have hgl := ghost_groups_length env s st.cells _ _ hg
  have hfill := pack_ghosts_eq env s st.cells _ _ hg
  let cnts := groups.map (fun grp => (grp.length : Int))
  let st1 : GhostNode :=
    { st with
      gh := { st.gh with
              n_send_ghosts := set_dir st.gh.n_send_ghosts s
                (overwrite (st.gh.n_send_ghosts s) (cnts ++ [cnts.sum]))
              g_send_buf := overwrite st.gh.g_send_buf groups.flatten } }
  have h1 : fill_ghost_buffers env s st = some st1 := by
    simp only [fill_ghost_buffers, hfill, hcount, if_true]
  have htot : (st1.gh.n_send_ghosts s)[(st.gh.send_cells s).length]? = some cnts.sum := by
    show (set_dir st.gh.n_send_ghosts s _ s)[(st.gh.send_cells s).length]? = some cnts.sum
    rw [set_dir_same, overwrite_get_lt _ _ (by simp [cnts, hgl])]
    rw [List.getElem?_append_right (by simp [cnts, hgl])]
    simp [cnts, hgl]
  let st2 : GhostNode :=
    { st1 with
      gh := { st1.gh with
              ghost_send_size := set_dir st1.gh.ghost_send_size s cnts.sum
              n_send_ghosts := set_dir st1.gh.n_send_ghosts s (st1.gh.n_recv_ghosts (opposite s))
              n_recv_ghosts := set_dir st1.gh.n_recv_ghosts (opposite s) (st1.gh.n_send_ghosts s)
              ghost_recv_size := set_dir st1.gh.ghost_recv_size (opposite s) cnts.sum
              g_send_buf := st1.gh.g_recv_buf
              g_recv_buf := st1.gh.g_send_buf } }
  have h2 : send_ghosts env s st1 = some st2 := by
    have htot2 : (st1.gh.n_send_ghosts s)[(st1.gh.recv_cells (opposite s)).length]? =
        some cnts.sum := by
      show (st1.gh.n_send_ghosts s)[(st.gh.recv_cells (opposite s)).length]? = some cnts.sum
      rw [hpair]
      exact htot
    have htot1 : (st1.gh.n_send_ghosts s)[(st1.gh.send_cells s).length]? = some cnts.sum := htot
    simp only [send_ghosts, hself, ne_eq, not_true_eq_false, if_false, send_ghosts_same,
      htot1, htot2]
  refine ⟨st1, st2, h1, h2, rfl, rfl, rfl, ?_, ?_, rfl⟩
  · funext j
    by_cases hj : j = s
    · subst hj
      simp [st2, st1, set_dir]
    · simp [st2, st1, set_dir, hj]
  · show set_dir st.gh.n_recv_ghosts (opposite s) (set_dir st.gh.n_send_ghosts s _ s) = _
    rw [set_dir_same]


theorem indices_ok_of_length {cells cells1 : List ParticleList} {cs : List Int}
    (hl : cells1.length = cells.length) (h : indices_ok cells cs) : indices_ok cells1 cs := by
  intro c hc
  rw [hl]
  exact h c hc

theorem mem_cells_read {cells : List ParticleList} {pl : ParticleList} (h : pl ∈ cells) :
    ∃ c : Int, read_cell cells c = some pl := by
  obtain ⟨i, hi⟩ := List.mem_iff_getElem?.mp h
  refine ⟨(i : Int), ?_⟩
  unfold read_cell
  simp only [Int.natCast_nonneg, if_true, Int.toNat_ofNat]
  exact hi

/-- One turn of the direction loop of `exchange_ghost` towards the process itself: it
returns, the receive cell number `j` of the opposite direction then holds the records
of the send cell number `j` in its first slots and their number as count, and all
other cells are as before. -/
theorem exchange_ghost_dir_same (env : GhostComm) (s : Nat) (st : GhostNode)
    (hself : env.node_neighbors s = env.this_node) (hs : s < 6)
    (hok : ghost_lists_ok st.gh st.cells) (hc : cells_ok st.cells) :
    ∃ st1 groups, exchange_ghost_dir env s st = some st1 ∧
      ghost_groups env s st.cells (st.gh.send_cells s) = some groups ∧
      st1.gh.send_cells = st.gh.send_cells ∧ st1.gh.recv_cells = st.gh.recv_cells ∧
      ghost_lists_ok st1.gh st1.cells ∧ cells_ok st1.cells ∧
      (∀ c0, c0 ∉ st.gh.recv_cells (opposite s) →
        read_cell st1.cells c0 = read_cell st.cells c0) ∧
      (∀ (j : Nat) (c_r : Int) (grp : List ReducedParticle) (pl : ParticleList),
        (st.gh.recv_cells (opposite s))[j]? = some c_r → groups[j]? = some grp →
        read_cell st.cells c_r = some pl →
        read_cell st1.cells c_r =
          some { part := write_records pl.part grp, n := grp.length }) := by
  obtain ⟨groups, hg⟩ := ghost_groups_some env s st.cells hc _ (hok.send_ok s hs)
  have hgl := ghost_groups_length env s st.cells _ _ hg
  have hpair := hok.pairs s hs
  obtain ⟨sta, st2, hfill, hsend, hcells, hsc, hrc, hns, hnr, hbuf⟩ :=
    send_stage_same env s st groups hself hpair (hok.send_counts s hs) hg
  have ho := opposite_lt hs
  have hloop := recv_ghosts_loop_spec (opposite s) (st2.gh.recv_cells (opposite s)) groups 0 0
    st2 (st.gh.g_send_buf.drop groups.flatten.length)
    (by rw [hrc, hpair, hgl])
    (by rw [hrc]; exact hok.recv_nodup _ ho)
    (by
      intro c_r hcr
      rw [hrc] at hcr
      rw [hcells]
      obtain ⟨h0, h1⟩ := hok.recv_ok _ ho c_r hcr
      exact read_cell_of_lt h0 h1)
    (by
      intro j grp hj
      have hjl : j < groups.length := (List.getElem?_eq_some.mp hj).1
      rw [hnr, set_dir_same, Nat.zero_add,
        overwrite_get_lt _ _ (by simp only [List.length_append, List.length_map]; omega),
        List.getElem?_append_left (by simpa using hjl), List.getElem?_map, hj]
      rfl)
    (by rw [hbuf]; rfl)
  obtain ⟨st1, hrun, hgh, hlen, hother, hcont⟩ := hloop
  rw [hrc] at hrun hother hcont
  rw [hcells] at hlen hother hcont
  have hex : exchange_ghost_dir env s st = some st1 := by
    simp only [exchange_ghost_dir, hfill, hsend, hrc]
    exact hrun
  have hsc1 : st1.gh.send_cells = st.gh.send_cells := by rw [hgh, hsc]
  have hrc1 : st1.gh.recv_cells = st.gh.recv_cells := by rw [hgh, hrc]
  refine ⟨st1, groups, hex, hg, hsc1, hrc1, ?_, ?_, hother, hcont⟩
  · refine ⟨?_, ?_, ?_, ?_, ?_, ?_, ?_⟩
    · intro t ht
      rw [hsc1, hrc1]
      exact hok.pairs t ht
    · intro t ht
      rw [hsc1, hgh, hns]
      by_cases hts : t = s
      · subst hts
        rw [set_dir_same, ← hpair]
        exact hok.recv_counts _ ho
      · rw [set_dir_other _ _ hts]
        exact hok.send_counts t ht
    · intro t ht
      rw [hrc1, hgh, hnr]
      by_cases hts : t = opposite s
      · subst hts
        rw [set_dir_same, hpair]
        exact le_trans (hok.send_counts s hs) (overwrite_length _ _)
      · rw [set_dir_other _ _ hts]
        exact hok.recv_counts t ht
    · intro t ht
      rw [hrc1]
      exact hok.recv_nodup t ht
    · intro t u ht hu htu
      rw [hrc1]
      exact hok.recv_disjoint t u ht hu htu
    · intro t ht
      rw [hsc1]
      exact indices_ok_of_length hlen (hok.send_ok t ht)
    · intro t ht
      rw [hrc1]
      exact indices_ok_of_length hlen (hok.recv_ok t ht)
  · intro pl hpl
    obtain ⟨c, hcpl⟩ := mem_cells_read hpl
    by_cases hmem : c ∈ st.gh.recv_cells (opposite s)
    · obtain ⟨j, hj⟩ := List.mem_iff_getElem?.mp hmem
      have hjl : j < (st.gh.recv_cells (opposite s)).length := (List.getElem?_eq_some.mp hj).1
      have hjg : j < groups.length := by rw [hgl, ← hpair]; exact hjl
      obtain ⟨h0, h1⟩ := hok.recv_ok _ ho c hmem
      obtain ⟨pl0, hpl0⟩ := read_cell_of_lt h0 h1
      have := hcont j c groups[j] pl0 hj (List.getElem?_eq_getElem hjg) hpl0
      rw [hcpl] at this
      have hpl1 := Option.some.inj this
      subst hpl1
      exact write_records_length _ _
    · rw [hother c hmem] at hcpl
      exact hc pl (read_cell_mem hcpl)


theorem vec3_set_get {α : Type} (v : Vec3 α) (i : Nat) : v.set i (v.get i) = v := by
  unfold Vec3.set Vec3.get
  split
  · rfl
  · split <;> rfl

/-- For the values -1, 0 and 1 of `boundary[s_dir]` the `switch` of `exchange_ghost` adds
`boundary[s_dir] * box_l[s_dir/2]` to the coordinate `s_dir/2`. -/
theorem fold_ghost_eq_shift (env : GhostComm) (s : Nat) (r : ReducedParticle)
    (hb : env.boundary s = -1 ∨ env.boundary s = 0 ∨ env.boundary s = 1) :
    fold_ghost env s r = shift_record env s r := by
  unfold fold_ghost shift_record
  rcases hb with h | h | h
  · simp only [h, Int.reduceNeg, Int.reduceEq, if_false, if_true, Int.cast_neg, Int.cast_one,
      neg_mul, one_mul, sub_eq_add_neg]
  · simp only [h, Int.reduceNeg, Int.reduceEq, if_false, Int.cast_zero, zero_mul, add_zero,
      vec3_set_get]
  · simp only [h, if_true, Int.cast_one, one_mul]

theorem exchange_ghost_dirs_append (env : GhostComm) (l1 l2 : List Nat) (st : GhostNode) :
    exchange_ghost_dirs env (l1 ++ l2) st =
      (exchange_ghost_dirs env l1 st).bind (exchange_ghost_dirs env l2) := by
  induction l1 generalizing st with
  | nil => rfl
  | cons s l1 ih =>
    simp only [List.cons_append, exchange_ghost_dirs]
    cases h : exchange_ghost_dir env s st with
    | none => rfl
    | some st1 => exact ih st1

/-- The direction loop of `exchange_ghost` over directions towards the process itself
returns and leaves every cell that is in no receive list of these directions as it
was. -/
theorem exchange_ghost_dirs_same (env : GhostComm) :
    ∀ (dirs : List Nat) (st : GhostNode),
      (∀ s ∈ dirs, s < 6 ∧ env.node_neighbors s = env.this_node) →
      ghost_lists_ok st.gh st.cells → cells_ok st.cells →
      ∃ st1, exchange_ghost_dirs env dirs st = some st1 ∧
        st1.gh.send_cells = st.gh.send_cells ∧ st1.gh.recv_cells = st.gh.recv_cells ∧
        ghost_lists_ok st1.gh st1.cells ∧ cells_ok st1.cells ∧
        (∀ c0, (∀ s ∈ dirs, c0 ∉ st.gh.recv_cells (opposite s)) →
          read_cell st1.cells c0 = read_cell st.cells c0) := by
  intro dirs
  induction dirs with
  | nil =>
    intro st _ hok hc
    exact ⟨st, rfl, rfl, rfl, hok, hc, fun _ _ => rfl⟩
  | cons s dirs ih =>
    intro st hall hok hc
    obtain ⟨hs, hself⟩ := hall s (List.mem_cons_self _ _)
    obtain ⟨sta, groups, hex, _, hsc, hrc, hok1, hc1, hother, _⟩ :=
      exchange_ghost_dir_same env s st hself hs hok hc
    obtain ⟨st1, hrun, hsc1, hrc1, hok2, hc2, hother1⟩ :=
      ih sta (fun t ht => hall t (List.mem_cons_of_mem _ ht)) hok1 hc1
    refine ⟨st1, ?_, hsc1.trans hsc, hrc1.trans hrc, hok2, hc2, ?_⟩
    · simp only [exchange_ghost_dirs, hex]
      exact hrun
    · intro c0 h0
      rw [hother1 c0 (fun t ht => by rw [hrc]; exact h0 t (List.mem_cons_of_mem _ ht))]
      exact hother c0 (h0 s (List.mem_cons_self _ _))

/-- The direction `s` of a run of the direction loop of `exchange_ghost` on a single
process: what the receive cells of the opposite direction hold at the end are the
folded records of the send cells at the time the direction is processed. -/
theorem exchange_ghost_dirs_segment (env : GhostComm) (pre post : List Nat) (s : Nat)
    (st : GhostNode)
    (hall : ∀ t ∈ pre ++ s :: post, t < 6 ∧ env.node_neighbors t = env.this_node)
    (hpost : s ∉ post)
    (hok : ghost_lists_ok st.gh st.cells) (hc : cells_ok st.cells) :
    ∃ st_s st1, exchange_ghost_dirs env pre st = some st_s ∧
      exchange_ghost_dirs env (pre ++ s :: post) st = some st1 ∧
      ∀ (k : Nat) (c_s c_r : Int), (st.gh.send_cells s)[k]? = some c_s →
        (st.gh.recv_cells (opposite s))[k]? = some c_r →
        ∃ pl_s xs pl_r ys, read_cell st_s.cells c_s = some pl_s ∧ pl_s.used = some xs ∧
          read_cell st1.cells c_r = some pl_r ∧ pl_r.used = some ys ∧
          ys.map Particle.r = xs.map (fun x => fold_ghost env s x.r) ∧
          ((∀ t ∈ s :: post, c_s ∉ st.gh.recv_cells (opposite t)) →
            read_cell st1.cells c_s = read_cell st_s.cells c_s) := by
  obtain ⟨st_s, hpre, hsc, hrc, hok1, hc1, _⟩ :=
    exchange_ghost_dirs_same env pre st
      (fun t ht => hall t (List.mem_append_left _ ht)) hok hc
  obtain ⟨hs, hself⟩ := hall s (List.mem_append_right _ (List.mem_cons_self _ _))
  obtain ⟨sta, groups, hex, hg, hsc2, hrc2, hok2, hc2, hframe, hcont⟩ :=
    exchange_ghost_dir_same env s st_s hself hs hok1 hc1
  obtain ⟨st1, hrun, _, _, _, _, hother⟩ :=
    exchange_ghost_dirs_same env post sta
      (fun t ht => hall t (List.mem_append_right _ (List.mem_cons_of_mem _ ht))) hok2 hc2
  refine ⟨st_s, st1, hpre, ?_, ?_⟩
  · rw [exchange_ghost_dirs_append, hpre]
    simp only [Option.bind, exchange_ghost_dirs, hex]
    exact hrun
  · intro k c_s c_r hks hkr
    rw [← hsc] at hks
    rw [← hrc] at hkr
    obtain ⟨pl_s, xs, hpl, hxs, hgk⟩ := ghost_groups_get env s st_s.cells _ _ hg k c_s hks
    have ho := opposite_lt hs
    have hmem : c_r ∈ st_s.gh.recv_cells (opposite s) := List.getElem?_mem hkr
    obtain ⟨h0, h1⟩ := hok1.recv_ok _ ho c_r hmem
    obtain ⟨pl0, hpl0⟩ := read_cell_of_lt h0 h1
    have hwritten := hcont k c_r _ pl0 hkr hgk hpl0
    have hkeep : read_cell st1.cells c_r = read_cell sta.cells c_r := by
      apply hother
      intro t ht hin
      rw [hrc2] at hin
      have hne : opposite s ≠ opposite t := by
        intro h
        have := opposite_inj h
        exact hpost (this ▸ ht)
      have ht6 := (hall t (List.mem_append_right _ (List.mem_cons_of_mem _ ht))).1
      exact hok1.recv_disjoint _ _ ho (opposite_lt ht6) hne c_r hmem hin
    refine ⟨pl_s, xs, _,
      (write_records pl0.part (ghost_records env s xs)).take (ghost_records env s xs).length,
      hpl, hxs, hkeep.trans hwritten, ?_, ?_, ?_⟩
    · exact used_of_le (write_records_length _ _)
    · exact write_records_r _ _
    · intro hcl
      rw [hother c_s (fun t ht => by
        rw [hrc2, hrc]
        exact hcl t (List.mem_cons_of_mem _ ht))]
      apply hframe
      rw [hrc]
      exact hcl s (List.mem_cons_self _ _)


/-- C15 (full ghost rebuild on a single process whose six neighbors are itself, with
`boundary` values among -1, 0 and 1, cell lists that fit each other and the cell array,
and cells that hold their particles in written slots): `exchange_ghost` returns, and for
every direction `s` and every `k` the cell `recv_cells[opposite(s)].e[k]` then holds as
its particles exactly the records (identity, type, position) of the particles that the
cell `send_cells[s].e[k]` held after the directions before `s` had been processed, in
the same order, with the coordinate `s/2` increased by `boundary[s] * box_l[s/2]`. -/
theorem exchange_ghost_single_process (env : GhostComm) (st : GhostNode)
    (hself : ∀ s, s < 6 → env.node_neighbors s = env.this_node)
    (hb : ∀ s, s < 6 → env.boundary s = -1 ∨ env.boundary s = 0 ∨ env.boundary s = 1)
    (hok : ghost_lists_ok st.gh st.cells) (hc : cells_ok st.cells) :
    ∃ st1, exchange_ghost env st = some st1 ∧
      ∀ s, s < 6 → ∃ st_s, exchange_ghost_dirs env (List.range s) st = some st_s ∧
        ∀ (k : Nat) (c_s c_r : Int), (st.gh.send_cells s)[k]? = some c_s →
          (st.gh.recv_cells (opposite s))[k]? = some c_r →
          ∃ pl_s xs pl_r ys, read_cell st_s.cells c_s = some pl_s ∧ pl_s.used = some xs ∧
            read_cell st1.cells c_r = some pl_r ∧ pl_r.used = some ys ∧
            ys.map Particle.r = xs.map (fun x => shift_record env s x.r) := by
  have hall : ∀ t ∈ [0, 1, 2, 3, 4, 5], t < 6 ∧ env.node_neighbors t = env.this_node := by
    intro t ht
    have ht6 : t < 6 := by
      simp only [List.mem_cons, List.mem_singleton, List.not_mem_nil, or_false] at ht
      omega
    exact ⟨ht6, hself t ht6⟩
  obtain ⟨st1, hrun, _⟩ := exchange_ghost_dirs_same env [0, 1, 2, 3, 4, 5] st hall hok hc
  refine ⟨st1, hrun, ?_⟩
  intro s hs
  have hseg : ∃ post, [0, 1, 2, 3, 4, 5] = List.range s ++ s :: post ∧ s ∉ post := by
    interval_cases s
    · exact ⟨[1, 2, 3, 4, 5], rfl, by decide⟩
    · exact ⟨[2, 3, 4, 5], rfl, by decide⟩
    · exact ⟨[3, 4, 5], rfl, by decide⟩
    · exact ⟨[4, 5], rfl, by decide⟩
    · exact ⟨[5], rfl, by decide⟩
    · exact ⟨[], rfl, by decide⟩
  obtain ⟨post, hsplit, hpost⟩ := hseg
  obtain ⟨st_s, st2, hpre, hfull, hcont⟩ :=
    exchange_ghost_dirs_segment env (List.range s) post s st (hsplit ▸ hall) hpost hok hc
  have h12 : st2 = st1 := by
    rw [← hsplit] at hfull
    exact Option.some.inj (hfull.symm.trans hrun)
  subst h12
  refine ⟨st_s, hpre, ?_⟩
  intro k c_s c_r hks hkr
  obtain ⟨pl_s, xs, pl_r, ys, h1, h2, h3, h4, h5, _⟩ := hcont k c_s c_r hks hkr
  refine ⟨pl_s, xs, pl_r, ys, h1, h2, h3, h4, ?_⟩
  rw [h5]
  apply List.map_congr_left
  intro x _
  exact fold_ghost_eq_shift env s x.r (hb s hs)

/-- C15 at the single process of `cube_node`. -/
theorem exchange_ghost_single_process_witness :
    ∃ st1, exchange_ghost cube_env cube_node = some st1 ∧
      ∀ s, s < 6 → ∃ st_s, exchange_ghost_dirs cube_env (List.range s) cube_node = some st_s ∧
        ∀ (k : Nat) (c_s c_r : Int), (cube_node.gh.send_cells s)[k]? = some c_s →
          (cube_node.gh.recv_cells (opposite s))[k]? = some c_r →
          ∃ pl_s xs pl_r ys, read_cell st_s.cells c_s = some pl_s ∧ pl_s.used = some xs ∧
            read_cell st1.cells c_r = some pl_r ∧ pl_r.used = some ys ∧
            ys.map Particle.r = xs.map (fun x => shift_record cube_env s x.r) :=
  exchange_ghost_single_process cube_env cube_node (by intro s _; rfl)
    (by with_unfolding_all decide)
    ⟨by with_unfolding_all decide, by with_unfolding_all decide, by with_unfolding_all decide,
      by with_unfolding_all decide,
      by
        have h : ∀ s, s < 6 → ∀ t, t < 6 →
            (s = t ∨ ∀ c ∈ cube_node.gh.recv_cells s, ¬ (c ∈ cube_node.gh.recv_cells t)) := by
          with_unfolding_all decide
        exact fun s t hs ht hne => (h s hs t ht).resolve_left hne,
      by
        have h : ∀ s, s < 6 → ∀ c ∈ cube_node.gh.send_cells s,
            0 ≤ c ∧ c.toNat < cube_node.cells.length := by
          with_unfolding_all decide
        exact h,
      by
        have h : ∀ s, s < 6 → ∀ c ∈ cube_node.gh.recv_cells s,
            0 ≤ c ∧ c.toNat < cube_node.cells.length := by
          with_unfolding_all decide
        exact h⟩
    (by
      have hall : ∀ pl ∈ cube_node.cells, pl.n ≤ pl.part.length := by
        with_unfolding_all decide
      exact hall)


/-! ## `update_ghost_pos` -/

theorem set_pos_erase {x x1 : Particle} (h : erase_pos x = erase_pos x1) (a b c : ℚ) :
    set_pos x a b c = set_pos x1 a b c := by
  cases x
  cases x1
  simp only [erase_pos, Particle.mk.injEq] at h
  simp only [set_pos, Particle.mk.injEq]
  tauto

theorem erase_set_pos (x : Particle) (a b c : ℚ) : erase_pos (set_pos x a b c) = erase_pos x :=
  rfl

theorem slots_sim_refl (k n : Nat) (mem : List Particle) : slots_sim k n mem mem :=
  ⟨rfl, fun _ => ⟨fun _ => rfl, fun _ _ => rfl⟩⟩

theorem slots_sim_zero_erase {n : Nat} {mem mem1 : List Particle}
    (h : slots_sim 0 n mem mem1) (i : Nat) :
    (mem[i]?).map erase_pos = (mem1[i]?).map erase_pos := by
  by_cases hi : i < n
  · exact (h.2 i).2 (Nat.zero_le _) hi
  · rw [(h.2 i).1 (Or.inr (Nat.le_of_not_lt hi))]

theorem slots_sim_symm {n : Nat} {mem mem1 : List Particle} (h : slots_sim 0 n mem mem1) :
    slots_sim 0 n mem1 mem :=
  ⟨h.1.symm, fun i => ⟨fun hi => ((h.2 i).1 hi).symm, fun h0 h1 => ((h.2 i).2 h0 h1).symm⟩⟩

theorem slots_sim_trans {n : Nat} {mem mem1 mem2 : List Particle}
    (h : slots_sim 0 n mem mem1) (h1 : slots_sim 0 n mem1 mem2) : slots_sim 0 n mem mem2 :=
  ⟨h.1.trans h1.1, fun i =>
    ⟨fun hi => ((h.2 i).1 hi).trans ((h1.2 i).1 hi),
      fun h0 hn => ((h.2 i).2 h0 hn).trans ((h1.2 i).2 h0 hn)⟩⟩

/-- The inner loop of the receiving part of `update_ghost_pos`, run on two particle
arrays that differ in the positions of the slots to write only and on two buffers that
agree where the loop reads: both runs return, with the same array. -/
theorem unpack_slots_both (buf buf1 : List ℚ) :
    ∀ (todo k g : Nat) (mem mem1 : List Particle),
      slots_sim k (k + todo) mem mem1 → k + todo ≤ mem.length →
      g + 3 * todo ≤ buf.length → (∀ i, i < g + 3 * todo → buf[i]? = buf1[i]?) →
      ∃ m, unpack_slots set_pos buf todo k g mem = some (m, g + 3 * todo) ∧
        unpack_slots set_pos buf1 todo k g mem1 = some (m, g + 3 * todo) ∧
        slots_sim k (k + todo) mem m := by
  intro todo
  induction todo with
  | zero =>
    intro k g mem mem1 hs _ _ _
    have heq : mem = mem1 := by
      apply List.ext_getElem?
      intro i
      apply (hs.2 i).1
      omega
    subst heq
    exact ⟨mem, rfl, rfl, slots_sim_refl _ _ _⟩
  | succ todo ih =>
    intro k g mem mem1 hs hk hg hag
    have hk1 : k < mem.length := by omega
    have hk2 : k < mem1.length := by rw [← hs.1]; exact hk1
    have hx : mem[k]? = some mem[k] := List.getElem?_eq_getElem hk1
    have hx1 : mem1[k]? = some mem1[k] := List.getElem?_eq_getElem hk2
    have her : erase_pos mem[k] = erase_pos mem1[k] := by
      have := (hs.2 k).2 (le_refl k) (by omega)
      rw [hx, hx1] at this
      exact Option.some.inj this
    have ha : buf[g]? = some buf[g] := List.getElem?_eq_getElem (by omega)
    have hb : buf[g + 1]? = some buf[g + 1] := List.getElem?_eq_getElem (by omega)
    have hc : buf[g + 2]? = some buf[g + 2] := List.getElem?_eq_getElem (by omega)
    have ha1 : buf1[g]? = some buf[g] := by rw [← hag g (by omega)]; exact ha
    have hb1 : buf1[g + 1]? = some buf[g + 1] := by rw [← hag (g + 1) (by omega)]; exact hb
    have hc1 : buf1[g + 2]? = some buf[g + 2] := by rw [← hag (g + 2) (by omega)]; exact hc
    have hsim : slots_sim (k + 1) (k + 1 + todo)
        (mem.set k (set_pos mem[k] buf[g] buf[g + 1] buf[g + 2]))
        (mem1.set k (set_pos mem1[k] buf[g] buf[g + 1] buf[g + 2])) := by
      refine ⟨by simp [hs.1], fun i => ⟨fun hi => ?_, fun h0 hn => ?_⟩⟩
      · by_cases hik : i = k
        · subst hik
          rw [List.getElem?_set_eq hk1, List.getElem?_set_eq hk2, set_pos_erase her]
        · rw [List.getElem?_set_ne (Ne.symm hik), List.getElem?_set_ne (Ne.symm hik)]
          apply (hs.2 i).1
          omega
      · have hik : k ≠ i := by omega
        rw [List.getElem?_set_ne hik, List.getElem?_set_ne hik]
        exact (hs.2 i).2 (by omega) (by omega)
    obtain ⟨m, hm, hm1, hmsim⟩ := ih (k + 1) (g + 3) _ _ hsim (by simp; omega) (by omega)
      (fun i hi => hag i (by omega))
    refine ⟨m, ?_, ?_, ?_⟩
    · simp only [unpack_slots, hx, ha, hb, hc]
      rw [hm]
      congr 2
      omega
    · simp only [unpack_slots, hx1, ha1, hb1, hc1]
      rw [hm1]
      congr 2
      omega
    · refine ⟨by rw [← hmsim.1]; simp, fun i => ⟨fun hi => ?_, fun h0 hn => ?_⟩⟩
      · have hik : k ≠ i := by omega
        rw [← (hmsim.2 i).1 (by omega), List.getElem?_set_ne hik]
      · by_cases hik : i = k
        · subst hik
          rw [← (hmsim.2 i).1 (by omega), List.getElem?_set_eq hk1, hx]
          rfl
        · rw [← (hmsim.2 i).2 (by omega) (by omega), List.getElem?_set_ne (Ne.symm hik)]


theorem cell_sim_refl (pl : ParticleList) : cell_sim pl pl := ⟨rfl, slots_sim_refl _ _ _⟩

theorem cell_sim_symm {pl pl1 : ParticleList} (h : cell_sim pl pl1) : cell_sim pl1 pl :=
  ⟨h.1.symm, h.1 ▸ slots_sim_symm h.2⟩

theorem cell_sim_trans {pl pl1 pl2 : ParticleList} (h : cell_sim pl pl1)
    (h1 : cell_sim pl1 pl2) : cell_sim pl pl2 :=
  ⟨h.1.trans h1.1, slots_sim_trans h.2 (h.1 ▸ h1.2)⟩

theorem read_cell_length {cells cells1 : List ParticleList} (hl : cells.length = cells1.length)
    {c : Int} {pl : ParticleList} (h : read_cell cells c = some pl) :
    ∃ pl1, read_cell cells1 c = some pl1 :=
  read_cell_of_lt (read_cell_nonneg h) (hl ▸ read_cell_lt h)

theorem read_cell_none_length {cells cells1 : List ParticleList}
    (hl : cells.length = cells1.length) {c : Int} (h : read_cell cells c = none) :
    read_cell cells1 c = none := by
  cases h1 : read_cell cells1 c with
  | none => rfl
  | some pl1 =>
    obtain ⟨pl, hpl⟩ := read_cell_length hl.symm h1
    rw [h] at hpl
    cases hpl

theorem cells_sim_refl (cells : List ParticleList) : cells_sim cells cells :=
  ⟨rfl, fun c pl pl1 h h1 => by
    rw [h] at h1
    exact Option.some.inj h1 ▸ cell_sim_refl pl⟩

theorem cells_sim_symm {cells cells1 : List ParticleList} (h : cells_sim cells cells1) :
    cells_sim cells1 cells :=
  ⟨h.1.symm, fun c pl pl1 h0 h1 => cell_sim_symm (h.2 c pl1 pl h1 h0)⟩

theorem cells_sim_trans {cells cells1 cells2 : List ParticleList}
    (h : cells_sim cells cells1) (h1 : cells_sim cells1 cells2) : cells_sim cells cells2 :=
  ⟨h.1.trans h1.1, fun c pl pl2 h0 h2 => by
    obtain ⟨pl1, hpl1⟩ := read_cell_length h.1 h0
    exact cell_sim_trans (h.2 c pl pl1 h0 hpl1) (h1.2 c pl1 pl2 hpl1 h2)⟩

theorem ghost_total_sim {cells cells1 : List ParticleList} (h : cells_sim cells cells1)
    (cs : List Int) : ghost_total cells cs = ghost_total cells1 cs := by
  unfold ghost_total
  congr 1
  apply List.map_congr_left
  intro c _
  cases h0 : read_cell cells c with
  | none => rw [read_cell_none_length h.1 h0]
  | some pl =>
    obtain ⟨pl1, hpl1⟩ := read_cell_length h.1 h0
    rw [hpl1]
    exact (h.2 c pl pl1 h0 hpl1).1

theorem ghost_total_cons {cells : List ParticleList} {c : Int} {pl : ParticleList}
    (h : read_cell cells c = some pl) (cs : List Int) :
    ghost_total cells (c :: cs) = pl.n + ghost_total cells cs := by
  simp only [ghost_total, List.map_cons, List.sum_cons, h]

theorem write_sim {cells : List ParticleList} {c : Int} {pl w : ParticleList}
    (h : read_cell cells c = some pl) (hw : cell_sim pl w) :
    cells_sim cells (write_cell cells c w) := by
  refine ⟨(write_cell_length _ _ _).symm, fun c1 p p1 h0 h1 => ?_⟩
  by_cases hc : c = c1
  · subst hc
    rw [read_write_same h] at h1
    rw [h] at h0
    rw [← Option.some.inj h0, ← Option.some.inj h1]
    exact hw
  · rw [read_write_other (read_cell_nonneg h) hc, h0] at h1
    exact Option.some.inj h1 ▸ cell_sim_refl p

theorem write_both_sim {cells cells1 : List ParticleList} {c : Int} {pl pl1 : ParticleList}
    (w : ParticleList) (hs : cells_sim cells cells1) (h : read_cell cells c = some pl)
    (h1 : read_cell cells1 c = some pl1) :
    cells_sim (write_cell cells c w) (write_cell cells1 c w) := by
  refine ⟨by rw [write_cell_length, write_cell_length]; exact hs.1, fun c1 p p1 h0 h2 => ?_⟩
  by_cases hc : c = c1
  · subst hc
    rw [read_write_same h] at h0
    rw [read_write_same h1] at h2
    rw [← Option.some.inj h0, ← Option.some.inj h2]
    exact cell_sim_refl w
  · rw [read_write_other (read_cell_nonneg h) hc] at h0
    rw [read_write_other (read_cell_nonneg h1) hc] at h2
    exact hs.2 c1 p p1 h0 h2

theorem write_cells_ok {cells : List ParticleList} {c : Int} {pl w : ParticleList}
    (hok : cells_ok cells) (h : read_cell cells c = some pl) (hw : w.n ≤ w.part.length) :
    cells_ok (write_cell cells c w) := by
  intro p hp
  obtain ⟨c1, hc1⟩ := mem_cells_read hp
  by_cases hc : c = c1
  · subst hc
    rw [read_write_same h] at hc1
    exact Option.some.inj hc1 ▸ hw
  · rw [read_write_other (read_cell_nonneg h) hc] at hc1
    exact hok p (read_cell_mem hc1)

/-- The receiving loops of `update_ghost_pos` over a list of cells, run on two cell
arrays that differ in positions only and on two buffers that agree where the loops
read: both runs return, the cells of the list are then the same in both, and all other
cells are as they were. -/
theorem unpack_cells_both (buf buf1 : List ℚ) :
    ∀ (cs : List Int) (g : Nat) (cells cells1 : List ParticleList),
      cells_sim cells cells1 → cells_ok cells → indices_ok cells cs →
      g + 3 * ghost_total cells cs ≤ buf.length →
      (∀ i, i < g + 3 * ghost_total cells cs → buf[i]? = buf1[i]?) →
      ∃ out out1, unpack_cells set_pos buf cs g cells = some out ∧
        unpack_cells set_pos buf1 cs g cells1 = some out1 ∧
        cells_sim cells out ∧ cells_sim cells1 out1 ∧ cells_ok out ∧
        (∀ c ∈ cs, read_cell out c = read_cell out1 c) ∧
        (∀ c, c ∉ cs → read_cell out c = read_cell cells c ∧
          read_cell out1 c = read_cell cells1 c) := by
  intro cs
  induction cs with
  | nil =>
    intro g cells cells1 hs hok _ _ _
    exact ⟨cells, cells1, rfl, rfl, cells_sim_refl _, cells_sim_refl _, hok,
      fun c hc => by simp at hc, fun c _ => ⟨rfl, rfl⟩⟩
  | cons c cs ih =>
    intro g cells cells1 hs hok hind hlen hag
    obtain ⟨h0, hlt⟩ := hind c (List.mem_cons_self _ _)
    obtain ⟨pl, hpl⟩ := read_cell_of_lt h0 hlt
    obtain ⟨pl1, hpl1⟩ := read_cell_length hs.1 hpl
    have hcs := hs.2 c pl pl1 hpl hpl1
    have hn := hok pl (read_cell_mem hpl)
    rw [ghost_total_cons hpl] at hlen hag
    have hslots : slots_sim 0 (0 + pl.n) pl.part pl1.part := by
      rw [Nat.zero_add]
      exact hcs.2
    obtain ⟨m, hm, hm1, hmsim⟩ := unpack_slots_both buf buf1 pl.n 0 g pl.part pl1.part hslots
      (by omega) (by omega) (fun i hi => hag i (by omega))
    rw [Nat.zero_add] at hmsim
    have hwsim : cell_sim pl { part := m, n := pl.n } := ⟨rfl, hmsim⟩
    have hwn : ({ part := m, n := pl.n } : ParticleList).n ≤
        ({ part := m, n := pl.n } : ParticleList).part.length := by
      show pl.n ≤ m.length
      rw [← hmsim.1]
      exact hn
    have hsA := write_sim hpl hwsim
    have hsB : cells_sim cells1 (write_cell cells1 c { part := m, n := pl.n }) :=
      write_sim hpl1 (cell_sim_trans (cell_sim_symm hcs) hwsim)
    have htot := ghost_total_sim hsA cs
    obtain ⟨out, out1, hrun, hrun1, hso, hso1, hoko, heq, hother⟩ :=
      ih (g + 3 * pl.n) (write_cell cells c { part := m, n := pl.n })
        (write_cell cells1 c { part := m, n := pl.n })
        (write_both_sim _ hs hpl hpl1) (write_cells_ok hok hpl hwn)
        (indices_ok_of_length (write_cell_length _ _ _)
          (fun c1 hc1 => hind c1 (List.mem_cons_of_mem _ hc1)))
        (by rw [← htot]; omega) (fun i hi => hag i (by rw [← htot] at hi; omega))
    refine ⟨out, out1, ?_, ?_, cells_sim_trans hsA hso, cells_sim_trans hsB hso1, hoko, ?_, ?_⟩
    · simp only [unpack_cells, hpl, hm]
      exact hrun
    · simp only [unpack_cells, hpl1, ← hcs.1, hm1]
      exact hrun1
    · intro c1 hc1
      by_cases hin : c1 ∈ cs
      · exact heq c1 hin
      · have hc : c1 = c := by
          rcases List.mem_cons.mp hc1 with h | h
          · exact h
          · exact absurd h hin
        subst hc
        rw [(hother c1 hin).1, (hother c1 hin).2, read_write_same hpl, read_write_same hpl1]
    · intro c1 hc1
      have hne : c ≠ c1 := fun h => hc1 (h ▸ List.mem_cons_self _ _)
      have hin : c1 ∉ cs := fun h => hc1 (List.mem_cons_of_mem _ h)
      rw [(hother c1 hin).1, (hother c1 hin).2, read_write_other h0 hne,
        read_write_other h0 hne]
      exact ⟨rfl, rfl⟩


theorem cells_ok_sim {cells cells1 : List ParticleList} (hs : cells_sim cells cells1)
    (hok : cells_ok cells) : cells_ok cells1 := by
  intro pl1 hpl1
  obtain ⟨c, hc⟩ := mem_cells_read hpl1
  obtain ⟨pl, hpl⟩ := read_cell_length hs.1.symm hc
  have h := hs.2 c pl pl1 hpl hc
  rw [← h.1, ← h.2.1]
  exact hok pl (read_cell_mem hpl)

theorem pack_cells_congr (entries : Particle → List ℚ) {cells cells1 : List ParticleList} :
    ∀ cs : List Int, (∀ c ∈ cs, read_cell cells c = read_cell cells1 c) →
      pack_cells entries cells cs = pack_cells entries cells1 cs := by
  intro cs
  induction cs with
  | nil => intro _; rfl
  | cons c cs ih =>
    intro h
    simp only [pack_cells, h c (List.mem_cons_self _ _),
      ih (fun c1 hc1 => h c1 (List.mem_cons_of_mem _ hc1))]

theorem flatMap_length_three (entries : Particle → List ℚ)
    (h3 : ∀ x, (entries x).length = 3) (xs : List Particle) :
    (xs.flatMap entries).length = 3 * xs.length := by
  induction xs with
  | nil => rfl
  | cons x xs ih =>
    simp only [List.flatMap_cons, List.length_append, h3, ih, List.length_cons]
    omega

/-- The sending loops of `update_ghost_pos` and `collect_ghost_forces` over a list of
cells return and fill three entries of the buffer per particle. -/
theorem pack_cells_some (entries : Particle → List ℚ) (h3 : ∀ x, (entries x).length = 3)
    {cells : List ParticleList} (hok : cells_ok cells) :
    ∀ cs : List Int, indices_ok cells cs →
      ∃ buf, pack_cells entries cells cs = some buf ∧
        buf.length = 3 * ghost_total cells cs := by
  intro cs
  induction cs with
  | nil => intro _; exact ⟨[], rfl, rfl⟩
  | cons c cs ih =>
    intro hind
    obtain ⟨h0, h1⟩ := hind c (List.mem_cons_self _ _)
    obtain ⟨pl, hpl⟩ := read_cell_of_lt h0 h1
    obtain ⟨buf, hbuf, hlen⟩ := ih (fun c1 hc1 => hind c1 (List.mem_cons_of_mem _ hc1))
    have hn := hok pl (read_cell_mem hpl)
    refine ⟨(pl.part.take pl.n).flatMap entries ++ buf, ?_, ?_⟩
    · simp only [pack_cells, hpl, used_of_le hn, hbuf]
    · rw [ghost_total_cons hpl, List.length_append, flatMap_length_three entries h3, hlen,
        List.length_take]
      omega

theorem pos_entries_length (mod_ind : Nat) (shift : ℚ) (x : Particle) :
    (pos_entries mod_ind shift x).length = 3 := rfl

theorem modifier_some (env : GhostComm) (s : Nat)
    (hb : env.boundary s = -1 ∨ env.boundary s = 0 ∨ env.boundary s = 1) :
    ∃ shift, modifier env s = some shift := by
  unfold modifier
  rcases hb with h | h | h <;> simp [h]

/-- The branch of `send_posforce` towards another process: of the two phases one sends
and one receives, whatever the parity of the position of the process. -/
theorem send_posforce_remote (env : GhostComm) (incoming : List ℚ) (s : Nat) (recv_size : Int)
    (st : GhostNode) (hremote : env.node_neighbors s ≠ env.this_node)
    (hlen : (incoming.length : Int) ≤ 3 * recv_size) :
    send_posforce env incoming s recv_size st =
      some { st with gh := { st.gh with recv_buf := overwrite st.gh.recv_buf incoming } } := by
  by_cases hp : Int.tmod (env.node_pos.get (s / 2) + 0) 2 = 0
  · have hq : ¬ Int.tmod (env.node_pos.get (s / 2) + 1) 2 = 0 := by
      intro h
      have h1 := Int.dvd_of_tmod_eq_zero hp
      have h2 := Int.dvd_of_tmod_eq_zero h
      omega
    simp only [send_posforce, hremote, ne_eq, not_false_eq_true, if_true, send_posforce_phase,
      hp, hq, if_false, hlen]
  · have hq : Int.tmod (env.node_pos.get (s / 2) + 1) 2 = 0 := by
      apply Int.tmod_eq_zero_of_dvd
      have h1 : ¬ (2 : Int) ∣ env.node_pos.get (s / 2) + 0 := fun h =>
        hp (Int.tmod_eq_zero_of_dvd h)
      omega
    simp only [send_posforce, hremote, ne_eq, not_false_eq_true, if_true, send_posforce_phase,
      hp, hq, if_false, hlen]

theorem send_posforce_self (env : GhostComm) (incoming : List ℚ) (s : Nat) (recv_size : Int)
    (st : GhostNode) (hself : env.node_neighbors s = env.this_node) :
    send_posforce env incoming s recv_size st =
      some { st with gh := { st.gh with send_buf := st.gh.recv_buf,
                                        recv_buf := st.gh.send_buf } } := by
  simp only [send_posforce, hself, ne_eq, not_true_eq_false, if_false]

/-- A turn of the direction loop of `update_ghost_pos`, written with the buffer that the
receiving loops read: towards the process itself it is the buffer just filled, from
another process it holds the doubles received. -/
theorem update_ghost_pos_dir_eq (env : GhostComm) (s : Nat) (X : GhostNode) (shift : ℚ)
    (buf : List ℚ) (hmod : modifier env s = some shift)
    (hpack : pack_cells (pos_entries (s / 2) shift) X.cells (X.gh.send_cells s) = some buf)
    (hlen : env.node_neighbors s ≠ env.this_node →
      ((env.in_pos s).length : Int) ≤ 3 * X.gh.ghost_recv_size (opposite s)) :
    ∃ rbuf sbuf,
      (env.node_neighbors s = env.this_node → rbuf = overwrite X.gh.send_buf buf) ∧
      (env.node_neighbors s ≠ env.this_node → rbuf = overwrite X.gh.recv_buf (env.in_pos s)) ∧
      update_ghost_pos_dir env s X =
        (unpack_cells set_pos rbuf (X.gh.recv_cells (opposite s)) 0 X.cells).map
          (fun cells => { X with cells := cells
                                 gh := { X.gh with send_buf := sbuf, recv_buf := rbuf } }) := by
  by_cases hself : env.node_neighbors s = env.this_node
  · refine ⟨overwrite X.gh.send_buf buf, X.gh.recv_buf, fun _ => rfl,
      fun h => absurd hself h, ?_⟩
    simp only [update_ghost_pos_dir, hmod, hpack, send_posforce_self _ _ _ _ _ hself]
    cases unpack_cells set_pos (overwrite X.gh.send_buf buf) (X.gh.recv_cells (opposite s)) 0
      X.cells <;> rfl
  · refine ⟨overwrite X.gh.recv_buf (env.in_pos s), overwrite X.gh.send_buf buf,
      fun h => absurd h hself, fun _ => rfl, ?_⟩
    simp only [update_ghost_pos_dir, hmod, hpack,
      send_posforce_remote _ _ _ _ _ hself (hlen hself)]
    cases unpack_cells set_pos (overwrite X.gh.recv_buf (env.in_pos s))
      (X.gh.recv_cells (opposite s)) 0 X.cells <;> rfl


/-- One turn of the direction loop of `update_ghost_pos`, run on two states that have
the same lists and differ in positions only, and, towards the process itself, agree on
the send cells: both runs return, the receive cells are then the same in both, and all
other cells are as they were.  The buffer must cover the particles of the receive
cells. -/
theorem update_ghost_pos_dir_both (env : GhostComm) (s : Nat) (X Y : GhostNode)
    (hb : env.boundary s = -1 ∨ env.boundary s = 0 ∨ env.boundary s = 1)
    (hl : same_lists X Y) (hsim : cells_sim X.cells Y.cells) (hok : cells_ok X.cells)
    (hsend : indices_ok X.cells (X.gh.send_cells s))
    (hrecv : indices_ok X.cells (X.gh.recv_cells (opposite s)))
    (hself : env.node_neighbors s = env.this_node →
      (∀ c ∈ X.gh.send_cells s, read_cell X.cells c = read_cell Y.cells c) ∧
      ghost_total X.cells (X.gh.recv_cells (opposite s)) ≤
        ghost_total X.cells (X.gh.send_cells s))
    (hremote : env.node_neighbors s ≠ env.this_node →
      3 * ghost_total X.cells (X.gh.recv_cells (opposite s)) ≤ (env.in_pos s).length ∧
      ((env.in_pos s).length : Int) ≤ 3 * X.gh.ghost_recv_size (opposite s)) :
    ∃ X1 Y1, update_ghost_pos_dir env s X = some X1 ∧ update_ghost_pos_dir env s Y = some Y1 ∧
      same_lists X X1 ∧ same_lists Y Y1 ∧
      cells_sim X.cells X1.cells ∧ cells_sim Y.cells Y1.cells ∧ cells_ok X1.cells ∧
      (∀ c ∈ X.gh.recv_cells (opposite s), read_cell X1.cells c = read_cell Y1.cells c) ∧
      (∀ c, c ∉ X.gh.recv_cells (opposite s) →
        read_cell X1.cells c = read_cell X.cells c ∧
        read_cell Y1.cells c = read_cell Y.cells c) := by
  obtain ⟨shift, hmod⟩ := modifier_some env s hb
  obtain ⟨hl1, hl2, hl3, hl4⟩ := hl
  have hokY := cells_ok_sim hsim hok
  obtain ⟨bufX, hpX, hlenX⟩ := pack_cells_some (pos_entries (s / 2) shift)
    (pos_entries_length _ _) hok _ hsend
  obtain ⟨bufY, hpY, _⟩ := pack_cells_some (pos_entries (s / 2) shift)
    (pos_entries_length _ _) hokY (Y.gh.send_cells s)
    (hl1 ▸ indices_ok_of_length hsim.1.symm hsend)
  obtain ⟨rX, sX, hrXs, hrXr, hX⟩ := update_ghost_pos_dir_eq env s X shift bufX hmod hpX
    (fun h => (hremote h).2)
  obtain ⟨rY, sY, hrYs, hrYr, hY⟩ := update_ghost_pos_dir_eq env s Y shift bufY hmod hpY
    (fun h => hl4 ▸ (hremote h).2)
  -- the buffers agree where the receiving loops read
  have hcover : 0 + 3 * ghost_total X.cells (X.gh.recv_cells (opposite s)) ≤ rX.length ∧
      ∀ i, i < 0 + 3 * ghost_total X.cells (X.gh.recv_cells (opposite s)) →
        rX[i]? = rY[i]? := by
    by_cases h : env.node_neighbors s = env.this_node
    · obtain ⟨heq, htot⟩ := hself h
      have hbY : bufY = bufX := by
        have := pack_cells_congr (pos_entries (s / 2) shift) (X.gh.send_cells s) heq
        rw [hpX, hl1, hpY] at this
        exact (Option.some.inj this).symm
      rw [hrXs h, hrYs h, hbY]
      constructor
      · have := overwrite_length X.gh.send_buf bufX
        have h2 : bufX.length ≤ (overwrite X.gh.send_buf bufX).length := by
          unfold overwrite
          simp
        omega
      · intro i hi
        rw [overwrite_get_lt _ _ (by omega), overwrite_get_lt _ _ (by omega)]
    · obtain ⟨hc, _⟩ := hremote h
      rw [hrXr h, hrYr h]
      constructor
      · have h2 : (env.in_pos s).length ≤ (overwrite X.gh.recv_buf (env.in_pos s)).length := by
          unfold overwrite
          simp
        omega
      · intro i hi
        rw [overwrite_get_lt _ _ (by omega), overwrite_get_lt _ _ (by omega)]
  obtain ⟨out, out1, hu, hu1, hso, hso1, hoko, heq, hother⟩ :=
    unpack_cells_both rX rY (X.gh.recv_cells (opposite s)) 0 X.cells Y.cells hsim hok hrecv
      hcover.1 hcover.2
  rw [hu] at hX
  rw [← hl2, hu1] at hY
  exact ⟨_, _, hX, hY, ⟨rfl, rfl, rfl, rfl⟩, ⟨rfl, rfl, rfl, rfl⟩, hso, hso1, hoko, heq, hother⟩


theorem cells_eq_of_read {cells cells1 : List ParticleList}
    (h : ∀ c, read_cell cells c = read_cell cells1 c) : cells = cells1 := by
  apply List.ext_getElem?
  intro i
  have := h (i : Int)
  unfold read_cell at this
  simpa using this

/-- The direction loop of `update_ghost_pos` over increasing directions, run on two
states that have the same lists and differ in positions only, and agree on the cells
that none of the directions receives: both runs return, with the same cells, and the
first run leaves the cells that none of the directions receives as they were. -/
theorem update_ghost_pos_run_both (env : GhostComm) :
    ∀ (dirs : List Nat) (X Y : GhostNode),
      dirs.Pairwise (fun a b => a < b) →
      (∀ s ∈ dirs, env.boundary s = -1 ∨ env.boundary s = 0 ∨ env.boundary s = 1) →
      same_lists X Y → cells_sim X.cells Y.cells → cells_ok X.cells →
      (∀ s ∈ dirs, indices_ok X.cells (X.gh.send_cells s) ∧
        indices_ok X.cells (X.gh.recv_cells (opposite s))) →
      (∀ s ∈ dirs, env.node_neighbors s = env.this_node →
        ghost_total X.cells (X.gh.recv_cells (opposite s)) ≤
          ghost_total X.cells (X.gh.send_cells s)) →
      (∀ s ∈ dirs, env.node_neighbors s ≠ env.this_node →
        3 * ghost_total X.cells (X.gh.recv_cells (opposite s)) ≤ (env.in_pos s).length ∧
        ((env.in_pos s).length : Int) ≤ 3 * X.gh.ghost_recv_size (opposite s)) →
      (∀ s ∈ dirs, env.node_neighbors s = env.this_node → ∀ t ∈ dirs, s ≤ t →
        ∀ c ∈ X.gh.send_cells s, c ∉ X.gh.recv_cells (opposite t)) →
      (∀ c, (∀ t ∈ dirs, c ∉ X.gh.recv_cells (opposite t)) →
        read_cell X.cells c = read_cell Y.cells c) →
      ∃ X1 Y1, run_dirs (update_ghost_pos_dir env) dirs X = some X1 ∧
        run_dirs (update_ghost_pos_dir env) dirs Y = some Y1 ∧
        same_lists X X1 ∧ cells_sim X.cells X1.cells ∧ cells_ok X1.cells ∧
        X1.cells = Y1.cells ∧
        (∀ c, (∀ t ∈ dirs, c ∉ X.gh.recv_cells (opposite t)) →
          read_cell X1.cells c = read_cell X.cells c) := by
  intro dirs
  induction dirs with
  | nil =>
    intro X Y _ _ hl hsim hok _ _ _ _ heq
    refine ⟨X, Y, rfl, rfl, ⟨rfl, rfl, rfl, rfl⟩, cells_sim_refl _, hok, ?_, fun _ _ => rfl⟩
    exact cells_eq_of_read (fun c => heq c (fun t ht => by simp at ht))
  | cons s rest ih =>
    intro X Y hsorted hb hl hsim hok hind htot hrem hclear heq
    obtain ⟨hlt, hsorted1⟩ := List.pairwise_cons.mp hsorted
    have hs := List.mem_cons_self s rest
    obtain ⟨X1, Y1, hX, hY, hlX, hlY, hsX, hsY, hok1, heq1, hother⟩ :=
      update_ghost_pos_dir_both env s X Y (hb s hs) hl hsim hok (hind s hs).1 (hind s hs).2
        (fun hself => ⟨fun c hc => heq c (fun t ht => by
            have hst : s ≤ t := by
              rcases List.mem_cons.mp ht with h | h
              · exact h ▸ le_refl s
              · exact Nat.le_of_lt (hlt t h)
            exact hclear s hs hself t ht hst c hc), htot s hs hself⟩)
        (hrem s hs)
    obtain ⟨e1, e2, e3, e4⟩ := hlX
    obtain ⟨f1, f2, f3, f4⟩ := hlY
    obtain ⟨g1, g2, g3, g4⟩ := hl
    have hsim1 : cells_sim X1.cells Y1.cells :=
      cells_sim_trans (cells_sim_symm hsX) (cells_sim_trans hsim hsY)
    obtain ⟨X2, Y2, hX2, hY2, hl2, hs2, hok2, hcells, hframe⟩ :=
      ih X1 Y1 hsorted1 (fun t ht => hb t (List.mem_cons_of_mem _ ht))
        ⟨e1.symm.trans (g1.trans f1), e2.symm.trans (g2.trans f2),
          e3.symm.trans (g3.trans f3), e4.symm.trans (g4.trans f4)⟩
        hsim1 hok1
        (fun t ht => by
          rw [← e1, ← e2]
          have := hind t (List.mem_cons_of_mem _ ht)
          exact ⟨indices_ok_of_length hsX.1.symm this.1,
            indices_ok_of_length hsX.1.symm this.2⟩)
        (fun t ht hself => by
          rw [← e1, ← e2, ← ghost_total_sim hsX, ← ghost_total_sim hsX]
          exact htot t (List.mem_cons_of_mem _ ht) hself)
        (fun t ht hremote => by
          rw [← e2, ← e4, ← ghost_total_sim hsX]
          exact hrem t (List.mem_cons_of_mem _ ht) hremote)
        (fun t ht hself u hu htu => by
          rw [← e1, ← e2]
          exact hclear t (List.mem_cons_of_mem _ ht) hself u (List.mem_cons_of_mem _ hu) htu)
        (fun c hc => by
          rw [← e2] at hc
          by_cases hin : c ∈ X.gh.recv_cells (opposite s)
          · exact heq1 c hin
          · rw [(hother c hin).1, (hother c hin).2]
            apply heq
            intro t ht
            rcases List.mem_cons.mp ht with h | h
            · exact h ▸ hin
            · exact hc t h)
    obtain ⟨k1, k2, k3, k4⟩ := hl2
    refine ⟨X2, Y2, ?_, ?_, ⟨e1.trans k1, e2.trans k2, e3.trans k3, e4.trans k4⟩,
      cells_sim_trans hsX hs2, hok2, hcells, ?_⟩
    · simp only [run_dirs, hX]
      exact hX2
    · simp only [run_dirs, hY]
      exact hY2
    · intro c hc
      rw [hframe c (fun t ht => by
        rw [← e2]
        exact hc t (List.mem_cons_of_mem _ ht))]
      exact (hother c (hc s hs)).1


/-- Calling `update_ghost_pos` twice on a state whose buffers cover the particles of the
receive cells: both calls return, and the second leaves all cells as the first has left
them.  Towards the process itself a direction must not send a cell that it or a later
direction receives; positions received from other processes are those of `env` in both
calls. -/
theorem update_ghost_pos_twice (env : GhostComm) (st : GhostNode)
    (hb : ∀ s, s < 6 → env.boundary s = -1 ∨ env.boundary s = 0 ∨ env.boundary s = 1)
    (hc : cells_ok st.cells)
    (hind : ∀ s, s < 6 → indices_ok st.cells (st.gh.send_cells s) ∧
      indices_ok st.cells (st.gh.recv_cells (opposite s)))
    (htot : ∀ s, s < 6 → env.node_neighbors s = env.this_node →
      ghost_total st.cells (st.gh.recv_cells (opposite s)) ≤
        ghost_total st.cells (st.gh.send_cells s))
    (hrem : ∀ s, s < 6 → env.node_neighbors s ≠ env.this_node →
      3 * ghost_total st.cells (st.gh.recv_cells (opposite s)) ≤ (env.in_pos s).length ∧
      ((env.in_pos s).length : Int) ≤ 3 * st.gh.ghost_recv_size (opposite s))
    (hclear : ∀ s t, s ≤ t → t < 6 → env.node_neighbors s = env.this_node →
      ∀ c ∈ st.gh.send_cells s, c ∉ st.gh.recv_cells (opposite t)) :
    ∃ st1 st2, update_ghost_pos env st = some st1 ∧ update_ghost_pos env st1 = some st2 ∧
      st2.cells = st1.cells := by
  have hmem : ∀ t ∈ [0, 1, 2, 3, 4, 5], t < 6 := by
    intro t ht
    simp only [List.mem_cons, List.mem_singleton, List.not_mem_nil, or_false] at ht
    omega
  have hsorted : [0, 1, 2, 3, 4, 5].Pairwise (fun a b => a < b) := by decide
  obtain ⟨st1, Y1, hrun, _, hl1, hs1, _, _, hframe⟩ :=
    update_ghost_pos_run_both env [0, 1, 2, 3, 4, 5] st st hsorted
      (fun s hs => hb s (hmem s hs)) ⟨rfl, rfl, rfl, rfl⟩ (cells_sim_refl _) hc
      (fun s hs => hind s (hmem s hs)) (fun s hs => htot s (hmem s hs))
      (fun s hs => hrem s (hmem s hs))
      (fun s hs hself t ht hst => hclear s t hst (hmem t ht) hself)
      (fun _ _ => rfl)
  obtain ⟨X2, st2, hrunX, hrun2, _, _, _, hcells, _⟩ :=
    update_ghost_pos_run_both env [0, 1, 2, 3, 4, 5] st st1 hsorted
      (fun s hs => hb s (hmem s hs)) hl1 hs1 hc
      (fun s hs => hind s (hmem s hs)) (fun s hs => htot s (hmem s hs))
      (fun s hs => hrem s (hmem s hs))
      (fun s hs hself t ht hst => hclear s t hst (hmem t ht) hself)
      (fun c hcl => (hframe c hcl).symm)
  have hX : X2 = st1 := Option.some.inj (hrunX.symm.trans hrun)
  subst hX
  exact ⟨X2, st2, hrun, hrun2, hcells.symm⟩

theorem ghost_total_eq_of_pairs (cells : List ParticleList) :
    ∀ (rs ss : List Int), rs.length = ss.length →
      (∀ (k : Nat) (c_r c_s : Int), rs[k]? = some c_r → ss[k]? = some c_s →
        ∃ pl_r pl_s, read_cell cells c_r = some pl_r ∧ read_cell cells c_s = some pl_s ∧
          pl_r.n = pl_s.n) →
      ghost_total cells rs = ghost_total cells ss := by
  intro rs
  induction rs with
  | nil =>
    intro ss hl _
    cases ss with
    | nil => rfl
    | cons _ _ => simp at hl
  | cons r rs ih =>
    intro ss hl h
    cases ss with
    | nil => simp at hl
    | cons c ss =>
      obtain ⟨pl_r, pl_s, h1, h2, h3⟩ := h 0 r c (by simp) (by simp)
      rw [ghost_total_cons h1, ghost_total_cons h2, h3,
        ih ss (by simpa using hl)
          (fun k c_r c_s hr hs => h (k + 1) c_r c_s (by simpa using hr) (by simpa using hs))]

/-! ## `exchange_ghost` with neighbors that are other processes -/

theorem set_dir_length_le {α : Type} (a : Nat → List α) (k : Nat) (v : List α)
    (h : (a k).length ≤ v.length) (t : Nat) : (a t).length ≤ (set_dir a k v t).length := by
  by_cases ht : t = k
  · subst ht
    rw [set_dir_same]
    exact h
  · rw [set_dir_other _ _ ht]

/-- Filling the buffers and `send_ghosts` towards another process leave the cells and
the cell lists as they are, and no count array gets shorter. -/
theorem exchange_send_frame {env : GhostComm} {s : Nat} {st st1 st2 : GhostNode}
    (hremote : env.node_neighbors s ≠ env.this_node)
    (h1 : fill_ghost_buffers env s st = some st1) (h2 : send_ghosts env s st1 = some st2) :
    st2.cells = st.cells ∧ st2.gh.send_cells = st.gh.send_cells ∧
    st2.gh.recv_cells = st.gh.recv_cells ∧
    (∀ t, (st.gh.n_send_ghosts t).length ≤ (st2.gh.n_send_ghosts t).length) ∧
    (∀ t, (st.gh.n_recv_ghosts t).length ≤ (st2.gh.n_recv_ghosts t).length) := by
  have hfill : st1.cells = st.cells ∧ st1.gh.send_cells = st.gh.send_cells ∧
      st1.gh.recv_cells = st.gh.recv_cells ∧
      (∀ t, (st.gh.n_send_ghosts t).length ≤ (st1.gh.n_send_ghosts t).length) ∧
      (∀ t, (st.gh.n_recv_ghosts t).length ≤ (st1.gh.n_recv_ghosts t).length) := by
    unfold fill_ghost_buffers at h1
    split at h1
    · simp at h1
    · split at h1
      · simp only [Option.some.injEq] at h1
        subst h1
        exact ⟨rfl, rfl, rfl, set_dir_length_le _ _ _ (overwrite_length _ _), fun _ => le_refl _⟩
      · simp at h1
  have hsend : ∀ a b : GhostNode, send_ghosts_send s a = some b →
      b.cells = a.cells ∧ b.gh.send_cells = a.gh.send_cells ∧
      b.gh.recv_cells = a.gh.recv_cells ∧
      (∀ t, (a.gh.n_send_ghosts t).length ≤ (b.gh.n_send_ghosts t).length) ∧
      (∀ t, (a.gh.n_recv_ghosts t).length ≤ (b.gh.n_recv_ghosts t).length) := by
    intro a b hab
    unfold send_ghosts_send at hab
    split at hab
    · simp at hab
    · simp only [Option.some.injEq] at hab
      subst hab
      exact ⟨rfl, rfl, rfl, fun _ => le_refl _, fun _ => le_refl _⟩
  have hrecv : ∀ a b : GhostNode, send_ghosts_recv env s a = some b →
      b.cells = a.cells ∧ b.gh.send_cells = a.gh.send_cells ∧
      b.gh.recv_cells = a.gh.recv_cells ∧
      (∀ t, (a.gh.n_send_ghosts t).length ≤ (b.gh.n_send_ghosts t).length) ∧
      (∀ t, (a.gh.n_recv_ghosts t).length ≤ (b.gh.n_recv_ghosts t).length) := by
    intro a b hab
    unfold send_ghosts_recv at hab
    simp only at hab
    split at hab
    · split at hab
      · simp at hab
      · split at hab
        · simp only [Option.some.injEq] at hab
          subst hab
          exact ⟨rfl, rfl, rfl, fun _ => le_refl _,
            set_dir_length_le _ _ _ (overwrite_length _ _)⟩
        · simp at hab
    · simp at hab
  have hphase : ∀ (e : Int) (a b : GhostNode), send_ghosts_phase env s e a = some b →
      b.cells = a.cells ∧ b.gh.send_cells = a.gh.send_cells ∧
      b.gh.recv_cells = a.gh.recv_cells ∧
      (∀ t, (a.gh.n_send_ghosts t).length ≤ (b.gh.n_send_ghosts t).length) ∧
      (∀ t, (a.gh.n_recv_ghosts t).length ≤ (b.gh.n_recv_ghosts t).length) := by
    intro e a b hab
    unfold send_ghosts_phase at hab
    split at hab
    · exact hsend a b hab
    · exact hrecv a b hab
  unfold send_ghosts at h2
  rw [if_pos hremote] at h2
  split at h2
  · simp at h2
  · rename_i sta h0
    obtain ⟨a1, a2, a3, a4, a5⟩ := hphase 0 _ _ h0
    obtain ⟨b1, b2, b3, b4, b5⟩ := hphase 1 _ _ h2
    obtain ⟨c1, c2, c3, c4, c5⟩ := hfill
    exact ⟨b1.trans (a1.trans c1), b2.trans (a2.trans c2), b3.trans (a3.trans c3),
      fun t => le_trans (c4 t) (le_trans (a4 t) (b4 t)),
      fun t => le_trans (c5 t) (le_trans (a5 t) (b5 t))⟩

/-- The receiving loop of `exchange_ghost`, if it returns, leaves the variables of the
exchange and all cells outside its list as they are, and every cell it writes holds its
particles in written slots. -/
theorem recv_ghosts_loop_frame (r_dir : Nat) :
    ∀ (R : List Int) (c cnt : Nat) (st st1 : GhostNode),
      recv_ghosts_loop r_dir R c cnt st = some st1 → cells_ok st.cells →
      st1.gh = st.gh ∧ st1.cells.length = st.cells.length ∧ cells_ok st1.cells ∧
      ∀ c0, c0 ∉ R → read_cell st1.cells c0 = read_cell st.cells c0 := by
  intro R
  induction R with
  | nil =>
    intro c cnt st st1 h hok
    simp only [recv_ghosts_loop, Option.some.injEq] at h
    subst h
    exact ⟨rfl, rfl, hok, fun _ _ => rfl⟩
  | cons c_ind rest ih =>
    intro c cnt st st1 h hok
    cases hr : read_cell st.cells c_ind with
    | none => simp [recv_ghosts_loop, hr] at h
    | some pl =>
      cases hn : (st.gh.n_recv_ghosts r_dir)[c]? with
      | none => simp [recv_ghosts_loop, hr, hn] at h
      | some count =>
        simp only [recv_ghosts_loop, hr, hn] at h
        split at h
        · rename_i hlen
          have hw := write_records_length pl.part
            ((st.gh.g_recv_buf.drop cnt).take count.toNat)
          rw [hlen] at hw
          obtain ⟨h1, h2, h3, h4⟩ := ih _ _ _ _ h (write_cells_ok hok hr hw)
          refine ⟨h1, h2.trans (write_cell_length _ _ _), h3, ?_⟩
          intro c0 hc0
          have hne : c_ind ≠ c0 := fun hh => hc0 (hh ▸ List.mem_cons_self _ _)
          rw [h4 c0 (fun hh => hc0 (List.mem_cons_of_mem _ hh))]
          exact read_write_other (read_cell_nonneg hr) hne
        · cases h

/-- One turn of the direction loop of `exchange_ghost`, towards any neighbor: if it
returns, the lists are as before and fit the cells, the cells hold their particles in
written slots, and all cells but the receive cells of the opposite direction are as they
were. -/
theorem exchange_ghost_dir_frame (env : GhostComm) (s : Nat) (st st1 : GhostNode)
    (hs : s < 6) (hok : ghost_lists_ok st.gh st.cells) (hc : cells_ok st.cells)
    (hex : exchange_ghost_dir env s st = some st1) :
    st1.gh.send_cells = st.gh.send_cells ∧ st1.gh.recv_cells = st.gh.recv_cells ∧
    ghost_lists_ok st1.gh st1.cells ∧ cells_ok st1.cells ∧
    ∀ c0, c0 ∉ st.gh.recv_cells (opposite s) →
      read_cell st1.cells c0 = read_cell st.cells c0 := by
  by_cases hself : env.node_neighbors s = env.this_node
  · obtain ⟨st2, groups, hex2, _, hsc, hrc, hok2, hc2, hother, _⟩ :=
      exchange_ghost_dir_same env s st hself hs hok hc
    have h12 : st2 = st1 := Option.some.inj (hex2.symm.trans hex)
    subst h12
    exact ⟨hsc, hrc, hok2, hc2, hother⟩
  · unfold exchange_ghost_dir at hex
    cases hf : fill_ghost_buffers env s st with
    | none => simp [hf] at hex
    | some sta =>
      cases hg : send_ghosts env s sta with
      | none => simp [hf, hg] at hex
      | some stb =>
        simp only [hf, hg] at hex
        obtain ⟨a1, a2, a3, a4, a5⟩ := exchange_send_frame hself hf hg
        obtain ⟨b1, b2, b3, b4⟩ := recv_ghosts_loop_frame _ _ _ _ _ _ hex (a1 ▸ hc)
        rw [a1] at b2 b4
        rw [a3] at b4
        have hsc : st1.gh.send_cells = st.gh.send_cells := by rw [b1, a2]
        have hrc : st1.gh.recv_cells = st.gh.recv_cells := by rw [b1, a3]
        refine ⟨hsc, hrc, ?_, b3, b4⟩
        refine ⟨?_, ?_, ?_, ?_, ?_, ?_, ?_⟩
        · intro t ht
          rw [hsc, hrc]
          exact hok.pairs t ht
        · intro t ht
          rw [hsc, b1]
          exact le_trans (hok.send_counts t ht) (a4 t)
        · intro t ht
          rw [hrc, b1]
          exact le_trans (hok.recv_counts t ht) (a5 t)
        · intro t ht
          rw [hrc]
          exact hok.recv_nodup t ht
        · intro t u ht hu htu
          rw [hrc]
          exact hok.recv_disjoint t u ht hu htu
        · intro t ht
          rw [hsc]
          exact indices_ok_of_length b2 (hok.send_ok t ht)
        · intro t ht
          rw [hrc]
          exact indices_ok_of_length b2 (hok.recv_ok t ht)

/-- The direction loop of `exchange_ghost` towards any neighbors, if it returns. -/
theorem exchange_ghost_dirs_frame (env : GhostComm) :
    ∀ (dirs : List Nat) (st st1 : GhostNode), (∀ s ∈ dirs, s < 6) →
      ghost_lists_ok st.gh st.cells → cells_ok st.cells →
      exchange_ghost_dirs env dirs st = some st1 →
      st1.gh.send_cells = st.gh.send_cells ∧ st1.gh.recv_cells = st.gh.recv_cells ∧
      ghost_lists_ok st1.gh st1.cells ∧ cells_ok st1.cells ∧
      ∀ c0, (∀ s ∈ dirs, c0 ∉ st.gh.recv_cells (opposite s)) →
        read_cell st1.cells c0 = read_cell st.cells c0 := by
  intro dirs
  induction dirs with
  | nil =>
    intro st st1 _ hok hc h
    simp only [exchange_ghost_dirs, Option.some.injEq] at h
    subst h
    exact ⟨rfl, rfl, hok, hc, fun _ _ => rfl⟩
  | cons s dirs ih =>
    intro st st1 hall hok hc h
    cases hd : exchange_ghost_dir env s st with
    | none => simp [exchange_ghost_dirs, hd] at h
    | some sta =>
      simp only [exchange_ghost_dirs, hd] at h
      obtain ⟨a1, a2, a3, a4, a5⟩ :=
        exchange_ghost_dir_frame env s st sta (hall s (List.mem_cons_self _ _)) hok hc hd
      obtain ⟨b1, b2, b3, b4, b5⟩ :=
        ih sta st1 (fun t ht => hall t (List.mem_cons_of_mem _ ht)) a3 a4 h
      refine ⟨b1.trans a1, b2.trans a2, b3, b4, ?_⟩
      intro c0 h0
      rw [b5 c0 (fun t ht => by rw [a2]; exact h0 t (List.mem_cons_of_mem _ ht))]
      exact a5 c0 (h0 s (List.mem_cons_self _ _))


theorem fold_ghost_identity (env : GhostComm) (s : Nat) (r : ReducedParticle) :
    (fold_ghost env s r).identity = r.identity := by
  unfold fold_ghost
  split
  · rfl
  · split <;> rfl

/-- A direction `s` towards the process itself in a run of the direction loop of
`exchange_ghost` that returns: at the end the receive cell number `k` of the opposite
direction holds as many particles as the send cell number `k`, with the same
identities in the same order, if neither `s` nor a later direction receives that send
cell. -/
theorem exchange_ghost_segment_counts (env : GhostComm) (pre post : List Nat) (s : Nat)
    (st0 st : GhostNode) (hall : ∀ t ∈ pre ++ s :: post, t < 6)
    (hself : env.node_neighbors s = env.this_node) (hpost : s ∉ post)
    (hok : ghost_lists_ok st0.gh st0.cells) (hc : cells_ok st0.cells)
    (hex : exchange_ghost_dirs env (pre ++ s :: post) st0 = some st) :
    ∀ (k : Nat) (c_s c_r : Int), (st0.gh.send_cells s)[k]? = some c_s →
      (st0.gh.recv_cells (opposite s))[k]? = some c_r →
      (∀ t ∈ s :: post, c_s ∉ st0.gh.recv_cells (opposite t)) →
      ∃ pl_r pl_s, read_cell st.cells c_r = some pl_r ∧ read_cell st.cells c_s = some pl_s ∧
        pl_r.n = pl_s.n ∧
        (pl_r.part.take pl_r.n).map (fun x => x.identity) =
          (pl_s.part.take pl_s.n).map (fun x => x.identity) := by
  have hs : s < 6 := hall s (List.mem_append_right _ (List.mem_cons_self _ _))
  rw [exchange_ghost_dirs_append] at hex
  cases hpre : exchange_ghost_dirs env pre st0 with
  | none => simp [hpre] at hex
  | some st_s =>
    simp only [hpre, Option.bind, exchange_ghost_dirs] at hex
    obtain ⟨hsc, hrc, hok1, hc1, _⟩ := exchange_ghost_dirs_frame env pre st0 st_s
      (fun t ht => hall t (List.mem_append_left _ ht)) hok hc hpre
    obtain ⟨sta, groups, hd, hg, hsc2, hrc2, hok2, hc2, hframe, hcont⟩ :=
      exchange_ghost_dir_same env s st_s hself hs hok1 hc1
    rw [hd] at hex
    simp only at hex
    obtain ⟨_, _, _, _, hother⟩ := exchange_ghost_dirs_frame env post sta st
      (fun t ht => hall t (List.mem_append_right _ (List.mem_cons_of_mem _ ht))) hok2 hc2 hex
    intro k c_s c_r hks hkr hcl
    rw [← hsc] at hks
    rw [← hrc] at hkr
    obtain ⟨pl_s, xs, hpl, hxs, hgk⟩ := ghost_groups_get env s st_s.cells _ _ hg k c_s hks
    have ho := opposite_lt hs
    have hmem : c_r ∈ st_s.gh.recv_cells (opposite s) := List.getElem?_mem hkr
    obtain ⟨h0, h1⟩ := hok1.recv_ok _ ho c_r hmem
    obtain ⟨pl0, hpl0⟩ := read_cell_of_lt h0 h1
    have hwritten := hcont k c_r _ pl0 hkr hgk hpl0
    have hkeep : read_cell st.cells c_r = read_cell sta.cells c_r := by
      apply hother
      intro t ht hin
      rw [hrc2] at hin
      have hne : opposite s ≠ opposite t := by
        intro h
        have := opposite_inj h
        exact hpost (this ▸ ht)
      have ht6 := hall t (List.mem_append_right _ (List.mem_cons_of_mem _ ht))
      exact hok1.recv_disjoint _ _ ho (opposite_lt ht6) hne c_r hmem hin
    have hkeep2 : read_cell st.cells c_s = read_cell st_s.cells c_s := by
      rw [hother c_s (fun t ht => by
        rw [hrc2, hrc]
        exact hcl t (List.mem_cons_of_mem _ ht))]
      apply hframe
      rw [hrc]
      exact hcl s (List.mem_cons_self _ _)
    have hxs1 : xs = pl_s.part.take pl_s.n := by
      rw [used_of_le (used_le hxs)] at hxs
      exact (Option.some.inj hxs).symm
    refine ⟨_, pl_s, hkeep.trans hwritten, hkeep2.trans hpl, ?_, ?_⟩
    · show (ghost_records env s xs).length = pl_s.n
      rw [← used_length hxs]
      simp [ghost_records]
    · show ((write_records pl0.part (ghost_records env s xs)).take
          (ghost_records env s xs).length).map (fun x => x.identity) = _
      have hr := congrArg (List.map (fun r : ReducedParticle => r.identity))
        (write_records_r pl0.part (ghost_records env s xs))
      rw [List.map_map] at hr
      rw [← hxs1]
      refine Eq.trans ?_ (hr.trans ?_)
      · rfl
      · simp only [ghost_records, List.map_map]
        apply List.map_congr_left
        intro x _
        exact fold_ghost_identity env s x.r

/-- What `exchange_ghost` leaves behind when it returns: the lists are as before, all
cells hold their particles in written slots, and for a direction towards the process
itself that sends no cell that it or a later direction receives, the receive cells of
the opposite direction hold as many particles as the send cells. -/
theorem exchange_ghost_totals (env : GhostComm) (st0 st : GhostNode)
    (hok : ghost_lists_ok st0.gh st0.cells) (hc : cells_ok st0.cells)
    (hclear : ∀ s t, s ≤ t → t < 6 → env.node_neighbors s = env.this_node →
      ∀ c ∈ st0.gh.send_cells s, c ∉ st0.gh.recv_cells (opposite t))
    (hex : exchange_ghost env st0 = some st) :
    st.gh.send_cells = st0.gh.send_cells ∧ st.gh.recv_cells = st0.gh.recv_cells ∧
    ghost_lists_ok st.gh st.cells ∧ cells_ok st.cells ∧
    ∀ s, s < 6 → env.node_neighbors s = env.this_node →
      ghost_total st.cells (st.gh.recv_cells (opposite s)) =
        ghost_total st.cells (st.gh.send_cells s) := by
  have hall : ∀ t ∈ [0, 1, 2, 3, 4, 5], t < 6 := by
    intro t ht
    simp only [List.mem_cons, List.mem_singleton, List.not_mem_nil, or_false] at ht
    omega
  obtain ⟨hsc, hrc, hok1, hc1, _⟩ :=
    exchange_ghost_dirs_frame env [0, 1, 2, 3, 4, 5] st0 st hall hok hc hex
  refine ⟨hsc, hrc, hok1, hc1, ?_⟩
  intro s hs hself
  have hseg : ∃ post, [0, 1, 2, 3, 4, 5] = List.range s ++ s :: post ∧ s ∉ post ∧
      ∀ t ∈ s :: post, s ≤ t ∧ t < 6 := by
    interval_cases s
    · exact ⟨[1, 2, 3, 4, 5], rfl, by decide, by decide⟩
    · exact ⟨[2, 3, 4, 5], rfl, by decide, by decide⟩
    · exact ⟨[3, 4, 5], rfl, by decide, by decide⟩
    · exact ⟨[4, 5], rfl, by decide, by decide⟩
    · exact ⟨[5], rfl, by decide, by decide⟩
    · exact ⟨[], rfl, by decide, by decide⟩
  obtain ⟨post, hsplit, hpost, hge⟩ := hseg
  have hcount := exchange_ghost_segment_counts env (List.range s) post s st0 st
    (hsplit ▸ hall) hself hpost hok hc (hsplit ▸ hex)
  rw [hsc, hrc]
  apply ghost_total_eq_of_pairs _ _ _ (hok.pairs s hs)
  intro k c_r c_s hr hsk
  obtain ⟨pl_r, pl_s, h1, h2, h3, _⟩ := hcount k c_s c_r hsk hr
    (fun t ht => hclear s t (hge t ht).1 (hge t ht).2 hself c_s (List.getElem?_mem hsk))
  exact ⟨pl_r, pl_s, h1, h2, h3⟩

/-- C16 (idempotence of the ghost refresh): for every state that `exchange_ghost` has
produced from lists that fit each other and the cells, two calls of `update_ghost_pos`
in a row both return, and the second leaves every cell, halo cells included, with the
contents that the first has left.  Assumed: `boundary` has values among -1, 0 and 1; a
direction towards the process itself sends no cell that it or a later direction
receives; from another process both calls receive the positions `in_pos`, three per
particle of the receive cells and no more than `ghost_recv_size` allows. -/
theorem update_ghost_pos_idempotent (env : GhostComm) (st0 st : GhostNode)
    (hb : ∀ s, s < 6 → env.boundary s = -1 ∨ env.boundary s = 0 ∨ env.boundary s = 1)
    (hok : ghost_lists_ok st0.gh st0.cells) (hc : cells_ok st0.cells)
    (hclear : ∀ s t, s ≤ t → t < 6 → env.node_neighbors s = env.this_node →
      ∀ c ∈ st0.gh.send_cells s, c ∉ st0.gh.recv_cells (opposite t))
    (hex : exchange_ghost env st0 = some st)
    (hrem : ∀ s, s < 6 → env.node_neighbors s ≠ env.this_node →
      3 * ghost_total st.cells (st.gh.recv_cells (opposite s)) ≤ (env.in_pos s).length ∧
      ((env.in_pos s).length : Int) ≤ 3 * st.gh.ghost_recv_size (opposite s)) :
    ∃ st1 st2, update_ghost_pos env st = some st1 ∧ update_ghost_pos env st1 = some st2 ∧
      st2.cells = st1.cells := by
  obtain ⟨hsc, hrc, hok1, hc1, htot⟩ := exchange_ghost_totals env st0 st hok hc hclear hex
  exact update_ghost_pos_twice env st hb hc1
    (fun s hs => ⟨hok1.send_ok s hs, hok1.recv_ok _ (opposite_lt hs)⟩)
    (fun s hs hself => le_of_eq (htot s hs hself)) hrem
    (fun s t hst ht hself => by
      rw [hsc, hrc]
      exact hclear s t hst ht hself)


/-- C16 at the single process of `cube_node`, after its `exchange_ghost`. -/
theorem update_ghost_pos_idempotent_witness :
    ∃ st, exchange_ghost cube_env cube_node = some st ∧
      ∃ st1 st2, update_ghost_pos cube_env st = some st1 ∧
        update_ghost_pos cube_env st1 = some st2 ∧ st2.cells = st1.cells := by
  have hs : (exchange_ghost cube_env cube_node).isSome = true := by with_unfolding_all decide
  obtain ⟨st, hex⟩ := Option.isSome_iff_exists.mp hs
  have hclear : ∀ s, s < 6 → ∀ t, t < 6 → s ≤ t →
      ∀ c ∈ cube_node.gh.send_cells s, ¬ (c ∈ cube_node.gh.recv_cells (opposite t)) := by
    with_unfolding_all decide
  exact ⟨st, hex, update_ghost_pos_idempotent cube_env cube_node st
    (by with_unfolding_all decide)
    ⟨by with_unfolding_all decide, by with_unfolding_all decide, by with_unfolding_all decide,
      by with_unfolding_all decide,
      by
        have h : ∀ s, s < 6 → ∀ t, t < 6 →
            (s = t ∨ ∀ c ∈ cube_node.gh.recv_cells s, ¬ (c ∈ cube_node.gh.recv_cells t)) := by
          with_unfolding_all decide
        exact fun s t hs ht hne => (h s hs t ht).resolve_left hne,
      by
        have h : ∀ s, s < 6 → ∀ c ∈ cube_node.gh.send_cells s,
            0 ≤ c ∧ c.toNat < cube_node.cells.length := by
          with_unfolding_all decide
        exact h,
      by
        have h : ∀ s, s < 6 → ∀ c ∈ cube_node.gh.recv_cells s,
            0 ≤ c ∧ c.toNat < cube_node.cells.length := by
          with_unfolding_all decide
        exact h⟩
    (by
      have hall : ∀ pl ∈ cube_node.cells, pl.n ≤ pl.part.length := by
        with_unfolding_all decide
      exact hall)
    (fun s t hst ht _ => hclear s (lt_of_le_of_lt hst ht) t ht hst)
    hex (fun s _ h => absurd rfl h)⟩

/-! ## `collect_ghost_forces` -/

theorem force_entries_drop (xs : List Particle) (tl buf : List ℚ) (g : Nat) (x : Particle)
    (h : buf.drop g = (x :: xs).flatMap force_entries ++ tl) :
    buf[g]? = some x.f.x0 ∧ buf[g + 1]? = some x.f.x1 ∧ buf[g + 2]? = some x.f.x2 ∧
    buf.drop (g + 3) = xs.flatMap force_entries ++ tl := by
  have h0 : ∀ k, buf[g + k]? = (buf.drop g)[k]? := fun k => by rw [List.getElem?_drop]
  refine ⟨?_, ?_, ?_, ?_⟩
  · have := h0 0
    rw [h] at this
    simpa [force_entries] using this
  · have := h0 1
    rw [h] at this
    simpa [force_entries] using this
  · have := h0 2
    rw [h] at this
    simpa [force_entries] using this
  · rw [← List.drop_drop, h]
    simp [force_entries]

/-- The inner loop of the receiving part of `collect_ghost_forces`: when the buffer
holds the forces of the particles `xs` from offset `g` on, the slots `k, k+1, ...` take
them up by addition, one particle of `xs` per slot, and all other slots are as they
were. -/
theorem unpack_add_slots (buf : List ℚ) :
    ∀ (xs : List Particle) (k g : Nat) (mem : List Particle) (tl : List ℚ),
      k + xs.length ≤ mem.length → buf.drop g = xs.flatMap force_entries ++ tl →
      ∃ m, unpack_slots add_force buf xs.length k g mem = some (m, g + 3 * xs.length) ∧
        m.length = mem.length ∧
        (∀ j, (j < k ∨ k + xs.length ≤ j) → m[j]? = mem[j]?) ∧
        (∀ (t : Nat) (x y : Particle), xs[t]? = some x → mem[k + t]? = some y →
          m[k + t]? = some (add_force y x.f.x0 x.f.x1 x.f.x2)) := by
  intro xs
  induction xs with
  | nil =>
    intro k g mem tl _ _
    refine ⟨mem, rfl, rfl, fun _ _ => rfl, ?_⟩
    intro t x y hx
    simp at hx
  | cons x xs ih =>
    intro k g mem tl hk hbuf
    obtain ⟨ha, hb, hc, hrest⟩ := force_entries_drop xs tl buf g x hbuf
    simp only [List.length_cons] at hk
    have hk1 : k < mem.length := by omega
    have hy : mem[k]? = some mem[k] := List.getElem?_eq_getElem hk1
    obtain ⟨m, hm, hml, hmo, hmt⟩ := ih (k + 1) (g + 3)
      (mem.set k (add_force mem[k] x.f.x0 x.f.x1 x.f.x2)) tl (by simp; omega) hrest
    refine ⟨m, ?_, ?_, ?_, ?_⟩
    · simp only [List.length_cons, unpack_slots, hy, ha, hb, hc]
      rw [hm]
      congr 2
      omega
    · rw [hml]
      simp
    · intro j hj
      simp only [List.length_cons] at hj
      rw [hmo j (by omega), List.getElem?_set_ne (by omega)]
    · intro t x1 y hx1 hy1
      cases t with
      | zero =>
        simp only [List.getElem?_cons_zero, Option.some.injEq] at hx1
        subst hx1
        rw [Nat.add_zero] at hy1 ⊢
        rw [hmo k (by omega), List.getElem?_set_eq hk1]
        rw [hy] at hy1
        rw [Option.some.inj hy1]
      | succ t =>
        simp only [List.getElem?_cons_succ] at hx1
        have hidx : k + (t + 1) = k + 1 + t := by omega
        rw [hidx] at hy1 ⊢
        exact hmt t x1 y hx1 (by rw [List.getElem?_set_ne (by omega)]; exact hy1)


theorem add_force_get (y x : Particle) (i : Nat) :
    (add_force y x.f.x0 x.f.x1 x.f.x2).f.get i = y.f.get i + x.f.get i := by
  unfold add_force Vec3.get
  split
  · rfl
  · split <;> rfl

theorem cell_count_read {cells : List ParticleList} {c : Int} {pl : ParticleList}
    (h : read_cell cells c = some pl) : cell_count cells c = pl.n := by
  simp only [cell_count, h]

theorem cell_count_pos_read {cells : List ParticleList} {c : Int} {j : Nat}
    (h : j < cell_count cells c) : ∃ pl, read_cell cells c = some pl := by
  cases hr : read_cell cells c with
  | none => simp [cell_count, hr] at h
  | some pl => exact ⟨pl, rfl⟩

theorem force_at_read {cells : List ParticleList} {c : Int} {pl : ParticleList} {j : Nat}
    {x : Particle} (h : read_cell cells c = some pl) (hx : pl.part[j]? = some x) (i : Nat) :
    force_at cells c j i = x.f.get i := by
  simp only [force_at, h, hx]

/-- The receiving loops of `collect_ghost_forces` over the send cells `ps.map fst`, when
the buffer holds the forces of the particles of the cells `ps.map snd` of the array
`src`, cell by cell with equal counts: the loops return, no count changes, and the
force of every particle has grown by the forces of the particles in the same slot of
the cells paired with its cell. -/
theorem unpack_add_cells (buf : List ℚ) (src : List ParticleList) :
    ∀ (ps : List (Int × Int)) (g : Nat) (cells : List ParticleList) (packed tl : List ℚ),
      cells_ok cells → (∀ p ∈ ps, 0 ≤ p.1 ∧ p.1.toNat < cells.length) →
      (∀ p ∈ ps, cell_count cells p.1 = cell_count src p.2) →
      pack_cells force_entries src (ps.map Prod.snd) = some packed →
      buf.drop g = packed ++ tl →
      ∃ out, unpack_cells add_force buf (ps.map Prod.fst) g cells = some out ∧
        out.length = cells.length ∧ cells_ok out ∧
        (∀ c, cell_count out c = cell_count cells c) ∧
        ∀ (c : Int) (j i : Nat), j < cell_count cells c →
          force_at out c j i = force_at cells c j i +
            ((ps.filter fun p => decide (p.1 = c)).map fun p => force_at src p.2 j i).sum := by
  intro ps
  induction ps with
  | nil =>
    intro g cells packed tl hok _ _ _ _
    exact ⟨cells, rfl, rfl, hok, fun _ => rfl, fun c j i _ => by simp⟩
  | cons p ps ih =>
    intro g cells packed tl hok hind hcnt hpack hbuf
    obtain ⟨c_s, c_r⟩ := p
    cases hr : read_cell src c_r with
    | none => simp [pack_cells, hr] at hpack
    | some pl_r =>
      cases hu : pl_r.used with
      | none => simp [pack_cells, hr, hu] at hpack
      | some xs =>
        cases hp : pack_cells force_entries src (ps.map Prod.snd) with
        | none => simp [pack_cells, hr, hu, hp] at hpack
        | some rest =>
          simp only [List.map_cons, pack_cells, hr, hu, hp, Option.some.injEq] at hpack
          subst hpack
          obtain ⟨h0, h1⟩ := hind (c_s, c_r) (List.mem_cons_self _ _)
          obtain ⟨pl, hpl⟩ := read_cell_of_lt h0 h1
          have hn : pl.n = xs.length := by
            have := hcnt (c_s, c_r) (List.mem_cons_self _ _)
            rw [cell_count_read hpl, cell_count_read hr] at this
            rw [this, used_length hu]
          have hle := hok pl (read_cell_mem hpl)
          obtain ⟨m, hm, hml, hmo, hmt⟩ := unpack_add_slots buf xs 0 g pl.part (rest ++ tl)
            (by omega) (by rw [hbuf, List.append_assoc])
          have hwn : ({ pl with part := m } : ParticleList).n ≤
              ({ pl with part := m } : ParticleList).part.length := by
            show pl.n ≤ m.length
            rw [hml]
            exact hle
          have hcc : ∀ c, cell_count (write_cell cells c_s { pl with part := m }) c =
              cell_count cells c := by
            intro c
            by_cases hc : c_s = c
            · subst hc
              rw [cell_count_read (read_write_same hpl), cell_count_read hpl]
            · simp only [cell_count, read_write_other h0 hc]
          obtain ⟨out, hrun, hlen, hoko, hco, hfo⟩ :=
            ih (g + 3 * xs.length) (write_cell cells c_s { pl with part := m }) rest tl
              (write_cells_ok hok hpl hwn)
              (fun q hq => by
                rw [write_cell_length]
                exact hind q (List.mem_cons_of_mem _ hq))
              (fun q hq => by
                rw [hcc]
                exact hcnt q (List.mem_cons_of_mem _ hq))
              hp
              (by
                have := congrArg (List.drop (3 * xs.length)) hbuf
                rw [List.drop_drop] at this
                rw [this, List.append_assoc, List.drop_append_of_le_length (by
                  rw [flatMap_length_three force_entries (fun _ => rfl)]),
                  List.drop_of_length_le (by
                    rw [flatMap_length_three force_entries (fun _ => rfl)])]
                rfl)
          refine ⟨out, ?_, hlen.trans (write_cell_length _ _ _), hoko,
            fun c => (hco c).trans (hcc c), ?_⟩
          · have hsl : unpack_slots add_force buf pl.n 0 g pl.part =
                some (m, g + 3 * xs.length) := by
              rw [hn]
              exact hm
            simp only [List.map_cons, unpack_cells, hpl, hsl]
            exact hrun
          · intro c j i hj
            rw [hfo c j i (by rw [hcc]; exact hj)]
            by_cases hc : c_s = c
            · subst hc
              rw [cell_count_read hpl] at hj
              have hjm : j < pl.part.length := by omega
              have hy : pl.part[j]? = some pl.part[j] := List.getElem?_eq_getElem hjm
              have hjx : j < xs.length := by omega
              have hx : xs[j]? = some xs[j] := List.getElem?_eq_getElem hjx
              have hxr : pl_r.part[j]? = some xs[j] := by
                unfold ParticleList.used at hu
                split at hu
                · simp only [Option.some.injEq] at hu
                  subst hu
                  rw [← hx, List.getElem?_take_of_lt
                    (lt_of_lt_of_le hjx (List.length_take_le _ _))]
                · cases hu
              have hmj := hmt j xs[j] pl.part[j] hx (by rw [Nat.zero_add]; exact hy)
              rw [Nat.zero_add] at hmj
              rw [force_at_read (read_write_same hpl) hmj, force_at_read hpl hy,
                add_force_get]
              simp only [List.filter_cons, decide_True, if_true, List.map_cons, List.sum_cons,
                force_at_read hr hxr]
              ring
            · have hfa : force_at (write_cell cells c_s { pl with part := m }) c j i =
                  force_at cells c j i := by
                simp only [force_at, read_write_other h0 hc]
              rw [hfa]
              simp only [List.filter_cons, hc, decide_False, Bool.false_eq_true, if_false]


theorem same_layout_refl (st : GhostNode) : same_layout st st := ⟨rfl, rfl, rfl, fun _ => rfl⟩

theorem same_layout_trans {a b c : GhostNode} (h : same_layout a b) (h1 : same_layout b c) :
    same_layout a c :=
  ⟨h.1.trans h1.1, h.2.1.trans h1.2.1, h.2.2.1.trans h1.2.2.1,
    fun x => (h.2.2.2 x).trans (h1.2.2.2 x)⟩

theorem ghost_pairs_fst {gh : Ghosts} {s : Nat}
    (h : (gh.recv_cells (opposite s)).length = (gh.send_cells s).length) :
    (ghost_pairs gh s).map Prod.fst = gh.send_cells s := by
  unfold ghost_pairs
  exact List.map_fst_zip _ _ (le_of_eq h.symm)

theorem ghost_pairs_snd {gh : Ghosts} {s : Nat}
    (h : (gh.recv_cells (opposite s)).length = (gh.send_cells s).length) :
    (ghost_pairs gh s).map Prod.snd = gh.recv_cells (opposite s) := by
  unfold ghost_pairs
  exact List.map_snd_zip _ _ (le_of_eq h)

theorem ghost_pairs_mem {gh : Ghosts} {s : Nat} {p : Int × Int} (h : p ∈ ghost_pairs gh s) :
    p.1 ∈ gh.send_cells s ∧ p.2 ∈ gh.recv_cells (opposite s) := by
  unfold ghost_pairs at h
  obtain ⟨a, b⟩ := p
  exact List.of_mem_zip h

/-- One turn of the direction loop of `collect_ghost_forces` on a process that is its
own neighbor, when every send cell holds as many particles as the receive cell paired
with it: the turn returns, no count changes, and the force of every particle has grown
by the forces of the particles in the same slot of the receive cells paired with its
cell. -/
theorem collect_ghost_forces_dir_same (env : GhostComm) (s : Nat) (st : GhostNode)
    (hself : env.node_neighbors (opposite s) = env.this_node)
    (hlen : (st.gh.recv_cells (opposite s)).length = (st.gh.send_cells s).length)
    (hsend : indices_ok st.cells (st.gh.send_cells s))
    (hrecv : indices_ok st.cells (st.gh.recv_cells (opposite s)))
    (hok : cells_ok st.cells)
    (hcnt : ∀ p ∈ ghost_pairs st.gh s, cell_count st.cells p.1 = cell_count st.cells p.2) :
    ∃ st1, collect_ghost_forces_dir env s st = some st1 ∧ same_layout st st1 ∧
      cells_ok st1.cells ∧
      ∀ (c : Int) (j i : Nat), j < cell_count st.cells c →
        force_at st1.cells c j i = force_at st.cells c j i +
          (((ghost_pairs st.gh s).filter fun p => decide (p.1 = c)).map
            fun p => force_at st.cells p.2 j i).sum := by
  obtain ⟨buf, hbuf, _⟩ := pack_cells_some force_entries (fun _ => rfl) hok _ hrecv
  have hpack : pack_cells force_entries st.cells ((ghost_pairs st.gh s).map Prod.snd) =
      some buf := by
    rw [ghost_pairs_snd hlen]
    exact hbuf
  obtain ⟨out, hrun, hl, hoko, hco, hfo⟩ :=
    unpack_add_cells (overwrite st.gh.send_buf buf) st.cells (ghost_pairs st.gh s) 0
      st.cells buf (st.gh.send_buf.drop buf.length) hok
      (fun p hp => hsend p.1 (ghost_pairs_mem hp).1) hcnt hpack rfl
  rw [ghost_pairs_fst hlen] at hrun
  refine ⟨{ st with cells := out
                    gh := { st.gh with send_buf := st.gh.recv_buf
                                       recv_buf := overwrite st.gh.send_buf buf } }, ?_,
    ⟨rfl, rfl, hl.symm, fun c => (hco c).symm⟩, hoko, hfo⟩
  simp only [collect_ghost_forces_dir, hbuf, send_posforce_self _ _ _ _ _ hself, hrun]

theorem run_dirs_append (turn : Nat → GhostNode → Option GhostNode) (l1 l2 : List Nat)
    (st : GhostNode) :
    run_dirs turn (l1 ++ l2) st = (run_dirs turn l1 st).bind (run_dirs turn l2) := by
  induction l1 generalizing st with
  | nil => rfl
  | cons s l1 ih =>
    simp only [List.cons_append, run_dirs]
    cases h : turn s st with
    | none => rfl
    | some st1 => exact ih st1

theorem replica_sum (ps : List (Int × Int)) (c : Int) (R : Int → List Int) (f : Int → ℚ) :
    ((ps.flatMap fun p => if p.1 = c then p.2 :: R p.2 else []).map f).sum =
      ((ps.filter fun p => decide (p.1 = c)).map
        fun p => f p.2 + ((R p.2).map f).sum).sum := by
  induction ps with
  | nil => rfl
  | cons p ps ih =>
    by_cases hp : p.1 = c
    · simp only [List.flatMap_cons, hp, if_true, List.map_append, List.map_cons,
        List.sum_append, List.sum_cons, List.filter_cons, decide_True]
      rw [← ih]
    · simp only [List.flatMap_cons, hp, if_false, List.nil_append, List.filter_cons,
        decide_False, Bool.false_eq_true]
      exact ih


/-- The direction loop of `collect_ghost_forces` on a process that is its own neighbor,
over the directions `later` taken from the last to the first: it returns, and the force
of every particle has grown by the forces that the particles in the same slot of the
replica cells of its cell had at the start. -/
theorem collect_ghost_forces_run (env : GhostComm) :
    ∀ (later : List Nat) (st : GhostNode),
      (∀ s ∈ later, env.node_neighbors (opposite s) = env.this_node) →
      (∀ s ∈ later, (st.gh.recv_cells (opposite s)).length = (st.gh.send_cells s).length) →
      (∀ s ∈ later, indices_ok st.cells (st.gh.send_cells s) ∧
        indices_ok st.cells (st.gh.recv_cells (opposite s))) →
      cells_ok st.cells →
      (∀ s ∈ later, ∀ p ∈ ghost_pairs st.gh s,
        cell_count st.cells p.1 = cell_count st.cells p.2) →
      ∃ st1, run_dirs (collect_ghost_forces_dir env) later.reverse st = some st1 ∧
        same_layout st st1 ∧ cells_ok st1.cells ∧
        ∀ (c : Int) (j i : Nat), j < cell_count st.cells c →
          force_at st1.cells c j i = force_at st.cells c j i +
            ((replica_cells st.gh later c).map fun h => force_at st.cells h j i).sum := by
  intro later
  induction later with
  | nil =>
    intro st _ _ _ hok _
    exact ⟨st, rfl, same_layout_refl _, hok, fun c j i _ => by simp [replica_cells]⟩
  | cons s later ih =>
    intro st hself hlen hind hok hcnt
    have hs := List.mem_cons_self s later
    obtain ⟨mid, hrun, hlay, hokm, hfm⟩ := ih st
      (fun t ht => hself t (List.mem_cons_of_mem _ ht))
      (fun t ht => hlen t (List.mem_cons_of_mem _ ht))
      (fun t ht => hind t (List.mem_cons_of_mem _ ht)) hok
      (fun t ht => hcnt t (List.mem_cons_of_mem _ ht))
    obtain ⟨l1, l2, l3, l4⟩ := hlay
    have hpairs : ghost_pairs mid.gh s = ghost_pairs st.gh s := by
      unfold ghost_pairs
      rw [l1, l2]
    obtain ⟨st1, hstep, hlay1, hok1, hf1⟩ := collect_ghost_forces_dir_same env s mid
      (hself s hs) (by rw [← l1, ← l2]; exact hlen s hs)
      (by rw [← l1]; exact indices_ok_of_length l3.symm (hind s hs).1)
      (by rw [← l2]; exact indices_ok_of_length l3.symm (hind s hs).2) hokm
      (by
        rw [hpairs]
        intro p hp
        rw [← l4, ← l4]
        exact hcnt s hs p hp)
    refine ⟨st1, ?_, same_layout_trans ⟨l1, l2, l3, l4⟩ hlay1, hok1, ?_⟩
    · rw [List.reverse_cons, run_dirs_append, hrun]
      simp only [Option.bind, run_dirs, hstep]
    · intro c j i hj
      rw [hf1 c j i (by rw [← l4]; exact hj), hfm c j i hj, hpairs]
      simp only [replica_cells, List.map_append, List.sum_append]
      rw [replica_sum]
      rw [add_assoc]
      congr 2
      apply congrArg
      apply List.map_congr_left
      intro p hp
      obtain ⟨hp1, hp2⟩ := List.mem_filter.mp hp
      have hpc : p.1 = c := of_decide_eq_true hp2
      apply hfm
      rw [← hcnt s hs p hp1, hpc]
      exact hj


theorem list_sum_comm {α β : Type} (l1 : List α) (l2 : List β) (f : α → β → ℚ) :
    (l1.map fun a => (l2.map fun b => f a b).sum).sum =
      (l2.map fun b => (l1.map fun a => f a b).sum).sum := by
  induction l1 with
  | nil => simp
  | cons a l1 ih =>
    simp only [List.map_cons, List.sum_cons, ih, List.sum_map_add]

/-- After a turn of the direction loop of `collect_ghost_forces` as in
`collect_ghost_forces_dir_same`, the force sum of every cell has grown by the force
sums of the receive cells paired with it. -/
theorem cell_force_step {ps : List (Int × Int)} {cells cells1 : List ParticleList} (i : Nat)
    (hco : ∀ c, cell_count cells c = cell_count cells1 c)
    (hcnt : ∀ p ∈ ps, cell_count cells p.1 = cell_count cells p.2)
    (hf : ∀ (c : Int) (j i : Nat), j < cell_count cells c →
      force_at cells1 c j i = force_at cells c j i +
        ((ps.filter fun p => decide (p.1 = c)).map fun p => force_at cells p.2 j i).sum)
    (c : Int) :
    cell_force cells1 c i = cell_force cells c i +
      ((ps.filter fun p => decide (p.1 = c)).map fun p => cell_force cells p.2 i).sum := by
  unfold cell_force
  rw [← hco c]
  have h1 : (List.range (cell_count cells c)).map (fun j => force_at cells1 c j i) =
      (List.range (cell_count cells c)).map (fun j => force_at cells c j i +
        ((ps.filter fun p => decide (p.1 = c)).map fun p => force_at cells p.2 j i).sum) := by
    apply List.map_congr_left
    intro j hj
    exact hf c j i (List.mem_range.mp hj)
  rw [h1, List.sum_map_add, list_sum_comm]
  congr 2
  apply List.map_congr_left
  intro p hp
  obtain ⟨hp1, hp2⟩ := List.mem_filter.mp hp
  have hpc : p.1 = c := of_decide_eq_true hp2
  rw [← hcnt p hp1, hpc]

theorem sum_filter_pairs (ps : List (Int × Int)) (A : Finset Int) (g : Int × Int → ℚ)
    (h : ∀ p ∈ ps, p.1 ∈ A) :
    ∑ c ∈ A, ((ps.filter fun p => decide (p.1 = c)).map g).sum = (ps.map g).sum := by
  induction ps with
  | nil => simp
  | cons p ps ih =>
    have hp := h p (List.mem_cons_self _ _)
    have hrest := ih (fun q hq => h q (List.mem_cons_of_mem _ hq))
    have : ∀ c ∈ A, (((p :: ps).filter fun q => decide (q.1 = c)).map g).sum =
        (if p.1 = c then g p else 0) +
          ((ps.filter fun q => decide (q.1 = c)).map g).sum := by
      intro c _
      by_cases hc : p.1 = c
      · simp [List.filter_cons, hc]
      · simp [List.filter_cons, hc]
    rw [Finset.sum_congr rfl this, Finset.sum_add_distrib, hrest, Finset.sum_ite_eq A p.1,
      if_pos hp, List.map_cons, List.sum_cons]

/-- A turn of the direction loop of `collect_ghost_forces` keeps the force sum over a
set of cells that holds the receive cells and, outside them, the send cells, when the
receive cells leave the set. -/
theorem collect_ghost_forces_dir_sum (env : GhostComm) (s : Nat) (st : GhostNode)
    (A : Finset Int) (i : Nat)
    (hself : env.node_neighbors (opposite s) = env.this_node)
    (hlen : (st.gh.recv_cells (opposite s)).length = (st.gh.send_cells s).length)
    (hsend : indices_ok st.cells (st.gh.send_cells s))
    (hrecv : indices_ok st.cells (st.gh.recv_cells (opposite s)))
    (hok : cells_ok st.cells)
    (hcnt : ∀ p ∈ ghost_pairs st.gh s, cell_count st.cells p.1 = cell_count st.cells p.2)
    (hnd : (st.gh.recv_cells (opposite s)).Nodup)
    (hrA : ∀ c ∈ st.gh.recv_cells (opposite s), c ∈ A)
    (hsA : ∀ c ∈ st.gh.send_cells s, c ∈ A ∧ c ∉ st.gh.recv_cells (opposite s)) :
    ∃ st1, collect_ghost_forces_dir env s st = some st1 ∧ same_layout st st1 ∧
      cells_ok st1.cells ∧
      ∑ c ∈ A \ (st.gh.recv_cells (opposite s)).toFinset, cell_force st1.cells c i =
        ∑ c ∈ A, cell_force st.cells c i := by
  obtain ⟨st1, hstep, hlay, hok1, hf⟩ :=
    collect_ghost_forces_dir_same env s st hself hlen hsend hrecv hok hcnt
  refine ⟨st1, hstep, hlay, hok1, ?_⟩
  have hcf := cell_force_step i hlay.2.2.2 hcnt hf
  rw [Finset.sum_congr rfl (fun c _ => hcf c), Finset.sum_add_distrib,
    sum_filter_pairs (ghost_pairs st.gh s) _ (fun p => cell_force st.cells p.2 i)
      (fun p hp => by
        obtain ⟨h1, h2⟩ := hsA p.1 (ghost_pairs_mem hp).1
        exact Finset.mem_sdiff.mpr ⟨h1, fun h => h2 (List.mem_toFinset.mp h)⟩)]
  have hmap : (ghost_pairs st.gh s).map (fun p => cell_force st.cells p.2 i) =
      (st.gh.recv_cells (opposite s)).map (fun c => cell_force st.cells c i) := by
    rw [← ghost_pairs_snd hlen, List.map_map]
    rfl
  rw [hmap, ← List.sum_toFinset _ hnd]
  exact Finset.sum_sdiff (fun c hc => hrA c (List.mem_toFinset.mp hc))


/-- The direction loop of `collect_ghost_forces` on a process that is its own neighbor,
over the increasing directions `later` taken from the last to the first: the force sum
over the cells of `A` that are no receive cells afterwards is the force sum over `A`
before. -/
theorem collect_ghost_forces_run_sum (env : GhostComm) (A : Finset Int) (i : Nat) :
    ∀ (later : List Nat) (st : GhostNode),
      later.Pairwise (fun a b => a < b) →
      (∀ s ∈ later, env.node_neighbors (opposite s) = env.this_node) →
      (∀ s ∈ later, (st.gh.recv_cells (opposite s)).length = (st.gh.send_cells s).length) →
      (∀ s ∈ later, indices_ok st.cells (st.gh.send_cells s) ∧
        indices_ok st.cells (st.gh.recv_cells (opposite s))) →
      cells_ok st.cells →
      (∀ s ∈ later, ∀ p ∈ ghost_pairs st.gh s,
        cell_count st.cells p.1 = cell_count st.cells p.2) →
      (∀ s ∈ later, (st.gh.recv_cells (opposite s)).Nodup) →
      (∀ s ∈ later, ∀ t ∈ later, s ≠ t →
        ∀ c ∈ st.gh.recv_cells (opposite s), c ∉ st.gh.recv_cells (opposite t)) →
      (∀ s ∈ later, (∀ c ∈ st.gh.recv_cells (opposite s), c ∈ A) ∧
        ∀ c ∈ st.gh.send_cells s, c ∈ A) →
      (∀ s ∈ later, ∀ t ∈ later, s ≤ t →
        ∀ c ∈ st.gh.send_cells s, c ∉ st.gh.recv_cells (opposite t)) →
      ∃ st1, run_dirs (collect_ghost_forces_dir env) later.reverse st = some st1 ∧
        same_layout st st1 ∧ cells_ok st1.cells ∧
        ∑ c ∈ A \ (later.flatMap fun s => st.gh.recv_cells (opposite s)).toFinset,
            cell_force st1.cells c i =
          ∑ c ∈ A, cell_force st.cells c i := by
  intro later
  induction later with
  | nil =>
    intro st _ _ _ _ hok _ _ _ _ _
    exact ⟨st, rfl, same_layout_refl _, hok, by simp⟩
  | cons s later ih =>
    intro st hsorted hself hlen hind hok hcnt hnd hdis hA hclear
    obtain ⟨hlt, hsorted1⟩ := List.pairwise_cons.mp hsorted
    have hs := List.mem_cons_self s later
    obtain ⟨mid, hrun, hlay, hokm, hsum⟩ := ih st hsorted1
      (fun t ht => hself t (List.mem_cons_of_mem _ ht))
      (fun t ht => hlen t (List.mem_cons_of_mem _ ht))
      (fun t ht => hind t (List.mem_cons_of_mem _ ht)) hok
      (fun t ht => hcnt t (List.mem_cons_of_mem _ ht))
      (fun t ht => hnd t (List.mem_cons_of_mem _ ht))
      (fun t ht u hu => hdis t (List.mem_cons_of_mem _ ht) u (List.mem_cons_of_mem _ hu))
      (fun t ht => hA t (List.mem_cons_of_mem _ ht))
      (fun t ht u hu => hclear t (List.mem_cons_of_mem _ ht) u (List.mem_cons_of_mem _ hu))
    obtain ⟨l1, l2, l3, l4⟩ := hlay
    have hpairs : ghost_pairs mid.gh s = ghost_pairs st.gh s := by
      unfold ghost_pairs
      rw [l1, l2]
    have hret : ∀ c, c ∈ (later.flatMap fun t => st.gh.recv_cells (opposite t)) ↔
        ∃ t ∈ later, c ∈ st.gh.recv_cells (opposite t) := by
      intro c
      simp only [List.mem_flatMap]
    obtain ⟨st1, hstep, hlay1, hok1, hsum1⟩ := collect_ghost_forces_dir_sum env s mid
      (A \ (later.flatMap fun t => st.gh.recv_cells (opposite t)).toFinset) i
      (hself s hs) (by rw [← l1, ← l2]; exact hlen s hs)
      (by rw [← l1]; exact indices_ok_of_length l3.symm (hind s hs).1)
      (by rw [← l2]; exact indices_ok_of_length l3.symm (hind s hs).2) hokm
      (by
        rw [hpairs]
        intro p hp
        rw [← l4, ← l4]
        exact hcnt s hs p hp)
      (by rw [← l2]; exact hnd s hs)
      (by
        rw [← l2]
        intro c hc
        refine Finset.mem_sdiff.mpr ⟨(hA s hs).1 c hc, fun h => ?_⟩
        obtain ⟨t, ht, hct⟩ := (hret c).mp (List.mem_toFinset.mp h)
        exact hdis s hs t (List.mem_cons_of_mem _ ht) (Nat.ne_of_lt (hlt t ht)) c hc hct)
      (by
        rw [← l1, ← l2]
        intro c hc
        refine ⟨Finset.mem_sdiff.mpr ⟨(hA s hs).2 c hc, fun h => ?_⟩, ?_⟩
        · obtain ⟨t, ht, hct⟩ := (hret c).mp (List.mem_toFinset.mp h)
          exact hclear s hs t (List.mem_cons_of_mem _ ht) (Nat.le_of_lt (hlt t ht)) c hc hct
        · exact hclear s hs s hs (le_refl s) c hc)
    refine ⟨st1, ?_, same_layout_trans ⟨l1, l2, l3, l4⟩ hlay1, hok1, ?_⟩
    · rw [List.reverse_cons, run_dirs_append, hrun]
      simp only [Option.bind, run_dirs, hstep]
    · rw [← hsum, ← hsum1, ← l2]
      apply Finset.sum_congr _ (fun _ _ => rfl)
      ext c
      simp only [List.flatMap_cons, List.toFinset_append, Finset.mem_sdiff, Finset.mem_union,
        List.mem_toFinset]
      tauto


theorem forces_assigned_layout {a b : GhostNode} (h : forces_assigned a b)
    (hok : cells_ok a.cells) : same_layout a b ∧ cells_ok b.cells := by
  obtain ⟨h1, h2, h3, h4⟩ := h
  refine ⟨⟨h1, h2, h3, fun c => ?_⟩, fun pl1 hpl1 => ?_⟩
  · cases hr : read_cell a.cells c with
    | none => simp only [cell_count, hr, read_cell_none_length h3 hr]
    | some pl =>
      obtain ⟨pl1, hpl1⟩ := read_cell_length h3 hr
      rw [cell_count_read hr, cell_count_read hpl1]
      exact (h4 c pl pl1 hr hpl1).1
  · obtain ⟨c, hc⟩ := mem_cells_read hpl1
    obtain ⟨pl, hpl⟩ := read_cell_length h3.symm hc
    obtain ⟨hn, hp⟩ := h4 c pl pl1 hpl hc
    have hlen := congrArg List.length hp
    simp only [List.length_map] at hlen
    rw [← hn, ← hlen]
    exact hok pl (read_cell_mem hpl)

/-- After `exchange_ghost`, for a direction towards the process itself that sends no
cell that it or a later direction receives, every send cell holds as many particles as
the receive cell paired with it, and the particles in the same slot of the two cells
have the same identity. -/
theorem exchange_ghost_pair_counts (env : GhostComm) (st0 st : GhostNode)
    (hok : ghost_lists_ok st0.gh st0.cells) (hc : cells_ok st0.cells)
    (hclear : ∀ s t, s ≤ t → t < 6 → env.node_neighbors s = env.this_node →
      ∀ c ∈ st0.gh.send_cells s, c ∉ st0.gh.recv_cells (opposite t))
    (hex : exchange_ghost env st0 = some st) :
    ∀ s, s < 6 → env.node_neighbors s = env.this_node →
      ∀ p ∈ ghost_pairs st.gh s, cell_count st.cells p.1 = cell_count st.cells p.2 ∧
        ∀ j, j < cell_count st.cells p.1 →
          identity_at st.cells p.2 j = identity_at st.cells p.1 j := by
  have hall : ∀ t ∈ [0, 1, 2, 3, 4, 5], t < 6 := by
    intro t ht
    simp only [List.mem_cons, List.mem_singleton, List.not_mem_nil, or_false] at ht
    omega
  obtain ⟨hsc, hrc, _, _, _⟩ :=
    exchange_ghost_dirs_frame env [0, 1, 2, 3, 4, 5] st0 st hall hok hc hex
  intro s hs hself p hp
  have hseg : ∃ post, [0, 1, 2, 3, 4, 5] = List.range s ++ s :: post ∧ s ∉ post ∧
      ∀ t ∈ s :: post, s ≤ t ∧ t < 6 := by
    interval_cases s
    · exact ⟨[1, 2, 3, 4, 5], rfl, by decide, by decide⟩
    · exact ⟨[2, 3, 4, 5], rfl, by decide, by decide⟩
    · exact ⟨[3, 4, 5], rfl, by decide, by decide⟩
    · exact ⟨[4, 5], rfl, by decide, by decide⟩
    · exact ⟨[5], rfl, by decide, by decide⟩
    · exact ⟨[], rfl, by decide, by decide⟩
  obtain ⟨post, hsplit, hpost, hge⟩ := hseg
  have hcount := exchange_ghost_segment_counts env (List.range s) post s st0 st
    (hsplit ▸ hall) hself hpost hok hc (hsplit ▸ hex)
  unfold ghost_pairs at hp
  rw [hsc, hrc] at hp
  obtain ⟨k, hk⟩ := List.mem_iff_getElem?.mp hp
  obtain ⟨hk1, hk2⟩ := List.getElem?_zip_eq_some.mp hk
  obtain ⟨pl_r, pl_s, h1, h2, h3, h4⟩ := hcount k p.1 p.2 hk1 hk2
    (fun t ht => hclear s t (hge t ht).1 (hge t ht).2 hself p.1 (List.getElem?_mem hk1))
  rw [cell_count_read h1, cell_count_read h2, h3]
  refine ⟨rfl, fun j hj => ?_⟩
  have hj4 := congrArg (fun l : List Int => l[j]?) h4
  simp only [List.getElem?_map, List.getElem?_take_of_lt hj,
    List.getElem?_take_of_lt (h3 ▸ hj)] at hj4
  simp only [identity_at, h1, h2]
  exact hj4

theorem exchange_ghost_dir_length (env : GhostComm) (s : Nat) (st st1 : GhostNode)
    (hc : cells_ok st.cells) (hex : exchange_ghost_dir env s st = some st1) :
    st1.cells.length = st.cells.length := by
  unfold exchange_ghost_dir at hex
  cases hf : fill_ghost_buffers env s st with
  | none => simp [hf] at hex
  | some sta =>
    cases hg : send_ghosts env s sta with
    | none => simp [hf, hg] at hex
    | some stb =>
      simp only [hf, hg] at hex
      have h1 := (fill_ghost_buffers_frame hf).1
      have h2 := (send_ghosts_frame hg).1
      have hcb : cells_ok stb.cells := by
        rw [h2, h1]
        exact hc
      rw [(recv_ghosts_loop_frame _ _ _ _ _ _ hex hcb).2.1, h2, h1]

theorem exchange_ghost_dirs_length (env : GhostComm) :
    ∀ (dirs : List Nat) (st st1 : GhostNode), (∀ s ∈ dirs, s < 6) →
      ghost_lists_ok st.gh st.cells → cells_ok st.cells →
      exchange_ghost_dirs env dirs st = some st1 → st1.cells.length = st.cells.length := by
  intro dirs
  induction dirs with
  | nil =>
    intro st st1 _ _ _ h
    simp only [exchange_ghost_dirs, Option.some.injEq] at h
    subst h
    rfl
  | cons s dirs ih =>
    intro st st1 hall hok hc h
    cases hd : exchange_ghost_dir env s st with
    | none => simp [exchange_ghost_dirs, hd] at h
    | some sta =>
      simp only [exchange_ghost_dirs, hd] at h
      obtain ⟨_, _, a3, a4, _⟩ :=
        exchange_ghost_dir_frame env s st sta (hall s (List.mem_cons_self _ _)) hok hc hd
      rw [ih sta st1 (fun t ht => hall t (List.mem_cons_of_mem _ ht)) a3 a4 h]
      exact exchange_ghost_dir_length env s st sta hc hd

/-- The particles in a slot of the replica cells of a cell have the identity of the
particle in that slot of the cell, when this holds for every pair of a send cell and
its receive cell. -/
theorem replica_cells_identity (gh : Ghosts) (cells : List ParticleList) :
    ∀ later : List Nat,
      (∀ s ∈ later, ∀ p ∈ ghost_pairs gh s, cell_count cells p.1 = cell_count cells p.2 ∧
        ∀ j, j < cell_count cells p.1 → identity_at cells p.2 j = identity_at cells p.1 j) →
      ∀ (c : Int) (j : Nat), j < cell_count cells c → ∀ h ∈ replica_cells gh later c,
        identity_at cells h j = identity_at cells c j := by
  intro later
  induction later with
  | nil =>
    intro _ c j _ h hh
    simp [replica_cells] at hh
  | cons s later ih =>
    intro hp c j hj h hh
    have ih1 := ih (fun t ht => hp t (List.mem_cons_of_mem _ ht))
    simp only [replica_cells, List.mem_append, List.mem_flatMap] at hh
    rcases hh with hh | ⟨p, hpm, hh⟩
    · exact ih1 c j hj h hh
    · by_cases hpc : p.1 = c
      · rw [if_pos hpc] at hh
        obtain ⟨hcnt, hid⟩ := hp s (List.mem_cons_self _ _) p hpm
        have hj1 : j < cell_count cells p.1 := hpc ▸ hj
        rcases List.mem_cons.mp hh with hh | hh
        · rw [hh, hid j hj1, hpc]
        · rw [ih1 p.2 j (hcnt ▸ hj1) h hh, hid j hj1, hpc]
      · rw [if_neg hpc] at hh
        simp at hh

theorem forces_assigned_identity {a b : GhostNode} (h : forces_assigned a b) (c : Int)
    (j : Nat) : identity_at b.cells c j = identity_at a.cells c j := by
  obtain ⟨_, _, h3, h4⟩ := h
  cases hr : read_cell a.cells c with
  | none => simp only [identity_at, hr, read_cell_none_length h3 hr]
  | some pl =>
    obtain ⟨pl1, hpl1⟩ := read_cell_length h3 hr
    have hp := congrArg (fun l : List Particle => (l[j]?).map fun x => x.identity)
      (h4 c pl pl1 hr hpl1).2
    simp only [List.getElem?_map, Option.map_map] at hp
    simp only [identity_at, hr, hpl1]
    exact hp.symm

theorem all_cells_nodup (n : Nat) : (all_cells n).Nodup := by
  unfold all_cells
  exact (List.nodup_range n).map (fun a b h => by exact_mod_cast h)

theorem mem_all_cells {n : Nat} {c : Int} : c ∈ all_cells n ↔ 0 ≤ c ∧ c.toNat < n := by
  unfold all_cells
  simp only [List.mem_map, List.mem_range]
  constructor
  · rintro ⟨k, hk, rfl⟩
    exact ⟨Int.natCast_nonneg k, by simpa using hk⟩
  · rintro ⟨h0, h1⟩
    exact ⟨c.toNat, h1, Int.toNat_of_nonneg h0⟩

/-- The round trip of ghost forces on a single process whose six neighbors are itself:
for the state that `exchange_ghost` has produced from lists that fit each other and the
cells, with any forces assigned to its real and ghost particles, `collect_ghost_forces`
returns; the particles in the slot of a particle in the replica cells of its cell have
its identity; the force of every particle is then its prior force plus the sum of the
prior forces of these particles (added, not replaced); and, when the receive cells are
exactly the halo cells, the sum of the
forces over the particles of the inner cells afterwards is the sum over the particles
of all cells before.  Assumed: no direction sends a cell that it or a later direction
receives. -/
theorem collect_ghost_forces_own_neighbor (env : GhostComm) (gcg : Vec3 Int)
    (st0 st stf : GhostNode)
    (hself : ∀ s, s < 6 → env.node_neighbors s = env.this_node)
    (hok : ghost_lists_ok st0.gh st0.cells) (hc : cells_ok st0.cells)
    (hclear : ∀ s t, s ≤ t → t < 6 →
      ∀ c ∈ st0.gh.send_cells s, c ∉ st0.gh.recv_cells (opposite t))
    (hhalo : ∀ c ∈ all_cells st0.cells.length,
      (is_inner_cell c gcg = true ↔ ∀ s, s < 6 → c ∉ st0.gh.recv_cells s))
    (hex : exchange_ghost env st0 = some st) (hf : forces_assigned st stf) :
    ∃ st1, collect_ghost_forces env stf = some st1 ∧
      (∀ (c : Int) (j : Nat), j < cell_count stf.cells c →
        ∀ h ∈ replica_cells stf.gh [0, 1, 2, 3, 4, 5] c,
          identity_at stf.cells h j = identity_at stf.cells c j) ∧
      (∀ (c : Int) (j i : Nat), j < cell_count stf.cells c →
        force_at st1.cells c j i = force_at stf.cells c j i +
          ((replica_cells stf.gh [0, 1, 2, 3, 4, 5] c).map
            fun h => force_at stf.cells h j i).sum) ∧
      ∀ i : Nat,
        (((all_cells st1.cells.length).filter fun c => is_inner_cell c gcg).map
          fun c => cell_force st1.cells c i).sum =
        ((all_cells stf.cells.length).map fun c => cell_force stf.cells c i).sum := by
  have hmem : ∀ t ∈ [0, 1, 2, 3, 4, 5], t < 6 := by
    intro t ht
    simp only [List.mem_cons, List.mem_singleton, List.not_mem_nil, or_false] at ht
    omega
  obtain ⟨hsc, hrc, hok1, hc1, _⟩ := exchange_ghost_totals env st0 st hok hc
    (fun s t hst ht _ => hclear s t hst ht) hex
  have hpc := exchange_ghost_pair_counts env st0 st hok hc
    (fun s t hst ht _ => hclear s t hst ht) hex
  obtain ⟨⟨l1, l2, l3, l4⟩, hcf⟩ := forces_assigned_layout hf hc1
  have hlen0 : stf.cells.length = st0.cells.length := by
    rw [← l3]
    exact exchange_ghost_dirs_length env [0, 1, 2, 3, 4, 5] st0 st hmem hok hc hex
  -- the hypotheses of the direction loop, for the state with the forces assigned
  have hselfo : ∀ s ∈ [0, 1, 2, 3, 4, 5], env.node_neighbors (opposite s) = env.this_node :=
    fun s hs => hself _ (opposite_lt (hmem s hs))
  have hlenp : ∀ s ∈ [0, 1, 2, 3, 4, 5],
      (stf.gh.recv_cells (opposite s)).length = (stf.gh.send_cells s).length := by
    intro s hs
    rw [← l1, ← l2]
    exact hok1.pairs s (hmem s hs)
  have hind : ∀ s ∈ [0, 1, 2, 3, 4, 5], indices_ok stf.cells (stf.gh.send_cells s) ∧
      indices_ok stf.cells (stf.gh.recv_cells (opposite s)) := by
    intro s hs
    rw [← l1, ← l2]
    exact ⟨indices_ok_of_length l3.symm (hok1.send_ok s (hmem s hs)),
      indices_ok_of_length l3.symm (hok1.recv_ok _ (opposite_lt (hmem s hs)))⟩
  have hcnt : ∀ s ∈ [0, 1, 2, 3, 4, 5], ∀ p ∈ ghost_pairs stf.gh s,
      cell_count stf.cells p.1 = cell_count stf.cells p.2 := by
    intro s hs p hp
    have hpairs : ghost_pairs stf.gh s = ghost_pairs st.gh s := by
      unfold ghost_pairs
      rw [l1, l2]
    rw [hpairs] at hp
    rw [← l4, ← l4]
    exact (hpc s (hmem s hs) (hself s (hmem s hs)) p hp).1
  have hids : ∀ s ∈ [0, 1, 2, 3, 4, 5], ∀ p ∈ ghost_pairs stf.gh s,
      cell_count stf.cells p.1 = cell_count stf.cells p.2 ∧
      ∀ j, j < cell_count stf.cells p.1 →
        identity_at stf.cells p.2 j = identity_at stf.cells p.1 j := by
    intro s hs p hp
    refine ⟨hcnt s hs p hp, fun j hj => ?_⟩
    have hpairs : ghost_pairs stf.gh s = ghost_pairs st.gh s := by
      unfold ghost_pairs
      rw [l1, l2]
    rw [hpairs] at hp
    rw [forces_assigned_identity hf, forces_assigned_identity hf]
    exact (hpc s (hmem s hs) (hself s (hmem s hs)) p hp).2 j (by rw [l4]; exact hj)
  obtain ⟨st1, hrun, hlay, _, hforce⟩ :=
    collect_ghost_forces_run env [0, 1, 2, 3, 4, 5] stf hselfo hlenp hind hcf hcnt
  refine ⟨st1, hrun, replica_cells_identity stf.gh stf.cells _ hids, hforce, ?_⟩
  intro i
  let A : Finset Int := (all_cells stf.cells.length).toFinset
  obtain ⟨st2, hrun2, _, _, hsum⟩ :=
    collect_ghost_forces_run_sum env A i [0, 1, 2, 3, 4, 5] stf (by decide) hselfo hlenp hind
      hcf hcnt
      (fun s hs => by
        rw [← l2, hrc]
        exact hok.recv_nodup _ (opposite_lt (hmem s hs)))
      (fun s hs t ht hne => by
        rw [← l2, hrc]
        exact hok.recv_disjoint _ _ (opposite_lt (hmem s hs)) (opposite_lt (hmem t ht))
          (fun h => hne (opposite_inj h)))
      (fun s hs => ⟨fun c hcr => List.mem_toFinset.mpr (mem_all_cells.mpr ((hind s hs).2 c hcr)),
        fun c hcs => List.mem_toFinset.mpr (mem_all_cells.mpr ((hind s hs).1 c hcs))⟩)
      (fun s hs t ht hst => by
        rw [← l1, ← l2, hsc, hrc]
        exact hclear s t hst (hmem t ht))
  have h12 : st2 = st1 := Option.some.inj (hrun2.symm.trans hrun)
  subst h12
  rw [← List.sum_toFinset _ (all_cells_nodup _), ← hsum,
    ← List.sum_toFinset _ ((all_cells_nodup _).filter _)]
  apply Finset.sum_congr _ (fun _ _ => rfl)
  ext c
  simp only [List.mem_toFinset, List.mem_filter, Finset.mem_sdiff, List.mem_flatMap, A,
    ← hlay.2.2.1]
  constructor
  · rintro ⟨hcA, hin⟩
    refine ⟨hcA, ?_⟩
    rintro ⟨s, hs, hcs⟩
    rw [← l2, hrc] at hcs
    exact (hhalo c (hlen0 ▸ hcA)).mp hin _ (opposite_lt (hmem s hs)) hcs
  · rintro ⟨hcA, hout⟩
    refine ⟨hcA, (hhalo c (hlen0 ▸ hcA)).mpr ?_⟩
    intro s hs hcs
    apply hout
    refine ⟨opposite s, ?_, ?_⟩
    · have := opposite_lt hs
      simp only [List.mem_cons, List.mem_singleton, List.not_mem_nil, or_false]
      omega
    · rw [opposite_opposite, ← l2, hrc]
      exact hcs

/-! ## The two-step communication -/

theorem capped_cpos_axis_range {cg : Int} (h : 1 ≤ cg) (pos my_left inv : ℚ) :
    1 ≤ capped_cpos_axis cg pos my_left inv ∧ capped_cpos_axis cg pos my_left inv ≤ cg := by
  unfold capped_cpos_axis
  simp only
  split_ifs <;> omega

/-- With at least one inner cell per axis the clamped lookup gives an inner cell of the
grid. -/
theorem capped_ind_inner (dom : Domain) (g : Grid)
    (h0 : 1 ≤ g.cell_grid.x0) (h1 : 1 ≤ g.cell_grid.x1) (h2 : 1 ≤ g.cell_grid.x2)
    (hg0 : g.ghost_cell_grid.x0 = g.cell_grid.x0 + 2)
    (hg1 : g.ghost_cell_grid.x1 = g.cell_grid.x1 + 2)
    (hg2 : g.ghost_cell_grid.x2 = g.cell_grid.x2 + 2) (pos : Vec3 ℚ) :
    is_inner_cell (pos_to_capped_cell_grid_ind dom g pos) g.ghost_cell_grid = true ∧
    0 ≤ pos_to_capped_cell_grid_ind dom g pos ∧
    pos_to_capped_cell_grid_ind dom g pos < grid_cells g.ghost_cell_grid := by
  have r0 := capped_cpos_axis_range h0 pos.x0 dom.my_left.x0 g.inv_cell_size.x0
  have r1 := capped_cpos_axis_range h1 pos.x1 dom.my_left.x1 g.inv_cell_size.x1
  have r2 := capped_cpos_axis_range h2 pos.x2 dom.my_left.x2 g.inv_cell_size.x2
  unfold pos_to_capped_cell_grid_ind
  exact ⟨is_inner_cell_linear (by omega) (by omega) (by omega),
    linear_index_range (by omega) (by omega) (by omega)⟩

theorem append_loop_nil (cfg : Config) (dom : Domain) (g : Grid) (dir : Nat)
    (b_recv_buf : List Int) (b_ind : Nat) (cells : List ParticleList) :
    append_loop cfg dom g dir b_recv_buf [] b_ind cells = some cells := by
  rfl

theorem append_loop_cons (cfg : Config) (dom : Domain) (g : Grid) (dir : Nat)
    (b_recv_buf : List Int) (x : Particle) (rest : List Particle) (b_ind : Nat)
    (cells : List ParticleList) :
    append_loop cfg dom g dir b_recv_buf (x :: rest) b_ind cells =
      match read_cell cells (pos_to_capped_cell_grid_ind dom g (fold_coordinate cfg dom x dir).p),
        b_recv_buf[b_ind]? with
      | some pl, some bn =>
        if ((b_recv_buf.drop (b_ind + 1)).take bn.toNat).length = bn.toNat then
          append_loop cfg dom g dir b_recv_buf rest (b_ind + 1 + bn.toNat)
            (write_cell cells (pos_to_capped_cell_grid_ind dom g (fold_coordinate cfg dom x dir).p)
              (append_unindexed_particle pl
                { fold_coordinate cfg dom x dir with
                  bl := (b_recv_buf.drop (b_ind + 1)).take bn.toNat }))
        else none
      | _, _ => none := by
  rfl

/-- The loop of `append_particles` writes only to cells that the clamped lookup
names. -/
theorem append_loop_other (cfg : Config) (dom : Domain) (g : Grid) (dir : Nat)
    (b_recv_buf : List Int) (c : Int)
    (hc : ∀ pos : Vec3 ℚ, pos_to_capped_cell_grid_ind dom g pos ≠ c) :
    ∀ (xs : List Particle) (b_ind : Nat) (cells cells1 : List ParticleList),
      append_loop cfg dom g dir b_recv_buf xs b_ind cells = some cells1 →
      read_cell cells1 c = read_cell cells c := by
  intro xs
  induction xs with
  | nil =>
    intro b_ind cells cells1 h
    rw [append_loop_nil, Option.some.injEq] at h
    rw [h]
  | cons x rest ih =>
    intro b_ind cells cells1 h
    rw [append_loop_cons] at h
    cases hr : read_cell cells (pos_to_capped_cell_grid_ind dom g (fold_coordinate cfg dom x dir).p) with
    | none => simp [hr] at h
    | some pl =>
      cases hb : b_recv_buf[b_ind]? with
      | none => simp [hr, hb] at h
      | some bn =>
        simp only [hr, hb] at h
        split at h
        · rw [ih _ _ _ h]
          exact read_write_other (read_cell_nonneg hr) (hc _)
        · simp at h

/-- C25 (clamped lookup): for a grid with at least one inner cell per axis and two halo
layers, `pos_to_capped_cell_grid_ind` gives for every position the linear index of an
inner cell of the grid, with cell coordinates in `1 .. cell_grid[i]`; so
`append_particles`, where it returns, leaves every halo cell as it was. -/
theorem pos_to_capped_cell_grid_ind_inner (dom : Domain) (g : Grid)
    (h0 : 1 ≤ g.cell_grid.x0) (h1 : 1 ≤ g.cell_grid.x1) (h2 : 1 ≤ g.cell_grid.x2)
    (hg0 : g.ghost_cell_grid.x0 = g.cell_grid.x0 + 2)
    (hg1 : g.ghost_cell_grid.x1 = g.cell_grid.x1 + 2)
    (hg2 : g.ghost_cell_grid.x2 = g.cell_grid.x2 + 2) :
    (∀ pos : Vec3 ℚ,
      is_inner_cell (pos_to_capped_cell_grid_ind dom g pos) g.ghost_cell_grid = true ∧
      0 ≤ pos_to_capped_cell_grid_ind dom g pos ∧
      pos_to_capped_cell_grid_ind dom g pos < grid_cells g.ghost_cell_grid ∧
      ∃ c0 c1 c2 : Int, (1 ≤ c0 ∧ c0 ≤ g.cell_grid.x0) ∧ (1 ≤ c1 ∧ c1 ≤ g.cell_grid.x1) ∧
        (1 ≤ c2 ∧ c2 ≤ g.cell_grid.x2) ∧
        pos_to_capped_cell_grid_ind dom g pos = get_linear_index c0 c1 c2 g.ghost_cell_grid) ∧
    (∀ (cfg : Config) (dir : Nat) (st st1 : Node),
      append_particles cfg dom g dir st = some st1 →
      ∀ c : Int, is_inner_cell c g.ghost_cell_grid = false →
        read_cell st1.cells c = read_cell st.cells c) := by
  have hin := fun pos => capped_ind_inner dom g h0 h1 h2 hg0 hg1 hg2 pos
  refine ⟨fun pos => ⟨(hin pos).1, (hin pos).2.1, (hin pos).2.2, _, _, _,
    capped_cpos_axis_range h0 pos.x0 dom.my_left.x0 g.inv_cell_size.x0,
    capped_cpos_axis_range h1 pos.x1 dom.my_left.x1 g.inv_cell_size.x1,
    capped_cpos_axis_range h2 pos.x2 dom.my_left.x2 g.inv_cell_size.x2, rfl⟩, ?_⟩
  intro cfg dir st st1 h c hc
  unfold append_particles at h
  cases ha : append_loop cfg dom g dir st.b_recv_buf st.p_recv_buf 0 st.cells with
  | none => simp [ha] at h
  | some cells =>
    simp only [ha, Option.some.injEq] at h
    rw [← h]
    refine append_loop_other cfg dom g dir st.b_recv_buf c (fun pos hp => ?_) _ _ _ _ ha
    have := (hin pos).1
    rw [hp, hc] at this
    exact Bool.noConfusion this

/-- C25 at the grid of one inner cell for the local box `(5, 10, 10)`: every position
is looked up in an inner cell; the position `(-100, 50, 3)` far outside the box gives
the inner cell 13. -/
theorem pos_to_capped_cell_grid_ind_inner_witness :
    (1 ≤ left_grid.cell_grid.x0 ∧ 1 ≤ left_grid.cell_grid.x1 ∧ 1 ≤ left_grid.cell_grid.x2) ∧
    (∀ pos : Vec3 ℚ,
      is_inner_cell (pos_to_capped_cell_grid_ind left_domain left_grid pos)
        left_grid.ghost_cell_grid = true) ∧
    pos_to_capped_cell_grid_ind left_domain left_grid ⟨-100, 50, 3⟩ = 13 :=
  ⟨by with_unfolding_all decide,
    fun pos => ((pos_to_capped_cell_grid_ind_inner left_domain left_grid
      (by with_unfolding_all decide) (by with_unfolding_all decide)
      (by with_unfolding_all decide) (by with_unfolding_all decide)
      (by with_unfolding_all decide) (by with_unfolding_all decide)).1 pos).1,
    by with_unfolding_all decide⟩

/-! ## The neighbor lists of two adjacent cells -/

/-- The neighbor at offsets `(o, n, m)` of a cell has a larger or equal linear index
exactly for the offsets of the upper half, and the same index only for `(0, 0, 0)`. -/
theorem offset_order {gcg : Vec3 Int} (h0 : 3 ≤ gcg.x0) (h1 : 3 ≤ gcg.x1)
    {m n o : Int} (hm : m = -1 ∨ m = 0 ∨ m = 1) (hn : n = -1 ∨ n = 0 ∨ n = 1)
    (ho : o = -1 ∨ o = 0 ∨ o = 1) (a : Int) :
    (a ≤ a + offset gcg m n o ↔ upper_half m n o = true) ∧
    (a = a + offset gcg m n o ↔ (m = 0 ∧ n = 0 ∧ o = 0)) := by
  have hz : a + offset gcg m n o = a + offset gcg 0 0 0 ↔ (m = 0 ∧ n = 0 ∧ o = 0) :=
    offset_inj h0 h1 (by decide) (by decide) (by decide) hm hn ho a
  have hnn := offset_nonneg_iff h0 h1 hm hn ho
  have hz0 : offset gcg 0 0 0 = 0 := by simp [offset]
  rw [hz0] at hz
  refine ⟨?_, ?_⟩
  · rw [← hnn]; omega
  · rw [← hz]; omega

/-- C29: let `a` be an inner cell and `b` a cell equal or geometrically adjacent to it.
Then `b` occurs in the neighbor list of `a` exactly once if `a <= b` and not at all
otherwise.  So for two inner cells `a <= b`, `b` occurs exactly once in the list of `a`
and, when `a < b`, `a` does not occur in the list of `b`; and a halo cell `b` occurs in
the list of `a` if and only if its linear index is greater than that of `a`. -/
theorem neighbor_list_upper_half (a b : Int) (gcg : Vec3 Int)
    (ha : is_inner_cell a gcg = true) (hadj : adjacent_or_equal a b gcg = true) :
    (3 ≤ gcg.x0 ∧ 3 ≤ gcg.x1 ∧ 3 ≤ gcg.x2) ∧
    List.count b (init_cell_neighbors a gcg) = (if a ≤ b then 1 else 0) ∧
    (is_inner_cell b gcg = true → a ≤ b →
      List.count b (init_cell_neighbors a gcg) = 1 ∧
      (a < b → List.count a (init_cell_neighbors b gcg) = 0)) ∧
    (is_inner_cell b gcg = false → (b ∈ init_cell_neighbors a gcg ↔ a < b)) := by
  obtain ⟨m, n, o, hm, hn, ho, hb, hab⟩ := adjacent_offset hadj
  have ha2 := ha
  unfold is_inner_cell at ha2
  simp only [Bool.and_eq_true, decide_eq_true_eq] at ha2
  obtain ⟨⟨⟨⟨⟨p0, q0⟩, p1⟩, q1⟩, p2⟩, q2⟩ := ha2
  have h0 : 3 ≤ gcg.x0 := by omega
  have h1 : 3 ≤ gcg.x1 := by omega
  have h2 : 3 ≤ gcg.x2 := by omega
  have hm' : -m = -1 ∨ -m = 0 ∨ -m = 1 := by omega
  have hn' : -n = -1 ∨ -n = 0 ∨ -n = 1 := by omega
  have ho' : -o = -1 ∨ -o = 0 ∨ -o = 1 := by omega
  have ord := offset_order h0 h1 hm hn ho a
  have ord' := offset_order h0 h1 hm' hn' ho' b
  rw [← hb] at ord
  rw [← hab] at ord'
  have c1 : List.count b (init_cell_neighbors a gcg) = if a ≤ b then 1 else 0 := by
    have := count_neighbor ha hm hn ho
    rw [← hb] at this
    rw [this]
    by_cases hu : upper_half m n o = true
    · rw [if_pos hu, if_pos (ord.1.mpr hu)]
    · rw [if_neg hu, if_neg (fun h => hu (ord.1.mp h))]
  refine ⟨⟨h0, h1, h2⟩, c1, ?_, ?_⟩
  · intro hbi hle
    refine ⟨by rw [c1, if_pos hle], fun hlt => ?_⟩
    have := count_neighbor hbi hm' hn' ho'
    rw [← hab] at this
    rw [this]
    have hnu : ¬ upper_half (-m) (-n) (-o) = true := fun h => by
      have := ord'.1.mpr h
      omega
    rw [if_neg hnu]
  · intro hbf
    have hne : a ≠ b := by
      intro hc
      rw [hc, hbf] at ha
      exact Bool.noConfusion ha
    rw [← List.count_pos_iff, c1]
    by_cases hle : a ≤ b
    · rw [if_pos hle]
      exact ⟨fun _ => by omega, fun _ => by decide⟩
    · rw [if_neg hle]
      exact ⟨fun h => absurd h (by decide), fun h => by omega⟩

/-- C29 at the grid 5 x 5 x 5: the inner cells 31 and 32 are adjacent, and 32 occurs once
in the list of 31. -/
theorem neighbor_list_upper_half_witness :
    is_inner_cell 31 ⟨5, 5, 5⟩ = true ∧ adjacent_or_equal 31 32 ⟨5, 5, 5⟩ = true ∧
    List.count 32 (init_cell_neighbors 31 ⟨5, 5, 5⟩) = (if (31 : Int) ≤ 32 then 1 else 0) :=
  ⟨by decide, by decide,
    (neighbor_list_upper_half 31 32 ⟨5, 5, 5⟩ (by decide) (by decide)).2.1⟩

/-! ## The record of a cell scan -/

theorem map_fst_record {α β : Type} (o : Option (α × List β)) (f : α × List β → List β) :
    (o.map fun r => (r.1, f r)).map Prod.fst = o.map Prod.fst := by
  cases o <;> rfl

/-- The scan with a record goes through the same states as `scan_cell_send`. -/
theorem scan_cell_send_log_fst (cfg : Config) (dom : Domain) (g : Grid) (d lr : Nat) (c : Int)
    (np : Nat) :
    ∀ (fuel : Nat) (i : Int) (st : Node),
      (scan_cell_send_log cfg dom g d lr c np fuel i st).map Prod.fst =
        scan_cell_send cfg dom g d lr c np fuel i st := by
  intro fuel
  induction fuel with
  | zero =>
    intro i st
    simp [scan_cell_send_log, scan_cell_send]
  | succ fuel ih =>
    intro i st
    unfold scan_cell_send_log scan_cell_send
    by_cases hi : i < (np : Int)
    · simp only [hi, if_true]
      cases hr : read_cell st.cells c with
      | none => simp
      | some pl =>
        simp only []
        cases hx : pl.part[i.toNat]? with
        | none => simp
        | some x =>
          simp only []
          cases hl : leaves_domain dom d lr x.p with
          | true =>
            simp only [if_true]
            cases hm : move_to_p_buf st c i.toNat with
            | none => simp
            | some r =>
              obtain ⟨st1, i1⟩ := r
              simp only []
              rw [map_fst_record, ih]
          | false =>
            simp only [Bool.false_eq_true, if_false]
            by_cases h5 : 2 * d + lr = 5
            · simp only [h5, if_true]
              cases hp : pos_to_cell_grid_ind cfg dom g x.p with
              | none => simp
              | some ind =>
                simp only []
                by_cases hne : ind = c
                · simp only [hne, ne_eq, not_true_eq_false, if_false]
                  rw [map_fst_record, ih]
                · simp only [hne, ne_eq, not_false_eq_true, if_true]
                  cases hm : move_indexed_particle st ind c i.toNat with
                  | none => simp
                  | some st1 =>
                    simp only []
                    rw [map_fst_record, ih]
            · simp only [h5, if_false]
              rw [map_fst_record, ih]
    · simp [hi]

theorem scan_inner_cells_log_fst (scan : Int → Nat → Node → Option Node)
    (scan1 : Int → Nat → Node → Option (Node × List ScanTurn))
    (hs : ∀ c np st, (scan1 c np st).map Prod.fst = scan c np st) :
    ∀ (cs : List Int) (st : Node),
      (scan_inner_cells_log scan1 cs st).map Prod.fst = scan_inner_cells scan cs st := by
  intro cs
  induction cs with
  | nil =>
    intro st
    simp [scan_inner_cells_log, scan_inner_cells]
  | cons c cs ih =>
    intro st
    unfold scan_inner_cells_log scan_inner_cells
    cases hr : read_cell st.cells c with
    | none => simp
    | some pl =>
      simp only []
      rw [← hs c pl.n st]
      cases hm : scan1 c pl.n st with
      | none => simp
      | some r =>
        obtain ⟨st1, log⟩ := r
        simp only [Option.map_some']
        rw [map_fst_record, ih]

/-! ## The cell scan with a stale bound, and what it leaves behind -/

/-- C26: process 0 of two processes that split the box along x holds the particles 0, 1,
2 in its inner cell 13, of which 0 and 2 have crossed the right boundary.  The scan of
the pass `dir = 1` examines, in turn, the slots 0, 0, 0, 1, 2 while the count of the
cell is 3, 2, 1, 1, 1: the slots 1 and 2 are examined when only slot 0 is in use, and
the particle found in the stale slot 2 is handed to `move_to_p_buf` a second time. -/
theorem scan_examines_stale_slots :
    (cell_particles left_state 13).map (fun x => x.identity) = [0, 1, 2] ∧
    ((send_pass plain_build left_domain left_grid left_comm 10 0 0 left_state).bind
        fun st =>
          (scan_inner_cells_log
            (fun c np => scan_cell_send_log plain_build left_domain left_grid 0 1 c np 10 0)
            (inner_cells left_grid)
            { st with p_send_buf := [], p_recv_buf := [], b_send_buf := [],
                      b_recv_buf := [] }).map
            fun r => r.2.map fun t => (t.i, t.n, t.sent.map fun x => x.identity)) =
      some [(0, 3, some 0), (0, 2, some 2), (0, 1, none), (1, 1, none), (2, 1, some 2)] := by
  refine ⟨?_, ?_⟩ <;> with_unfolding_all decide

/-- C23: process 0 of two processes that split the box along x holds the particles 0, 1,
2 in its inner cell 13 and nothing in its halo cells; 0 and 2 have crossed the right
boundary.  After `exchange_and_sort_part` the inner cell is empty, yet
`local_particles[1]` still points at slot 1 of that cell: one entry is not null while no
particle is in an inner cell.  With `ADDITIONAL_CHECKS` the run ends in `errexit`. -/
theorem exchange_and_sort_part_stale_pointer :
    ((List.range 27).filter fun (c : Nat) => cell_particles left_state (c : Int) ≠ []) = [13] ∧
    (cell_particles left_state 13).map (fun x => x.identity) = [0, 1, 2] ∧
    inner_cells left_grid = [13] ∧
    (exchange_and_sort_part plain_build left_domain left_grid left_comm 10 left_state).map
        (fun st => (cell_particles st 13, st.local_particles 0, st.local_particles 1,
          st.local_particles 2)) =
      some ([], none, some ⟨13, 1⟩, none) ∧
    (exchange_and_sort_part checked_build left_domain left_grid left_comm 10
      left_state).isNone = true := by
  refine ⟨?_, ?_, ?_, ?_, ?_⟩ <;> with_unfolding_all decide

/-! ## `cells_re_init` on a box shorter than the range -/

/-- The particle of `narrow_state` has no ghosts, so `invalidate_ghosts` changes
nothing. -/
theorem narrow_invalidate :
    invalidate_ghosts pre_init_grid.ghost_cell_grid narrow_state.cells
      narrow_state.local_particles = some (narrow_state.cells, narrow_state.local_particles) := by
  with_unfolding_all rfl

/-- The steps of `cells_re_init` from `narrow_state` after the invalidation. -/
theorem narrow_re_init (cfg : Config) :
    cells_re_init cfg narrow_domain single_comm 10 ⟨1, 10, 10⟩ 2 2 CELLS_MAX_NUM_CELLS
        pre_init_grid narrow_state =
      match exchange_and_sort_part cfg narrow_domain pre_init_grid single_comm 10 narrow_state with
      | none => none
      | some st1 =>
        match calc_cell_grid ⟨1, 10, 10⟩ 2 2 CELLS_MAX_NUM_CELLS pre_init_grid.cell_size with
        | none => none
        | some g1 =>
          match transfer_cells cfg narrow_domain g1 pre_init_grid.ghost_cell_grid st1.cells
              (List.range pre_init_grid.n_cells.toNat) (empty_cells g1.n_cells.toNat) with
          | none => none
          | some cells1 =>
            some (g1, { st1 with
                        cells := cells1
                        local_particles := update_new_cells g1 cells1 st1.local_particles }) := by
  unfold cells_re_init
  rw [narrow_invalidate]

/-- C24: a single process owns the box `(1, 10, 10)`; the particle 0 at `(1/2, 1, 1)`,
inside the box, lies in the inner cell of the grid of `cells_pre_init`.  With
`max_range = 2` `cells_re_init` builds the grid 2 x 7 x 7 without an inner cell on the first
axis and puts the particle into cell 17, which is not an inner cell: the old grid had
one particle in inner cells, the new grid has none.  With `ADDITIONAL_CHECKS` the run
ends in `errexit`. -/
theorem cells_re_init_loses_particles :
    in_local_box narrow_domain ⟨1, 10, 10⟩ (particle_at 0 (1 / 2)).p ∧
    inner_count pre_init_grid.ghost_cell_grid pre_init_grid.n_cells narrow_state.cells = 1 ∧
    (cells_re_init plain_build narrow_domain single_comm 10 ⟨1, 10, 10⟩ 2 2 CELLS_MAX_NUM_CELLS
        pre_init_grid narrow_state).map
        (fun r => (r.1.ghost_cell_grid, r.1.cell_grid,
          inner_count r.1.ghost_cell_grid r.1.n_cells r.2.cells,
          is_inner_cell 17 r.1.ghost_cell_grid, cell_particles r.2 17)) =
      some (⟨2, 7, 7⟩, ⟨0, 5, 5⟩, 0, false, [particle_at 0 (1 / 2)]) ∧
    (cells_re_init checked_build narrow_domain single_comm 10 ⟨1, 10, 10⟩ 2 2
      CELLS_MAX_NUM_CELLS pre_init_grid narrow_state).isNone = true := by
  rw [narrow_re_init, narrow_re_init]
  refine ⟨?_, ?_, ?_, ?_⟩ <;> with_unfolding_all decide

/-! ## The bond lists on their way through the buffers -/

/-- What `move_to_p_buf` appends to the send buffers: the particle without its bond
storage, and the length and the entries of its bond list. -/
theorem move_to_p_buf_buffers {st st1 : Node} {c : Int} {ind : Nat} {i1 : Int}
    {pl : ParticleList} {x : Particle}
    (h : move_to_p_buf st c ind = some (st1, i1)) (hr : read_cell st.cells c = some pl)
    (hx : pl.part[ind]? = some x) :
    st1.p_send_buf = st.p_send_buf ++ [strip_bonds x] ∧
    st1.b_send_buf = st.b_send_buf ++ ((x.bl.length : Int) :: x.bl) := by
  unfold move_to_p_buf at h
  simp only [hr, hx] at h
  have hlt : ind < pl.part.length := (List.getElem?_eq_some.mp hx).1
  cases hrm : remove_slot { pl with part := pl.part.set ind { x with bl := [] } } ind with
  | none => simp [hrm] at h
  | some r =>
    obtain ⟨src, pl2⟩ := r
    simp only [hrm, Option.some.injEq, Prod.mk.injEq] at h
    have hsrc : src = strip_bonds x := by
      unfold remove_slot at hrm
      simp only [List.getElem?_set_self hlt] at hrm
      split at hrm
      · rename_i s l hs hl
        simp only [Option.some.injEq, Prod.mk.injEq] at hrm hs
        rw [← hrm.1, ← hs]
        rfl
      · simp at hrm
    obtain ⟨hst, _⟩ := h
    subst hst
    simp only [hsrc, List.append_assoc, List.singleton_append, and_self]

theorem move_indexed_particle_buffers {st st1 : Node} {dst c : Int} {i : Nat}
    (h : move_indexed_particle st dst c i = some st1) :
    st1.p_send_buf = st.p_send_buf ∧ st1.b_send_buf = st.b_send_buf := by
  unfold move_indexed_particle at h
  split at h
  · split at h
    · simp at h
    · simp only [Option.some.injEq] at h
      subst h
      exact ⟨rfl, rfl⟩
  · simp at h

theorem sent_particles_cons_some (t : ScanTurn) (x : Particle) (log : List ScanTurn)
    (h : t.sent = some x) : sent_particles (t :: log) = x :: sent_particles log := by
  simp [sent_particles, List.filterMap_cons, h]

theorem sent_particles_cons_none (t : ScanTurn) (log : List ScanTurn)
    (h : t.sent = none) : sent_particles (t :: log) = sent_particles log := by
  simp [sent_particles, List.filterMap_cons, h]

theorem sent_particles_append (a b : List ScanTurn) :
    sent_particles (a ++ b) = sent_particles a ++ sent_particles b := by
  simp [sent_particles, List.filterMap_append]

theorem bond_stream_cons (x : Particle) (xs : List Particle) :
    bond_stream (x :: xs) = ((x.bl.length : Int) :: x.bl) ++ bond_stream xs := by
  simp [bond_stream, List.flatMap_cons]

theorem bond_stream_append (a b : List Particle) :
    bond_stream (a ++ b) = bond_stream a ++ bond_stream b := by
  simp [bond_stream, List.flatMap_append]

theorem bond_stream_length (xs : List Particle) :
    (bond_stream xs).length = (xs.map fun x => x.bl.length + 1).sum := by
  induction xs with
  | nil => rfl
  | cons x xs ih =>
    rw [bond_stream_cons, List.length_append, ih]
    simp

/-- A cell scan appends to the send buffers the particles it hands to `move_to_p_buf`,
in order, and their bond lists. -/
theorem scan_cell_send_log_buffers (cfg : Config) (dom : Domain) (g : Grid) (d lr : Nat)
    (c : Int) (np : Nat) :
    ∀ (fuel : Nat) (i : Int) (st st1 : Node) (log : List ScanTurn),
      scan_cell_send_log cfg dom g d lr c np fuel i st = some (st1, log) →
      st1.p_send_buf = st.p_send_buf ++ (sent_particles log).map strip_bonds ∧
      st1.b_send_buf = st.b_send_buf ++ bond_stream (sent_particles log) := by
  intro fuel
  induction fuel with
  | zero =>
    intro i st st1 log h
    simp [scan_cell_send_log] at h
  | succ fuel ih =>
    intro i st st1 log h
    unfold scan_cell_send_log at h
    by_cases hi : i < (np : Int)
    · simp only [hi, if_true] at h
      cases hr : read_cell st.cells c with
      | none => simp [hr] at h
      | some pl =>
        simp only [hr] at h
        cases hx : pl.part[i.toNat]? with
        | none => simp [hx] at h
        | some x =>
          simp only [hx] at h
          have step : ∀ (o : Option (Node × List ScanTurn)) (t : ScanTurn) (st0 : Node),
              (o.map fun r => (r.1, t :: r.2)) = some (st1, log) →
              (∀ log0, o = some (st1, log0) →
                st1.p_send_buf = st0.p_send_buf ++ (sent_particles log0).map strip_bonds ∧
                st1.b_send_buf = st0.b_send_buf ++ bond_stream (sent_particles log0)) →
              ∃ log0, log = t :: log0 ∧
                st1.p_send_buf = st0.p_send_buf ++ (sent_particles log0).map strip_bonds ∧
                st1.b_send_buf = st0.b_send_buf ++ bond_stream (sent_particles log0) := by
            intro o t st0 ho hall
            cases o with
            | none => simp at ho
            | some r =>
              obtain ⟨s, l⟩ := r
              simp only [Option.map_some', Option.some.injEq, Prod.mk.injEq] at ho
              obtain ⟨hs, hl⟩ := ho
              subst hs
              exact ⟨l, hl.symm, hall l rfl⟩
          cases hl : leaves_domain dom d lr x.p with
          | true =>
            simp only [hl, if_true] at h
            cases hm : move_to_p_buf st c i.toNat with
            | none => simp [hm] at h
            | some r =>
              obtain ⟨st2, i1⟩ := r
              simp only [hm] at h
              obtain ⟨log0, hlog, hp, hb⟩ := step _ _ st2 h (fun log0 h0 => ih _ _ _ _ h0)
              obtain ⟨mp, mb⟩ := move_to_p_buf_buffers hm hr hx
              rw [hlog, sent_particles_cons_some _ x _ rfl, hp, hb, mp, mb, bond_stream_cons]
              simp
          | false =>
            simp only [hl, Bool.false_eq_true, if_false] at h
            by_cases h5 : 2 * d + lr = 5
            · simp only [h5, if_true] at h
              cases hpos : pos_to_cell_grid_ind cfg dom g x.p with
              | none => simp [hpos] at h
              | some ind =>
                simp only [hpos] at h
                by_cases hne : ind = c
                · simp only [hne, ne_eq, not_true_eq_false, if_false] at h
                  obtain ⟨log0, hlog, hp, hb⟩ := step _ _ st h (fun log0 h0 => ih _ _ _ _ h0)
                  rw [hlog, sent_particles_cons_none _ _ rfl]
                  exact ⟨hp, hb⟩
                · simp only [hne, ne_eq, not_false_eq_true, if_true] at h
                  cases hm : move_indexed_particle st ind c i.toNat with
                  | none => simp [hm] at h
                  | some st2 =>
                    simp only [hm] at h
                    obtain ⟨log0, hlog, hp, hb⟩ :=
                      step _ _ st2 h (fun log0 h0 => ih _ _ _ _ h0)
                    obtain ⟨mp, mb⟩ := move_indexed_particle_buffers hm
                    rw [hlog, sent_particles_cons_none _ _ rfl, hp, hb, mp, mb]
                    exact ⟨rfl, rfl⟩
            · simp only [h5, if_false] at h
              obtain ⟨log0, hlog, hp, hb⟩ := step _ _ st h (fun log0 h0 => ih _ _ _ _ h0)
              rw [hlog, sent_particles_cons_none _ _ rfl]
              exact ⟨hp, hb⟩
    · simp only [hi, if_false, Option.some.injEq, Prod.mk.injEq] at h
      obtain ⟨hs, hl⟩ := h
      subst hs
      subst hl
      simp [sent_particles, bond_stream]

theorem scan_inner_cells_log_buffers
    (scan : Int → Nat → Node → Option (Node × List ScanTurn))
    (hscan : ∀ c np st st1 log, scan c np st = some (st1, log) →
      st1.p_send_buf = st.p_send_buf ++ (sent_particles log).map strip_bonds ∧
      st1.b_send_buf = st.b_send_buf ++ bond_stream (sent_particles log)) :
    ∀ (cs : List Int) (st st1 : Node) (log : List ScanTurn),
      scan_inner_cells_log scan cs st = some (st1, log) →
      st1.p_send_buf = st.p_send_buf ++ (sent_particles log).map strip_bonds ∧
      st1.b_send_buf = st.b_send_buf ++ bond_stream (sent_particles log) := by
  intro cs
  induction cs with
  | nil =>
    intro st st1 log h
    simp only [scan_inner_cells_log, Option.some.injEq, Prod.mk.injEq] at h
    obtain ⟨hs, hl⟩ := h
    subst hs
    subst hl
    simp [sent_particles, bond_stream]
  | cons c cs ih =>
    intro st st1 log h
    unfold scan_inner_cells_log at h
    cases hr : read_cell st.cells c with
    | none => simp [hr] at h
    | some pl =>
      simp only [hr] at h
      cases hm : scan c pl.n st with
      | none => simp [hm] at h
      | some r =>
        obtain ⟨st2, log1⟩ := r
        simp only [hm] at h
        cases hrest : scan_inner_cells_log scan cs st2 with
        | none => simp [hrest] at h
        | some r2 =>
          obtain ⟨st3, log2⟩ := r2
          simp only [hrest, Option.map_some', Option.some.injEq, Prod.mk.injEq] at h
          obtain ⟨hs, hl⟩ := h
          subst hs
          subst hl
          obtain ⟨p1, b1⟩ := hscan _ _ _ _ _ hm
          obtain ⟨p2, b2⟩ := ih _ _ _ hrest
          rw [p2, b2, p1, b1, sent_particles_append, bond_stream_append]
          simp

theorem append_loop_ind_nil (cfg : Config) (dom : Domain) (g : Grid) (dir : Nat)
    (b_recv_buf : List Int) (b_ind : Nat) (cells : List ParticleList) :
    append_loop_ind cfg dom g dir b_recv_buf [] b_ind cells = some (cells, b_ind) := by
  rfl

theorem append_loop_ind_cons (cfg : Config) (dom : Domain) (g : Grid) (dir : Nat)
    (b_recv_buf : List Int) (x : Particle) (rest : List Particle) (b_ind : Nat)
    (cells : List ParticleList) :
    append_loop_ind cfg dom g dir b_recv_buf (x :: rest) b_ind cells =
      match read_cell cells (pos_to_capped_cell_grid_ind dom g (fold_coordinate cfg dom x dir).p),
        b_recv_buf[b_ind]? with
      | some pl, some bn =>
        if ((b_recv_buf.drop (b_ind + 1)).take bn.toNat).length = bn.toNat then
          append_loop_ind cfg dom g dir b_recv_buf rest (b_ind + 1 + bn.toNat)
            (write_cell cells (pos_to_capped_cell_grid_ind dom g (fold_coordinate cfg dom x dir).p)
              (append_unindexed_particle pl
                { fold_coordinate cfg dom x dir with
                  bl := (b_recv_buf.drop (b_ind + 1)).take bn.toNat }))
        else none
      | _, _ => none := by
  rfl

/-- The loop with the read offset goes through the same cells as `append_loop`. -/
theorem append_loop_ind_fst (cfg : Config) (dom : Domain) (g : Grid) (dir : Nat)
    (b_recv_buf : List Int) :
    ∀ (xs : List Particle) (b_ind : Nat) (cells : List ParticleList),
      (append_loop_ind cfg dom g dir b_recv_buf xs b_ind cells).map Prod.fst =
        append_loop cfg dom g dir b_recv_buf xs b_ind cells := by
  intro xs
  induction xs with
  | nil =>
    intro b_ind cells
    rw [append_loop_ind_nil, append_loop_nil]
    rfl
  | cons x rest ih =>
    intro b_ind cells
    rw [append_loop_ind_cons, append_loop_cons]
    cases hr : read_cell cells
        (pos_to_capped_cell_grid_ind dom g (fold_coordinate cfg dom x dir).p) with
    | none => simp
    | some pl =>
      cases hb : b_recv_buf[b_ind]? with
      | none => simp
      | some bn =>
        simp only []
        split
        · exact ih _ _
        · rfl

theorem insert_particles_nil (dom : Domain) (g : Grid) (cells : List ParticleList) :
    insert_particles dom g [] cells = some cells := by
  rfl

theorem insert_particles_cons (dom : Domain) (g : Grid) (y : Particle) (rest : List Particle)
    (cells : List ParticleList) :
    insert_particles dom g (y :: rest) cells =
      match read_cell cells (pos_to_capped_cell_grid_ind dom g y.p) with
      | none => none
      | some pl =>
        insert_particles dom g rest
          (write_cell cells (pos_to_capped_cell_grid_ind dom g y.p)
            (append_unindexed_particle pl y)) := by
  rfl

/-- Folding a particle does not touch its bond list: the folded particle without bonds,
given the bonds again, is the folded particle. -/
theorem fold_strip_bonds (cfg : Config) (dom : Domain) (x : Particle) (dir : Nat) :
    { fold_coordinate cfg dom (strip_bonds x) dir with bl := x.bl } =
      fold_coordinate cfg dom x dir ∧
    (fold_coordinate cfg dom (strip_bonds x) dir).p = (fold_coordinate cfg dom x dir).p ∧
    (fold_coordinate cfg dom x dir).bl = x.bl ∧
    (fold_coordinate cfg dom x dir).identity = x.identity := by
  unfold fold_coordinate strip_bonds
  split <;> exact ⟨rfl, rfl, rfl, rfl⟩

/-- The receiving side: from the read offset behind `pre`, `append_particles` takes the
particles `xs` sent without bonds and their bond lists from the buffers, appends the
folded particles with their bond lists, and ends with the read offset at the end of
the bond buffer. -/
theorem append_loop_ind_stream (cfg : Config) (dom : Domain) (g : Grid) (dir : Nat)
    (h0 : 1 ≤ g.cell_grid.x0) (h1 : 1 ≤ g.cell_grid.x1) (h2 : 1 ≤ g.cell_grid.x2)
    (hg0 : g.ghost_cell_grid.x0 = g.cell_grid.x0 + 2)
    (hg1 : g.ghost_cell_grid.x1 = g.cell_grid.x1 + 2)
    (hg2 : g.ghost_cell_grid.x2 = g.cell_grid.x2 + 2) :
    ∀ (xs : List Particle) (pre : List Int) (cells : List ParticleList),
      grid_cells g.ghost_cell_grid ≤ (cells.length : Int) →
      ∃ cells1,
        append_loop_ind cfg dom g dir (pre ++ bond_stream xs) (xs.map strip_bonds) pre.length
            cells = some (cells1, (pre ++ bond_stream xs).length) ∧
        insert_particles dom g (xs.map fun x => fold_coordinate cfg dom x dir) cells =
          some cells1 := by
  intro xs
  induction xs with
  | nil =>
    intro pre cells _
    refine ⟨cells, ?_, ?_⟩
    · rw [List.map_nil, append_loop_ind_nil]
      simp [bond_stream]
    · rw [List.map_nil, insert_particles_nil]
  | cons x rest ih =>
    intro pre cells hlen
    obtain ⟨e1, e2, _, _⟩ := fold_strip_bonds cfg dom x dir
    have hin := capped_ind_inner dom g h0 h1 h2 hg0 hg1 hg2 (fold_coordinate cfg dom x dir).p
    obtain ⟨pl, hpl⟩ := @read_cell_of_lt cells _ hin.2.1 (by omega)
    have hbuf : pre ++ bond_stream (x :: rest) =
        (pre ++ ((x.bl.length : Int) :: x.bl)) ++ bond_stream rest := by
      rw [bond_stream_cons, List.append_assoc]
    have hget : (pre ++ bond_stream (x :: rest))[pre.length]? = some (x.bl.length : Int) := by
      rw [bond_stream_cons, List.getElem?_append_right (le_refl _)]
      simp
    have hdrop : ((pre ++ bond_stream (x :: rest)).drop (pre.length + 1)).take
        ((x.bl.length : Int)).toNat = x.bl := by
      rw [bond_stream_cons, ← List.drop_drop, List.drop_left]
      simp
    obtain ⟨cells1, a1, a2⟩ := ih (pre ++ ((x.bl.length : Int) :: x.bl))
      (write_cell cells (pos_to_capped_cell_grid_ind dom g (fold_coordinate cfg dom x dir).p)
        (append_unindexed_particle pl (fold_coordinate cfg dom x dir)))
      (by rw [write_cell_length]; exact hlen)
    refine ⟨cells1, ?_, ?_⟩
    · rw [List.map_cons, append_loop_ind_cons, e2, hpl, hget]
      simp only [Int.toNat_ofNat] at hdrop
      simp only [Int.toNat_ofNat, hdrop, if_true]
      have e3 : ({ identity := (fold_coordinate cfg dom (strip_bonds x) dir).identity
                   p := (fold_coordinate cfg dom (strip_bonds x) dir).p
                   i := (fold_coordinate cfg dom (strip_bonds x) dir).i
                   bl := x.bl
                   type := (fold_coordinate cfg dom (strip_bonds x) dir).type
                   f := (fold_coordinate cfg dom (strip_bonds x) dir).f } : Particle) =
          fold_coordinate cfg dom x dir := e1
      rw [e3, hbuf]
      have hl : (pre ++ ((x.bl.length : Int) :: x.bl)).length = pre.length + 1 + x.bl.length := by
        simp; omega
      rw [← hl]
      exact a1
    · rw [List.map_cons, insert_particles_cons, hpl]
      exact a2

/-- C21 (bond-list round trip): let a direction pass scan the inner cells from empty
send buffers, and let `log` be the record of its turns.  Then `p_send_buf` holds the
particles handed to `move_to_p_buf`, in order, without their bond storage, and
`b_send_buf` holds for each of them the length of its bond list followed by the
entries; its length is the sum of bond count + 1 over these particles.  If the receive
buffers of a process equal these send buffers, `append_particles` returns on that
process (for a grid with at least one inner cell per axis whose cells are allocated),
it appends the folded particles in the same order, each with the bond list of the
original, and its bond read offset ends at the length of the bond buffer. -/
theorem bond_list_round_trip (cfg : Config) (dom : Domain) (g : Grid) (d lr fuel : Nat)
    (st st1 : Node) (log : List ScanTurn) (rdom : Domain) (rg : Grid) (dir : Nat) (rv : Node)
    (hp : st.p_send_buf = []) (hb : st.b_send_buf = [])
    (hscan : scan_inner_cells_log
      (fun c np => scan_cell_send_log cfg dom g d lr c np fuel 0) (inner_cells g) st =
        some (st1, log))
    (h0 : 1 ≤ rg.cell_grid.x0) (h1 : 1 ≤ rg.cell_grid.x1) (h2 : 1 ≤ rg.cell_grid.x2)
    (hg0 : rg.ghost_cell_grid.x0 = rg.cell_grid.x0 + 2)
    (hg1 : rg.ghost_cell_grid.x1 = rg.cell_grid.x1 + 2)
    (hg2 : rg.ghost_cell_grid.x2 = rg.cell_grid.x2 + 2)
    (hcells : grid_cells rg.ghost_cell_grid ≤ (rv.cells.length : Int))
    (hrp : rv.p_recv_buf = st1.p_send_buf) (hrb : rv.b_recv_buf = st1.b_send_buf) :
    scan_inner_cells (fun c np => scan_cell_send cfg dom g d lr c np fuel 0) (inner_cells g)
      st = some st1 ∧
    st1.p_send_buf = (sent_particles log).map strip_bonds ∧
    st1.b_send_buf = bond_stream (sent_particles log) ∧
    rv.b_recv_buf.length = ((sent_particles log).map fun x => x.bl.length + 1).sum ∧
    (∀ x ∈ sent_particles log,
      (fold_coordinate cfg rdom x dir).bl = x.bl ∧
      (fold_coordinate cfg rdom x dir).identity = x.identity) ∧
    ∃ cells1,
      append_loop_ind cfg rdom rg dir rv.b_recv_buf rv.p_recv_buf 0 rv.cells =
        some (cells1, rv.b_recv_buf.length) ∧
      append_particles cfg rdom rg dir rv = some { rv with cells := cells1 } ∧
      insert_particles rdom rg
        ((sent_particles log).map fun x => fold_coordinate cfg rdom x dir) rv.cells =
        some cells1 := by
  have hplain := scan_inner_cells_log_fst
    (fun c np => scan_cell_send cfg dom g d lr c np fuel 0)
    (fun c np => scan_cell_send_log cfg dom g d lr c np fuel 0)
    (fun c np s => scan_cell_send_log_fst cfg dom g d lr c np fuel 0 s) (inner_cells g) st
  rw [hscan] at hplain
  obtain ⟨bp, bb⟩ := scan_inner_cells_log_buffers
    (fun c np => scan_cell_send_log cfg dom g d lr c np fuel 0)
    (fun c np s s1 l h => scan_cell_send_log_buffers cfg dom g d lr c np fuel 0 s s1 l h)
    (inner_cells g) st st1 log hscan
  rw [hp, List.nil_append] at bp
  rw [hb, List.nil_append] at bb
  obtain ⟨cells1, a1, a2⟩ := append_loop_ind_stream cfg rdom rg dir h0 h1 h2 hg0 hg1 hg2
    (sent_particles log) [] rv.cells hcells
  rw [List.nil_append, List.length_nil, ← bb, ← bp, ← hrp, ← hrb] at a1
  refine ⟨hplain.symm, bp, bb, ?_, ?_, cells1, a1, ?_, a2⟩
  · rw [hrb, bb, bond_stream_length]
  · intro x _
    exact ⟨(fold_strip_bonds cfg rdom x dir).2.2.1, (fold_strip_bonds cfg rdom x dir).2.2.2⟩
  · have hf := append_loop_ind_fst cfg rdom rg dir rv.b_recv_buf rv.p_recv_buf 0 rv.cells
    rw [a1] at hf
    unfold append_particles
    rw [← hf]
    rfl

/-- C21 at process 0 of two processes that split the box along x: the particles 0 (bond
list `[0, 1]`) and 1 (no bonds) leave to the right; the bond buffer is `[2, 0, 1, 0]`,
and the receiving process appends both with their bond lists. -/
theorem bond_list_round_trip_witness :
    ∃ (st1 : Node) (log : List ScanTurn),
      scan_inner_cells_log
        (fun c np => scan_cell_send_log plain_build left_domain left_grid 0 1 c np 10 0)
        (inner_cells left_grid) bonded_state = some (st1, log) ∧
      sent_particles log = [bonded_particle 0 6 [0, 1], bonded_particle 1 7 []] ∧
      st1.b_send_buf = [2, 0, 1, 0] ∧
      ∃ cells1,
        append_loop_ind plain_build right_domain left_grid 0 st1.b_send_buf st1.p_send_buf 0
          right_state.cells = some (cells1, st1.b_send_buf.length) ∧
        insert_particles right_domain left_grid
          ((sent_particles log).map fun x => fold_coordinate plain_build right_domain x 0)
          right_state.cells = some cells1 := by
  have hs : (scan_inner_cells_log
      (fun c np => scan_cell_send_log plain_build left_domain left_grid 0 1 c np 10 0)
      (inner_cells left_grid) bonded_state).isSome = true := by with_unfolding_all decide
  obtain ⟨⟨st1, log⟩, h⟩ := Option.isSome_iff_exists.mp hs
  have hl : (scan_inner_cells_log
      (fun c np => scan_cell_send_log plain_build left_domain left_grid 0 1 c np 10 0)
      (inner_cells left_grid) bonded_state).map (fun r => sent_particles r.2) =
      some [bonded_particle 0 6 [0, 1], bonded_particle 1 7 []] := by
    with_unfolding_all decide
  rw [h] at hl
  simp only [Option.map_some', Option.some.injEq] at hl
  have hc : grid_cells left_grid.ghost_cell_grid ≤ (right_state.cells.length : Int) := by
    with_unfolding_all decide
  have key := bond_list_round_trip plain_build left_domain left_grid 0 1 10 bonded_state st1
    log right_domain left_grid 0
    { right_state with p_recv_buf := st1.p_send_buf, b_recv_buf := st1.b_send_buf }
    rfl rfl h (by with_unfolding_all decide) (by with_unfolding_all decide)
    (by with_unfolding_all decide) (by with_unfolding_all decide)
    (by with_unfolding_all decide) (by with_unfolding_all decide)
    hc rfl rfl
  obtain ⟨_, _, kb, _, _, cells1, k1, _, k3⟩ := key
  refine ⟨st1, log, h, hl, ?_, cells1, k1, k3⟩
  rw [kb, hl]
  rfl

/-! ## The index lists of `sub_grid_indices` -/

theorem mem_int_range {lo hi x : Int} : x ∈ int_range lo hi ↔ lo ≤ x ∧ x ≤ hi := by
  unfold int_range
  simp only [List.mem_map, List.mem_range]
  constructor
  · rintro ⟨k, hk, rfl⟩
    omega
  · intro h
    exact ⟨(x - lo).toNat, by omega, by omega⟩

theorem int_range_length (lo hi : Int) : (int_range lo hi).length = (hi + 1 - lo).toNat := by
  simp [int_range]

theorem int_range_nodup (lo hi : Int) : (int_range lo hi).Nodup := by
  unfold int_range
  refine List.Nodup.map (fun a b h => ?_) (List.nodup_range _)
  simp only at h
  omega

theorem int_range_get {lo hi : Int} {k : Nat} (hk : k < (hi + 1 - lo).toNat) :
    (int_range lo hi)[k]? = some (lo + (k : Int)) := by
  unfold int_range
  rw [List.getElem?_map, List.getElem?_range hk]
  rfl

theorem length_flatMap_const {α β : Type} (f : α → List β) (n : Nat) :
    ∀ l : List α, (∀ a ∈ l, (f a).length = n) → (l.flatMap f).length = l.length * n := by
  intro l
  induction l with
  | nil => intro _; simp
  | cons a l ih =>
    intro h
    rw [List.flatMap_cons, List.length_append, h a (List.mem_cons_self _ _),
      ih (fun b hb => h b (List.mem_cons_of_mem _ hb)), List.length_cons]
    ring

/-- The entry `k` of nested loops whose inner loops all write `n` entries is entry
`k % n` of turn `k / n` of the outer loop. -/
theorem getElem?_flatMap_const {α β : Type} (f : α → List β) (n : Nat) :
    ∀ l : List α, (∀ a ∈ l, (f a).length = n) → ∀ k : Nat, k < l.length * n →
      (l.flatMap f)[k]? = (l[k / n]?).bind fun a => (f a)[k % n]? := by
  intro l
  induction l with
  | nil =>
    intro _ k hk
    simp at hk
  | cons a l ih =>
    intro h k hk
    have hn : 0 < n := by
      rcases Nat.eq_zero_or_pos n with h0 | h0
      · rw [h0] at hk; simp at hk
      · exact h0
    have ha := h a (List.mem_cons_self _ _)
    rw [List.flatMap_cons]
    by_cases hkn : k < n
    · rw [List.getElem?_append_left (by omega), Nat.div_eq_of_lt hkn, Nat.mod_eq_of_lt hkn]
      simp
    · have hk1 : k = (k - n) + n := by omega
      have hd : k / n = (k - n) / n + 1 := by
        conv_lhs => rw [hk1]
        exact Nat.add_div_right _ hn
      have hm : k % n = (k - n) % n := by
        conv_lhs => rw [hk1]
        exact Nat.add_mod_right _ _
      rw [List.getElem?_append_right (by omega), ha,
        ih (fun b hb => h b (List.mem_cons_of_mem _ hb)) (k - n), hd, hm]
      · simp
      · rw [List.length_cons] at hk
        have : (l.length + 1) * n = l.length * n + n := by ring
        omega

/-- Within the grid the linear index determines the grid coordinates. -/
theorem linear_index_inj (gs : Vec3 Int) {a b c a1 b1 c1 : Int}
    (ha : 0 ≤ a ∧ a < gs.x0) (hb : 0 ≤ b ∧ b < gs.x1) (hc : 0 ≤ c)
    (ha1 : 0 ≤ a1 ∧ a1 < gs.x0) (hb1 : 0 ≤ b1 ∧ b1 < gs.x1) (hc1 : 0 ≤ c1)
    (h : get_linear_index a b c gs = get_linear_index a1 b1 c1 gs) :
    a = a1 ∧ b = b1 ∧ c = c1 := by
  have e := get_grid_pos_linear ha.1 ha.2 hb.1 hb.2 hc
  have e1 := get_grid_pos_linear ha1.1 ha1.2 hb1.1 hb1.2 hc1
  rw [h, e1] at e
  simp only [Vec3.mk.injEq] at e
  exact ⟨e.1.symm, e.2.1.symm, e.2.2.symm⟩

theorem mem_sub_grid_entries {lc hc gs : Vec3 Int} {c : Int} :
    c ∈ sub_grid_entries lc hc gs ↔
      ∃ p0 p1 p2 : Int, (lc.x0 ≤ p0 ∧ p0 ≤ hc.x0) ∧ (lc.x1 ≤ p1 ∧ p1 ≤ hc.x1) ∧
        (lc.x2 ≤ p2 ∧ p2 ≤ hc.x2) ∧ c = get_linear_index p0 p1 p2 gs := by
  unfold sub_grid_entries
  simp only [List.mem_flatMap, List.mem_map, mem_int_range]
  constructor
  · rintro ⟨p0, h0, p1, h1, p2, h2, rfl⟩
    exact ⟨p0, p1, p2, h0, h1, h2, rfl⟩
  · rintro ⟨p0, p1, p2, h0, h1, h2, rfl⟩
    exact ⟨p0, h0, p1, h1, p2, h2, rfl⟩

theorem sub_grid_entries_length (lc hc gs : Vec3 Int) :
    (sub_grid_entries lc hc gs).length =
      (hc.x0 + 1 - lc.x0).toNat * ((hc.x1 + 1 - lc.x1).toNat * (hc.x2 + 1 - lc.x2).toNat) := by
  unfold sub_grid_entries
  rw [length_flatMap_const _ ((hc.x1 + 1 - lc.x1).toNat * (hc.x2 + 1 - lc.x2).toNat),
    int_range_length]
  intro p0 _
  rw [length_flatMap_const _ ((hc.x2 + 1 - lc.x2).toNat), int_range_length]
  intro p1 _
  rw [List.length_map, int_range_length]

/-- The entry `k` of the list that `sub_grid_indices` writes: axis 0 is outermost and
axis 2 innermost. -/
theorem sub_grid_entries_get (lc hc gs : Vec3 Int) (k : Nat)
    (hk : k < (hc.x0 + 1 - lc.x0).toNat *
      ((hc.x1 + 1 - lc.x1).toNat * (hc.x2 + 1 - lc.x2).toNat)) :
    (sub_grid_entries lc hc gs)[k]? =
      some (get_linear_index
        (lc.x0 + ((k / ((hc.x1 + 1 - lc.x1).toNat * (hc.x2 + 1 - lc.x2).toNat) : Nat) : Int))
        (lc.x1 + ((k / (hc.x2 + 1 - lc.x2).toNat % (hc.x1 + 1 - lc.x1).toNat : Nat) : Int))
        (lc.x2 + ((k % (hc.x2 + 1 - lc.x2).toNat : Nat) : Int)) gs) := by
  set n0 := (hc.x0 + 1 - lc.x0).toNat with hn0
  set n1 := (hc.x1 + 1 - lc.x1).toNat with hn1
  set n2 := (hc.x2 + 1 - lc.x2).toNat with hn2
  have h12 : 0 < n1 * n2 := by
    rcases Nat.eq_zero_or_pos (n1 * n2) with h | h
    · rw [h] at hk; simp at hk
    · exact h
  have hp1 : 0 < n1 := Nat.pos_of_mul_pos_right h12
  have hp2 : 0 < n2 := Nat.pos_of_mul_pos_left h12
  have hi0 : k / (n1 * n2) < n0 := by
    rw [Nat.div_lt_iff_lt_mul h12]
    exact hk
  have hi12 : k % (n1 * n2) < n1 * n2 := Nat.mod_lt _ h12
  have hi1 : k % (n1 * n2) / n2 < n1 := by
    rw [Nat.div_lt_iff_lt_mul hp2]
    exact hi12
  have hi2 : k % (n1 * n2) % n2 < n2 := Nat.mod_lt _ hp2
  unfold sub_grid_entries
  rw [getElem?_flatMap_const _ (n1 * n2) _ _ k (by rw [int_range_length]; exact hk),
    int_range_get hi0]
  · simp only [Option.some_bind]
    rw [getElem?_flatMap_const _ n2 _ _ _ (by rw [int_range_length]; exact hi12),
      int_range_get hi1]
    · simp only [Option.some_bind]
      rw [List.getElem?_map, int_range_get hi2, Nat.mod_mul_left_div_self,
        Nat.mod_mul_left_mod]
      rfl
    · intro p1 _
      rw [List.length_map, int_range_length]
  · intro p0 _
    rw [length_flatMap_const _ n2, int_range_length]
    intro p1 _
    rw [List.length_map, int_range_length]

/-- A box inside the grid is listed without repetition. -/
theorem sub_grid_entries_nodup {lc hc gs : Vec3 Int}
    (h0 : 0 ≤ lc.x0 ∧ hc.x0 < gs.x0) (h1 : 0 ≤ lc.x1 ∧ hc.x1 < gs.x1) (h2 : 0 ≤ lc.x2) :
    (sub_grid_entries lc hc gs).Nodup := by
  unfold sub_grid_entries
  rw [List.nodup_flatMap]
  refine ⟨fun p0 hp0 => ?_, ?_⟩
  · rw [mem_int_range] at hp0
    rw [List.nodup_flatMap]
    refine ⟨fun p1 hp1 => ?_, ?_⟩
    · rw [mem_int_range] at hp1
      refine List.Nodup.map (fun a b h => ?_) (int_range_nodup _ _)
      unfold get_linear_index at h
      have hg0 : 0 < gs.x0 := by omega
      have hg1 : 0 < gs.x1 := by omega
      have := mul_left_cancel₀ (ne_of_gt hg0) (add_left_cancel h)
      exact mul_left_cancel₀ (ne_of_gt hg1) (add_left_cancel this)
    · refine (int_range_nodup _ _).pairwise_of_forall_ne (fun a ha b hb hab => ?_)
      rw [mem_int_range] at ha hb
      intro c hca hcb
      simp only [List.mem_map, mem_int_range] at hca hcb
      obtain ⟨p2, hp2, rfl⟩ := hca
      obtain ⟨q2, hq2, hq⟩ := hcb
      have := linear_index_inj gs (by omega) (by omega) (by omega) (by omega)
        (by omega) (by omega) hq
      exact hab this.2.1.symm
  · refine (int_range_nodup _ _).pairwise_of_forall_ne (fun a ha b hb hab => ?_)
    rw [mem_int_range] at ha hb
    intro c hca hcb
    simp only [List.mem_flatMap, List.mem_map, mem_int_range] at hca hcb
    obtain ⟨p1, hp1, p2, hp2, rfl⟩ := hca
    obtain ⟨q1, hq1, q2, hq2, hq⟩ := hcb
    have := linear_index_inj gs (by omega) (by omega) (by omega) (by omega)
      (by omega) (by omega) hq
    exact hab this.1.symm

theorem splice_length {α : Type} (list e : List α) (s : Nat)
    (h : s + e.length ≤ list.length) :
    (list.take s ++ e ++ list.drop (s + e.length)).length = list.length := by
  simp only [List.length_append, List.length_take, List.length_drop]
  omega

theorem splice_get_left {α : Type} (list e : List α) (s k : Nat) (hs : s ≤ list.length)
    (hk : k < s) : (list.take s ++ e ++ list.drop (s + e.length))[k]? = list[k]? := by
  rw [List.append_assoc, List.getElem?_append_left (by rw [List.length_take]; omega),
    List.getElem?_take, if_pos hk]

theorem splice_get_mid {α : Type} (list e : List α) (s j : Nat) (hs : s ≤ list.length)
    (hj : j < e.length) : (list.take s ++ e ++ list.drop (s + e.length))[s + j]? = e[j]? := by
  have hl : (list.take s).length = s := by rw [List.length_take]; omega
  rw [List.append_assoc, List.getElem?_append_right (by omega), hl,
    List.getElem?_append_left (by omega)]
  congr 1
  omega

theorem splice_get_right {α : Type} (list e : List α) (s k : Nat) (hs : s ≤ list.length)
    (hk : s + e.length ≤ k) :
    (list.take s ++ e ++ list.drop (s + e.length))[k]? = list[k]? := by
  have hl : (list.take s).length = s := by rw [List.length_take]; omega
  rw [List.getElem?_append_right (by rw [List.length_append, hl]; exact hk),
    List.getElem?_drop, List.length_append, hl]
  congr 1
  omega

theorem sub_grid_axis_ok_iff (lc hc gs : Int) :
    sub_grid_axis_ok lc hc gs = true ↔ (0 ≤ lc ∧ lc < gs) ∧ (0 ≤ hc ∧ hc < gs) ∧ lc ≤ hc := by
  unfold sub_grid_axis_ok
  simp only [Bool.and_eq_true, Bool.not_eq_true', Bool.or_eq_false_iff, decide_eq_false_iff_not,
    not_lt, ge_iff_le, not_le, gt_iff_lt]
  constructor
  · rintro ⟨⟨⟨a, b⟩, c, d⟩, e⟩
    exact ⟨⟨a, b⟩, ⟨c, d⟩, e⟩
  · rintro ⟨⟨a, b⟩, ⟨c, d⟩, e⟩
    exact ⟨⟨⟨a, b⟩, c, d⟩, e⟩

theorem sanity_iff_box_in_grid (lc hc gs : Vec3 Int) :
    (sub_grid_axis_ok lc.x0 hc.x0 gs.x0 && sub_grid_axis_ok lc.x1 hc.x1 gs.x1 &&
      sub_grid_axis_ok lc.x2 hc.x2 gs.x2) = true ↔ box_in_grid lc hc gs := by
  unfold box_in_grid
  rw [Bool.and_eq_true, Bool.and_eq_true, sub_grid_axis_ok_iff, sub_grid_axis_ok_iff,
    sub_grid_axis_ok_iff, and_assoc]

theorem box_size_length {lc hc gs : Vec3 Int} (h : box_in_grid lc hc gs) :
    box_size lc hc = ((sub_grid_entries lc hc gs).length : Int) := by
  obtain ⟨⟨_, _, a⟩, ⟨_, _, b⟩, ⟨_, _, c⟩⟩ := h
  rw [sub_grid_entries_length]
  push_cast
  rw [Int.toNat_of_nonneg (by omega), Int.toNat_of_nonneg (by omega),
    Int.toNat_of_nonneg (by omega)]
  unfold box_size
  ring

/-- C30: `sub_grid_indices(list, start, max, lc, hc, gs)` returns 0 and leaves the list
alone if the box does not lie in the grid; otherwise it returns -1 and leaves the list
alone if the box size plus `start` exceeds `max`; otherwise (for `start >= 0` and a list
that holds `start + size` entries) it returns the box size, keeps the length of the list
and every entry outside `list[start .. start+size-1]`, writes to `list[start + k]` the
linear index of the cell with the offsets `k / (n1*n2)`, `(k / n2) % n1` and `k % n2`
from `lc` on the axes 0, 1, 2 (`n1`, `n2` the extents of the box on the axes 1, 2), and
every cell of the box is the entry of exactly one `k`. -/
theorem sub_grid_indices_spec (list : List Int) (start max : Int) (lc hc gs : Vec3 Int) :
    (¬ box_in_grid lc hc gs → sub_grid_indices list start max lc hc gs = (0, list)) ∧
    (box_in_grid lc hc gs → box_size lc hc + start > max →
      sub_grid_indices list start max lc hc gs = (-1, list)) ∧
    (box_in_grid lc hc gs → box_size lc hc + start ≤ max → 0 ≤ start →
      start + box_size lc hc ≤ (list.length : Int) →
      (sub_grid_indices list start max lc hc gs).1 = box_size lc hc ∧
      0 < box_size lc hc ∧
      (sub_grid_indices list start max lc hc gs).2.length = list.length ∧
      (∀ k : Nat, ((k : Int) < start ∨ start + box_size lc hc ≤ (k : Int)) →
        (sub_grid_indices list start max lc hc gs).2[k]? = list[k]?) ∧
      (∀ k : Nat, (k : Int) < box_size lc hc →
        (sub_grid_indices list start max lc hc gs).2[start.toNat + k]? =
          some (get_linear_index
            (lc.x0 + ((k / ((hc.x1 + 1 - lc.x1).toNat * (hc.x2 + 1 - lc.x2).toNat) : Nat) : Int))
            (lc.x1 + ((k / (hc.x2 + 1 - lc.x2).toNat % (hc.x1 + 1 - lc.x1).toNat : Nat) : Int))
            (lc.x2 + ((k % (hc.x2 + 1 - lc.x2).toNat : Nat) : Int)) gs)) ∧
      (∀ p0 p1 p2 : Int, (lc.x0 ≤ p0 ∧ p0 ≤ hc.x0) → (lc.x1 ≤ p1 ∧ p1 ≤ hc.x1) →
        (lc.x2 ≤ p2 ∧ p2 ≤ hc.x2) →
        ∃ k : Nat, (k : Int) < box_size lc hc ∧
          (sub_grid_indices list start max lc hc gs).2[start.toNat + k]? =
            some (get_linear_index p0 p1 p2 gs) ∧
          ∀ j : Nat, (j : Int) < box_size lc hc →
            (sub_grid_indices list start max lc hc gs).2[start.toNat + j]? =
              some (get_linear_index p0 p1 p2 gs) → j = k)) := by
  refine ⟨fun hbox => ?_, fun hbox hmax => ?_, fun hbox hmax hstart hlen => ?_⟩
  · have : ¬ (sub_grid_axis_ok lc.x0 hc.x0 gs.x0 && sub_grid_axis_ok lc.x1 hc.x1 gs.x1 &&
        sub_grid_axis_ok lc.x2 hc.x2 gs.x2) = true := fun h =>
      hbox ((sanity_iff_box_in_grid lc hc gs).mp h)
    unfold sub_grid_indices
    rw [if_neg this]
  · unfold sub_grid_indices
    rw [if_pos ((sanity_iff_box_in_grid lc hc gs).mpr hbox)]
    have : (hc.x0 + 1 - lc.x0) * (hc.x1 + 1 - lc.x1) * (hc.x2 + 1 - lc.x2) + start > max := hmax
    simp only [this, if_true]
  · have hsz := box_size_length hbox
    have hres : sub_grid_indices list start max lc hc gs =
        (box_size lc hc, list.take start.toNat ++ sub_grid_entries lc hc gs ++
          list.drop (start.toNat + (sub_grid_entries lc hc gs).length)) := by
      unfold sub_grid_indices
      rw [if_pos ((sanity_iff_box_in_grid lc hc gs).mpr hbox)]
      have : ¬ (hc.x0 + 1 - lc.x0) * (hc.x1 + 1 - lc.x1) * (hc.x2 + 1 - lc.x2) + start > max :=
        not_lt.mpr hmax
      simp only [this, if_false]
      rfl
    have hs : start.toNat ≤ list.length := by omega
    have hse : start.toNat + (sub_grid_entries lc hc gs).length ≤ list.length := by omega
    have hnd : (sub_grid_entries lc hc gs).Nodup := by
      obtain ⟨⟨⟨a, _⟩, ⟨_, a1⟩, _⟩, ⟨⟨b, _⟩, ⟨_, b1⟩, _⟩, ⟨⟨c, _⟩, _, _⟩⟩ := hbox
      exact sub_grid_entries_nodup ⟨a, a1⟩ ⟨b, b1⟩ c
    have hpos : 0 < box_size lc hc := by
      obtain ⟨⟨_, _, a⟩, ⟨_, _, b⟩, ⟨_, _, c⟩⟩ := hbox
      unfold box_size
      have h1 : 0 < hc.x0 + 1 - lc.x0 := by omega
      have h2 : 0 < hc.x1 + 1 - lc.x1 := by omega
      have h3 : 0 < hc.x2 + 1 - lc.x2 := by omega
      positivity
    rw [hres]
    simp only
    refine ⟨trivial, hpos, splice_length _ _ _ hse, fun k hk => ?_, fun k hk => ?_,
      fun p0 p1 p2 h0 h1 h2 => ?_⟩
    · rcases hk with hk | hk
      · exact splice_get_left _ _ _ _ hs (by omega)
      · exact splice_get_right _ _ _ _ hs (by omega)
    · rw [splice_get_mid _ _ _ _ hs (by omega)]
      exact sub_grid_entries_get lc hc gs k (by rw [← sub_grid_entries_length lc hc gs]; omega)
    · have hm : get_linear_index p0 p1 p2 gs ∈ sub_grid_entries lc hc gs :=
        mem_sub_grid_entries.mpr ⟨p0, p1, p2, h0, h1, h2, rfl⟩
      obtain ⟨k, hk⟩ := List.mem_iff_getElem?.mp hm
      have hkl : k < (sub_grid_entries lc hc gs).length := (List.getElem?_eq_some.mp hk).1
      refine ⟨k, by omega, ?_, fun j hj hjv => ?_⟩
      · rw [splice_get_mid _ _ _ _ hs hkl]
        exact hk
      · rw [splice_get_mid _ _ _ _ hs (by omega), ← hk] at hjv
        exact List.getElem?_inj (by omega) hnd hjv

/-- C30 at the grid 3 x 3 x 3 and the box from `(1, 0, 1)` to `(1, 1, 2)` of four cells:
written to a list of six entries from position 1 the call returns 4 and leaves the
first and the last entry; with `max = 2` it returns -1; for the box from `(1, 0, 1)` to
`(3, 1, 2)`, which leaves the grid, it returns 0. -/
theorem sub_grid_indices_spec_witness :
    box_in_grid ⟨1, 0, 1⟩ ⟨1, 1, 2⟩ ⟨3, 3, 3⟩ ∧
    sub_grid_indices [7, 7, 7, 7, 7, 7] 1 6 ⟨1, 0, 1⟩ ⟨1, 1, 2⟩ ⟨3, 3, 3⟩ =
      (4, [7, 10, 19, 13, 22, 7]) ∧
    (sub_grid_indices [7, 7, 7, 7, 7, 7] 1 6 ⟨1, 0, 1⟩ ⟨1, 1, 2⟩ ⟨3, 3, 3⟩).1 =
      box_size ⟨1, 0, 1⟩ ⟨1, 1, 2⟩ ∧
    sub_grid_indices [7, 7] 0 2 ⟨1, 0, 1⟩ ⟨1, 1, 2⟩ ⟨3, 3, 3⟩ = (-1, [7, 7]) ∧
    sub_grid_indices [7, 7] 0 2 ⟨1, 0, 1⟩ ⟨3, 1, 2⟩ ⟨3, 3, 3⟩ = (0, [7, 7]) :=
  ⟨by decide, by decide,
    ((sub_grid_indices_spec [7, 7, 7, 7, 7, 7] 1 6 ⟨1, 0, 1⟩ ⟨1, 1, 2⟩ ⟨3, 3, 3⟩).2.2
      (by decide) (by decide) (by decide) (by decide)).1,
    (sub_grid_indices_spec [7, 7] 0 2 ⟨1, 0, 1⟩ ⟨1, 1, 2⟩ ⟨3, 3, 3⟩).2.1 (by decide) (by decide),
    (sub_grid_indices_spec [7, 7] 0 2 ⟨1, 0, 1⟩ ⟨3, 1, 2⟩ ⟨3, 3, 3⟩).1 (by decide)⟩

/-! ## The cell lists of `ghost_init` -/

/-- A list of `ghost_init` whose box lies in the grid and fits the allocated size holds
the entries that `sub_grid_indices` writes. -/
theorem cell_list_eq {anz : Int} {lc hc gs : Vec3 Int} (hbox : box_in_grid lc hc gs)
    (hanz : box_size lc hc ≤ anz) :
    cell_list anz lc hc gs = sub_grid_entries lc hc gs := by
  have hsz := box_size_length hbox
  unfold cell_list sub_grid_indices
  rw [if_pos ((sanity_iff_box_in_grid lc hc gs).mpr hbox)]
  have hsize : (hc.x0 + 1 - lc.x0) * (hc.x1 + 1 - lc.x1) * (hc.x2 + 1 - lc.x2) =
      box_size lc hc := rfl
  have : ¬ box_size lc hc + 0 > anz := by omega
  simp only [hsize, this, if_false, Int.toNat_zero, List.take_zero, List.nil_append]
  exact List.take_left' (by omega)

theorem int_range_shift (lo hi t : Int) :
    int_range (lo + t) (hi + t) = (int_range lo hi).map fun p => p + t := by
  unfold int_range
  have : hi + t + 1 - (lo + t) = hi + 1 - lo := by ring
  rw [this, List.map_map]
  apply List.map_congr_left
  intro k _
  simp only [Function.comp]
  ring

/-- A box moved by `(t0, t1, t2)` is listed in the same order, every linear index moved
by the linear index of `(t0, t1, t2)`. -/
theorem sub_grid_entries_shift (lc hc gs : Vec3 Int) (t0 t1 t2 : Int) :
    sub_grid_entries ⟨lc.x0 + t0, lc.x1 + t1, lc.x2 + t2⟩ ⟨hc.x0 + t0, hc.x1 + t1, hc.x2 + t2⟩
        gs =
      (sub_grid_entries lc hc gs).map fun c => c + get_linear_index t0 t1 t2 gs := by
  unfold sub_grid_entries
  simp only [int_range_shift, List.flatMap_map, List.map_flatMap, List.map_map]
  apply List.flatMap_congr
  intro p0 _
  apply List.flatMap_congr
  intro p1 _
  apply List.map_congr_left
  intro p2 _
  simp only [Function.comp, get_linear_index]
  ring

/-- The frames of `ghost_init` lie in the grid and have the allocated size `anz`. -/
theorem frame_box (g : Grid)
    (h0 : 1 ≤ g.cell_grid.x0) (h1 : 1 ≤ g.cell_grid.x1) (h2 : 1 ≤ g.cell_grid.x2)
    (hg0 : g.ghost_cell_grid.x0 = g.cell_grid.x0 + 2)
    (hg1 : g.ghost_cell_grid.x1 = g.cell_grid.x1 + 2)
    (hg2 : g.ghost_cell_grid.x2 = g.cell_grid.x2 + 2)
    (i : Nat) (hi : i < 3) (v : Int) (hv : 0 ≤ v ∧ v ≤ g.cell_grid.get i + 1) :
    box_in_grid (frame_corner i v ⟨1, 1, 1⟩ ⟨0, 0, 0⟩)
        (frame_corner i v g.cell_grid
          ⟨g.cell_grid.x0 + 1, g.cell_grid.x1 + 1, g.cell_grid.x2 + 1⟩)
        g.ghost_cell_grid ∧
    box_size (frame_corner i v ⟨1, 1, 1⟩ ⟨0, 0, 0⟩)
        (frame_corner i v g.cell_grid
          ⟨g.cell_grid.x0 + 1, g.cell_grid.x1 + 1, g.cell_grid.x2 + 1⟩) =
      (if i = 0 then g.cell_grid.x1 * g.cell_grid.x2
       else if i = 1 then g.cell_grid.x2 * g.ghost_cell_grid.x0
       else g.ghost_cell_grid.x0 * g.ghost_cell_grid.x1) := by
  constructor
  · unfold box_in_grid frame_corner
    interval_cases i <;> simp [Vec3.get] at hv ⊢ <;> omega
  · unfold box_size frame_corner
    interval_cases i <;> simp [Vec3.get] at hv ⊢
    · rw [hg0]
      ring
    · rw [hg0, hg1]
      ring

theorem frame_eq (g : Grid)
    (h0 : 1 ≤ g.cell_grid.x0) (h1 : 1 ≤ g.cell_grid.x1) (h2 : 1 ≤ g.cell_grid.x2)
    (hg0 : g.ghost_cell_grid.x0 = g.cell_grid.x0 + 2)
    (hg1 : g.ghost_cell_grid.x1 = g.cell_grid.x1 + 2)
    (hg2 : g.ghost_cell_grid.x2 = g.cell_grid.x2 + 2)
    (i : Nat) (hi : i < 3) (v : Int) (hv : 0 ≤ v ∧ v ≤ g.cell_grid.get i + 1) :
    cell_list
        (if i = 0 then g.cell_grid.x1 * g.cell_grid.x2
         else if i = 1 then g.cell_grid.x2 * g.ghost_cell_grid.x0
         else g.ghost_cell_grid.x0 * g.ghost_cell_grid.x1)
        (frame_corner i v ⟨1, 1, 1⟩ ⟨0, 0, 0⟩)
        (frame_corner i v g.cell_grid
          ⟨g.cell_grid.x0 + 1, g.cell_grid.x1 + 1, g.cell_grid.x2 + 1⟩)
        g.ghost_cell_grid =
      sub_grid_entries (frame_corner i v ⟨1, 1, 1⟩ ⟨0, 0, 0⟩)
        (frame_corner i v g.cell_grid
          ⟨g.cell_grid.x0 + 1, g.cell_grid.x1 + 1, g.cell_grid.x2 + 1⟩)
        g.ghost_cell_grid := by
  obtain ⟨hb, hs⟩ := frame_box g h0 h1 h2 hg0 hg1 hg2 i hi v hv
  exact cell_list_eq hb (le_of_eq hs)

/-- The receive list of direction `d`: the layer `0` (`d` even) or `cell_grid + 1`
(`d` odd) on the axis `d/2`. -/
theorem ghost_init_recv (g : Grid)
    (h0 : 1 ≤ g.cell_grid.x0) (h1 : 1 ≤ g.cell_grid.x1) (h2 : 1 ≤ g.cell_grid.x2)
    (hg0 : g.ghost_cell_grid.x0 = g.cell_grid.x0 + 2)
    (hg1 : g.ghost_cell_grid.x1 = g.cell_grid.x1 + 2)
    (hg2 : g.ghost_cell_grid.x2 = g.cell_grid.x2 + 2) (d : Nat) (hd : d < 6) :
    (ghost_init g).recv_cells d =
      sub_grid_entries
        (frame_corner (d / 2) (if d % 2 = 0 then 0 else g.cell_grid.get (d / 2) + 1)
          ⟨1, 1, 1⟩ ⟨0, 0, 0⟩)
        (frame_corner (d / 2) (if d % 2 = 0 then 0 else g.cell_grid.get (d / 2) + 1)
          g.cell_grid ⟨g.cell_grid.x0 + 1, g.cell_grid.x1 + 1, g.cell_grid.x2 + 1⟩)
        g.ghost_cell_grid := by
  have hget : 1 ≤ g.cell_grid.get (d / 2) := by
    unfold Vec3.get
    split_ifs <;> assumption
  exact frame_eq g h0 h1 h2 hg0 hg1 hg2 (d / 2) (by omega) _ (by split_ifs <;> omega)

/-- The send list of direction `d`: the layer `1` (`d` even) or `cell_grid` (`d` odd) on
the axis `d/2`. -/
theorem ghost_init_send (g : Grid)
    (h0 : 1 ≤ g.cell_grid.x0) (h1 : 1 ≤ g.cell_grid.x1) (h2 : 1 ≤ g.cell_grid.x2)
    (hg0 : g.ghost_cell_grid.x0 = g.cell_grid.x0 + 2)
    (hg1 : g.ghost_cell_grid.x1 = g.cell_grid.x1 + 2)
    (hg2 : g.ghost_cell_grid.x2 = g.cell_grid.x2 + 2) (d : Nat) (hd : d < 6) :
    (ghost_init g).send_cells d =
      sub_grid_entries
        (frame_corner (d / 2) (if d % 2 = 0 then 1 else g.cell_grid.get (d / 2))
          ⟨1, 1, 1⟩ ⟨0, 0, 0⟩)
        (frame_corner (d / 2) (if d % 2 = 0 then 1 else g.cell_grid.get (d / 2))
          g.cell_grid ⟨g.cell_grid.x0 + 1, g.cell_grid.x1 + 1, g.cell_grid.x2 + 1⟩)
        g.ghost_cell_grid := by
  have hget : 1 ≤ g.cell_grid.get (d / 2) := by
    unfold Vec3.get
    split_ifs <;> assumption
  exact frame_eq g h0 h1 h2 hg0 hg1 hg2 (d / 2) (by omega) _ (by split_ifs <;> omega)

/-- The receive frame of direction `d` in coordinates: the cells of the grid whose
`fill_direction` is `d`. -/
theorem recv_frame_iff (cg : Vec3 Int) (h0 : 1 ≤ cg.x0) (h1 : 1 ≤ cg.x1) (h2 : 1 ≤ cg.x2)
    (d : Nat) (hd : d < 6) (q0 q1 q2 : Int) :
    (((frame_corner (d / 2) (if d % 2 = 0 then 0 else cg.get (d / 2) + 1)
          ⟨1, 1, 1⟩ ⟨0, 0, 0⟩).x0 ≤ q0 ∧
        q0 ≤ (frame_corner (d / 2) (if d % 2 = 0 then 0 else cg.get (d / 2) + 1) cg
          ⟨cg.x0 + 1, cg.x1 + 1, cg.x2 + 1⟩).x0) ∧
      ((frame_corner (d / 2) (if d % 2 = 0 then 0 else cg.get (d / 2) + 1)
          ⟨1, 1, 1⟩ ⟨0, 0, 0⟩).x1 ≤ q1 ∧
        q1 ≤ (frame_corner (d / 2) (if d % 2 = 0 then 0 else cg.get (d / 2) + 1) cg
          ⟨cg.x0 + 1, cg.x1 + 1, cg.x2 + 1⟩).x1) ∧
      ((frame_corner (d / 2) (if d % 2 = 0 then 0 else cg.get (d / 2) + 1)
          ⟨1, 1, 1⟩ ⟨0, 0, 0⟩).x2 ≤ q2 ∧
        q2 ≤ (frame_corner (d / 2) (if d % 2 = 0 then 0 else cg.get (d / 2) + 1) cg
          ⟨cg.x0 + 1, cg.x1 + 1, cg.x2 + 1⟩).x2)) ↔
      ((0 ≤ q0 ∧ q0 ≤ cg.x0 + 1) ∧ (0 ≤ q1 ∧ q1 ≤ cg.x1 + 1) ∧ (0 ≤ q2 ∧ q2 ≤ cg.x2 + 1) ∧
        fill_direction cg q0 q1 q2 = d) := by
  unfold frame_corner fill_direction
  interval_cases d
  · simp only [Vec3.get, Nat.reduceDiv, Nat.reduceMod, if_true, if_false, one_ne_zero,
      lt_self_iff_false, zero_lt_one]
    constructor
    · intro h
      refine ⟨by omega, by omega, by omega, ?_⟩
      split_ifs
      all_goals omega
    · intro h
      obtain ⟨a, b, c, e⟩ := h
      split_ifs at e
      all_goals omega
  · simp only [Vec3.get, Nat.reduceDiv, Nat.reduceMod, if_true, if_false, one_ne_zero,
      lt_self_iff_false, zero_lt_one]
    constructor
    · intro h
      refine ⟨by omega, by omega, by omega, ?_⟩
      split_ifs
      all_goals omega
    · intro h
      obtain ⟨a, b, c, e⟩ := h
      split_ifs at e
      all_goals omega
  · simp only [Vec3.get, Nat.reduceDiv, Nat.reduceMod, if_true, if_false, one_ne_zero,
      lt_self_iff_false, zero_lt_one]
    constructor
    · intro h
      refine ⟨by omega, by omega, by omega, ?_⟩
      split_ifs
      all_goals omega
    · intro h
      obtain ⟨a, b, c, e⟩ := h
      split_ifs at e
      all_goals omega
  · simp only [Vec3.get, Nat.reduceDiv, Nat.reduceMod, if_true, if_false, one_ne_zero,
      lt_self_iff_false, zero_lt_one]
    constructor
    · intro h
      refine ⟨by omega, by omega, by omega, ?_⟩
      split_ifs
      all_goals omega
    · intro h
      obtain ⟨a, b, c, e⟩ := h
      split_ifs at e
      all_goals omega
  · simp only [Vec3.get, Nat.reduceDiv, Nat.reduceMod, if_true, if_false, one_ne_zero,
      lt_self_iff_false, zero_lt_one]
    constructor
    · intro h
      refine ⟨by omega, by omega, by omega, ?_⟩
      split_ifs
      all_goals omega
    · intro h
      obtain ⟨a, b, c, e⟩ := h
      split_ifs at e
      all_goals omega
  · simp only [Vec3.get, Nat.reduceDiv, Nat.reduceMod, if_true, if_false, one_ne_zero,
      lt_self_iff_false, zero_lt_one]
    constructor
    · intro h
      refine ⟨by omega, by omega, by omega, ?_⟩
      split_ifs
      all_goals omega
    · intro h
      obtain ⟨a, b, c, e⟩ := h
      split_ifs at e
      all_goals omega

/-- Which receive list holds a cell of the grid: the one of its `fill_direction`. -/
theorem mem_recv_cells_iff (g : Grid)
    (h0 : 1 ≤ g.cell_grid.x0) (h1 : 1 ≤ g.cell_grid.x1) (h2 : 1 ≤ g.cell_grid.x2)
    (hg0 : g.ghost_cell_grid.x0 = g.cell_grid.x0 + 2)
    (hg1 : g.ghost_cell_grid.x1 = g.cell_grid.x1 + 2)
    (hg2 : g.ghost_cell_grid.x2 = g.cell_grid.x2 + 2) (d : Nat) (hd : d < 6)
    {p0 p1 p2 : Int} (hp0 : 0 ≤ p0 ∧ p0 < g.ghost_cell_grid.x0)
    (hp1 : 0 ≤ p1 ∧ p1 < g.ghost_cell_grid.x1) (hp2 : 0 ≤ p2 ∧ p2 < g.ghost_cell_grid.x2) :
    get_linear_index p0 p1 p2 g.ghost_cell_grid ∈ (ghost_init g).recv_cells d ↔
      fill_direction g.cell_grid p0 p1 p2 = d := by
  rw [ghost_init_recv g h0 h1 h2 hg0 hg1 hg2 d hd, mem_sub_grid_entries]
  constructor
  · rintro ⟨q0, q1, q2, b0, b1, b2, hq⟩
    obtain ⟨r0, r1, r2, hf⟩ :=
      (recv_frame_iff g.cell_grid h0 h1 h2 d hd q0 q1 q2).mp ⟨b0, b1, b2⟩
    obtain ⟨e0, e1, e2⟩ := linear_index_inj g.ghost_cell_grid hp0 hp1 hp2.1
      (by omega) (by omega) r2.1 hq
    rw [e0, e1, e2]
    exact hf
  · intro hf
    obtain ⟨b0, b1, b2⟩ := (recv_frame_iff g.cell_grid h0 h1 h2 d hd p0 p1 p2).mpr
      ⟨by omega, by omega, by omega, hf⟩
    exact ⟨p0, p1, p2, b0, b1, b2, rfl⟩

/-- The number of entries of the receive list of direction `d`. -/
theorem recv_cells_length (g : Grid)
    (h0 : 1 ≤ g.cell_grid.x0) (h1 : 1 ≤ g.cell_grid.x1) (h2 : 1 ≤ g.cell_grid.x2)
    (hg0 : g.ghost_cell_grid.x0 = g.cell_grid.x0 + 2)
    (hg1 : g.ghost_cell_grid.x1 = g.cell_grid.x1 + 2)
    (hg2 : g.ghost_cell_grid.x2 = g.cell_grid.x2 + 2) (d : Nat) (hd : d < 6) :
    (((ghost_init g).recv_cells d).length : Int) =
      (if d / 2 = 0 then g.cell_grid.x1 * g.cell_grid.x2
       else if d / 2 = 1 then g.cell_grid.x2 * g.ghost_cell_grid.x0
       else g.ghost_cell_grid.x0 * g.ghost_cell_grid.x1) := by
  have hget : 1 ≤ g.cell_grid.get (d / 2) := by
    unfold Vec3.get
    split_ifs <;> assumption
  obtain ⟨hb, hs⟩ := frame_box g h0 h1 h2 hg0 hg1 hg2 (d / 2) (by omega)
    (if d % 2 = 0 then 0 else g.cell_grid.get (d / 2) + 1) (by split_ifs <;> omega)
  rw [ghost_init_recv g h0 h1 h2 hg0 hg1 hg2 d hd, ← box_size_length hb, hs]

/-- C27: for a grid with at least one inner cell per axis and two halo layers, whose
`n_cells` is the product of the ghost grid, the six receive lists of `ghost_init` hold
only halo cells of the grid, no cell is in two of them or twice in one, every halo cell
is in one of them, and their lengths add up to
`n_cells - cell_grid[0]*cell_grid[1]*cell_grid[2]`. -/
theorem recv_cells_partition (g : Grid)
    (h0 : 1 ≤ g.cell_grid.x0) (h1 : 1 ≤ g.cell_grid.x1) (h2 : 1 ≤ g.cell_grid.x2)
    (hg0 : g.ghost_cell_grid.x0 = g.cell_grid.x0 + 2)
    (hg1 : g.ghost_cell_grid.x1 = g.cell_grid.x1 + 2)
    (hg2 : g.ghost_cell_grid.x2 = g.cell_grid.x2 + 2)
    (hn : g.n_cells = grid_cells g.ghost_cell_grid) :
    (∀ d, d < 6 → ∀ c ∈ (ghost_init g).recv_cells d,
      0 ≤ c ∧ c < g.n_cells ∧ is_inner_cell c g.ghost_cell_grid = false) ∧
    (∀ d, d < 6 → ∀ e, e < 6 → ∀ c, c ∈ (ghost_init g).recv_cells d →
      c ∈ (ghost_init g).recv_cells e → d = e) ∧
    (∀ d, d < 6 → ((ghost_init g).recv_cells d).Nodup) ∧
    (∀ c, 0 ≤ c → c < g.n_cells → is_inner_cell c g.ghost_cell_grid = false →
      ∃ d, d < 6 ∧ c ∈ (ghost_init g).recv_cells d) ∧
    (((ghost_init g).recv_cells 0).length : Int) + ((ghost_init g).recv_cells 1).length +
        ((ghost_init g).recv_cells 2).length + ((ghost_init g).recv_cells 3).length +
        ((ghost_init g).recv_cells 4).length + ((ghost_init g).recv_cells 5).length =
      g.n_cells - g.cell_grid.x0 * g.cell_grid.x1 * g.cell_grid.x2 := by
  have hbox : ∀ d, d < 6 → ∀ c ∈ (ghost_init g).recv_cells d,
      ∃ p0 p1 p2 : Int, (0 ≤ p0 ∧ p0 < g.ghost_cell_grid.x0) ∧
        (0 ≤ p1 ∧ p1 < g.ghost_cell_grid.x1) ∧ (0 ≤ p2 ∧ p2 < g.ghost_cell_grid.x2) ∧
        c = get_linear_index p0 p1 p2 g.ghost_cell_grid := by
    intro d hd c hc
    rw [ghost_init_recv g h0 h1 h2 hg0 hg1 hg2 d hd, mem_sub_grid_entries] at hc
    obtain ⟨q0, q1, q2, b0, b1, b2, hq⟩ := hc
    obtain ⟨r0, r1, r2, _⟩ :=
      (recv_frame_iff g.cell_grid h0 h1 h2 d hd q0 q1 q2).mp ⟨b0, b1, b2⟩
    exact ⟨q0, q1, q2, by omega, by omega, by omega, hq⟩
  refine ⟨fun d hd c hc => ?_, fun d hd e he c hcd hce => ?_, fun d hd => ?_,
    fun c hc0 hc1 hci => ?_, ?_⟩
  · obtain ⟨p0, p1, p2, r0, r1, r2, rfl⟩ := hbox d hd c hc
    have hr := linear_index_range r0 r1 r2
    have hf := (mem_recv_cells_iff g h0 h1 h2 hg0 hg1 hg2 d hd r0 r1 r2).mp hc
    refine ⟨hr.1, by rw [hn]; exact hr.2, ?_⟩
    rw [inner_iff_not_selected r0 r1 r2]
    unfold ghost_cell_selection
    unfold fill_direction at hf
    have : p2 = 0 ∨ p2 = g.cell_grid.x2 + 1 ∨ p1 = 0 ∨ p1 = g.cell_grid.x1 + 1 ∨ p0 = 0 ∨
        p0 = g.cell_grid.x0 + 1 := by
      split_ifs at hf <;> omega
    simp only [Bool.not_eq_false', Bool.or_eq_true, decide_eq_true_eq]
    rcases this with h | h | h | h | h | h <;> omega
  · obtain ⟨p0, p1, p2, r0, r1, r2, rfl⟩ := hbox d hd c hcd
    rw [← (mem_recv_cells_iff g h0 h1 h2 hg0 hg1 hg2 d hd r0 r1 r2).mp hcd, ← (mem_recv_cells_iff g h0 h1 h2 hg0 hg1 hg2 e he r0 r1 r2).mp hce]
  · rw [ghost_init_recv g h0 h1 h2 hg0 hg1 hg2 d hd]
    have hget : 1 ≤ g.cell_grid.get (d / 2) := by
      unfold Vec3.get
      split_ifs <;> assumption
    obtain ⟨⟨⟨⟨a, _⟩, ⟨_, a1⟩, _⟩, ⟨⟨b, _⟩, ⟨_, b1⟩, _⟩, ⟨⟨c, _⟩, _, _⟩⟩, _⟩ :=
      frame_box g h0 h1 h2 hg0 hg1 hg2 (d / 2) (by omega)
        (if d % 2 = 0 then 0 else g.cell_grid.get (d / 2) + 1) (by split_ifs <;> omega)
    exact sub_grid_entries_nodup ⟨a, a1⟩ ⟨b, b1⟩ c
  · rw [hn] at hc1
    obtain ⟨r0, r1, r2⟩ := @grid_pos_range g.ghost_cell_grid c (by omega) (by omega)
      hc0 hc1
    have hlin := linear_grid_pos c g.ghost_cell_grid
    have hsel := inner_iff_not_selected r0 r1 r2
    rw [hlin, hci] at hsel
    have hs : ghost_cell_selection g.ghost_cell_grid (get_grid_pos c g.ghost_cell_grid).x0
        (get_grid_pos c g.ghost_cell_grid).x1 (get_grid_pos c g.ghost_cell_grid).x2 = true := by
      cases hh : ghost_cell_selection g.ghost_cell_grid (get_grid_pos c g.ghost_cell_grid).x0
        (get_grid_pos c g.ghost_cell_grid).x1 (get_grid_pos c g.ghost_cell_grid).x2
      · rw [hh] at hsel
        exact Bool.noConfusion hsel
      · rfl
    unfold ghost_cell_selection at hs
    simp only [Bool.or_eq_true, decide_eq_true_eq] at hs
    have hlt : fill_direction g.cell_grid (get_grid_pos c g.ghost_cell_grid).x0
        (get_grid_pos c g.ghost_cell_grid).x1 (get_grid_pos c g.ghost_cell_grid).x2 < 6 := by
      unfold fill_direction
      split_ifs <;> omega
    refine ⟨_, hlt, ?_⟩
    have := (mem_recv_cells_iff g h0 h1 h2 hg0 hg1 hg2 _ hlt r0 r1 r2).mpr rfl
    rw [hlin] at this
    exact this
  · rw [recv_cells_length g h0 h1 h2 hg0 hg1 hg2 0 (by omega),
      recv_cells_length g h0 h1 h2 hg0 hg1 hg2 1 (by omega),
      recv_cells_length g h0 h1 h2 hg0 hg1 hg2 2 (by omega),
      recv_cells_length g h0 h1 h2 hg0 hg1 hg2 3 (by omega),
      recv_cells_length g h0 h1 h2 hg0 hg1 hg2 4 (by omega),
      recv_cells_length g h0 h1 h2 hg0 hg1 hg2 5 (by omega), hn]
    unfold grid_cells
    simp only [Nat.reduceDiv, if_true, one_ne_zero, if_false]
    norm_num
    rw [hg0, hg1, hg2]
    ring

/-- C27 at the grid of 3 x 3 x 3 cells with one inner cell: the receive lists hold 1, 1,
3, 3, 9 and 9 cells, together the 26 halo cells, and none of them lists a cell twice. -/
theorem recv_cells_partition_witness :
    (1 ≤ left_grid.cell_grid.x0 ∧ 1 ≤ left_grid.cell_grid.x1 ∧ 1 ≤ left_grid.cell_grid.x2) ∧
    left_grid.n_cells = grid_cells left_grid.ghost_cell_grid ∧
    (ghost_init left_grid).recv_cells 0 = [12] ∧
    (ghost_init left_grid).recv_cells 3 = [15, 16, 17] ∧
    (∀ d, d < 6 → ((ghost_init left_grid).recv_cells d).Nodup) ∧
    (((ghost_init left_grid).recv_cells 0).length : Int) +
        ((ghost_init left_grid).recv_cells 1).length +
        ((ghost_init left_grid).recv_cells 2).length +
        ((ghost_init left_grid).recv_cells 3).length +
        ((ghost_init left_grid).recv_cells 4).length +
        ((ghost_init left_grid).recv_cells 5).length =
      left_grid.n_cells -
        left_grid.cell_grid.x0 * left_grid.cell_grid.x1 * left_grid.cell_grid.x2 :=
  ⟨by with_unfolding_all decide, by with_unfolding_all decide, by with_unfolding_all decide,
    by with_unfolding_all decide,
    (recv_cells_partition left_grid (by with_unfolding_all decide)
      (by with_unfolding_all decide) (by with_unfolding_all decide)
      (by with_unfolding_all decide) (by with_unfolding_all decide)
      (by with_unfolding_all decide) (by with_unfolding_all decide)).2.2.1,
    (recv_cells_partition left_grid (by with_unfolding_all decide)
      (by with_unfolding_all decide) (by with_unfolding_all decide)
      (by with_unfolding_all decide) (by with_unfolding_all decide)
      (by with_unfolding_all decide) (by with_unfolding_all decide)).2.2.2.2⟩

/-! ## Send and receive lists of opposite directions -/

theorem frame_corner_shift (i : Nat) (hi : i < 3) (v t : Int) (a b : Vec3 Int) :
    frame_corner i (v + t) a b =
      ⟨(frame_corner i v a b).x0 + (if i = 0 then t else 0),
       (frame_corner i v a b).x1 + (if i = 1 then t else 0),
       (frame_corner i v a b).x2 + (if i = 2 then t else 0)⟩ := by
  unfold frame_corner
  interval_cases i <;> simp

/-- The receive list of the opposite direction is the send list moved along the axis
`d/2`: by `cell_grid` layers upwards for an even `d`, downwards for an odd `d`. -/
theorem recv_eq_send_shift (g : Grid)
    (h0 : 1 ≤ g.cell_grid.x0) (h1 : 1 ≤ g.cell_grid.x1) (h2 : 1 ≤ g.cell_grid.x2)
    (hg0 : g.ghost_cell_grid.x0 = g.cell_grid.x0 + 2)
    (hg1 : g.ghost_cell_grid.x1 = g.cell_grid.x1 + 2)
    (hg2 : g.ghost_cell_grid.x2 = g.cell_grid.x2 + 2) (d : Nat) (hd : d < 6) (t : Int)
    (ht : t = if d % 2 = 0 then g.cell_grid.get (d / 2) else -g.cell_grid.get (d / 2)) :
    (ghost_init g).recv_cells (opposite d) =
      ((ghost_init g).send_cells d).map fun c =>
        c + get_linear_index (if d / 2 = 0 then t else 0) (if d / 2 = 1 then t else 0)
          (if d / 2 = 2 then t else 0) g.ghost_cell_grid := by
  have hop : opposite d / 2 = d / 2 := by
    unfold opposite
    split <;> omega
  have hv : (if opposite d % 2 = 0 then 0 else g.cell_grid.get (opposite d / 2) + 1) =
      (if d % 2 = 0 then 1 else g.cell_grid.get (d / 2)) + t := by
    rw [hop, ht]
    unfold opposite
    by_cases hpar : d % 2 = 0
    · have : ¬ (d + 1) % 2 = 0 := by omega
      simp only [hpar, if_true, this, if_false]
      ring
    · have : (d - 1) % 2 = 0 := by omega
      simp only [hpar, if_false, this, if_true]
      ring
  rw [ghost_init_recv g h0 h1 h2 hg0 hg1 hg2 (opposite d) (opposite_lt hd),
    ghost_init_send g h0 h1 h2 hg0 hg1 hg2 d hd, hv, hop,
    frame_corner_shift (d / 2) (by omega), frame_corner_shift (d / 2) (by omega)]
  exact sub_grid_entries_shift _ _ _ _ _ _

/-- The send frame of direction `d` in coordinates. -/
theorem send_frame_bounds (cg : Vec3 Int) (h0 : 1 ≤ cg.x0) (h1 : 1 ≤ cg.x1) (h2 : 1 ≤ cg.x2)
    (d : Nat) (hd : d < 6) (q0 q1 q2 : Int)
    (b0 : (frame_corner (d / 2) (if d % 2 = 0 then 1 else cg.get (d / 2))
          ⟨1, 1, 1⟩ ⟨0, 0, 0⟩).x0 ≤ q0 ∧
        q0 ≤ (frame_corner (d / 2) (if d % 2 = 0 then 1 else cg.get (d / 2)) cg
          ⟨cg.x0 + 1, cg.x1 + 1, cg.x2 + 1⟩).x0)
    (b1 : (frame_corner (d / 2) (if d % 2 = 0 then 1 else cg.get (d / 2))
          ⟨1, 1, 1⟩ ⟨0, 0, 0⟩).x1 ≤ q1 ∧
        q1 ≤ (frame_corner (d / 2) (if d % 2 = 0 then 1 else cg.get (d / 2)) cg
          ⟨cg.x0 + 1, cg.x1 + 1, cg.x2 + 1⟩).x1)
    (b2 : (frame_corner (d / 2) (if d % 2 = 0 then 1 else cg.get (d / 2))
          ⟨1, 1, 1⟩ ⟨0, 0, 0⟩).x2 ≤ q2 ∧
        q2 ≤ (frame_corner (d / 2) (if d % 2 = 0 then 1 else cg.get (d / 2)) cg
          ⟨cg.x0 + 1, cg.x1 + 1, cg.x2 + 1⟩).x2) :
    (0 ≤ q0 ∧ q0 ≤ cg.x0 + 1) ∧ (0 ≤ q1 ∧ q1 ≤ cg.x1 + 1) ∧ (0 ≤ q2 ∧ q2 ≤ cg.x2 + 1) ∧
    (Vec3.mk q0 q1 q2).get (d / 2) = (if d % 2 = 0 then 1 else cg.get (d / 2)) := by
  unfold frame_corner at b0 b1 b2
  interval_cases d
  all_goals
    simp only [Vec3.get, Nat.reduceDiv, Nat.reduceMod, if_true, if_false, one_ne_zero,
      lt_self_iff_false, zero_lt_one, OfNat.ofNat_ne_zero, OfNat.ofNat_ne_one,
      Nat.succ_ne_self] at b0 b1 b2 ⊢
    omega

/-- C28: for a grid with at least one inner cell per axis and two halo layers, the send
list of a direction `d` and the receive list of the opposite direction have the same
length, and their entries `k` are cells with the same grid coordinates on the two axes
other than `d/2`; on the axis `d/2` the send cell has the coordinate 1 (`d` even) or
`cell_grid` (`d` odd), and the receive cell the coordinate `cell_grid + 1` (`d` even) or
0 (`d` odd). -/
theorem send_recv_cells_paired (g : Grid)
    (h0 : 1 ≤ g.cell_grid.x0) (h1 : 1 ≤ g.cell_grid.x1) (h2 : 1 ≤ g.cell_grid.x2)
    (hg0 : g.ghost_cell_grid.x0 = g.cell_grid.x0 + 2)
    (hg1 : g.ghost_cell_grid.x1 = g.cell_grid.x1 + 2)
    (hg2 : g.ghost_cell_grid.x2 = g.cell_grid.x2 + 2) (d : Nat) (hd : d < 6) :
    ((ghost_init g).send_cells d).length = ((ghost_init g).recv_cells (opposite d)).length ∧
    ∀ (k : Nat) (s r : Int), ((ghost_init g).send_cells d)[k]? = some s →
      ((ghost_init g).recv_cells (opposite d))[k]? = some r →
      (∀ a, a < 3 → a ≠ d / 2 →
        (get_grid_pos s g.ghost_cell_grid).get a = (get_grid_pos r g.ghost_cell_grid).get a) ∧
      (get_grid_pos s g.ghost_cell_grid).get (d / 2) =
        (if d % 2 = 0 then 1 else g.cell_grid.get (d / 2)) ∧
      (get_grid_pos r g.ghost_cell_grid).get (d / 2) =
        (if d % 2 = 0 then g.cell_grid.get (d / 2) + 1 else 0) := by
  have hshift := recv_eq_send_shift g h0 h1 h2 hg0 hg1 hg2 d hd _ rfl
  have hget : 1 ≤ g.cell_grid.get (d / 2) := by
    unfold Vec3.get
    split_ifs <;> assumption
  refine ⟨by rw [hshift, List.length_map], fun k s r hs hr => ?_⟩
  rw [hshift, List.getElem?_map, hs] at hr
  simp only [Option.map_some', Option.some.injEq] at hr
  have hmem : s ∈ (ghost_init g).send_cells d := List.mem_iff_getElem?.mpr ⟨k, hs⟩
  rw [ghost_init_send g h0 h1 h2 hg0 hg1 hg2 d hd, mem_sub_grid_entries] at hmem
  obtain ⟨p0, p1, p2, b0, b1, b2, hp⟩ := hmem
  obtain ⟨r0, r1, r2, hax⟩ := send_frame_bounds g.cell_grid h0 h1 h2 d hd p0 p1 p2 b0 b1 b2
  have es : get_grid_pos s g.ghost_cell_grid = ⟨p0, p1, p2⟩ := by
    rw [hp]
    exact get_grid_pos_linear r0.1 (by omega) r1.1 (by omega) r2.1
  have hr2 : r = get_linear_index
      (p0 + (if d / 2 = 0 then
        (if d % 2 = 0 then g.cell_grid.get (d / 2) else -g.cell_grid.get (d / 2)) else 0))
      (p1 + (if d / 2 = 1 then
        (if d % 2 = 0 then g.cell_grid.get (d / 2) else -g.cell_grid.get (d / 2)) else 0))
      (p2 + (if d / 2 = 2 then
        (if d % 2 = 0 then g.cell_grid.get (d / 2) else -g.cell_grid.get (d / 2)) else 0))
      g.ghost_cell_grid := by
    rw [← hr, hp]
    unfold get_linear_index
    ring
  have hd3 : d / 2 = 0 ∨ d / 2 = 1 ∨ d / 2 = 2 := by omega
  have er : get_grid_pos r g.ghost_cell_grid =
      ⟨p0 + (if d / 2 = 0 then
          (if d % 2 = 0 then g.cell_grid.get (d / 2) else -g.cell_grid.get (d / 2)) else 0),
        p1 + (if d / 2 = 1 then
          (if d % 2 = 0 then g.cell_grid.get (d / 2) else -g.cell_grid.get (d / 2)) else 0),
        p2 + (if d / 2 = 2 then
          (if d % 2 = 0 then g.cell_grid.get (d / 2) else -g.cell_grid.get (d / 2)) else 0)⟩ := by
    rw [hr2]
    apply get_grid_pos_linear
    all_goals
      rcases hd3 with h | h | h <;>
        simp only [h, Vec3.get, if_true, if_false, one_ne_zero, OfNat.ofNat_ne_zero,
          OfNat.ofNat_ne_one, zero_ne_one, OfNat.zero_ne_ofNat, OfNat.one_ne_ofNat] at hax ⊢ <;>
        split_ifs at hax ⊢ <;> omega
  rw [es, er]
  refine ⟨fun a ha hne => ?_, hax, ?_⟩
  · rcases hd3 with h | h | h <;> rw [h] at hne <;> interval_cases a <;>
      simp [h, Vec3.get] at hne ⊢
  · rcases hd3 with h | h | h <;>
      simp only [h, Vec3.get, if_true, if_false, one_ne_zero, OfNat.ofNat_ne_zero,
        OfNat.ofNat_ne_one, zero_ne_one, OfNat.zero_ne_ofNat, OfNat.one_ne_ofNat] at hax ⊢ <;>
      split_ifs at hax ⊢ <;> omega

/-- C28 at the grid of 3 x 3 x 3 cells and the direction 2: the cells 12, 13, 14 of the
layer 1 on axis 1 are sent and the cells 15, 16, 17 of the layer 2 are received in
direction 3. -/
theorem send_recv_cells_paired_witness :
    (1 ≤ left_grid.cell_grid.x0 ∧ 1 ≤ left_grid.cell_grid.x1 ∧ 1 ≤ left_grid.cell_grid.x2) ∧
    (ghost_init left_grid).send_cells 2 = [12, 13, 14] ∧
    (ghost_init left_grid).recv_cells (opposite 2) = [15, 16, 17] ∧
    ((ghost_init left_grid).send_cells 2).length =
      ((ghost_init left_grid).recv_cells (opposite 2)).length ∧
    (get_grid_pos 13 left_grid.ghost_cell_grid).get (2 / 2) =
      (if 2 % 2 = 0 then 1 else left_grid.cell_grid.get (2 / 2)) :=
  ⟨by with_unfolding_all decide, by with_unfolding_all decide, by with_unfolding_all decide,
    (send_recv_cells_paired left_grid (by with_unfolding_all decide)
      (by with_unfolding_all decide) (by with_unfolding_all decide)
      (by with_unfolding_all decide) (by with_unfolding_all decide)
      (by with_unfolding_all decide) 2 (by decide)).1,
    (((send_recv_cells_paired left_grid (by with_unfolding_all decide)
      (by with_unfolding_all decide) (by with_unfolding_all decide)
      (by with_unfolding_all decide) (by with_unfolding_all decide)
      (by with_unfolding_all decide) 2 (by decide)).2 1 13 16
      (by with_unfolding_all decide) (by with_unfolding_all decide)).2.1)⟩

/-! ## The transfer of `cells_re_init` into a grid with inner cells -/

/-- Inside the local box the lookup gives an inner cell of the grid. -/
theorem lookup_in_box (cfg : Config) (dom : Domain) (g : Grid) (local_box_l pos : Vec3 ℚ)
    (hg : grid_for_box local_box_l g) (hp : in_local_box dom local_box_l pos) :
    ∃ c, pos_to_cell_grid_ind cfg dom g pos = some c ∧
      is_inner_cell c g.ghost_cell_grid = true ∧ 0 ≤ c ∧ c < grid_cells g.ghost_cell_grid := by
  obtain ⟨⟨hc0, hc1, hc2⟩, ⟨hg0, hg1, hg2⟩, ⟨hs0, hs1, hs2⟩, ⟨hi0, hi1, hi2⟩⟩ := hg
  obtain ⟨⟨hl0, hr0⟩, ⟨hl1, hr1⟩, ⟨hl2, hr2⟩⟩ := hp
  have r0 := raw_cpos_range hc0 hl0 hr0
  have r1 := raw_cpos_range hc1 hl1 hr1
  have r2 := raw_cpos_range hc2 hl2 hr2
  rw [← hs0, ← hi0] at r0
  rw [← hs1, ← hi1] at r1
  rw [← hs2, ← hi2] at r2
  refine ⟨get_linear_index (raw_cpos pos.x0 dom.my_left.x0 g.inv_cell_size.x0)
      (raw_cpos pos.x1 dom.my_left.x1 g.inv_cell_size.x1)
      (raw_cpos pos.x2 dom.my_left.x2 g.inv_cell_size.x2) g.ghost_cell_grid, ?_,
    is_inner_cell_linear (by omega) (by omega) (by omega),
    linear_index_range (by omega) (by omega) (by omega)⟩
  unfold pos_to_cell_grid_ind
  rw [cpos_axis_in_range cfg _ _ _ _ _ r0, cpos_axis_in_range cfg _ _ _ _ _ r1,
    cpos_axis_in_range cfg _ _ _ _ _ r2]

theorem take_set_self {α : Type} (mem : List α) (n : Nat) (x : α) :
    List.take n (mem.set n x) = List.take n mem := by
  induction mem generalizing n with
  | nil => simp
  | cons a l ih =>
    cases n with
    | zero => simp
    | succ n => simp [List.set, ih]

theorem take_write_slot (mem : List Particle) (n : Nat) (x : Particle) (h : n ≤ mem.length) :
    (write_slot mem n x).take (n + 1) = mem.take n ++ [x] ∧
    n + 1 ≤ (write_slot mem n x).length := by
  unfold write_slot
  by_cases hlt : n < mem.length
  · rw [if_pos hlt]
    refine ⟨?_, by rw [List.length_set]; omega⟩
    rw [List.take_succ, List.getElem?_set_self hlt, take_set_self]
    rfl
  · have hn : n = mem.length := by omega
    rw [if_neg hlt, hn]
    simp

theorem sum_set_count (cells : List ParticleList) :
    ∀ (k : Nat) (pl w : ParticleList), cells[k]? = some pl →
      ((cells.set k w).map fun p => p.n).sum + pl.n = (cells.map fun p => p.n).sum + w.n := by
  induction cells with
  | nil =>
    intro k pl w h
    simp at h
  | cons a l ih =>
    intro k pl w h
    cases k with
    | zero =>
      simp only [List.getElem?_cons_zero, Option.some.injEq] at h
      subst h
      simp only [List.set_cons_zero, List.map_cons, List.sum_cons]
      omega
    | succ k =>
      simp only [List.getElem?_cons_succ] at h
      have := ih k pl w h
      simp only [List.set_cons_succ, List.map_cons, List.sum_cons]
      omega

theorem particle_total_write {cells : List ParticleList} {c : Int} {pl w : ParticleList}
    (h : read_cell cells c = some pl) :
    particle_total (write_cell cells c w) + pl.n = particle_total cells + w.n := by
  have h0 := read_cell_nonneg h
  unfold read_cell at h
  rw [if_pos h0] at h
  exact sum_set_count cells c.toNat pl w h

theorem transfer_particles_nil (cfg : Config) (dom : Domain) (g : Grid)
    (cells : List ParticleList) : transfer_particles cfg dom g [] cells = some cells := by
  rfl

theorem transfer_particles_cons (cfg : Config) (dom : Domain) (g : Grid) (x : Particle)
    (rest : List Particle) (cells : List ParticleList) :
    transfer_particles cfg dom g (x :: rest) cells =
      match pos_to_cell_grid_ind cfg dom g x.p with
      | none => none
      | some ind =>
        match read_cell cells ind with
        | none => none
        | some pl =>
          transfer_particles cfg dom g rest
            (write_cell cells ind (append_unindexed_particle pl x)) := by
  rfl

/-- The transfer of the particles of one old cell, all inside the local box: it returns,
keeps the invariant of the new cells and adds the particles to the total. -/
theorem transfer_particles_keeps (cfg : Config) (dom : Domain) (g : Grid) (local_box_l : Vec3 ℚ)
    (hg : grid_for_box local_box_l g) :
    ∀ (xs : List Particle) (cells : List ParticleList), transfer_inv cfg dom g cells →
      (∀ x ∈ xs, in_local_box dom local_box_l x.p) →
      ∃ cells1, transfer_particles cfg dom g xs cells = some cells1 ∧
        transfer_inv cfg dom g cells1 ∧
        particle_total cells1 = particle_total cells + xs.length := by
  intro xs
  induction xs with
  | nil =>
    intro cells hinv _
    exact ⟨cells, transfer_particles_nil cfg dom g cells, hinv, rfl⟩
  | cons x rest ih =>
    intro cells hinv hx
    obtain ⟨c, hc, hin, hc0, hc1⟩ :=
      lookup_in_box cfg dom g local_box_l x.p hg (hx x (List.mem_cons_self _ _))
    obtain ⟨hlen, hcells⟩ := hinv
    obtain ⟨pl, hpl⟩ := @read_cell_of_lt cells c hc0 (by omega)
    obtain ⟨hle, _, hpart⟩ := hcells c pl hpl
    obtain ⟨htake, hlen1⟩ := take_write_slot pl.part pl.n x hle
    have hinv1 : transfer_inv cfg dom g
        (write_cell cells c (append_unindexed_particle pl x)) := by
      refine ⟨by rw [write_cell_length]; exact hlen, fun c1 pl1 h1 => ?_⟩
      by_cases hcc : c = c1
      · subst hcc
        rw [read_write_same hpl] at h1
        simp only [Option.some.injEq] at h1
        subst h1
        refine ⟨hlen1, fun hf => ?_, fun y hy => ?_⟩
        · rw [hf] at hin
          exact Bool.noConfusion hin
        · have hy1 : y ∈ pl.part.take pl.n ++ [x] := by
            rw [← htake]
            exact hy
          rcases List.mem_append.mp hy1 with h | h
          · exact hpart y h
          · rw [List.mem_singleton.mp h]
            exact hc
      · rw [read_write_other hc0 hcc] at h1
        exact hcells c1 pl1 h1
    obtain ⟨cells1, e1, i1, t1⟩ := ih _ hinv1
      (fun y hy => hx y (List.mem_cons_of_mem _ hy))
    refine ⟨cells1, ?_, i1, ?_⟩
    · rw [transfer_particles_cons, hc]
      simp only [hpl]
      exact e1
    · have hw := @particle_total_write cells c pl (append_unindexed_particle pl x) hpl
      have hn1 : (append_unindexed_particle pl x).n = pl.n + 1 := rfl
      rw [t1, List.length_cons]
      omega

theorem transfer_cells_nil (cfg : Config) (dom : Domain) (g : Grid) (old_gcg : Vec3 Int)
    (old_cells cells : List ParticleList) :
    transfer_cells cfg dom g old_gcg old_cells [] cells = some cells := by
  rfl

theorem transfer_cells_cons (cfg : Config) (dom : Domain) (g : Grid) (old_gcg : Vec3 Int)
    (old_cells cells : List ParticleList) (i : Nat) (rest : List Nat) :
    transfer_cells cfg dom g old_gcg old_cells (i :: rest) cells =
      match old_cells[i]? with
      | none => none
      | some pl =>
        if is_inner_cell (i : Int) old_gcg then
          match pl.used with
          | none => none
          | some xs =>
            match transfer_particles cfg dom g xs cells with
            | none => none
            | some cells1 => transfer_cells cfg dom g old_gcg old_cells rest cells1
        else transfer_cells cfg dom g old_gcg old_cells rest cells := by
  rfl

/-- The transfer over a list of old cells. -/
theorem transfer_cells_list (cfg : Config) (dom : Domain) (g : Grid) (local_box_l : Vec3 ℚ)
    (old_gcg : Vec3 Int) (old_cells : List ParticleList) (hg : grid_for_box local_box_l g) :
    ∀ (is : List Nat) (cells : List ParticleList), transfer_inv cfg dom g cells →
      (∀ i ∈ is, ∃ pl, old_cells[i]? = some pl ∧
        (is_inner_cell (i : Int) old_gcg = true →
          pl.n ≤ pl.part.length ∧ ∀ x ∈ pl.part.take pl.n, in_local_box dom local_box_l x.p)) →
      ∃ cells1, transfer_cells cfg dom g old_gcg old_cells is cells = some cells1 ∧
        transfer_inv cfg dom g cells1 ∧
        particle_total cells1 = particle_total cells +
          ((is.filter fun (i : Nat) => is_inner_cell (i : Int) old_gcg).map
            (count_at old_cells)).sum := by
  intro is
  induction is with
  | nil =>
    intro cells hinv _
    exact ⟨cells, transfer_cells_nil cfg dom g old_gcg old_cells cells, hinv, rfl⟩
  | cons i rest ih =>
    intro cells hinv hold
    obtain ⟨pl, hpl, hin⟩ := hold i (List.mem_cons_self _ _)
    have hrest := fun j (hj : j ∈ rest) => hold j (List.mem_cons_of_mem _ hj)
    rw [transfer_cells_cons, hpl]
    by_cases hi : is_inner_cell (i : Int) old_gcg = true
    · obtain ⟨hle, hbox⟩ := hin hi
      obtain ⟨cells1, e1, i1, t1⟩ :=
        transfer_particles_keeps cfg dom g local_box_l hg _ cells hinv hbox
      obtain ⟨cells2, e2, i2, t2⟩ := ih cells1 i1 hrest
      refine ⟨cells2, ?_, i2, ?_⟩
      · simp only [hi, if_true, used_of_le hle, e1]
        exact e2
      · have hc : count_at old_cells i = pl.n := by
          unfold count_at
          rw [hpl]
        rw [t2, t1, List.filter_cons, if_pos hi, List.map_cons, List.sum_cons, hc,
          List.length_take, Nat.min_eq_left hle]
        omega
    · obtain ⟨cells2, e2, i2, t2⟩ := ih cells hinv hrest
      refine ⟨cells2, ?_, i2, ?_⟩
      · simp only [hi, if_false]
        exact e2
      · rw [t2, List.filter_cons, if_neg hi]

theorem sum_filter_zero (l : List Nat) (p : Nat → Bool) (f : Nat → Nat)
    (h : ∀ i ∈ l, p i = false → f i = 0) :
    ((l.filter p).map f).sum = (l.map f).sum := by
  induction l with
  | nil => rfl
  | cons a l ih =>
    have ih1 := ih (fun i hi => h i (List.mem_cons_of_mem _ hi))
    cases hp : p a with
    | true =>
      rw [List.filter_cons, if_pos hp, List.map_cons, List.sum_cons, ih1, List.map_cons,
        List.sum_cons]
    | false =>
      rw [List.filter_cons, if_neg (by simp [hp]), ih1, List.map_cons, List.sum_cons,
        h a (List.mem_cons_self _ _) hp, Nat.zero_add]

theorem map_count_at (cells : List ParticleList) :
    (List.range cells.length).map (count_at cells) = cells.map fun pl => pl.n := by
  apply List.ext_getElem
  · simp
  · intro k h1 h2
    simp only [List.length_map, List.length_range] at h1
    simp [count_at, List.getElem?_eq_getElem h1]

/-- Where the invariant of the transfer holds, the particles in inner cells are all the
particles. -/
theorem inner_count_total (cfg : Config) (dom : Domain) (g : Grid) (cells : List ParticleList)
    (hn : g.n_cells = grid_cells g.ghost_cell_grid) (hinv : transfer_inv cfg dom g cells) :
    inner_count g.ghost_cell_grid g.n_cells cells = particle_total cells := by
  obtain ⟨hlen, hcells⟩ := hinv
  have hN : g.n_cells.toNat = cells.length := by omega
  have e : inner_count g.ghost_cell_grid g.n_cells cells =
      (((List.range g.n_cells.toNat).filter
        fun (i : Nat) => is_inner_cell (i : Int) g.ghost_cell_grid).map (count_at cells)).sum :=
    rfl
  rw [e, hN, sum_filter_zero, map_count_at]
  · rfl
  · intro i hi hf
    rw [List.mem_range] at hi
    unfold count_at
    rw [List.getElem?_eq_getElem hi]
    have hr : read_cell cells (i : Int) = some cells[i] := by
      unfold read_cell
      simp [List.getElem?_eq_getElem hi]
    exact (hcells _ _ hr).2.1 hf

theorem empty_cells_inv (cfg : Config) (dom : Domain) (g : Grid)
    (h0 : 0 ≤ g.n_cells) (hn : g.n_cells = grid_cells g.ghost_cell_grid) :
    transfer_inv cfg dom g (empty_cells g.n_cells.toNat) ∧
    particle_total (empty_cells g.n_cells.toNat) = 0 := by
  refine ⟨⟨?_, fun c pl h => ?_⟩, ?_⟩
  · unfold empty_cells
    rw [List.length_replicate]
    omega
  · have hm := read_cell_mem h
    unfold empty_cells at hm
    have := (List.mem_replicate.mp hm).2
    subst this
    exact ⟨le_refl _, fun _ => rfl, fun x hx => by simp at hx⟩
  · unfold particle_total empty_cells
    simp

/-- The transfer of `cells_re_init` into a grid with at least one inner cell per axis:
if the particles of the old inner cells lie inside the local box, the transfer returns,
the new grid has as many particles in inner cells as the old one, no particle is in a
cell that is not inner, and every particle is in the cell that `pos_to_cell_grid_ind`
gives for its position. -/
theorem transfer_cells_keeps (cfg : Config) (dom : Domain) (g : Grid) (local_box_l : Vec3 ℚ)
    (old_gcg : Vec3 Int) (old_cells : List ParticleList) (n_old : Nat)
    (hg : grid_for_box local_box_l g) (hn : g.n_cells = grid_cells g.ghost_cell_grid)
    (hlen : n_old ≤ old_cells.length)
    (hold : ∀ (i : Nat) (pl : ParticleList), old_cells[i]? = some pl →
      is_inner_cell (i : Int) old_gcg = true →
      pl.n ≤ pl.part.length ∧ ∀ x ∈ pl.part.take pl.n, in_local_box dom local_box_l x.p) :
    ∃ cells1,
      transfer_cells cfg dom g old_gcg old_cells (List.range n_old)
        (empty_cells g.n_cells.toNat) = some cells1 ∧
      inner_count g.ghost_cell_grid g.n_cells cells1 =
        inner_count old_gcg (n_old : Int) old_cells ∧
      transfer_inv cfg dom g cells1 := by
  have hpos : 0 ≤ g.n_cells := by
    obtain ⟨⟨a, b, c⟩, ⟨a1, b1, c1⟩, _⟩ := hg
    rw [hn]
    unfold grid_cells
    have h0 : 0 < g.ghost_cell_grid.x0 := by omega
    have h1 : 0 < g.ghost_cell_grid.x1 := by omega
    have h2 : 0 < g.ghost_cell_grid.x2 := by omega
    positivity
  obtain ⟨hinv0, ht0⟩ := empty_cells_inv cfg dom g hpos hn
  obtain ⟨cells1, e1, i1, t1⟩ := transfer_cells_list cfg dom g local_box_l old_gcg old_cells hg
    (List.range n_old) _ hinv0
    (fun i hi => by
      rw [List.mem_range] at hi
      have hlt : i < old_cells.length := by omega
      exact ⟨old_cells[i], List.getElem?_eq_getElem hlt,
        hold i _ (List.getElem?_eq_getElem hlt)⟩)
  refine ⟨cells1, e1, ?_, i1⟩
  rw [inner_count_total cfg dom g cells1 hn i1, t1, ht0, Nat.zero_add]
  rfl

/-! ## `calc_cell_grid` in double arithmetic -/

/-- The rounding to a double on a few values: a value with at most 53 significant bits
is kept, and 0.1, 1.3 and 11.7 go to the doubles `0x3FB999999999999A`,
`0x3FF4CCCCCCCCCCCD` and `0x4027666666666666`. -/
theorem round_double_values :
    round_double 9 = 9 ∧ round_double (-3 / 8) = -3 / 8 ∧
    round_double (1 / 10) = 3602879701896397 / 36028797018963968 ∧
    range_1_3 = 5854679515581645 / 4503599627370496 ∧
    box_side_11_7 = 3293257227514675 / 281474976710656 := by
  refine ⟨?_, ?_, ?_, ?_, ?_⟩ <;>
    decide!

theorem enlarge_loop_fl_exact (local_box_l : Vec3 ℚ) (step : ℚ) (max_num_cells : Int) :
    ∀ (c : Nat) (s : LoopState),
      enlarge_loop_fl id local_box_l step max_num_cells c s =
        enlarge_loop local_box_l step max_num_cells c s := by
  intro c
  induction c with
  | zero => intro s; rfl
  | succ c ih =>
    intro s
    unfold enlarge_loop_fl enlarge_loop
    split
    · split
      · rw [ih]
        rfl
      · rfl
    · rfl

/-- With the identity for the rounding, `calc_cell_grid_fl` is `calc_cell_grid`: the
two differ in the rounding of the operations on doubles only. -/
theorem calc_cell_grid_fl_exact (local_box_l : Vec3 ℚ) (max_range max_cut : ℚ)
    (max_num_cells : Int) (old : Vec3 ℚ) :
    calc_cell_grid_fl id local_box_l max_range max_cut max_num_cells old =
      calc_cell_grid local_box_l max_range max_cut max_num_cells old := by
  unfold calc_cell_grid_fl calc_cell_grid
  simp only [enlarge_loop_fl_exact, id]
  rfl

/-- C7 as stated fails for the program, whose quotients are doubles: for the cubic
local box whose side is the double nearest to 11.7 and `max_range` the double nearest
to 1.3, the side is at least `max_range > 0` and the exact quotient is below 9, but it
rounds to the double 9; `calc_cell_grid` returns 9 inner cells on each axis, and their
`cell_size` is below `max_range`.  In exact arithmetic the same input gives 8 inner
cells. -/
theorem calc_cell_grid_double_cell_size :
    0 < range_1_3 ∧ range_1_3 ≤ box_side_11_7 ∧ box_side_11_7 / range_1_3 < 9 ∧
    round_double (box_side_11_7 / range_1_3) = 9 ∧
    ∃ g, calc_cell_grid_double ⟨box_side_11_7, box_side_11_7, box_side_11_7⟩ range_1_3 1
        CELLS_MAX_NUM_CELLS ⟨1, 1, 1⟩ = some g ∧
      g.cell_grid = ⟨9, 9, 9⟩ ∧
      g.cell_size.x0 < range_1_3 ∧ g.cell_size.x1 < range_1_3 ∧ g.cell_size.x2 < range_1_3 ∧
      (calc_cell_grid ⟨box_side_11_7, box_side_11_7, box_side_11_7⟩ range_1_3 1
        CELLS_MAX_NUM_CELLS ⟨1, 1, 1⟩).map (fun g => g.cell_grid) = some ⟨8, 8, 8⟩ := by
  refine ⟨?_, ?_, ?_, ?_, finish_grid_fl round_double
    ⟨box_side_11_7, box_side_11_7, box_side_11_7⟩ 1 ⟨1, 1, 1⟩ ⟨11, 11, 11⟩ 1331,
    ?_, ?_, ?_, ?_, ?_, ?_⟩ <;>
    decide!

/-! ## `collect_ghost_forces` in a system of processes -/

/-- What a process sends in a turn of `collect_ghost_forces` is the list of the forces
of its receive cells, when `ghost_recv_size` is the number of their particles. -/
theorem force_message_eq (s : Nat) (st : GhostNode) (buf : List ℚ)
    (hpack : pack_cells force_entries st.cells (st.gh.recv_cells (opposite s)) = some buf)
    (hlen : buf.length = 3 * ghost_total st.cells (st.gh.recv_cells (opposite s)))
    (hsize : st.gh.ghost_recv_size (opposite s) =
      (ghost_total st.cells (st.gh.recv_cells (opposite s)) : Int)) :
    force_message s st = buf := by
  unfold force_message
  rw [hpack, hsize]
  simp only
  have h : (3 * (ghost_total st.cells (st.gh.recv_cells (opposite s)) : Int)).toNat =
      buf.length := by
    rw [hlen]
    omega
  rw [h]
  unfold overwrite
  simp

/-- One turn of the direction loop of `collect_ghost_forces` in a process `st` whose
neighbor in the direction `s` is in the state `stq` (the process itself when it is its
own neighbor), when every send cell holds as many particles as the receive cell of the
neighbor paired with it: the turn returns, no count and no size changes, and the force
of every particle has grown by the forces of the particles in the same slot of the
cells paired with its cell. -/
theorem collect_ghost_forces_dir_peer (env : GhostComm) (s : Nat) (st stq : GhostNode)
    (hsame : env.node_neighbors (opposite s) = env.this_node → stq = st)
    (hmsg : env.node_neighbors (opposite s) ≠ env.this_node →
      env.in_force s = force_message s stq)
    (hlen : (stq.gh.recv_cells (opposite s)).length = (st.gh.send_cells s).length)
    (hsend : indices_ok st.cells (st.gh.send_cells s))
    (hown : indices_ok st.cells (st.gh.recv_cells (opposite s)))
    (hrecv : indices_ok stq.cells (stq.gh.recv_cells (opposite s)))
    (hok : cells_ok st.cells) (hokq : cells_ok stq.cells)
    (hcnt : ∀ x ∈ (st.gh.send_cells s).zip (stq.gh.recv_cells (opposite s)),
      cell_count st.cells x.1 = cell_count stq.cells x.2)
    (hsize : stq.gh.ghost_recv_size (opposite s) =
      (ghost_total stq.cells (stq.gh.recv_cells (opposite s)) : Int))
    (hsize1 : (ghost_total stq.cells (stq.gh.recv_cells (opposite s)) : Int) ≤
      st.gh.ghost_send_size s) :
    ∃ st1, collect_ghost_forces_dir env s st = some st1 ∧ same_layout st st1 ∧
      cells_ok st1.cells ∧
      st1.gh.ghost_send_size = st.gh.ghost_send_size ∧
      st1.gh.ghost_recv_size = st.gh.ghost_recv_size ∧
      ∀ (c : Int) (j i : Nat), j < cell_count st.cells c →
        force_at st1.cells c j i = force_at st.cells c j i +
          ((((st.gh.send_cells s).zip (stq.gh.recv_cells (opposite s))).filter
            fun x => decide (x.1 = c)).map fun x => force_at stq.cells x.2 j i).sum := by
  obtain ⟨own, hownbuf, _⟩ := pack_cells_some force_entries (fun _ => rfl) hok _ hown
  obtain ⟨buf, hbuf, hbl⟩ := pack_cells_some force_entries (fun _ => rfl) hokq _ hrecv
  have hpack : pack_cells force_entries stq.cells
      (((st.gh.send_cells s).zip (stq.gh.recv_cells (opposite s))).map Prod.snd) =
      some buf := by
    rw [List.map_snd_zip _ _ (le_of_eq hlen)]
    exact hbuf
  have hfst : ((st.gh.send_cells s).zip (stq.gh.recv_cells (opposite s))).map Prod.fst =
      st.gh.send_cells s := List.map_fst_zip _ _ (le_of_eq hlen.symm)
  by_cases hself : env.node_neighbors (opposite s) = env.this_node
  · have hq := hsame hself
    subst hq
    have hob : own = buf := Option.some.inj (hownbuf.symm.trans hbuf)
    subst hob
    obtain ⟨out, hrun, hl, hoko, hco, hfo⟩ :=
      unpack_add_cells (overwrite stq.gh.send_buf own) stq.cells
        ((stq.gh.send_cells s).zip (stq.gh.recv_cells (opposite s))) 0
        stq.cells own (stq.gh.send_buf.drop own.length) hok
        (fun x hx => hsend x.1 (List.of_mem_zip hx).1) hcnt hpack rfl
    rw [hfst] at hrun
    refine ⟨{ stq with cells := out
                       gh := { stq.gh with send_buf := stq.gh.recv_buf
                                           recv_buf := overwrite stq.gh.send_buf own } }, ?_,
      ⟨rfl, rfl, hl.symm, fun c => (hco c).symm⟩, hoko, rfl, rfl, hfo⟩
    simp only [collect_ghost_forces_dir, hownbuf, send_posforce_self _ _ _ _ _ hself, hrun]
  · have hm := hmsg hself
    rw [force_message_eq s stq buf hbuf hbl hsize] at hm
    obtain ⟨out, hrun, hl, hoko, hco, hfo⟩ :=
      unpack_add_cells (overwrite st.gh.recv_buf buf) stq.cells
        ((st.gh.send_cells s).zip (stq.gh.recv_cells (opposite s))) 0
        st.cells buf (st.gh.recv_buf.drop buf.length) hok
        (fun x hx => hsend x.1 (List.of_mem_zip hx).1) hcnt hpack rfl
    rw [hfst] at hrun
    refine ⟨{ st with cells := out
                      gh := { st.gh with send_buf := overwrite st.gh.send_buf own
                                         recv_buf := overwrite st.gh.recv_buf buf } }, ?_,
      ⟨rfl, rfl, hl.symm, fun c => (hco c).symm⟩, hoko, rfl, rfl, hfo⟩
    have hle : ((buf.length : Nat) : Int) ≤ 3 * st.gh.ghost_send_size s := by
      rw [hbl]
      push_cast
      omega
    simp only [collect_ghost_forces_dir, hownbuf, hm,
      send_posforce_remote _ _ _ _ _ hself hle, hrun]

theorem system_turn_some {turn : (Int → GhostNode) → Int → Option GhostNode}
    {procs : List Int} {sys : Int → GhostNode}
    (h : ∀ p ∈ procs, (turn sys p).isSome = true) :
    system_turn turn procs sys = some (fun p => (turn sys p).getD (sys p)) := by
  unfold system_turn
  rw [if_pos]
  exact List.all_eq_true.mpr (fun p hp => h p hp)

theorem system_turn_inv {turn : (Int → GhostNode) → Int → Option GhostNode}
    {procs : List Int} {sys sys1 : Int → GhostNode}
    (h : system_turn turn procs sys = some sys1) :
    ∀ p ∈ procs, turn sys p = some (sys1 p) := by
  unfold system_turn at h
  split at h
  · rename_i hall
    simp only [Option.some.injEq] at h
    subst h
    intro p hp
    have := List.all_eq_true.mp hall p hp
    obtain ⟨x, hx⟩ := Option.isSome_iff_exists.mp this
    simp [hx]
  · simp at h

theorem run_system_append (turn : Nat → (Int → GhostNode) → Int → Option GhostNode)
    (procs : List Int) (l1 l2 : List Nat) (sys : Int → GhostNode) :
    run_system turn procs (l1 ++ l2) sys =
      (run_system turn procs l1 sys).bind (run_system turn procs l2) := by
  induction l1 generalizing sys with
  | nil => rfl
  | cons s l1 ih =>
    simp only [List.cons_append, run_system]
    cases h : system_turn (turn s) procs sys with
    | none => rfl
    | some sys1 => exact ih sys1

theorem ghost_total_counts (cells : List ParticleList) (cs : List Int) :
    ghost_total cells cs = (cs.map (cell_count cells)).sum := rfl

theorem ghost_total_layout {a b : List ParticleList}
    (h : ∀ c, cell_count a c = cell_count b c) (cs : List Int) :
    ghost_total a cs = ghost_total b cs := by
  rw [ghost_total_counts, ghost_total_counts]
  congr 1
  exact List.map_congr_left (fun c _ => h c)

theorem ghost_total_zip (a b : List ParticleList) :
    ∀ (l1 l2 : List Int), l2.length = l1.length →
      (∀ x ∈ l1.zip l2, cell_count a x.1 = cell_count b x.2) →
      ghost_total a l1 = ghost_total b l2 := by
  intro l1
  induction l1 with
  | nil =>
    intro l2 hl _
    cases l2 with
    | nil => rfl
    | cons _ _ => simp at hl
  | cons c l1 ih =>
    intro l2 hl h
    cases l2 with
    | nil => simp at hl
    | cons d l2 =>
      rw [ghost_total_counts, ghost_total_counts, List.map_cons, List.map_cons, List.sum_cons,
        List.sum_cons, ← ghost_total_counts, ← ghost_total_counts,
        ih l2 (by simpa using hl) (fun x hx => h x (by
          rw [List.zip_cons_cons]
          exact List.mem_cons_of_mem _ hx)),
        h (c, d) (by rw [List.zip_cons_cons]; exact List.mem_cons_self _ _)]

/-- A process that is its own neighbor in one direction of an axis is its own neighbor
in the other. -/
theorem neighbors_ok_self {envs : Int → GhostComm} {procs : List Int}
    (hn : neighbors_ok envs procs) {p : Int} (hp : p ∈ procs) {s : Nat} (hs : s < 6)
    (h : (envs p).node_neighbors (opposite s) = p) : (envs p).node_neighbors s = p := by
  have := ((hn p hp).2 (opposite s) (opposite_lt hs)).2
  rw [h, opposite_opposite] at this
  exact this

/-- The fit of the ghost layer depends on the cell lists, the counts and the sizes
only. -/
theorem ghost_layer_ok_layout {envs : Int → GhostComm} {procs : List Int}
    {sys mid : Int → GhostNode} {s : Nat} (hn : neighbors_ok envs procs) (hs : s < 6)
    (hlay : ∀ p ∈ procs, same_layout (sys p) (mid p) ∧
      (mid p).gh.ghost_send_size = (sys p).gh.ghost_send_size ∧
      (mid p).gh.ghost_recv_size = (sys p).gh.ghost_recv_size)
    (h : ghost_layer_ok envs procs sys s) : ghost_layer_ok envs procs mid s := by
  have hq : ∀ p ∈ procs, (envs p).node_neighbors s ∈ procs := fun p hp => ((hn p hp).2 s hs).1
  refine ⟨?_, ?_, ?_, ?_, ?_, ?_⟩
  · intro p hp
    obtain ⟨⟨l1, _, _, _⟩, _⟩ := hlay p hp
    obtain ⟨⟨_, m2, _, _⟩, _⟩ := hlay _ (hq p hp)
    rw [← l1, ← m2]
    exact h.lists p hp
  · intro p hp
    obtain ⟨⟨l1, _, l3, _⟩, _⟩ := hlay p hp
    rw [← l1]
    exact indices_ok_of_length l3.symm (h.send_ok p hp)
  · intro p hp
    obtain ⟨⟨_, l2, l3, _⟩, _⟩ := hlay p hp
    rw [← l2]
    exact indices_ok_of_length l3.symm (h.recv_ok p hp)
  · intro p hp
    obtain ⟨⟨l1, _, _, l4⟩, _⟩ := hlay p hp
    obtain ⟨⟨_, m2, _, m4⟩, _⟩ := hlay _ (hq p hp)
    rw [← l1, ← m2]
    intro x hx
    rw [← l4, ← m4]
    exact h.counts p hp x hx
  · intro p hp
    obtain ⟨⟨l1, _, _, l4⟩, z1, _⟩ := hlay p hp
    rw [z1, ← l1, ← ghost_total_layout l4]
    exact h.send_size p hp
  · intro p hp
    obtain ⟨⟨_, l2, _, l4⟩, _, z2⟩ := hlay p hp
    rw [z2, ← l2, ← ghost_total_layout l4]
    exact h.recv_size p hp

theorem system_pairs_layout {envs : Int → GhostComm} {procs : List Int}
    {sys mid : Int → GhostNode} {s : Nat} (hn : neighbors_ok envs procs) (hs : s < 6)
    (hlay : ∀ p ∈ procs, same_layout (sys p) (mid p)) {p : Int} (hp : p ∈ procs) :
    system_pairs envs mid s p = system_pairs envs sys s p := by
  unfold system_pairs
  simp only
  rw [← (hlay p hp).1, ← (hlay _ ((hn p hp).2 s hs).1).2.1]

theorem replica_sum_system (ps : List (Int × (Int × Int))) (c : Int)
    (R : Int × Int → List (Int × Int)) (f : Int × Int → ℚ) :
    ((ps.flatMap fun x => if x.1 = c then x.2 :: R x.2 else []).map f).sum =
      ((ps.filter fun x => decide (x.1 = c)).map
        fun x => f x.2 + ((R x.2).map f).sum).sum := by
  induction ps with
  | nil => rfl
  | cons p ps ih =>
    by_cases hp : p.1 = c
    · simp only [List.flatMap_cons, hp, if_true, List.map_append, List.map_cons,
        List.sum_append, List.sum_cons, List.filter_cons, decide_True]
      rw [← ih]
    · simp only [List.flatMap_cons, hp, if_false, List.nil_append, List.filter_cons,
        decide_False, Bool.false_eq_true]
      exact ih

/-- The sum over the pairs of a direction, written with the cells of the neighbor. -/
theorem system_pairs_sum (envs : Int → GhostComm) (sys : Int → GhostNode) (s : Nat) (p c : Int)
    (g : Int × Int → ℚ) :
    (((system_pairs envs sys s p).filter fun x => decide (x.1 = c)).map fun x => g x.2).sum =
      (((((sys p).gh.send_cells s).zip
          ((sys ((envs p).node_neighbors s)).gh.recv_cells (opposite s))).filter
        fun x => decide (x.1 = c)).map fun x => g ((envs p).node_neighbors s, x.2)).sum := by
  unfold system_pairs
  simp only [List.filter_map, List.map_map]
  rfl

/-- One turn of `collect_ghost_forces` in all processes of a system whose ghost layer
fits in the direction of the turn: the turn returns in every process, no count and no
size changes, and the force of every particle has grown by the forces of the particles
in the same slot of the cells of the neighbor that are paired with its cell. -/
theorem collect_system_turn (envs : Int → GhostComm) (procs : List Int)
    (hn : neighbors_ok envs procs) (s : Nat) (hs : s < 6) (sys : Int → GhostNode)
    (hc : ∀ p ∈ procs, cells_ok (sys p).cells) (hl : ghost_layer_ok envs procs sys s) :
    ∃ sys1, system_turn (collect_ghost_forces_turn envs s) procs sys = some sys1 ∧
      (∀ p ∈ procs, same_layout (sys p) (sys1 p) ∧ cells_ok (sys1 p).cells ∧
        (sys1 p).gh.ghost_send_size = (sys p).gh.ghost_send_size ∧
        (sys1 p).gh.ghost_recv_size = (sys p).gh.ghost_recv_size) ∧
      ∀ p ∈ procs, ∀ (c : Int) (j i : Nat), j < cell_count (sys p).cells c →
        force_at (sys1 p).cells c j i = force_at (sys p).cells c j i +
          (((system_pairs envs sys s p).filter fun x => decide (x.1 = c)).map
            fun x => force_at (sys x.2.1).cells x.2.2 j i).sum := by
  have key : ∀ p ∈ procs, ∃ st1, collect_ghost_forces_turn envs s sys p = some st1 ∧
      same_layout (sys p) st1 ∧ cells_ok st1.cells ∧
      st1.gh.ghost_send_size = (sys p).gh.ghost_send_size ∧
      st1.gh.ghost_recv_size = (sys p).gh.ghost_recv_size ∧
      ∀ (c : Int) (j i : Nat), j < cell_count (sys p).cells c →
        force_at st1.cells c j i = force_at (sys p).cells c j i +
          (((system_pairs envs sys s p).filter fun x => decide (x.1 = c)).map
            fun x => force_at (sys x.2.1).cells x.2.2 j i).sum := by
    intro p hp
    have hq := ((hn p hp).2 s hs).1
    have hthis := (hn p hp).1
    obtain ⟨st1, h1, h2, h3, h4, h5, h6⟩ := collect_ghost_forces_dir_peer
      (collect_env envs sys s p) s (sys p) (sys ((envs p).node_neighbors s))
      (fun hself => by
        have : (envs p).node_neighbors (opposite s) = p := by
          simpa [collect_env, hthis] using hself
        rw [neighbors_ok_self hn hp hs this])
      (fun _ => rfl) (hl.lists p hp) (hl.send_ok p hp) (hl.recv_ok p hp) (hl.recv_ok _ hq)
      (hc p hp) (hc _ hq) (hl.counts p hp) (hl.recv_size _ hq)
      (by
        rw [hl.send_size p hp,
          ghost_total_zip (sys p).cells (sys ((envs p).node_neighbors s)).cells _ _
            (hl.lists p hp) (hl.counts p hp)])
    refine ⟨st1, h1, h2, h3, h4, h5, ?_⟩
    intro c j i hj
    rw [h6 c j i hj,
      system_pairs_sum envs sys s p c (fun x => force_at (sys x.1).cells x.2 j i)]
  refine ⟨_, system_turn_some (fun p hp => ?_), ?_, ?_⟩
  · obtain ⟨st1, h1, _⟩ := key p hp
    rw [h1]
    rfl
  · intro p hp
    obtain ⟨st1, h1, h2, h3, h4, h5, _⟩ := key p hp
    simp only [h1, Option.getD_some]
    exact ⟨h2, h3, h4, h5⟩
  · intro p hp c j i hj
    obtain ⟨st1, h1, _, _, _, _, h6⟩ := key p hp
    simp only [h1, Option.getD_some]
    exact h6 c j i hj

/-- The direction loop of `collect_ghost_forces` in all processes of a system, over the
directions `later` taken from the last to the first: it returns, and the force of every
particle has grown by the forces that the particles in the same slot of the replica
cells of its cell, in whatever process they lie, had at the start. -/
theorem collect_system_run (envs : Int → GhostComm) (procs : List Int)
    (hn : neighbors_ok envs procs) :
    ∀ (later : List Nat) (sys : Int → GhostNode), (∀ s ∈ later, s < 6) →
      (∀ p ∈ procs, cells_ok (sys p).cells) →
      (∀ s ∈ later, ghost_layer_ok envs procs sys s) →
      ∃ sys1, run_system (collect_ghost_forces_turn envs) procs later.reverse sys =
          some sys1 ∧
        (∀ p ∈ procs, same_layout (sys p) (sys1 p) ∧ cells_ok (sys1 p).cells ∧
          (sys1 p).gh.ghost_send_size = (sys p).gh.ghost_send_size ∧
          (sys1 p).gh.ghost_recv_size = (sys p).gh.ghost_recv_size) ∧
        ∀ p ∈ procs, ∀ (c : Int) (j i : Nat), j < cell_count (sys p).cells c →
          force_at (sys1 p).cells c j i = force_at (sys p).cells c j i +
            ((system_replicas envs sys later (p, c)).map
              fun x => force_at (sys x.1).cells x.2 j i).sum := by
  intro later
  induction later with
  | nil =>
    intro sys _ hc _
    exact ⟨sys, rfl, fun p hp => ⟨same_layout_refl _, hc p hp, rfl, rfl⟩,
      fun p _ c j i _ => by simp [system_replicas]⟩
  | cons s later ih =>
    intro sys h6 hc hl
    have hs := h6 s (List.mem_cons_self _ _)
    obtain ⟨mid, hrun, hlay, hfm⟩ := ih sys (fun t ht => h6 t (List.mem_cons_of_mem _ ht)) hc
      (fun t ht => hl t (List.mem_cons_of_mem _ ht))
    have hlm := ghost_layer_ok_layout hn hs
      (fun p hp => ⟨(hlay p hp).1, (hlay p hp).2.2⟩) (hl s (List.mem_cons_self _ _))
    obtain ⟨sys1, hstep, hlay1, hf1⟩ := collect_system_turn envs procs hn s hs mid
      (fun p hp => (hlay p hp).2.1) hlm
    refine ⟨sys1, ?_, ?_, ?_⟩
    · rw [List.reverse_cons, run_system_append, hrun]
      simp only [Option.bind, run_system, hstep]
    · intro p hp
      obtain ⟨a1, a2, a3, a4⟩ := hlay p hp
      obtain ⟨b1, b2, b3, b4⟩ := hlay1 p hp
      exact ⟨same_layout_trans a1 b1, b2, b3.trans a3, b4.trans a4⟩
    · intro p hp c j i hj
      have l4 := (hlay p hp).1.2.2.2
      rw [hf1 p hp c j i (by rw [← l4]; exact hj), hfm p hp c j i hj,
        system_pairs_layout hn hs (fun q hq => (hlay q hq).1) hp]
      simp only [system_replicas, List.map_append, List.sum_append]
      rw [replica_sum_system, add_assoc]
      congr 2
      apply congrArg
      apply List.map_congr_left
      intro x hx
      obtain ⟨hx1, hx2⟩ := List.mem_filter.mp hx
      have hxc : x.1 = c := of_decide_eq_true hx2
      unfold system_pairs at hx1
      obtain ⟨y, hy, hyx⟩ := List.mem_map.mp hx1
      subst hyx
      have hq := ((hn p hp).2 s hs).1
      apply hfm _ hq
      have := (hl s (List.mem_cons_self _ _)).counts p hp y hy
      simp only at hxc ⊢
      rw [← this, hxc]
      exact hj

theorem cell_force_step_peer {ps : List (Int × Int)} {cells cells1 src : List ParticleList}
    (i : Nat) (hco : ∀ c, cell_count cells c = cell_count cells1 c)
    (hcnt : ∀ p ∈ ps, cell_count cells p.1 = cell_count src p.2)
    (hf : ∀ (c : Int) (j i : Nat), j < cell_count cells c →
      force_at cells1 c j i = force_at cells c j i +
        ((ps.filter fun p => decide (p.1 = c)).map fun p => force_at src p.2 j i).sum)
    (c : Int) :
    cell_force cells1 c i = cell_force cells c i +
      ((ps.filter fun p => decide (p.1 = c)).map fun p => cell_force src p.2 i).sum := by
  unfold cell_force
  rw [← hco c]
  have h1 : (List.range (cell_count cells c)).map (fun j => force_at cells1 c j i) =
      (List.range (cell_count cells c)).map (fun j => force_at cells c j i +
        ((ps.filter fun p => decide (p.1 = c)).map fun p => force_at src p.2 j i).sum) := by
    apply List.map_congr_left
    intro j hj
    exact hf c j i (List.mem_range.mp hj)
  rw [h1, List.sum_map_add, list_sum_comm]
  congr 2
  apply List.map_congr_left
  intro p hp
  obtain ⟨hp1, hp2⟩ := List.mem_filter.mp hp
  have hpc : p.1 = c := of_decide_eq_true hp2
  rw [← hcnt p hp1, hpc]

/-- A sum over the processes does not change when every process is replaced by its
neighbor in a direction. -/
theorem sum_neighbors {envs : Int → GhostComm} {procs : List Int}
    (hn : neighbors_ok envs procs) (hnd : procs.Nodup) {s : Nat} (hs : s < 6) (G : Int → ℚ) :
    (procs.map fun p => G ((envs p).node_neighbors s)).sum = (procs.map G).sum := by
  rw [← List.sum_toFinset _ hnd, ← List.sum_toFinset _ hnd]
  refine Finset.sum_nbij' (fun p => (envs p).node_neighbors s)
    (fun q => (envs q).node_neighbors (opposite s)) ?_ ?_ ?_ ?_ (fun _ _ => rfl)
  · intro p hp
    exact List.mem_toFinset.mpr ((hn p (List.mem_toFinset.mp hp)).2 s hs).1
  · intro q hq
    exact List.mem_toFinset.mpr
      ((hn q (List.mem_toFinset.mp hq)).2 _ (opposite_lt hs)).1
  · intro p hp
    exact ((hn p (List.mem_toFinset.mp hp)).2 s hs).2
  · intro q hq
    have := ((hn q (List.mem_toFinset.mp hq)).2 _ (opposite_lt hs)).2
    rw [opposite_opposite] at this
    exact this

/-- One turn of `collect_ghost_forces` in all processes keeps the force sum over sets
of cells, one per process, that hold the receive cells and, outside them, the send
cells of the turn, when the receive cells leave the sets. -/
theorem collect_system_turn_sum (envs : Int → GhostComm) (procs : List Int)
    (hn : neighbors_ok envs procs) (hnd : procs.Nodup) (s : Nat) (hs : s < 6)
    (sys sys1 : Int → GhostNode) (A : Int → Finset Int) (i : Nat)
    (hl : ghost_layer_ok envs procs sys s)
    (hlay : ∀ p ∈ procs, same_layout (sys p) (sys1 p))
    (hf : ∀ p ∈ procs, ∀ (c : Int) (j i : Nat), j < cell_count (sys p).cells c →
      force_at (sys1 p).cells c j i = force_at (sys p).cells c j i +
        (((system_pairs envs sys s p).filter fun x => decide (x.1 = c)).map
          fun x => force_at (sys x.2.1).cells x.2.2 j i).sum)
    (hrnd : ∀ p ∈ procs, ((sys p).gh.recv_cells (opposite s)).Nodup)
    (hrA : ∀ p ∈ procs, ∀ c ∈ (sys p).gh.recv_cells (opposite s), c ∈ A p)
    (hsA : ∀ p ∈ procs, ∀ c ∈ (sys p).gh.send_cells s,
      c ∈ A p ∧ c ∉ (sys p).gh.recv_cells (opposite s)) :
    (procs.map fun p =>
        ∑ c ∈ A p \ ((sys p).gh.recv_cells (opposite s)).toFinset,
          cell_force (sys1 p).cells c i).sum =
      (procs.map fun p => ∑ c ∈ A p, cell_force (sys p).cells c i).sum := by
  obtain ⟨G, hG⟩ : ∃ G : Int → ℚ, G = fun q => (((sys q).gh.recv_cells (opposite s)).map
      fun h => cell_force (sys q).cells h i).sum := ⟨_, rfl⟩
  have hper : ∀ p ∈ procs,
      ∑ c ∈ A p \ ((sys p).gh.recv_cells (opposite s)).toFinset,
          cell_force (sys1 p).cells c i =
        ∑ c ∈ A p \ ((sys p).gh.recv_cells (opposite s)).toFinset,
          cell_force (sys p).cells c i + G ((envs p).node_neighbors s) := by
    intro p hp
    have hcf := cell_force_step_peer i (hlay p hp).2.2.2 (hl.counts p hp)
      (fun c j i hj => by
        rw [hf p hp c j i hj,
          system_pairs_sum envs sys s p c (fun x => force_at (sys x.1).cells x.2 j i)])
    rw [Finset.sum_congr rfl (fun c _ => hcf c), Finset.sum_add_distrib,
      sum_filter_pairs _ _
        (fun x => cell_force (sys ((envs p).node_neighbors s)).cells x.2 i)
        (fun x hx => by
          obtain ⟨h1, h2⟩ := hsA p hp x.1 (List.of_mem_zip hx).1
          exact Finset.mem_sdiff.mpr ⟨h1, fun h => h2 (List.mem_toFinset.mp h)⟩)]
    congr 1
    have h1 := List.map_snd_zip ((sys p).gh.send_cells s)
      ((sys ((envs p).node_neighbors s)).gh.recv_cells (opposite s))
      (le_of_eq (hl.lists p hp))
    have h2 : ∀ l : List (Int × Int),
        l.map (fun x => cell_force (sys ((envs p).node_neighbors s)).cells x.2 i) =
          (l.map Prod.snd).map
            (fun h => cell_force (sys ((envs p).node_neighbors s)).cells h i) := by
      intro l
      rw [List.map_map]
      rfl
    rw [h2, h1, hG]
  have hnb := sum_neighbors hn hnd hs G
  rw [List.map_congr_left hper, List.sum_map_add, hnb, ← List.sum_map_add]
  congr 1
  apply List.map_congr_left
  intro p hp
  rw [hG]
  simp only
  rw [← List.sum_toFinset _ (hrnd p hp)]
  exact Finset.sum_sdiff (fun c hc => hrA p hp c (List.mem_toFinset.mp hc))

/-- The direction loop of `collect_ghost_forces` in all processes of a system, over the
increasing directions `later` taken from the last to the first: the force sum over the
cells of the sets `A` that are no receive cells afterwards is the force sum over the
sets before. -/
theorem collect_system_run_sum (envs : Int → GhostComm) (procs : List Int)
    (hn : neighbors_ok envs procs) (hnd : procs.Nodup) (A : Int → Finset Int) (i : Nat) :
    ∀ (later : List Nat) (sys : Int → GhostNode),
      later.Pairwise (fun a b => a < b) → (∀ s ∈ later, s < 6) →
      (∀ p ∈ procs, cells_ok (sys p).cells) →
      (∀ s ∈ later, ghost_layer_ok envs procs sys s) →
      (∀ p ∈ procs, ∀ s ∈ later, ((sys p).gh.recv_cells (opposite s)).Nodup) →
      (∀ p ∈ procs, ∀ s ∈ later, ∀ t ∈ later, s ≠ t →
        ∀ c ∈ (sys p).gh.recv_cells (opposite s), c ∉ (sys p).gh.recv_cells (opposite t)) →
      (∀ p ∈ procs, ∀ s ∈ later, (∀ c ∈ (sys p).gh.recv_cells (opposite s), c ∈ A p) ∧
        ∀ c ∈ (sys p).gh.send_cells s, c ∈ A p) →
      (∀ p ∈ procs, ∀ s ∈ later, ∀ t ∈ later, s ≤ t →
        ∀ c ∈ (sys p).gh.send_cells s, c ∉ (sys p).gh.recv_cells (opposite t)) →
      ∃ sys1, run_system (collect_ghost_forces_turn envs) procs later.reverse sys =
          some sys1 ∧
        (procs.map fun p =>
            ∑ c ∈ A p \ (later.flatMap fun s => (sys p).gh.recv_cells (opposite s)).toFinset,
              cell_force (sys1 p).cells c i).sum =
          (procs.map fun p => ∑ c ∈ A p, cell_force (sys p).cells c i).sum := by
  intro later
  induction later with
  | nil =>
    intro sys _ _ _ _ _ _ _ _
    exact ⟨sys, rfl, by simp⟩
  | cons s later ih =>
    intro sys hsorted h6 hc hl hrnd hdis hA hclear
    obtain ⟨hlt, hsorted1⟩ := List.pairwise_cons.mp hsorted
    have hs := h6 s (List.mem_cons_self _ _)
    have hsm := List.mem_cons_self s later
    obtain ⟨mid, hrun, hsum⟩ := ih sys hsorted1
      (fun t ht => h6 t (List.mem_cons_of_mem _ ht)) hc
      (fun t ht => hl t (List.mem_cons_of_mem _ ht))
      (fun p hp t ht => hrnd p hp t (List.mem_cons_of_mem _ ht))
      (fun p hp t ht u hu =>
        hdis p hp t (List.mem_cons_of_mem _ ht) u (List.mem_cons_of_mem _ hu))
      (fun p hp t ht => hA p hp t (List.mem_cons_of_mem _ ht))
      (fun p hp t ht u hu =>
        hclear p hp t (List.mem_cons_of_mem _ ht) u (List.mem_cons_of_mem _ hu))
    obtain ⟨mid1, hrun1, hlay, _⟩ := collect_system_run envs procs hn later sys
      (fun t ht => h6 t (List.mem_cons_of_mem _ ht)) hc
      (fun t ht => hl t (List.mem_cons_of_mem _ ht))
    have hmm : mid1 = mid := Option.some.inj (hrun1.symm.trans hrun)
    subst hmm
    have hlm := ghost_layer_ok_layout hn hs
      (fun p hp => ⟨(hlay p hp).1, (hlay p hp).2.2⟩) (hl s hsm)
    obtain ⟨sys1, hstep, hlay1, hf1⟩ := collect_system_turn envs procs hn s hs mid1
      (fun p hp => (hlay p hp).2.1) hlm
    refine ⟨sys1, ?_, ?_⟩
    · rw [List.reverse_cons, run_system_append, hrun]
      simp only [Option.bind, run_system, hstep]
    · have hret : ∀ (p c : Int),
          c ∈ (later.flatMap fun t => (sys p).gh.recv_cells (opposite t)) ↔
            ∃ t ∈ later, c ∈ (sys p).gh.recv_cells (opposite t) := by
        intro p c
        simp only [List.mem_flatMap]
      have hturn := collect_system_turn_sum envs procs hn hnd s hs mid1 sys1
        (fun p => A p \ (later.flatMap fun t => (sys p).gh.recv_cells (opposite t)).toFinset) i
        hlm (fun p hp => (hlay1 p hp).1) hf1
        (fun p hp => by
          rw [← (hlay p hp).1.2.1]
          exact hrnd p hp s hsm)
        (fun p hp => by
          rw [← (hlay p hp).1.2.1]
          intro c hc
          refine Finset.mem_sdiff.mpr ⟨(hA p hp s hsm).1 c hc, fun h => ?_⟩
          obtain ⟨t, ht, hct⟩ := (hret p c).mp (List.mem_toFinset.mp h)
          exact hdis p hp s hsm t (List.mem_cons_of_mem _ ht) (Nat.ne_of_lt (hlt t ht)) c hc hct)
        (fun p hp => by
          rw [← (hlay p hp).1.1, ← (hlay p hp).1.2.1]
          intro c hc
          refine ⟨Finset.mem_sdiff.mpr ⟨(hA p hp s hsm).2 c hc, fun h => ?_⟩, ?_⟩
          · obtain ⟨t, ht, hct⟩ := (hret p c).mp (List.mem_toFinset.mp h)
            exact hclear p hp s hsm t (List.mem_cons_of_mem _ ht) (Nat.le_of_lt (hlt t ht)) c hc
              hct
          · exact hclear p hp s hsm s hsm (le_refl s) c hc)
      rw [← hsum, ← hturn]
      congr 1
      apply List.map_congr_left
      intro p hp
      rw [← (hlay p hp).1.2.1]
      apply Finset.sum_congr _ (fun _ _ => rfl)
      ext c
      simp only [List.flatMap_cons, List.toFinset_append, Finset.mem_sdiff, Finset.mem_union,
        List.mem_toFinset]
      tauto

/-! ## `exchange_ghost` in a system of processes -/

theorem groups_total (groups : List (List ReducedParticle)) :
    (groups.map (fun grp => (grp.length : Int))).sum = (groups.flatten.length : Int) := by
  induction groups with
  | nil => rfl
  | cons g groups ih =>
    simp only [List.map_cons, List.sum_cons, List.flatten_cons, List.length_append, ih]
    push_cast
    rfl

/-- The records sent for a list of cells are as many as the cells hold particles. -/
theorem ghost_groups_total (env : GhostComm) (s_dir : Nat) (cells : List ParticleList) :
    ∀ (cs : List Int) (groups : List (List ReducedParticle)),
      ghost_groups env s_dir cells cs = some groups →
      groups.flatten.length = ghost_total cells cs := by
  intro cs
  induction cs with
  | nil =>
    intro groups h
    simp only [ghost_groups, Option.some.injEq] at h
    subst h
    rfl
  | cons c cs ih =>
    intro groups h
    cases hr : read_cell cells c with
    | none => simp [ghost_groups, hr] at h
    | some pl =>
      cases hu : pl.used with
      | none => simp [ghost_groups, hr, hu] at h
      | some xs =>
        cases hg : ghost_groups env s_dir cells cs with
        | none => simp [ghost_groups, hr, hu, hg] at h
        | some rest =>
          simp only [ghost_groups, hr, hu, hg, Option.some.injEq] at h
          subst h
          rw [ghost_total_cons hr, List.flatten_cons, List.length_append, ih rest hg]
          simp only [ghost_records, List.length_map, used_length hu]

theorem fold_ghost_congr {env env1 : GhostComm} (hb : env1.boundary = env.boundary)
    (hl : env1.box_l = env.box_l) (s : Nat) (r : ReducedParticle) :
    fold_ghost env1 s r = fold_ghost env s r := by
  unfold fold_ghost
  rw [hb, hl]

theorem ghost_groups_congr {env env1 : GhostComm} (hb : env1.boundary = env.boundary)
    (hl : env1.box_l = env.box_l) (s : Nat) (cells : List ParticleList) (cs : List Int) :
    ghost_groups env1 s cells cs = ghost_groups env s cells cs := by
  induction cs with
  | nil => rfl
  | cons c cs ih =>
    unfold ghost_groups
    rw [ih]
    have : ∀ xs, ghost_records env1 s xs = ghost_records env s xs := by
      intro xs
      unfold ghost_records
      exact List.map_congr_left (fun x _ => fold_ghost_congr hb hl s x.r)
    simp only [this]

/-- The packing loops of a turn of `exchange_ghost`, written with the record groups of
the send cells. -/
theorem fill_ghost_buffers_eq (env : GhostComm) (s : Nat) (st : GhostNode)
    (groups : List (List ReducedParticle))
    (hcount : (st.gh.send_cells s).length + 1 ≤ (st.gh.n_send_ghosts s).length)
    (hg : ghost_groups env s st.cells (st.gh.send_cells s) = some groups) :
    fill_ghost_buffers env s st =
      some { st with
             gh := { st.gh with
                     n_send_ghosts := set_dir st.gh.n_send_ghosts s
                       (overwrite (st.gh.n_send_ghosts s)
                         (groups.map (fun grp => (grp.length : Int)) ++
                           [(groups.map (fun grp => (grp.length : Int))).sum]))
                     g_send_buf := overwrite st.gh.g_send_buf groups.flatten } } := by
  have hfill := pack_ghosts_eq env s st.cells _ _ hg
  simp only [fill_ghost_buffers, hfill, hcount, if_true]

theorem overwrite_total (old : List Int) (cnts : List Int) (n : Nat) (h : cnts.length = n) :
    (overwrite old (cnts ++ [cnts.sum]))[n]? = some cnts.sum := by
  rw [overwrite_get_lt _ _ (by simp [h]), List.getElem?_append_right (by simp [h])]
  simp [h]

theorem overwrite_count (old : List Int) (cnts : List Int) (x : Int) (j : Nat)
    (h : j < cnts.length) : (overwrite old (cnts ++ [x]))[j]? = cnts[j]? := by
  rw [overwrite_get_lt _ _ (by simp; omega), List.getElem?_append_left h]

/-- What a process sends in a turn of `exchange_ghost`, written with the record groups
of its send cells: the counts and their total at the start of the count array, and the
records. -/
theorem ghost_message_eq (env : GhostComm) (s : Nat) (st : GhostNode)
    (groups : List (List ReducedParticle))
    (hcount : (st.gh.send_cells s).length + 1 ≤ (st.gh.n_send_ghosts s).length)
    (hg : ghost_groups env s st.cells (st.gh.send_cells s) = some groups) :
    ghost_message env s st =
      (overwrite (st.gh.n_send_ghosts s)
        (groups.map (fun grp => (grp.length : Int)) ++
          [(groups.map (fun grp => (grp.length : Int))).sum]), groups.flatten) := by
  have hgl := ghost_groups_length env s st.cells _ _ hg
  unfold ghost_message
  rw [fill_ghost_buffers_eq env s st groups hcount hg]
  simp only [set_dir_same]
  rw [overwrite_total _ _ _ (by simp [hgl])]
  simp only [groups_total, Int.toNat_ofNat]
  congr 1
  unfold overwrite
  simp

/-- The branch of `send_ghosts` towards another process, if it returns: of the two
phases one sends and one receives, whatever the parity of the position of the
process. -/
theorem send_ghosts_remote_inv (env : GhostComm) (s : Nat) (st st2 : GhostNode)
    (hremote : env.node_neighbors s ≠ env.this_node)
    (h : send_ghosts env s st = some st2) :
    ∃ sent total : Int,
      (st.gh.n_send_ghosts s)[(st.gh.send_cells s).length]? = some sent ∧
      (overwrite (st.gh.n_recv_ghosts (opposite s))
        (env.in_counts s))[(st.gh.recv_cells (opposite s)).length]? = some total ∧
      st2 = { st with
              gh := { st.gh with
                      ghost_send_size := set_dir st.gh.ghost_send_size s sent
                      n_recv_ghosts := set_dir st.gh.n_recv_ghosts (opposite s)
                        (overwrite (st.gh.n_recv_ghosts (opposite s)) (env.in_counts s))
                      ghost_recv_size := set_dir st.gh.ghost_recv_size (opposite s) total
                      g_recv_buf := overwrite st.gh.g_recv_buf (env.in_ghosts s) } } := by
  have hsend : ∀ a b : GhostNode, send_ghosts_send s a = some b →
      ∃ sent, (a.gh.n_send_ghosts s)[(a.gh.send_cells s).length]? = some sent ∧
        b = { a with gh := { a.gh with
                             ghost_send_size := set_dir a.gh.ghost_send_size s sent } } := by
    intro a b hab
    unfold send_ghosts_send at hab
    split at hab
    · simp at hab
    · rename_i total ht
      simp only [Option.some.injEq] at hab
      exact ⟨total, ht, hab.symm⟩
  have hrecv : ∀ a b : GhostNode, send_ghosts_recv env s a = some b →
      ∃ total, (overwrite (a.gh.n_recv_ghosts (opposite s))
          (env.in_counts s))[(a.gh.recv_cells (opposite s)).length]? = some total ∧
        b = { a with
              gh := { a.gh with
                      n_recv_ghosts := set_dir a.gh.n_recv_ghosts (opposite s)
                        (overwrite (a.gh.n_recv_ghosts (opposite s)) (env.in_counts s))
                      ghost_recv_size := set_dir a.gh.ghost_recv_size (opposite s) total
                      g_recv_buf := overwrite a.gh.g_recv_buf (env.in_ghosts s) } } := by
    intro a b hab
    unfold send_ghosts_recv at hab
    simp only at hab
    split at hab
    · split at hab
      · simp at hab
      · rename_i total ht
        split at hab
        · simp only [Option.some.injEq] at hab
          exact ⟨total, ht, hab.symm⟩
        · simp at hab
    · simp at hab
  unfold send_ghosts at h
  rw [if_pos hremote] at h
  split at h
  · simp at h
  · rename_i sta h0
    unfold send_ghosts_phase at h0 h
    by_cases hp : Int.tmod (env.node_pos.get (s / 2) + 0) 2 = 0
    · have hq : ¬ Int.tmod (env.node_pos.get (s / 2) + 1) 2 = 0 := by
        intro hh
        have h1 := Int.dvd_of_tmod_eq_zero hp
        have h2 := Int.dvd_of_tmod_eq_zero hh
        omega
      rw [if_pos hp] at h0
      rw [if_neg hq] at h
      obtain ⟨sent, hs1, rfl⟩ := hsend _ _ h0
      obtain ⟨total, ht1, rfl⟩ := hrecv _ _ h
      exact ⟨sent, total, hs1, ht1, rfl⟩
    · have hq : Int.tmod (env.node_pos.get (s / 2) + 1) 2 = 0 := by
        apply Int.tmod_eq_zero_of_dvd
        have h1 : ¬ (2 : Int) ∣ env.node_pos.get (s / 2) + 0 := fun hh =>
          hp (Int.tmod_eq_zero_of_dvd hh)
        omega
      rw [if_neg hp] at h0
      rw [if_pos hq] at h
      obtain ⟨total, ht1, rfl⟩ := hrecv _ _ h0
      obtain ⟨sent, hs1, rfl⟩ := hsend _ _ h
      exact ⟨sent, total, hs1, ht1, rfl⟩

/-- One turn of the direction loop of `exchange_ghost` in a process `st` that receives
from a process in the state `stq` (the process itself when it is its own neighbor), if
the turn returns: the receive cell number `j` of the opposite direction holds the
records of the send cell number `j` of the sender in its first slots and their number
as count, `ghost_send_size` of the direction is the number of particles of the send
cells and `ghost_recv_size` of the opposite direction the number of records
received. -/
theorem exchange_ghost_dir_peer (env envq : GhostComm) (s : Nat) (st stq st1 : GhostNode)
    (hs : s < 6) (hok : ghost_lists_ok st.gh st.cells) (hc : cells_ok st.cells)
    (hsendq : indices_ok stq.cells (stq.gh.send_cells s)) (hcq : cells_ok stq.cells)
    (hcountq : (stq.gh.send_cells s).length + 1 ≤ (stq.gh.n_send_ghosts s).length)
    (hlen : (st.gh.recv_cells (opposite s)).length = (stq.gh.send_cells s).length)
    (hsame : env.node_neighbors s = env.this_node →
      stq = st ∧ envq.boundary = env.boundary ∧ envq.box_l = env.box_l)
    (hmsg : env.node_neighbors s ≠ env.this_node →
      env.in_counts s = (ghost_message envq s stq).1 ∧
      env.in_ghosts s = (ghost_message envq s stq).2)
    (hex : exchange_ghost_dir env s st = some st1) :
    ∃ groups, ghost_groups envq s stq.cells (stq.gh.send_cells s) = some groups ∧
      (∀ (j : Nat) (c_r : Int) (grp : List ReducedParticle) (pl : ParticleList),
        (st.gh.recv_cells (opposite s))[j]? = some c_r → groups[j]? = some grp →
        read_cell st.cells c_r = some pl →
        read_cell st1.cells c_r =
          some { part := write_records pl.part grp, n := grp.length }) ∧
      st1.gh.ghost_send_size =
        set_dir st.gh.ghost_send_size s
          (ghost_total st.cells (st.gh.send_cells s) : Int) ∧
      st1.gh.ghost_recv_size =
        set_dir st.gh.ghost_recv_size (opposite s) (groups.flatten.length : Int) := by
  have ho := opposite_lt hs
  obtain ⟨own, hown⟩ := ghost_groups_some env s st.cells hc _ (hok.send_ok s hs)
  obtain ⟨groups, hg⟩ := ghost_groups_some envq s stq.cells hcq _ hsendq
  have hgl := ghost_groups_length envq s stq.cells _ _ hg
  have hownl := ghost_groups_length env s st.cells _ _ hown
  have hfill := fill_ghost_buffers_eq env s st own (hok.send_counts s hs) hown
  have howntot : (own.map (fun grp => (grp.length : Int))).sum =
      (ghost_total st.cells (st.gh.send_cells s) : Int) := by
    rw [groups_total, ghost_groups_total env s st.cells _ _ hown]
  unfold exchange_ghost_dir at hex
  rw [hfill] at hex
  simp only at hex
  -- the state after `send_ghosts`
  have hstage : ∃ stb, send_ghosts env s
      { st with
        gh := { st.gh with
                n_send_ghosts := set_dir st.gh.n_send_ghosts s
                  (overwrite (st.gh.n_send_ghosts s)
                    (own.map (fun grp => (grp.length : Int)) ++
                      [(own.map (fun grp => (grp.length : Int))).sum]))
                g_send_buf := overwrite st.gh.g_send_buf own.flatten } } = some stb ∧
      stb.cells = st.cells ∧ stb.gh.recv_cells = st.gh.recv_cells ∧
      stb.gh.ghost_send_size =
        set_dir st.gh.ghost_send_size s
          (ghost_total st.cells (st.gh.send_cells s) : Int) ∧
      stb.gh.ghost_recv_size =
        set_dir st.gh.ghost_recv_size (opposite s) (groups.flatten.length : Int) ∧
      (∀ (j : Nat) (grp : List ReducedParticle), groups[j]? = some grp →
        (stb.gh.n_recv_ghosts (opposite s))[j]? = some (grp.length : Int)) ∧
      ∃ junk, stb.gh.g_recv_buf = groups.flatten ++ junk := by
    cases hsg : send_ghosts env s
      { st with
        gh := { st.gh with
                n_send_ghosts := set_dir st.gh.n_send_ghosts s
                  (overwrite (st.gh.n_send_ghosts s)
                    (own.map (fun grp => (grp.length : Int)) ++
                      [(own.map (fun grp => (grp.length : Int))).sum]))
                g_send_buf := overwrite st.gh.g_send_buf own.flatten } } with
    | none =>
      rw [hsg] at hex
      simp at hex
    | some stb =>
      refine ⟨stb, rfl, ?_⟩
      by_cases hself : env.node_neighbors s = env.this_node
      · obtain ⟨hq, hb, hbl⟩ := hsame hself
        subst hq
        have hgg : groups = own := by
          rw [ghost_groups_congr hb hbl] at hg
          exact Option.some.inj (hg.symm.trans hown)
        subst hgg
        simp only [send_ghosts, hself, ne_eq, not_true_eq_false, if_false, send_ghosts_same,
          set_dir_same, overwrite_total _ _ _ (by simp [hownl] :
            (groups.map (fun grp => (grp.length : Int))).length =
              (stq.gh.send_cells s).length),
          overwrite_total _ _ _ (by simp [hownl, hlen] :
            (groups.map (fun grp => (grp.length : Int))).length =
              (stq.gh.recv_cells (opposite s)).length), Option.some.injEq] at hsg
        subst hsg
        refine ⟨rfl, rfl, ?_, ?_, ?_, ⟨_, rfl⟩⟩
        · show set_dir _ s _ = _
          rw [howntot]
        · show set_dir _ (opposite s) _ = _
          rw [groups_total groups]
        · intro j grp hj
          have hjl : j < groups.length := (List.getElem?_eq_some.mp hj).1
          show (set_dir _ (opposite s) _ (opposite s))[j]? = _
          rw [set_dir_same, overwrite_count _ _ _ _ (by simpa using hjl), List.getElem?_map,
            hj]
          rfl
      · obtain ⟨hm1, hm2⟩ := hmsg hself
        rw [ghost_message_eq envq s stq groups hcountq hg] at hm1 hm2
        simp only at hm1 hm2
        obtain ⟨sent, total, hsent, htotal, hstb⟩ :=
          send_ghosts_remote_inv env s _ stb hself hsg
        simp only [set_dir_same] at hsent
        rw [overwrite_total _ _ _ (by simp [hownl])] at hsent
        have hsent1 := (Option.some.inj hsent).symm
        subst hsent1
        simp only [hm1] at htotal
        rw [overwrite_get_lt _ _ (by
            have := overwrite_length (stq.gh.n_send_ghosts s)
              (groups.map (fun grp => (grp.length : Int)) ++
                [(groups.map (fun grp => (grp.length : Int))).sum])
            omega),
          hlen, overwrite_total _ _ _ (by simp [hgl])] at htotal
        have htotal1 := (Option.some.inj htotal).symm
        subst htotal1
        subst hstb
        refine ⟨rfl, rfl, ?_, ?_, ?_, ⟨st.gh.g_recv_buf.drop groups.flatten.length, ?_⟩⟩
        · show set_dir _ s _ = _
          rw [howntot]
        · show set_dir _ (opposite s) _ = _
          rw [groups_total groups]
        · intro j grp hj
          have hjl : j < groups.length := (List.getElem?_eq_some.mp hj).1
          show (set_dir _ (opposite s) _ (opposite s))[j]? = _
          rw [set_dir_same, hm1, overwrite_get_lt _ _ (by
              have := overwrite_length (stq.gh.n_send_ghosts s)
                (groups.map (fun grp => (grp.length : Int)) ++
                  [(groups.map (fun grp => (grp.length : Int))).sum])
              omega),
            overwrite_count _ _ _ _ (by simpa using hjl), List.getElem?_map, hj]
          rfl
        · show overwrite _ (env.in_ghosts s) = _
          rw [hm2]
          rfl
  obtain ⟨stb, hsg, hcells, hrc, hz1, hz2, hcnts, junk, hbuf⟩ := hstage
  rw [hsg] at hex
  simp only at hex
  have hloop := recv_ghosts_loop_spec (opposite s) (stb.gh.recv_cells (opposite s)) groups 0 0
    stb junk
    (by rw [hrc, hlen, hgl])
    (by rw [hrc]; exact hok.recv_nodup _ ho)
    (by
      intro c_r hcr
      rw [hrc] at hcr
      rw [hcells]
      obtain ⟨h0, h1⟩ := hok.recv_ok _ ho c_r hcr
      exact read_cell_of_lt h0 h1)
    (by
      intro j grp hj
      rw [Nat.zero_add]
      exact hcnts j grp hj)
    (by rw [hbuf]; rfl)
  obtain ⟨st1a, hrun, hgh, _, _, hcont⟩ := hloop
  have h11 : st1a = st1 := Option.some.inj (hrun.symm.trans hex)
  subst h11
  rw [hrc] at hcont
  rw [hcells] at hcont
  exact ⟨groups, hg, hcont, by rw [hgh, hz1], by rw [hgh, hz2]⟩

theorem ghost_total_congr {a b : List ParticleList} {cs : List Int}
    (h : ∀ c ∈ cs, read_cell a c = read_cell b c) : ghost_total a cs = ghost_total b cs := by
  unfold ghost_total
  congr 1
  apply List.map_congr_left
  intro c hc
  rw [h c hc]

/-- A process that is its own neighbor in one direction receives from itself. -/
theorem neighbors_ok_self_recv {envs : Int → GhostComm} {procs : List Int}
    (hn : neighbors_ok envs procs) {p : Int} (hp : p ∈ procs) {s : Nat} (hs : s < 6)
    (h : (envs p).node_neighbors s = p) : (envs p).node_neighbors (opposite s) = p := by
  have := ((hn p hp).2 s hs).2
  rw [h] at this
  exact this

/-- One turn of `exchange_ghost` in all processes of a system, if it returns: in every
process the lists are as before and fit the cells, all cells but the receive cells of
the opposite direction are as they were, the receive cell number `j` holds the records
of the send cell number `j` of the neighbor it receives from, and the sizes of the
direction are the numbers of particles sent and received. -/
theorem exchange_system_turn (envs : Int → GhostComm) (procs : List Int)
    (hn : neighbors_ok envs procs) (s : Nat) (hs : s < 6) (sys sys1 : Int → GhostNode)
    (hok : ∀ p ∈ procs, ghost_lists_ok (sys p).gh (sys p).cells)
    (hc : ∀ p ∈ procs, cells_ok (sys p).cells)
    (hgrid : ∀ p ∈ procs, ((sys p).gh.recv_cells (opposite s)).length =
      ((sys ((envs p).node_neighbors (opposite s))).gh.send_cells s).length)
    (hex : system_turn (exchange_ghost_turn envs s) procs sys = some sys1) :
    ∀ p ∈ procs,
      (sys1 p).gh.send_cells = (sys p).gh.send_cells ∧
      (sys1 p).gh.recv_cells = (sys p).gh.recv_cells ∧
      ghost_lists_ok (sys1 p).gh (sys1 p).cells ∧ cells_ok (sys1 p).cells ∧
      (∀ c0, c0 ∉ (sys p).gh.recv_cells (opposite s) →
        read_cell (sys1 p).cells c0 = read_cell (sys p).cells c0) ∧
      (∃ groups, ghost_groups (envs ((envs p).node_neighbors (opposite s))) s
          (sys ((envs p).node_neighbors (opposite s))).cells
          ((sys ((envs p).node_neighbors (opposite s))).gh.send_cells s) = some groups ∧
        (∀ (j : Nat) (c_r : Int) (grp : List ReducedParticle) (pl : ParticleList),
          ((sys p).gh.recv_cells (opposite s))[j]? = some c_r → groups[j]? = some grp →
          read_cell (sys p).cells c_r = some pl →
          read_cell (sys1 p).cells c_r =
            some { part := write_records pl.part grp, n := grp.length }) ∧
        (sys1 p).gh.ghost_recv_size =
          set_dir (sys p).gh.ghost_recv_size (opposite s) (groups.flatten.length : Int)) ∧
      (sys1 p).gh.ghost_send_size =
        set_dir (sys p).gh.ghost_send_size s
          (ghost_total (sys p).cells ((sys p).gh.send_cells s) : Int) ∧
      (sys1 p).cells.length = (sys p).cells.length := by
  intro p hp
  have hturn := system_turn_inv hex p hp
  unfold exchange_ghost_turn at hturn
  have hq := ((hn p hp).2 _ (opposite_lt hs)).1
  obtain ⟨f1, f2, f3, f4, f5⟩ := exchange_ghost_dir_frame _ s (sys p) (sys1 p) hs (hok p hp)
    (hc p hp) hturn
  obtain ⟨groups, hg, hcont, hz1, hz2⟩ := exchange_ghost_dir_peer
    (exchange_env envs sys s p) (envs ((envs p).node_neighbors (opposite s))) s (sys p)
    (sys ((envs p).node_neighbors (opposite s))) (sys1 p) hs (hok p hp) (hc p hp)
    ((hok _ hq).send_ok s hs) (hc _ hq) ((hok _ hq).send_counts s hs) (hgrid p hp)
    (fun hself => by
      have h1 : (envs p).node_neighbors s = p := by
        simpa [exchange_env, (hn p hp).1] using hself
      rw [neighbors_ok_self_recv hn hp hs h1]
      exact ⟨rfl, rfl, rfl⟩)
    (fun _ => ⟨rfl, rfl⟩) hturn
  exact ⟨f1, f2, f3, f4, f5, ⟨groups, hg, hcont, hz2⟩, hz1,
    exchange_ghost_dir_length _ s (sys p) (sys1 p) (hc p hp) hturn⟩

/-- The direction loop of `exchange_ghost` in all processes of a system, if it returns:
in every process the lists are as before and fit the cells, the cells outside the
receive cells of the directions taken are as they were, and so are the sizes of the
other directions. -/
theorem exchange_system_frame (envs : Int → GhostComm) (procs : List Int)
    (hn : neighbors_ok envs procs) :
    ∀ (dirs : List Nat) (sys sys1 : Int → GhostNode), (∀ t ∈ dirs, t < 6) →
      (∀ p ∈ procs, ghost_lists_ok (sys p).gh (sys p).cells) →
      (∀ p ∈ procs, cells_ok (sys p).cells) →
      (∀ s, s < 6 → ∀ p ∈ procs, ((sys p).gh.recv_cells (opposite s)).length =
        ((sys ((envs p).node_neighbors (opposite s))).gh.send_cells s).length) →
      run_system (exchange_ghost_turn envs) procs dirs sys = some sys1 →
      ∀ p ∈ procs,
        (sys1 p).gh.send_cells = (sys p).gh.send_cells ∧
        (sys1 p).gh.recv_cells = (sys p).gh.recv_cells ∧
        ghost_lists_ok (sys1 p).gh (sys1 p).cells ∧ cells_ok (sys1 p).cells ∧
        (∀ c0, (∀ t ∈ dirs, c0 ∉ (sys p).gh.recv_cells (opposite t)) →
          read_cell (sys1 p).cells c0 = read_cell (sys p).cells c0) ∧
        (∀ u, u ∉ dirs → (sys1 p).gh.ghost_send_size u = (sys p).gh.ghost_send_size u) ∧
        (∀ u, (∀ t ∈ dirs, u ≠ opposite t) →
          (sys1 p).gh.ghost_recv_size u = (sys p).gh.ghost_recv_size u) ∧
        (sys1 p).cells.length = (sys p).cells.length := by
  intro dirs
  induction dirs with
  | nil =>
    intro sys sys1 _ hok hc _ hrun p hp
    simp only [run_system, Option.some.injEq] at hrun
    subst hrun
    exact ⟨rfl, rfl, hok p hp, hc p hp, fun _ _ => rfl, fun _ _ => rfl, fun _ _ => rfl, rfl⟩
  | cons s dirs ih =>
    intro sys sys1 h6 hok hc hgrid hrun p hp
    have hs := h6 s (List.mem_cons_self _ _)
    cases hturn : system_turn (exchange_ghost_turn envs s) procs sys with
    | none => simp [run_system, hturn] at hrun
    | some mid =>
      simp only [run_system, hturn] at hrun
      have hT := exchange_system_turn envs procs hn s hs sys mid hok hc (hgrid s hs) hturn
      have hI := ih mid sys1 (fun t ht => h6 t (List.mem_cons_of_mem _ ht))
        (fun q hq => (hT q hq).2.2.1) (fun q hq => (hT q hq).2.2.2.1)
        (fun t ht q hq => by
          rw [(hT q hq).2.1, (hT _ ((hn q hq).2 _ (opposite_lt ht)).1).1]
          exact hgrid t ht q hq)
        hrun p hp
      obtain ⟨a1, a2, _, _, a5, ⟨groups, _, _, a6⟩, a7, a8⟩ := hT p hp
      obtain ⟨b1, b2, b3, b4, b5, b6, b7, b8⟩ := hI
      refine ⟨b1.trans a1, b2.trans a2, b3, b4, ?_, ?_, ?_, b8.trans a8⟩
      · intro c0 hc0
        rw [b5 c0 (fun t ht => by
          rw [a2]
          exact hc0 t (List.mem_cons_of_mem _ ht))]
        exact a5 c0 (hc0 s (List.mem_cons_self _ _))
      · intro u hu
        rw [b6 u (fun h => hu (List.mem_cons_of_mem _ h)), a7,
          set_dir_other _ _ (fun h : u = s => hu (by rw [h]; exact List.mem_cons_self _ _))]
      · intro u hu
        rw [b7 u (fun t ht => hu t (List.mem_cons_of_mem _ ht)), a6,
          set_dir_other _ _ (hu s (List.mem_cons_self _ _))]

theorem ghost_total_groups (cells : List ParticleList) :
    ∀ (R : List Int) (groups : List (List ReducedParticle)), R.length = groups.length →
      (∀ (j : Nat) (c : Int) (grp : List ReducedParticle), R[j]? = some c →
        groups[j]? = some grp → cell_count cells c = grp.length) →
      ghost_total cells R = groups.flatten.length := by
  intro R
  induction R with
  | nil =>
    intro groups hl _
    cases groups with
    | nil => rfl
    | cons _ _ => simp at hl
  | cons c R ih =>
    intro groups hl h
    cases groups with
    | nil => simp at hl
    | cons g groups =>
      rw [ghost_total_counts, List.map_cons, List.sum_cons, ← ghost_total_counts,
        ih groups (by simpa using hl)
          (fun j c1 grp h1 h2 => h (j + 1) c1 grp (by simpa using h1) (by simpa using h2)),
        h 0 c g (by simp) (by simp), List.flatten_cons, List.length_append]

/-- A direction `s` in a run of the direction loop of `exchange_ghost` in all processes
that returns: at the end the receive cell number `k` of a process holds as many
particles as the send cell number `k` of the neighbor it receives from, with the same
identities in the same order, if neither `s` nor a later direction receives that send
cell; and the sizes of the direction are the numbers of particles in the send and in
the receive cells. -/
theorem exchange_system_segment (envs : Int → GhostComm) (procs : List Int)
    (hn : neighbors_ok envs procs) (pre post : List Nat) (s : Nat)
    (sys0 sys : Int → GhostNode) (hall : ∀ t ∈ pre ++ s :: post, t < 6) (hpost : s ∉ post)
    (hok : ∀ p ∈ procs, ghost_lists_ok (sys0 p).gh (sys0 p).cells)
    (hc : ∀ p ∈ procs, cells_ok (sys0 p).cells)
    (hgrid : ∀ s, s < 6 → ∀ p ∈ procs, ((sys0 p).gh.recv_cells (opposite s)).length =
      ((sys0 ((envs p).node_neighbors (opposite s))).gh.send_cells s).length)
    (hex : run_system (exchange_ghost_turn envs) procs (pre ++ s :: post) sys0 = some sys) :
    ∀ p ∈ procs,
      (∀ (k : Nat) (c_s c_r : Int),
        ((sys0 ((envs p).node_neighbors (opposite s))).gh.send_cells s)[k]? = some c_s →
        ((sys0 p).gh.recv_cells (opposite s))[k]? = some c_r →
        (∀ t ∈ s :: post,
          c_s ∉ (sys0 ((envs p).node_neighbors (opposite s))).gh.recv_cells (opposite t)) →
        ∃ pl_r pl_s, read_cell (sys p).cells c_r = some pl_r ∧
          read_cell (sys ((envs p).node_neighbors (opposite s))).cells c_s = some pl_s ∧
          pl_r.n = pl_s.n ∧
          (pl_r.part.take pl_r.n).map (fun x => x.identity) =
            (pl_s.part.take pl_s.n).map (fun x => x.identity)) ∧
      ((∀ t ∈ s :: post, ∀ c ∈ (sys0 p).gh.send_cells s,
          c ∉ (sys0 p).gh.recv_cells (opposite t)) →
        (sys p).gh.ghost_send_size s =
          (ghost_total (sys p).cells ((sys p).gh.send_cells s) : Int)) ∧
      (sys p).gh.ghost_recv_size (opposite s) =
        (ghost_total (sys p).cells ((sys p).gh.recv_cells (opposite s)) : Int) := by
  have hs : s < 6 := hall s (List.mem_append_right _ (List.mem_cons_self _ _))
  have ho := opposite_lt hs
  rw [run_system_append] at hex
  cases hpre : run_system (exchange_ghost_turn envs) procs pre sys0 with
  | none => simp [hpre] at hex
  | some sys_s =>
    simp only [hpre, Option.bind, run_system] at hex
    have hF := exchange_system_frame envs procs hn pre sys0 sys_s
      (fun t ht => hall t (List.mem_append_left _ ht)) hok hc hgrid hpre
    have hgrid_s : ∀ t, t < 6 → ∀ q ∈ procs, ((sys_s q).gh.recv_cells (opposite t)).length =
        ((sys_s ((envs q).node_neighbors (opposite t))).gh.send_cells t).length := by
      intro t ht q hq
      rw [(hF q hq).2.1, (hF _ ((hn q hq).2 _ (opposite_lt ht)).1).1]
      exact hgrid t ht q hq
    cases hturn : system_turn (exchange_ghost_turn envs s) procs sys_s with
    | none => simp [hturn] at hex
    | some sta =>
      simp only [hturn] at hex
      have hT := exchange_system_turn envs procs hn s hs sys_s sta
        (fun q hq => (hF q hq).2.2.1) (fun q hq => (hF q hq).2.2.2.1) (hgrid_s s hs) hturn
      have hP := exchange_system_frame envs procs hn post sta sys
        (fun t ht => hall t (List.mem_append_right _ (List.mem_cons_of_mem _ ht)))
        (fun q hq => (hT q hq).2.2.1) (fun q hq => (hT q hq).2.2.2.1)
        (fun t ht q hq => by
          rw [(hT q hq).2.1, (hT _ ((hn q hq).2 _ (opposite_lt ht)).1).1]
          exact hgrid_s t ht q hq)
        hex
      intro p hp
      have hq := ((hn p hp).2 _ ho).1
      obtain ⟨fsc, frc, fok, fc, _, _, _⟩ := hF p hp
      obtain ⟨qsc, qrc, qok, qc, _, _, _⟩ := hF _ hq
      obtain ⟨tsc, trc, _, _, tframe, ⟨groups, hg, hcont, tz2⟩, tz1, _⟩ := hT p hp
      obtain ⟨usc, urc, _, _, uframe, _, _⟩ := hT _ hq
      obtain ⟨psc, prc, _, _, pframe, pz1, pz2, _⟩ := hP p hp
      obtain ⟨vsc, vrc, _, _, vframe, _, _⟩ := hP _ hq
      have hgl := ghost_groups_length _ s _ _ _ hg
      -- the receive cells of the turn are not written again
      have hkeep : ∀ c_r ∈ (sys_s p).gh.recv_cells (opposite s),
          read_cell (sys p).cells c_r = read_cell (sta p).cells c_r := by
        intro c_r hmem
        apply pframe
        intro t ht hin
        rw [trc] at hin
        have hne : opposite s ≠ opposite t := by
          intro h
          have := opposite_inj h
          exact hpost (this ▸ ht)
        have ht6 := hall t (List.mem_append_right _ (List.mem_cons_of_mem _ ht))
        exact fok.recv_disjoint _ _ ho (opposite_lt ht6) hne c_r hmem hin
      -- what the receive cells hold at the end
      have hwritten : ∀ (k : Nat) (c_r : Int) (grp : List ReducedParticle),
          ((sys_s p).gh.recv_cells (opposite s))[k]? = some c_r → groups[k]? = some grp →
          ∃ pl0 : ParticleList, read_cell (sys p).cells c_r =
            some { part := write_records pl0.part grp, n := grp.length } := by
        intro k c_r grp hkr hgk
        have hmem : c_r ∈ (sys_s p).gh.recv_cells (opposite s) := List.getElem?_mem hkr
        obtain ⟨h0, h1⟩ := fok.recv_ok _ ho c_r hmem
        obtain ⟨pl0, hpl0⟩ := read_cell_of_lt h0 h1
        exact ⟨pl0, (hkeep c_r hmem).trans (hcont k c_r grp pl0 hkr hgk hpl0)⟩
      refine ⟨?_, ?_, ?_⟩
      · intro k c_s c_r hks hkr hcl
        rw [← qsc] at hks
        rw [← frc] at hkr
        obtain ⟨pl_s, xs, hpl, hxs, hgk⟩ := ghost_groups_get _ s _ _ _ hg k c_s hks
        obtain ⟨pl0, hw⟩ := hwritten k c_r _ hkr hgk
        have hkeep2 : read_cell (sys ((envs p).node_neighbors (opposite s))).cells c_s =
            read_cell (sys_s ((envs p).node_neighbors (opposite s))).cells c_s := by
          rw [vframe c_s (fun t ht => by
            rw [urc, qrc]
            exact hcl t (List.mem_cons_of_mem _ ht))]
          apply uframe
          rw [qrc]
          exact hcl s (List.mem_cons_self _ _)
        have hxs1 : xs = pl_s.part.take pl_s.n := by
          rw [used_of_le (used_le hxs)] at hxs
          exact (Option.some.inj hxs).symm
        refine ⟨_, pl_s, hw, hkeep2.trans hpl, ?_, ?_⟩
        · show (ghost_records _ s xs).length = pl_s.n
          rw [← used_length hxs]
          simp [ghost_records]
        · show ((write_records pl0.part (ghost_records _ s xs)).take
              (ghost_records _ s xs).length).map (fun x => x.identity) = _
          have hr := congrArg (List.map (fun r : ReducedParticle => r.identity))
            (write_records_r pl0.part (ghost_records
              (envs ((envs p).node_neighbors (opposite s))) s xs))
          rw [List.map_map] at hr
          rw [← hxs1]
          refine Eq.trans ?_ (hr.trans ?_)
          · rfl
          · simp only [ghost_records, List.map_map]
            apply List.map_congr_left
            intro x _
            exact fold_ghost_identity _ s x.r
      · intro hcl
        rw [pz1 s hpost, tz1, set_dir_same, psc, tsc]
        congr 1
        apply ghost_total_congr
        intro c hc
        rw [fsc] at hc
        rw [pframe c (fun t ht => by
          rw [trc, frc]
          exact hcl t (List.mem_cons_of_mem _ ht) c hc)]
        rw [tframe c (by
          rw [frc]
          exact hcl s (List.mem_cons_self _ _) c hc)]
      · rw [pz2 _ (fun t ht (h : opposite s = opposite t) =>
            hpost (by rw [opposite_inj h]; exact ht)), tz2, set_dir_same, prc, trc]
        congr 1
        symm
        apply ghost_total_groups
        · rw [hgl, hgrid_s s hs p hp]
        · intro j c grp hj hgj
          obtain ⟨pl0, hw⟩ := hwritten j c grp hj hgj
          simp only [cell_count, hw]

theorem six_directions {t : Nat} (ht : t ∈ [0, 1, 2, 3, 4, 5]) : t < 6 := by
  simp only [List.mem_cons, List.mem_singleton, List.not_mem_nil, or_false] at ht
  omega

theorem six_directions_split {s : Nat} (hs : s < 6) :
    ∃ post, [0, 1, 2, 3, 4, 5] = List.range s ++ s :: post ∧ s ∉ post ∧
      ∀ t ∈ s :: post, s ≤ t ∧ t < 6 := by
  interval_cases s
  · exact ⟨[1, 2, 3, 4, 5], rfl, by decide, by decide⟩
  · exact ⟨[2, 3, 4, 5], rfl, by decide, by decide⟩
  · exact ⟨[3, 4, 5], rfl, by decide, by decide⟩
  · exact ⟨[4, 5], rfl, by decide, by decide⟩
  · exact ⟨[5], rfl, by decide, by decide⟩
  · exact ⟨[], rfl, by decide, by decide⟩

/-- What `exchange_ghost` leaves behind in a system of processes when it returns: in
every process the lists are as before and fit the cells, and the ghost layer fits in
every direction: every send cell holds as many particles as the cell of the neighbor
paired with it, with the same identities in the same slots, and the sizes are the
numbers of particles sent and received.  Assumed: no direction sends a cell that it or
a later direction receives. -/
theorem exchange_system_layer (envs : Int → GhostComm) (procs : List Int)
    (hn : neighbors_ok envs procs) (sys0 sys : Int → GhostNode)
    (hok : ∀ p ∈ procs, ghost_lists_ok (sys0 p).gh (sys0 p).cells)
    (hc : ∀ p ∈ procs, cells_ok (sys0 p).cells)
    (hgrid : ∀ p ∈ procs, ∀ s, s < 6 →
      ((sys0 ((envs p).node_neighbors s)).gh.recv_cells (opposite s)).length =
        ((sys0 p).gh.send_cells s).length)
    (hclear : ∀ p ∈ procs, ∀ s t, s ≤ t → t < 6 →
      ∀ c ∈ (sys0 p).gh.send_cells s, c ∉ (sys0 p).gh.recv_cells (opposite t))
    (hex : exchange_ghost_system envs procs sys0 = some sys) :
    (∀ p ∈ procs, (sys p).gh.send_cells = (sys0 p).gh.send_cells ∧
      (sys p).gh.recv_cells = (sys0 p).gh.recv_cells ∧
      ghost_lists_ok (sys p).gh (sys p).cells ∧ cells_ok (sys p).cells ∧
      (sys p).cells.length = (sys0 p).cells.length) ∧
    (∀ s, s < 6 → ghost_layer_ok envs procs sys s) ∧
    ∀ s, s < 6 → ∀ p ∈ procs,
      ∀ x ∈ ((sys p).gh.send_cells s).zip
          ((sys ((envs p).node_neighbors s)).gh.recv_cells (opposite s)),
        ∀ j, j < cell_count (sys p).cells x.1 →
          identity_at (sys ((envs p).node_neighbors s)).cells x.2 j =
            identity_at (sys p).cells x.1 j := by
  have hgrid1 : ∀ s, s < 6 → ∀ p ∈ procs, ((sys0 p).gh.recv_cells (opposite s)).length =
      ((sys0 ((envs p).node_neighbors (opposite s))).gh.send_cells s).length := by
    intro s hs p hp
    have hq := ((hn p hp).2 _ (opposite_lt hs)).1
    have h := hgrid _ hq s hs
    have hback := ((hn p hp).2 _ (opposite_lt hs)).2
    rw [opposite_opposite] at hback
    rw [hback] at h
    exact h
  have hF := exchange_system_frame envs procs hn [0, 1, 2, 3, 4, 5] sys0 sys
    (fun t ht => six_directions ht) hok hc hgrid1 hex
  -- the pairs of a direction, seen from the sender
  have hpair : ∀ s, s < 6 → ∀ p ∈ procs,
      ∀ x ∈ ((sys p).gh.send_cells s).zip
          ((sys ((envs p).node_neighbors s)).gh.recv_cells (opposite s)),
        ∃ pl_r pl_s, read_cell (sys ((envs p).node_neighbors s)).cells x.2 = some pl_r ∧
          read_cell (sys p).cells x.1 = some pl_s ∧ pl_r.n = pl_s.n ∧
          (pl_r.part.take pl_r.n).map (fun x => x.identity) =
            (pl_s.part.take pl_s.n).map (fun x => x.identity) := by
    intro s hs p hp x hx
    obtain ⟨post, hsplit, hpost, hge⟩ := six_directions_split hs
    have hq := ((hn p hp).2 s hs).1
    have hback := ((hn p hp).2 s hs).2
    have hseg := (exchange_system_segment envs procs hn (List.range s) post s sys0 sys
      (hsplit ▸ fun t ht => six_directions ht) hpost hok hc hgrid1 (hsplit ▸ hex) _ hq).1
    rw [hback] at hseg
    rw [(hF p hp).1, (hF _ hq).2.1] at hx
    obtain ⟨k, hk⟩ := List.mem_iff_getElem?.mp hx
    obtain ⟨hk1, hk2⟩ := List.getElem?_zip_eq_some.mp hk
    exact hseg k x.1 x.2 hk1 hk2
      (fun t ht => hclear p hp s t (hge t ht).1 (hge t ht).2 x.1 (List.getElem?_mem hk1))
  refine ⟨fun p hp => ⟨(hF p hp).1, (hF p hp).2.1, (hF p hp).2.2.1, (hF p hp).2.2.2.1,
    (hF p hp).2.2.2.2.2.2.2⟩, ?_, ?_⟩
  · intro s hs
    obtain ⟨post, hsplit, hpost, hge⟩ := six_directions_split hs
    refine ⟨?_, ?_, ?_, ?_, ?_, ?_⟩
    · intro p hp
      rw [(hF p hp).1, (hF _ ((hn p hp).2 s hs).1).2.1]
      exact hgrid p hp s hs
    · intro p hp
      exact (hF p hp).2.2.1.send_ok s hs
    · intro p hp
      exact (hF p hp).2.2.1.recv_ok _ (opposite_lt hs)
    · intro p hp x hx
      obtain ⟨pl_r, pl_s, h1, h2, h3, _⟩ := hpair s hs p hp x hx
      rw [cell_count_read h1, cell_count_read h2, h3]
    · intro p hp
      have hseg := (exchange_system_segment envs procs hn (List.range s) post s sys0 sys
        (hsplit ▸ fun t ht => six_directions ht) hpost hok hc hgrid1 (hsplit ▸ hex) p hp).2.1
      exact hseg (fun t ht c hc1 => hclear p hp s t (hge t ht).1 (hge t ht).2 c hc1)
    · intro p hp
      exact (exchange_system_segment envs procs hn (List.range s) post s sys0 sys
        (hsplit ▸ fun t ht => six_directions ht) hpost hok hc hgrid1 (hsplit ▸ hex) p hp).2.2
  · intro s hs p hp x hx j hj
    obtain ⟨pl_r, pl_s, h1, h2, h3, h4⟩ := hpair s hs p hp x hx
    rw [cell_count_read h2] at hj
    have hj4 := congrArg (fun l : List Int => l[j]?) h4
    simp only [List.getElem?_map, List.getElem?_take_of_lt hj,
      List.getElem?_take_of_lt (h3 ▸ hj)] at hj4
    simp only [identity_at, h1, h2]
    exact hj4

/-- The particles in a slot of the replica cells of a cell, in whatever process they
lie, have the identity of the particle in that slot of the cell, when this holds for
every pair of a send cell and the cell of the neighbor that receives it. -/
theorem system_replicas_identity (envs : Int → GhostComm) (procs : List Int)
    (hn : neighbors_ok envs procs) (sys : Int → GhostNode) :
    ∀ later : List Nat, (∀ s ∈ later, s < 6) →
      (∀ s ∈ later, ∀ p ∈ procs,
        ∀ x ∈ ((sys p).gh.send_cells s).zip
            ((sys ((envs p).node_neighbors s)).gh.recv_cells (opposite s)),
          cell_count (sys p).cells x.1 =
            cell_count (sys ((envs p).node_neighbors s)).cells x.2 ∧
          ∀ j, j < cell_count (sys p).cells x.1 →
            identity_at (sys ((envs p).node_neighbors s)).cells x.2 j =
              identity_at (sys p).cells x.1 j) →
      ∀ p ∈ procs, ∀ (c : Int) (j : Nat), j < cell_count (sys p).cells c →
        ∀ x ∈ system_replicas envs sys later (p, c),
          identity_at (sys x.1).cells x.2 j = identity_at (sys p).cells c j := by
  intro later
  induction later with
  | nil =>
    intro _ _ p _ c j _ x hx
    simp [system_replicas] at hx
  | cons s later ih =>
    intro h6 hpairs p hp c j hj x hx
    have hs := h6 s (List.mem_cons_self _ _)
    have ih1 := ih (fun t ht => h6 t (List.mem_cons_of_mem _ ht))
      (fun t ht => hpairs t (List.mem_cons_of_mem _ ht))
    simp only [system_replicas, List.mem_append, List.mem_flatMap] at hx
    rcases hx with hx | ⟨y, hym, hx⟩
    · exact ih1 p hp c j hj x hx
    · unfold system_pairs at hym
      obtain ⟨z, hz, hzy⟩ := List.mem_map.mp hym
      subst hzy
      simp only at hx
      by_cases hzc : z.1 = c
      · rw [if_pos hzc] at hx
        obtain ⟨hcnt, hid⟩ := hpairs s (List.mem_cons_self _ _) p hp z hz
        have hj1 : j < cell_count (sys p).cells z.1 := hzc ▸ hj
        have hq := ((hn p hp).2 s hs).1
        rcases List.mem_cons.mp hx with hx | hx
        · rw [hx]
          simp only
          rw [hid j hj1, hzc]
        · rw [ih1 _ hq z.2 j (hcnt ▸ hj1) x hx, hid j hj1, hzc]
      · rw [if_neg hzc] at hx
        simp at hx

/-! ## The system of processes and the functions of one process -/

theorem collect_ghost_forces_dir_in_force (env : GhostComm) (m1 m2 : Nat → List ℚ) (s : Nat)
    (st : GhostNode) (h : m1 s = m2 s) :
    collect_ghost_forces_dir { env with in_force := m1 } s st =
      collect_ghost_forces_dir { env with in_force := m2 } s st := by
  unfold collect_ghost_forces_dir send_posforce send_posforce_phase
  simp only [h]

theorem run_dirs_congr (turn1 turn2 : Nat → GhostNode → Option GhostNode) :
    ∀ (dirs : List Nat) (st : GhostNode), (∀ s ∈ dirs, ∀ x, turn1 s x = turn2 s x) →
      run_dirs turn1 dirs st = run_dirs turn2 dirs st := by
  intro dirs
  induction dirs with
  | nil => intro _ _; rfl
  | cons s dirs ih =>
    intro st h
    simp only [run_dirs, h s (List.mem_cons_self _ _)]
    cases turn2 s st with
    | none => rfl
    | some st1 => exact ih st1 (fun t ht => h t (List.mem_cons_of_mem _ ht))

/-- In a run of the direction loop of `collect_ghost_forces` in a system of processes,
every process runs its own direction loop, with the forces that the neighbors send as
the data it receives. -/
theorem collect_system_process (envs : Int → GhostComm) (procs : List Int) :
    ∀ (dirs : List Nat) (sys sys1 : Int → GhostNode), dirs.Nodup →
      run_system (collect_ghost_forces_turn envs) procs dirs sys = some sys1 →
      ∀ p ∈ procs, ∃ m : Nat → List ℚ,
        run_dirs (collect_ghost_forces_dir { envs p with in_force := m }) dirs (sys p) =
          some (sys1 p) := by
  intro dirs
  induction dirs with
  | nil =>
    intro sys sys1 _ h p _
    simp only [run_system, Option.some.injEq] at h
    subst h
    exact ⟨fun _ => [], rfl⟩
  | cons s dirs ih =>
    intro sys sys1 hnd h p hp
    obtain ⟨hs, hnd1⟩ := List.nodup_cons.mp hnd
    cases hturn : system_turn (collect_ghost_forces_turn envs s) procs sys with
    | none => simp [run_system, hturn] at h
    | some mid =>
      simp only [run_system, hturn] at h
      obtain ⟨m, hm⟩ := ih mid sys1 hnd1 h p hp
      have hstep := system_turn_inv hturn p hp
      unfold collect_ghost_forces_turn collect_env at hstep
      refine ⟨fun t => if t = s then
        force_message s (sys ((envs p).node_neighbors s)) else m t, ?_⟩
      simp only [run_dirs]
      rw [collect_ghost_forces_dir_in_force (envs p) _
        (fun _ => force_message s (sys ((envs p).node_neighbors s))) s (sys p) (by simp),
        hstep]
      simp only
      rw [← hm]
      apply run_dirs_congr
      intro t ht x
      apply collect_ghost_forces_dir_in_force
      have : t ≠ s := fun h => hs (h ▸ ht)
      simp [this]

/-- When `collect_ghost_forces` returns in a system of processes, every process has
called `collect_ghost_forces` with the forces that its neighbors have sent. -/
theorem collect_ghost_forces_system_process (envs : Int → GhostComm) (procs : List Int)
    (sys sys1 : Int → GhostNode)
    (h : collect_ghost_forces_system envs procs sys = some sys1) :
    ∀ p ∈ procs, ∃ m : Nat → List ℚ,
      collect_ghost_forces { envs p with in_force := m } (sys p) = some (sys1 p) :=
  collect_system_process envs procs [5, 4, 3, 2, 1, 0] sys sys1 (by decide) h

theorem exchange_ghost_dir_in (env : GhostComm) (c1 c2 : Nat → List Int)
    (g1 g2 : Nat → List ReducedParticle) (s : Nat) (st : GhostNode)
    (hc : c1 s = c2 s) (hg : g1 s = g2 s) :
    exchange_ghost_dir { env with in_counts := c1, in_ghosts := g1 } s st =
      exchange_ghost_dir { env with in_counts := c2, in_ghosts := g2 } s st := by
  have hfill : fill_ghost_buffers { env with in_counts := c1, in_ghosts := g1 } s st =
      fill_ghost_buffers { env with in_counts := c2, in_ghosts := g2 } s st := by
    unfold fill_ghost_buffers
    have hp : ∀ cs, pack_ghosts { env with in_counts := c1, in_ghosts := g1 } s st.cells cs =
        pack_ghosts { env with in_counts := c2, in_ghosts := g2 } s st.cells cs := by
      intro cs
      induction cs with
      | nil => rfl
      | cons c cs ih =>
        unfold pack_ghosts
        rw [ih]
        rfl
    rw [hp]
  have hsend : ∀ x, send_ghosts { env with in_counts := c1, in_ghosts := g1 } s x =
      send_ghosts { env with in_counts := c2, in_ghosts := g2 } s x := by
    intro x
    unfold send_ghosts send_ghosts_phase send_ghosts_recv
    simp only [hc, hg]
  unfold exchange_ghost_dir
  rw [hfill]
  simp only [hsend]

theorem exchange_ghost_dirs_congr (env1 env2 : GhostComm) :
    ∀ (dirs : List Nat) (st : GhostNode),
      (∀ s ∈ dirs, ∀ x, exchange_ghost_dir env1 s x = exchange_ghost_dir env2 s x) →
      exchange_ghost_dirs env1 dirs st = exchange_ghost_dirs env2 dirs st := by
  intro dirs
  induction dirs with
  | nil => intro _ _; rfl
  | cons s dirs ih =>
    intro st h
    simp only [exchange_ghost_dirs, h s (List.mem_cons_self _ _)]
    cases exchange_ghost_dir env2 s st with
    | none => rfl
    | some st1 => exact ih st1 (fun t ht => h t (List.mem_cons_of_mem _ ht))

/-- In a run of the direction loop of `exchange_ghost` in a system of processes, every
process runs its own direction loop, with the counts and records that the neighbors
send as the data it receives. -/
theorem exchange_system_process (envs : Int → GhostComm) (procs : List Int) :
    ∀ (dirs : List Nat) (sys sys1 : Int → GhostNode), dirs.Nodup →
      run_system (exchange_ghost_turn envs) procs dirs sys = some sys1 →
      ∀ p ∈ procs, ∃ (mc : Nat → List Int) (mg : Nat → List ReducedParticle),
        exchange_ghost_dirs { envs p with in_counts := mc, in_ghosts := mg } dirs (sys p) =
          some (sys1 p) := by
  intro dirs
  induction dirs with
  | nil =>
    intro sys sys1 _ h p _
    simp only [run_system, Option.some.injEq] at h
    subst h
    exact ⟨fun _ => [], fun _ => [], rfl⟩
  | cons s dirs ih =>
    intro sys sys1 hnd h p hp
    obtain ⟨hs, hnd1⟩ := List.nodup_cons.mp hnd
    cases hturn : system_turn (exchange_ghost_turn envs s) procs sys with
    | none => simp [run_system, hturn] at h
    | some mid =>
      simp only [run_system, hturn] at h
      obtain ⟨mc, mg, hm⟩ := ih mid sys1 hnd1 h p hp
      have hstep := system_turn_inv hturn p hp
      unfold exchange_ghost_turn exchange_env at hstep
      simp only at hstep
      refine ⟨fun t => if t = s then
          (ghost_message (envs ((envs p).node_neighbors (opposite s))) s
            (sys ((envs p).node_neighbors (opposite s)))).1 else mc t,
        fun t => if t = s then
          (ghost_message (envs ((envs p).node_neighbors (opposite s))) s
            (sys ((envs p).node_neighbors (opposite s)))).2 else mg t, ?_⟩
      simp only [exchange_ghost_dirs]
      rw [exchange_ghost_dir_in (envs p) _
        (fun _ => (ghost_message (envs ((envs p).node_neighbors (opposite s))) s
            (sys ((envs p).node_neighbors (opposite s)))).1) _
        (fun _ => (ghost_message (envs ((envs p).node_neighbors (opposite s))) s
            (sys ((envs p).node_neighbors (opposite s)))).2) s (sys p) (by simp) (by simp),
        hstep]
      simp only
      rw [← hm]
      apply exchange_ghost_dirs_congr
      intro t ht x
      have : t ≠ s := fun h => hs (h ▸ ht)
      apply exchange_ghost_dir_in <;> simp [this]

/-- When `exchange_ghost` returns in a system of processes, every process has called
`exchange_ghost` with the counts and records that its neighbors have sent. -/
theorem exchange_ghost_system_process (envs : Int → GhostComm) (procs : List Int)
    (sys sys1 : Int → GhostNode)
    (h : exchange_ghost_system envs procs sys = some sys1) :
    ∀ p ∈ procs, ∃ (mc : Nat → List Int) (mg : Nat → List ReducedParticle),
      exchange_ghost { envs p with in_counts := mc, in_ghosts := mg } (sys p) =
        some (sys1 p) :=
  exchange_system_process envs procs [0, 1, 2, 3, 4, 5] sys sys1 (by decide) h

/-- C17 (round trip of ghost forces): for every state of a system of processes that
`exchange_ghost` has produced, whatever process is the neighbor of which, and every
assignment of forces to the real and ghost particles, `collect_ghost_forces` returns in
every process; the particle in a slot of a replica cell, in whatever process it lies,
has the identity of the particle in that slot of the cell; afterwards the force of
every particle is its prior force plus the sum of the prior forces of the particles in
the same slot of all replica cells of its cell (the cells that received the cell
directly or through a chain of directions: face, edge and corner replicas); hence the
sum of the forces over the inner cells of all processes afterwards equals the sum over
all cells of all processes before.  Assumed: the processes form a closed arrangement,
the cell lists fit each other and the cells, no direction sends a cell that it or a
later direction receives, and the receive cells are the halo cells. -/
theorem collect_ghost_forces_round_trip (envs : Int → GhostComm) (procs : List Int)
    (gcg : Int → Vec3 Int) (sys0 sys sysf : Int → GhostNode)
    (hn : neighbors_ok envs procs) (hnd : procs.Nodup)
    (hok : ∀ p ∈ procs, ghost_lists_ok (sys0 p).gh (sys0 p).cells)
    (hc : ∀ p ∈ procs, cells_ok (sys0 p).cells)
    (hgrid : ∀ p ∈ procs, ∀ s, s < 6 →
      ((sys0 ((envs p).node_neighbors s)).gh.recv_cells (opposite s)).length =
        ((sys0 p).gh.send_cells s).length)
    (hclear : ∀ p ∈ procs, ∀ s t, s ≤ t → t < 6 →
      ∀ c ∈ (sys0 p).gh.send_cells s, c ∉ (sys0 p).gh.recv_cells (opposite t))
    (hhalo : ∀ p ∈ procs, ∀ c ∈ all_cells (sys0 p).cells.length,
      (is_inner_cell c (gcg p) = true ↔ ∀ s, s < 6 → c ∉ (sys0 p).gh.recv_cells s))
    (hex : exchange_ghost_system envs procs sys0 = some sys)
    (hf : forces_assigned_all procs sys sysf) :
    ∃ sys1, collect_ghost_forces_system envs procs sysf = some sys1 ∧
      (∀ p ∈ procs, ∀ (c : Int) (j : Nat), j < cell_count (sysf p).cells c →
        ∀ x ∈ system_replicas envs sysf [0, 1, 2, 3, 4, 5] (p, c),
          identity_at (sysf x.1).cells x.2 j = identity_at (sysf p).cells c j) ∧
      (∀ p ∈ procs, ∀ (c : Int) (j i : Nat), j < cell_count (sysf p).cells c →
        force_at (sys1 p).cells c j i = force_at (sysf p).cells c j i +
          ((system_replicas envs sysf [0, 1, 2, 3, 4, 5] (p, c)).map
            fun x => force_at (sysf x.1).cells x.2 j i).sum) ∧
      ∀ i : Nat,
        (procs.map fun p =>
          (((all_cells (sys1 p).cells.length).filter fun c => is_inner_cell c (gcg p)).map
            fun c => cell_force (sys1 p).cells c i).sum).sum =
        (procs.map fun p =>
          ((all_cells (sysf p).cells.length).map
            fun c => cell_force (sysf p).cells c i).sum).sum := by
  have hmem : ∀ t ∈ [0, 1, 2, 3, 4, 5], t < 6 := fun t ht => six_directions ht
  obtain ⟨hlists, hlayer, hident⟩ :=
    exchange_system_layer envs procs hn sys0 sys hok hc hgrid hclear hex
  -- the state with the forces assigned has the layout of the state exchanged
  have hlay : ∀ p ∈ procs, same_layout (sys p) (sysf p) ∧ cells_ok (sysf p).cells :=
    fun p hp => forces_assigned_layout (hf p hp).1 (hlists p hp).2.2.2.1
  have hcf : ∀ p ∈ procs, cells_ok (sysf p).cells := fun p hp => (hlay p hp).2
  have hlf : ∀ s ∈ [0, 1, 2, 3, 4, 5], ghost_layer_ok envs procs sysf s :=
    fun s hs => ghost_layer_ok_layout hn (hmem s hs)
      (fun p hp => ⟨(hlay p hp).1, (hf p hp).2.1, (hf p hp).2.2⟩) (hlayer s (hmem s hs))
  have hsend0 : ∀ p ∈ procs, (sysf p).gh.send_cells = (sys0 p).gh.send_cells :=
    fun p hp => (hlay p hp).1.1.symm.trans (hlists p hp).1
  have hrecv0 : ∀ p ∈ procs, (sysf p).gh.recv_cells = (sys0 p).gh.recv_cells :=
    fun p hp => (hlay p hp).1.2.1.symm.trans (hlists p hp).2.1
  have hlen0 : ∀ p ∈ procs, (sysf p).cells.length = (sys0 p).cells.length :=
    fun p hp => (hlay p hp).1.2.2.1.symm.trans (hlists p hp).2.2.2.2
  obtain ⟨sys1, hrun, hlay1, hforce⟩ :=
    collect_system_run envs procs hn [0, 1, 2, 3, 4, 5] sysf hmem hcf hlf
  refine ⟨sys1, hrun, ?_, hforce, ?_⟩
  · apply system_replicas_identity envs procs hn sysf [0, 1, 2, 3, 4, 5] hmem
    intro s hs p hp x hx
    have hq := ((hn p hp).2 s (hmem s hs)).1
    refine ⟨(hlf s hs).counts p hp x hx, fun j hj => ?_⟩
    rw [forces_assigned_identity (hf p hp).1, forces_assigned_identity (hf _ hq).1]
    apply hident s (hmem s hs) p hp x
    · rw [(hlay p hp).1.1, (hlay _ hq).1.2.1]
      exact hx
    · rw [(hlay p hp).1.2.2.2]
      exact hj
  · intro i
    obtain ⟨sys2, hrun2, hsum⟩ :=
      collect_system_run_sum envs procs hn hnd
        (fun p => (all_cells (sysf p).cells.length).toFinset) i [0, 1, 2, 3, 4, 5] sysf
        (by decide) hmem hcf hlf
        (fun p hp s hs => by
          rw [hrecv0 p hp]
          exact (hok p hp).recv_nodup _ (opposite_lt (hmem s hs)))
        (fun p hp s hs t ht hne => by
          rw [hrecv0 p hp]
          exact (hok p hp).recv_disjoint _ _ (opposite_lt (hmem s hs))
            (opposite_lt (hmem t ht)) (fun h => hne (opposite_inj h)))
        (fun p hp s hs =>
          ⟨fun c hcr => List.mem_toFinset.mpr (mem_all_cells.mpr ((hlf s hs).recv_ok p hp c hcr)),
            fun c hcs =>
              List.mem_toFinset.mpr (mem_all_cells.mpr ((hlf s hs).send_ok p hp c hcs))⟩)
        (fun p hp s hs t ht hst => by
          rw [hsend0 p hp, hrecv0 p hp]
          exact hclear p hp s t hst (hmem t ht))
    have h12 : sys2 = sys1 := Option.some.inj (hrun2.symm.trans hrun)
    subst h12
    have hR : (procs.map fun p => ((all_cells (sysf p).cells.length).map
          fun c => cell_force (sysf p).cells c i).sum) =
        procs.map fun p =>
          ∑ c ∈ (all_cells (sysf p).cells.length).toFinset, cell_force (sysf p).cells c i :=
      List.map_congr_left (fun p _ => (List.sum_toFinset _ (all_cells_nodup _)).symm)
    rw [hR, ← hsum]
    congr 1
    apply List.map_congr_left
    intro p hp
    rw [← List.sum_toFinset _ ((all_cells_nodup _).filter _)]
    apply Finset.sum_congr _ (fun _ _ => rfl)
    ext c
    simp only [List.mem_toFinset, List.mem_filter, Finset.mem_sdiff, List.mem_flatMap,
      ← (hlay1 p hp).1.2.2.1]
    constructor
    · rintro ⟨hcA, hin⟩
      refine ⟨hcA, ?_⟩
      rintro ⟨s, hs, hcs⟩
      rw [hrecv0 p hp] at hcs
      exact (hhalo p hp c (hlen0 p hp ▸ hcA)).mp hin _ (opposite_lt (hmem s hs)) hcs
    · rintro ⟨hcA, hout⟩
      refine ⟨hcA, (hhalo p hp c (hlen0 p hp ▸ hcA)).mpr ?_⟩
      intro s hs hcs
      apply hout
      refine ⟨opposite s, ?_, ?_⟩
      · have := opposite_lt hs
        simp only [List.mem_cons, List.mem_singleton, List.not_mem_nil, or_false]
        omega
      · rw [opposite_opposite, hrecv0 p hp]
        exact hcs

theorem read_cell_map (g : ParticleList → ParticleList) (cells : List ParticleList) (c : Int) :
    read_cell (cells.map g) c = (read_cell cells c).map g := by
  unfold read_cell
  split
  · simp
  · rfl

/-- Assigning forces changes the forces only. -/
theorem forces_assigned_assign (f : Particle → Vec3 ℚ) (st : GhostNode) :
    forces_assigned st (assign_forces f st) := by
  refine ⟨rfl, rfl, by simp [assign_forces], ?_⟩
  intro c pl pl1 h h1
  simp only [assign_forces, read_cell_map, h, Option.map_some', Option.some.injEq] at h1
  subst h1
  refine ⟨rfl, ?_⟩
  simp only [List.map_map]
  apply List.map_congr_left
  intro x _
  rfl

theorem pair_neighbors_ok : neighbors_ok pair_env [0, 1] := by
  intro p hp
  simp only [List.mem_cons, List.mem_singleton, List.not_mem_nil, or_false] at hp
  rcases hp with rfl | rfl
  · refine ⟨rfl, fun s hs => ?_⟩
    interval_cases s <;> simp [pair_env, opposite]
  · refine ⟨rfl, fun s hs => ?_⟩
    interval_cases s <;> simp [pair_env, opposite]

theorem pair_lists_ok : ∀ p ∈ [(0 : Int), 1],
    ghost_lists_ok (pair_node p).gh (pair_node p).cells := by
  have h1 : ∀ s, s < 6 → ((ghost_init left_grid).recv_cells (opposite s)).length =
      ((ghost_init left_grid).send_cells s).length := by with_unfolding_all decide
  have h2 : ∀ s, s < 6 → ((ghost_init left_grid).send_cells s).length + 1 ≤
      ((ghost_init left_grid).n_send_ghosts s).length := by with_unfolding_all decide
  have h3 : ∀ s, s < 6 → ((ghost_init left_grid).recv_cells s).length + 1 ≤
      ((ghost_init left_grid).n_recv_ghosts s).length := by with_unfolding_all decide
  have h4 : ∀ s, s < 6 → ((ghost_init left_grid).recv_cells s).Nodup := by
    with_unfolding_all decide
  have h5 : ∀ s, s < 6 → ∀ t, t < 6 →
      (s = t ∨ ∀ c ∈ (ghost_init left_grid).recv_cells s,
        ¬ (c ∈ (ghost_init left_grid).recv_cells t)) := by
    with_unfolding_all decide
  have h6 : ∀ s, s < 6 → ∀ c ∈ (ghost_init left_grid).send_cells s,
      0 ≤ c ∧ c.toNat < 27 := by with_unfolding_all decide
  have h7 : ∀ s, s < 6 → ∀ c ∈ (ghost_init left_grid).recv_cells s,
      0 ≤ c ∧ c.toNat < 27 := by with_unfolding_all decide
  have hl : ∀ p : Int, (pair_node p).cells.length = 27 := by
    intro p
    simp [pair_node, empty_cells]
  intro p _
  refine ⟨h1, h2, h3, h4, fun s t hs ht hne => (h5 s hs t ht).resolve_left hne, ?_, ?_⟩
  · intro s hs c hc
    rw [hl]
    exact h6 s hs c hc
  · intro s hs c hc
    rw [hl]
    exact h7 s hs c hc

theorem pair_cells_ok : ∀ p ∈ [(0 : Int), 1], cells_ok (pair_node p).cells := by
  intro p hp
  simp only [List.mem_cons, List.mem_singleton, List.not_mem_nil, or_false] at hp
  rcases hp with rfl | rfl
  · have hall : ∀ pl ∈ (pair_node 0).cells, pl.n ≤ pl.part.length := by
      with_unfolding_all decide
    exact hall
  · have hall : ∀ pl ∈ (pair_node 1).cells, pl.n ≤ pl.part.length := by
      with_unfolding_all decide
    exact hall


/-- In the system of two processes of `pair_env` the inner cell of process 0 has 26
replica cells, 18 of them in process 1. -/
theorem pair_replicas :
    (system_replicas pair_env pair_node [0, 1, 2, 3, 4, 5] (0, 13)).length = 26 ∧
    ((system_replicas pair_env pair_node [0, 1, 2, 3, 4, 5] (0, 13)).filter
      fun x => decide (x.1 = 1)).length = 18 := by
  constructor <;> decide!

/-- In the system of two processes of `pair_env`, after `exchange_ghost`, the forces of
`test_force` on all real and ghost particles and `collect_ghost_forces`, the first
component of the force of the particles 0 and 1 of process 0 and of the particle 2 of
process 1 is 27 times the component assigned: its own and those of its 26 replicas. -/
theorem pair_round_trip_value :
    ((exchange_ghost_system pair_env [0, 1] pair_node).bind fun sys =>
      (collect_ghost_forces_system pair_env [0, 1]
        (fun p => assign_forces test_force (sys p))).map fun sys1 =>
          (force_at (sys1 0).cells 13 0 0, force_at (sys1 0).cells 13 1 0,
            force_at (sys1 1).cells 13 0 0)) = some (27, 54, 81) := by
  decide!

/-- C17 at two processes side by side, each the neighbor of the other in the x
directions and its own neighbor in the others, after their `exchange_ghost`, with a
force on every real and ghost particle that is not zero. -/
theorem collect_ghost_forces_round_trip_witness :
    ∃ sys, exchange_ghost_system pair_env [0, 1] pair_node = some sys ∧
      ∃ sys1, collect_ghost_forces_system pair_env [0, 1]
          (fun p => assign_forces test_force (sys p)) = some sys1 ∧
        (∀ p ∈ [(0 : Int), 1], ∀ (c : Int) (j : Nat),
          j < cell_count (assign_forces test_force (sys p)).cells c →
          ∀ x ∈ system_replicas pair_env (fun p => assign_forces test_force (sys p))
              [0, 1, 2, 3, 4, 5] (p, c),
            identity_at (assign_forces test_force (sys x.1)).cells x.2 j =
              identity_at (assign_forces test_force (sys p)).cells c j) ∧
        (∀ p ∈ [(0 : Int), 1], ∀ (c : Int) (j i : Nat),
          j < cell_count (assign_forces test_force (sys p)).cells c →
          force_at (sys1 p).cells c j i =
            force_at (assign_forces test_force (sys p)).cells c j i +
              ((system_replicas pair_env (fun p => assign_forces test_force (sys p))
                [0, 1, 2, 3, 4, 5] (p, c)).map
                fun x => force_at (assign_forces test_force (sys x.1)).cells x.2 j i).sum) ∧
        ∀ i : Nat,
          ([(0 : Int), 1].map fun p =>
            (((all_cells (sys1 p).cells.length).filter
              fun c => is_inner_cell c ⟨3, 3, 3⟩).map
              fun c => cell_force (sys1 p).cells c i).sum).sum =
          ([(0 : Int), 1].map fun p =>
            ((all_cells (assign_forces test_force (sys p)).cells.length).map
              fun c => cell_force (assign_forces test_force (sys p)).cells c i).sum).sum := by
  have hs : (exchange_ghost_system pair_env [0, 1] pair_node).isSome = true := by
    with_unfolding_all decide
  obtain ⟨sys, hex⟩ := Option.isSome_iff_exists.mp hs
  have hgrid : ∀ s, s < 6 → ((ghost_init left_grid).recv_cells (opposite s)).length =
      ((ghost_init left_grid).send_cells s).length := by with_unfolding_all decide
  have hclear : ∀ s, s < 6 → ∀ t, t < 6 → s ≤ t →
      ∀ c ∈ (ghost_init left_grid).send_cells s,
        ¬ (c ∈ (ghost_init left_grid).recv_cells (opposite t)) := by
    with_unfolding_all decide
  have hhalo : ∀ c ∈ all_cells 27,
      (is_inner_cell c ⟨3, 3, 3⟩ = true ↔
        ∀ s, s < 6 → ¬ (c ∈ (ghost_init left_grid).recv_cells s)) := by
    with_unfolding_all decide
  have hl : ∀ p : Int, (pair_node p).cells.length = 27 := by
    intro p
    simp [pair_node, empty_cells]
  exact ⟨sys, hex, collect_ghost_forces_round_trip pair_env [0, 1] (fun _ => ⟨3, 3, 3⟩)
    pair_node sys (fun p => assign_forces test_force (sys p)) pair_neighbors_ok (by decide)
    pair_lists_ok pair_cells_ok (fun _ _ s hs => hgrid s hs)
    (fun _ _ s t hst ht => hclear s (lt_of_le_of_lt hst ht) t ht hst)
    (fun p _ c hc => hhalo c (by rw [hl] at hc; exact hc)) hex
    (fun p _ => ⟨forces_assigned_assign test_force (sys p), rfl, rfl⟩)⟩

end Espresso
